import Mathlib

/-!
# HashLife engine (programmerjake/hashlife, `src/main.cpp`)

A shallow embedding of the rule table, the quadtree node API, the universe
(`GameState`) and the hash-consed node store with its mark-and-sweep
collector, followed by the properties proved about them.

Conventions of the embedding:

* `CellType` (`uint_least32_t`) is `Nat`; cells are only compared with zero
  and copied, never used in arithmetic.
* `BigFloat` is `double` in this build (`USE_DOUBLE_FOR_BIGFLOAT`); every
  coordinate the engine computes is an integer multiple of a power of two
  that a double holds exactly, so centres are modelled as `Int`.
* A failed `assert` (or a read through the wrong member of the
  `SectionType` union) is the result `none`.
* In the value-level model a node handle is the quadtree it denotes: the
  store returns one canonical node per (level, children), so handle equality
  is structural equality.  The store itself is modelled separately in the
  namespace `Heap`.
-/

set_option autoImplicit false

/-! ## Rule table -/

/-- Cell values: `typedef uint_least32_t CellType`. -/
abbrev CellType := Nat

/-- The global `static array<array<CellType, 9>, 2> rules`: row 0 is the
birth row, row 1 the survival row. -/
abbrev RuleTable := Fin 2 → Fin 9 → CellType

/-- Function `clearRules`: every entry becomes 0. -/
def clearRules : RuleTable := fun _ _ => 0

/-- Assignment `rules[row][n] = v`. -/
def RuleTable.set (rules : RuleTable) (row : Fin 2) (n : Fin 9) (v : CellType) : RuleTable :=
  fun i j => if i = row ∧ j = n then v else rules i j

/-- Function `setLifeRules`: Conway's B3/S23. -/
def setLifeRules : RuleTable :=
  ((clearRules.set 0 3 1).set 1 2 1).set 1 3 1

/-- The digit index `ch - '0'` for a character in `'0'..'8'`. -/
def digitIndex (ch : Char) : Fin 9 := Fin.ofNat (ch.toNat - '0'.toNat)

/-- Loop body of `parseRules`, run over the remaining characters with the
three flags and the table written so far.  The result carries the table as
it stands when the function returns. -/
def parseRulesLoop : List Char → Bool → Bool → Bool → RuleTable → Bool × RuleTable
  | [], _, _, _, rules => (true, rules)
  | ch :: rest, gotB, gotSlash, gotS, rules =>
    if ch = 'B' then
      if gotB then (false, rules) else parseRulesLoop rest true gotSlash gotS rules
    else if ch = '/' then
      if !gotB || gotSlash then (false, rules) else parseRulesLoop rest gotB true gotS rules
    else if ch = 'S' then
      if !gotB || !gotSlash || gotS then (false, rules)
      else parseRulesLoop rest gotB gotSlash true rules
    else if '0' ≤ ch ∧ ch ≤ '8' then
      if !gotB then (false, rules)
      else if gotSlash then
        if !gotS then (false, rules)
        else if rules 1 (digitIndex ch) ≠ 0 then (false, rules)
        else parseRulesLoop rest gotB gotSlash gotS (rules.set 1 (digitIndex ch) 1)
      else
        if rules 0 (digitIndex ch) ≠ 0 then (false, rules)
        else parseRulesLoop rest gotB gotSlash gotS (rules.set 0 (digitIndex ch) 1)
    else (false, rules)

/-- Function `parseRules`: the table is cleared first, whatever it held. -/
def parseRules (rulesString : String) : Bool × RuleTable :=
  parseRulesLoop rulesString.data false false false clearRules

/-- The rule tables the program can hold: `rules` is written only by
`clearRules`, `setLifeRules` and `parseRules`. -/
inductive RuleTable.Written : RuleTable → Prop
  | clear : RuleTable.Written clearRules
  | life : RuleTable.Written setLifeRules
  | parse (s : String) : RuleTable.Written (parseRules s).2

/-- The local `count` of `eval`: the number of non-zero neighbours, counted
in the order of the source. -/
def neighbourCount (nxny nxcy nxpy cxny cxpy pxny pxcy pxpy : CellType) : Fin 9 :=
  ⟨(if nxny ≠ 0 then 1 else 0) + (if nxcy ≠ 0 then 1 else 0) + (if nxpy ≠ 0 then 1 else 0)
    + (if cxpy ≠ 0 then 1 else 0) + (if pxpy ≠ 0 then 1 else 0) + (if pxcy ≠ 0 then 1 else 0)
    + (if pxny ≠ 0 then 1 else 0) + (if cxny ≠ 0 then 1 else 0), by
    have h : ∀ c : CellType, (if c ≠ 0 then 1 else 0) ≤ 1 := fun c => by split <;> omega
    have h1 := h nxny; have h2 := h nxcy; have h3 := h nxpy; have h4 := h cxpy
    have h5 := h pxpy; have h6 := h pxcy; have h7 := h pxny; have h8 := h cxny
    omega⟩

/-- Function `eval`: the outer-totalistic transition of the centre cell
`cxcy`. -/
def eval (rules : RuleTable) (nxny nxcy nxpy cxny cxcy cxpy pxny pxcy pxpy : CellType) :
    CellType :=
  if cxcy ≠ 0 then rules 1 (neighbourCount nxny nxcy nxpy cxny cxpy pxny pxcy pxpy)
  else rules 0 (neighbourCount nxny nxcy nxpy cxny cxpy pxny pxcy pxpy)

/-! ## Quadtree nodes (value level) -/

/-- A quadtree node as a value.  `leaf` is the constructor
`NodeType(CellType, CellType, CellType, CellType)`, `nonleaf` the
constructor taking four child handles; the fields are in the order
`nxny, nxpy, pxny, pxpy`. -/
inductive NodeType where
  | leaf (nxny nxpy pxny pxpy : CellType)
  | nonleaf (nxny nxpy pxny pxpy : NodeType)
  deriving DecidableEq, Repr

namespace NodeType

/-- Field `level`: 0 for a leaf, `1 + nxny->level` for a non-leaf. -/
def level : NodeType → Nat
  | leaf _ _ _ _ => 0
  | nonleaf nxny _ _ _ => 1 + nxny.level

/-- Function `NodeType::getCenter`. -/
def getCenter : NodeType → Option NodeType
  | nonleaf (leaf _ _ _ a) (leaf _ _ b _) (leaf _ c _ _) (leaf d _ _ _) => some (leaf a b c d)
  | nonleaf (nonleaf _ _ _ a) (nonleaf _ _ b _) (nonleaf _ c _ _) (nonleaf d _ _ _) =>
    some (nonleaf a b c d)
  | _ => none

/-- Function `NodeType::getNextState(gc)` with an explicit recursion budget:
each recursive call is on a node one level lower. -/
def getNextStateFuel (rules : RuleTable) : Nat → NodeType → Option NodeType
  | 0, _ => none
  | _ + 1, leaf _ _ _ _ => none
  | _ + 1, nonleaf (leaf a0 a1 a2 a3) (leaf b0 b1 b2 b3) (leaf c0 c1 c2 c3) (leaf d0 d1 d2 d3) =>
    some (leaf (eval rules a0 a1 b0 a2 a3 b2 c0 c1 d0) (eval rules a1 b0 b1 a3 b2 b3 c1 d0 d1)
      (eval rules a2 a3 b2 c0 c1 d0 c2 c3 d2) (eval rules a3 b2 b3 c1 d0 d1 c3 d2 d3))
  | fuel + 1, nonleaf (nonleaf a0 a1 a2 a3) (nonleaf b0 b1 b2 b3) (nonleaf c0 c1 c2 c3)
      (nonleaf d0 d1 d2 d3) =>
    match getNextStateFuel rules fuel (nonleaf a0 a1 a2 a3) with
    | none => none
    | some step1_nxny =>
    match getNextStateFuel rules fuel (nonleaf b0 b1 b2 b3) with
    | none => none
    | some step1_nxpy =>
    match getNextStateFuel rules fuel (nonleaf c0 c1 c2 c3) with
    | none => none
    | some step1_pxny =>
    match getNextStateFuel rules fuel (nonleaf d0 d1 d2 d3) with
    | none => none
    | some step1_pxpy =>
    match getNextStateFuel rules fuel (nonleaf a1 b0 a3 b2) with
    | none => none
    | some step1_nxcy =>
    match getNextStateFuel rules fuel (nonleaf c1 d0 c3 d2) with
    | none => none
    | some step1_pxcy =>
    match getNextStateFuel rules fuel (nonleaf a2 a3 c0 c1) with
    | none => none
    | some step1_cxny =>
    match getNextStateFuel rules fuel (nonleaf b2 b3 d0 d1) with
    | none => none
    | some step1_cxpy =>
    match getNextStateFuel rules fuel (nonleaf a3 b2 c1 d0) with
    | none => none
    | some step1_cxcy =>
    match getNextStateFuel rules fuel (nonleaf step1_nxny step1_nxcy step1_cxny step1_cxcy) with
    | none => none
    | some final_nxny =>
    match getNextStateFuel rules fuel (nonleaf step1_nxcy step1_nxpy step1_cxcy step1_cxpy) with
    | none => none
    | some final_nxpy =>
    match getNextStateFuel rules fuel (nonleaf step1_cxny step1_cxcy step1_pxny step1_pxcy) with
    | none => none
    | some final_pxny =>
    match getNextStateFuel rules fuel (nonleaf step1_cxcy step1_cxpy step1_pxcy step1_pxpy) with
    | none => none
    | some final_pxpy =>
    some (nonleaf final_nxny final_nxpy final_pxny final_pxpy)
  | _ + 1, nonleaf _ _ _ _ => none

/-- Function `NodeType::getNextState(gc)`: the budget is the node's level. -/
def getNextState (rules : RuleTable) (n : NodeType) : Option NodeType :=
  getNextStateFuel rules n.level n

/-- Function `NodeType::getNextState(gc, logStepSize)` with an explicit
recursion budget. -/
def getNextStateStepFuel (rules : RuleTable) : Nat → NodeType → Nat → Option NodeType
  | 0, _, _ => none
  | fuel + 1, n, logStepSize =>
    if n.level < logStepSize + 1 then none
    else if logStepSize = n.level - 1 then getNextState rules n
    else
      match n with
      | nonleaf (nonleaf a0 a1 a2 a3) (nonleaf b0 b1 b2 b3) (nonleaf c0 c1 c2 c3)
          (nonleaf d0 d1 d2 d3) =>
        match getNextStateStepFuel rules fuel (nonleaf a0 a1 a2 a3) logStepSize with
        | none => none
        | some step1_nxny =>
        match getNextStateStepFuel rules fuel (nonleaf b0 b1 b2 b3) logStepSize with
        | none => none
        | some step1_nxpy =>
        match getNextStateStepFuel rules fuel (nonleaf c0 c1 c2 c3) logStepSize with
        | none => none
        | some step1_pxny =>
        match getNextStateStepFuel rules fuel (nonleaf d0 d1 d2 d3) logStepSize with
        | none => none
        | some step1_pxpy =>
        match getNextStateStepFuel rules fuel (nonleaf a1 b0 a3 b2) logStepSize with
        | none => none
        | some step1_nxcy =>
        match getNextStateStepFuel rules fuel (nonleaf c1 d0 c3 d2) logStepSize with
        | none => none
        | some step1_pxcy =>
        match getNextStateStepFuel rules fuel (nonleaf a2 a3 c0 c1) logStepSize with
        | none => none
        | some step1_cxny =>
        match getNextStateStepFuel rules fuel (nonleaf b2 b3 d0 d1) logStepSize with
        | none => none
        | some step1_cxpy =>
        match getNextStateStepFuel rules fuel (nonleaf a3 b2 c1 d0) logStepSize with
        | none => none
        | some step1_cxcy =>
        match getCenter (nonleaf step1_nxny step1_nxcy step1_cxny step1_cxcy) with
        | none => none
        | some final_nxny =>
        match getCenter (nonleaf step1_nxcy step1_nxpy step1_cxcy step1_cxpy) with
        | none => none
        | some final_nxpy =>
        match getCenter (nonleaf step1_cxny step1_cxcy step1_pxny step1_pxcy) with
        | none => none
        | some final_pxny =>
        match getCenter (nonleaf step1_cxcy step1_cxpy step1_pxcy step1_pxpy) with
        | none => none
        | some final_pxpy =>
        some (nonleaf final_nxny final_nxpy final_pxny final_pxpy)
      | _ => none

/-- Function `NodeType::getNextState(gc, logStepSize)`. -/
def getNextStateStep (rules : RuleTable) (n : NodeType) (logStepSize : Nat) : Option NodeType :=
  getNextStateStepFuel rules n.level n logStepSize

end NodeType

/-- Function `NodeGCHashTable::getNullNode` at the value level: the node of
the given level whose cells all equal `backgroundType`. -/
def getNullNode : Nat → CellType → NodeType
  | 0, backgroundType =>
    NodeType.leaf backgroundType backgroundType backgroundType backgroundType
  | level + 1, backgroundType =>
    NodeType.nonleaf (getNullNode level backgroundType) (getNullNode level backgroundType)
      (getNullNode level backgroundType) (getNullNode level backgroundType)

/-- Function `isInNodeBounds`. -/
def isInNodeBounds (node : NodeType) (centerX centerY x y : Int) : Bool :=
  let subNodeSize : Int := 2 ^ node.level
  !(x < centerX - subNodeSize || x ≥ centerX + subNodeSize
    || y < centerY - subNodeSize || y ≥ centerY + subNodeSize)

/-- Function `getCellH`. -/
def getCellH : NodeType → Int → Int → Int → Int → Option CellType
  | NodeType.leaf nxny nxpy pxny pxpy, centerX, centerY, x, y =>
    if x = centerX - 1 ∧ y = centerY - 1 then some nxny
    else if x = centerX - 1 ∧ y = centerY then some nxpy
    else if x = centerX ∧ y = centerY - 1 then some pxny
    else if x = centerX ∧ y = centerY then some pxpy
    else none
  | NodeType.nonleaf nxny nxpy pxny pxpy, centerX, centerY, x, y =>
    let subNodeSize : Int := 2 ^ (NodeType.nonleaf nxny nxpy pxny pxpy).level
    if x < centerX - subNodeSize ∨ x ≥ centerX + subNodeSize
        ∨ y < centerY - subNodeSize ∨ y ≥ centerY + subNodeSize then none
    else
      let halfSubNodeSize : Int := subNodeSize / 2
      if x < centerX then
        if y < centerY then getCellH nxny (centerX - halfSubNodeSize) (centerY - halfSubNodeSize) x y
        else getCellH nxpy (centerX - halfSubNodeSize) (centerY + halfSubNodeSize) x y
      else
        if y < centerY then getCellH pxny (centerX + halfSubNodeSize) (centerY - halfSubNodeSize) x y
        else getCellH pxpy (centerX + halfSubNodeSize) (centerY + halfSubNodeSize) x y

/-- Function `setCellH`. -/
def setCellH : NodeType → Int → Int → Int → Int → CellType → Option NodeType
  | NodeType.leaf nxny nxpy pxny pxpy, centerX, centerY, x, y, newCell =>
    if x = centerX - 1 ∧ y = centerY - 1 then some (NodeType.leaf newCell nxpy pxny pxpy)
    else if x = centerX - 1 ∧ y = centerY then some (NodeType.leaf nxny newCell pxny pxpy)
    else if x = centerX ∧ y = centerY - 1 then some (NodeType.leaf nxny nxpy newCell pxpy)
    else if x = centerX ∧ y = centerY then some (NodeType.leaf nxny nxpy pxny newCell)
    else none
  | NodeType.nonleaf nxny nxpy pxny pxpy, centerX, centerY, x, y, newCell =>
    let subNodeSize : Int := 2 ^ (NodeType.nonleaf nxny nxpy pxny pxpy).level
    if x < centerX - subNodeSize ∨ x ≥ centerX + subNodeSize
        ∨ y < centerY - subNodeSize ∨ y ≥ centerY + subNodeSize then none
    else
      let halfSubNodeSize : Int := subNodeSize / 2
      if x < centerX then
        if y < centerY then
          (setCellH nxny (centerX - halfSubNodeSize) (centerY - halfSubNodeSize) x y newCell).map
            fun r => NodeType.nonleaf r nxpy pxny pxpy
        else
          (setCellH nxpy (centerX - halfSubNodeSize) (centerY + halfSubNodeSize) x y newCell).map
            fun r => NodeType.nonleaf nxny r pxny pxpy
      else
        if y < centerY then
          (setCellH pxny (centerX + halfSubNodeSize) (centerY - halfSubNodeSize) x y newCell).map
            fun r => NodeType.nonleaf nxny nxpy r pxpy
        else
          (setCellH pxpy (centerX + halfSubNodeSize) (centerY + halfSubNodeSize) x y newCell).map
            fun r => NodeType.nonleaf nxny nxpy pxny r

/-! ## Universe (value level) -/

/-- The struct `GameState`: the root handle and the background cell value
(the store pointer `gc` is left to the heap-level model). -/
structure GameState where
  rootNode : NodeType
  backgroundType : CellType
  deriving DecidableEq, Repr

namespace GameState

/-- Constructor `GameState(gc, nullptr, backgroundType)`: the root is the
level-0 all-background node. -/
def new (backgroundType : CellType) : GameState :=
  { rootNode := getNullNode 0 backgroundType, backgroundType := backgroundType }

/-- Function `GameState::expandRoot`. -/
def expandRoot (gs : GameState) : GameState :=
  match gs.rootNode with
  | NodeType.leaf nxny nxpy pxny pxpy =>
    { gs with rootNode := (NodeType.nonleaf
        (NodeType.leaf gs.backgroundType gs.backgroundType gs.backgroundType nxny)
        (NodeType.leaf gs.backgroundType gs.backgroundType nxpy gs.backgroundType)
        (NodeType.leaf gs.backgroundType pxny gs.backgroundType gs.backgroundType)
        (NodeType.leaf pxpy gs.backgroundType gs.backgroundType gs.backgroundType)) }
  | NodeType.nonleaf nxny nxpy pxny pxpy =>
    let nullNode := getNullNode (gs.rootNode.level - 1) gs.backgroundType
    { gs with rootNode := (NodeType.nonleaf
        (NodeType.nonleaf nullNode nullNode nullNode nxny)
        (NodeType.nonleaf nullNode nullNode nxpy nullNode)
        (NodeType.nonleaf nullNode pxny nullNode nullNode)
        (NodeType.nonleaf pxpy nullNode nullNode nullNode)) }

/-- The loop `while(!isInNodeBounds(rootNode, 0, 0, x, y)) expandRoot();` of
`setCell`, with an iteration budget. -/
def expandToBounds : Nat → GameState → Int → Int → Option GameState
  | 0, gs, x, y => if isInNodeBounds gs.rootNode 0 0 x y then some gs else none
  | fuel + 1, gs, x, y =>
    if isInNodeBounds gs.rootNode 0 0 x y then some gs
    else expandToBounds fuel gs.expandRoot x y

/-- Function `GameState::setCell`.  The loop budget `|x| + |y| + 1` is never
exhausted (`expandToBounds_isSome`). -/
def setCell (gs : GameState) (x y : Int) (newCell : CellType) : Option GameState :=
  match expandToBounds (x.natAbs + y.natAbs + 1) gs x y with
  | none => none
  | some gs1 =>
    match setCellH gs1.rootNode 0 0 x y newCell with
    | none => none
    | some r => some { gs1 with rootNode := r }

/-- Function `GameState::getCell`. -/
def getCell (gs : GameState) (x y : Int) : Option CellType :=
  if !isInNodeBounds gs.rootNode 0 0 x y then some gs.backgroundType
  else getCellH gs.rootNode 0 0 x y

/-- One test of the `for(;;)` loop of `checkForContractRoot`: true when the
twelve outer grandchildren of the root all are the null node of level
`rootNode->level - 2`. -/
def outerRingIsNull (gs : GameState) : Bool :=
  match gs.rootNode with
  | NodeType.nonleaf (NodeType.nonleaf a0 a1 a2 _) (NodeType.nonleaf b0 b1 _ b3)
      (NodeType.nonleaf c0 _ c2 c3) (NodeType.nonleaf _ d1 d2 d3) =>
    let nullNode := getNullNode (gs.rootNode.level - 2) gs.backgroundType
    a0 == nullNode && a1 == nullNode && a2 == nullNode
      && b0 == nullNode && b1 == nullNode && b3 == nullNode
      && c0 == nullNode && c2 == nullNode && c3 == nullNode
      && d1 == nullNode && d2 == nullNode && d3 == nullNode
  | _ => false

/-- Function `GameState::checkForContractRoot`, with an iteration budget
(each iteration lowers the root level by one). -/
def checkForContractRootFuel : Nat → GameState → Option GameState
  | 0, gs => if gs.rootNode.level < 2 then some gs else none
  | fuel + 1, gs =>
    if gs.rootNode.level < 2 then some gs
    else if !gs.outerRingIsNull then some gs
    else
      match gs.rootNode.getCenter with
      | none => none
      | some c => checkForContractRootFuel fuel { gs with rootNode := c }

/-- Function `GameState::checkForContractRoot`. -/
def checkForContractRoot (gs : GameState) : Option GameState :=
  checkForContractRootFuel gs.rootNode.level gs

/-- The loop `while(rootNode->level < logStepSize + 1) expandRoot();` of
`step`, with an iteration budget. -/
def expandToLevel : Nat → GameState → Nat → Option GameState
  | 0, gs, logStepSize => if gs.rootNode.level < logStepSize + 1 then none else some gs
  | fuel + 1, gs, logStepSize =>
    if gs.rootNode.level < logStepSize + 1 then expandToLevel fuel gs.expandRoot logStepSize
    else some gs

/-- Function `GameState::step`. -/
def step (rules : RuleTable) (gs : GameState) (logStepSize : Nat) : Option GameState :=
  match expandToLevel (logStepSize + 1) gs.expandRoot.expandRoot logStepSize with
  | none => none
  | some gs1 =>
    match (getNullNode gs1.rootNode.level gs1.backgroundType).getNextStateStep rules logStepSize with
    | none => none
    | some nullNext =>
      match getCellH nullNext 0 0 0 0 with
      | none => none
      | some newBackground =>
        match gs1.rootNode.getNextStateStep rules logStepSize with
        | none => none
        | some r => checkForContractRoot { rootNode := r, backgroundType := newBackground }

end GameState

/-! ## Reference semantics: the infinite grid -/

/-- An infinite grid of cells. -/
abbrev Grid := Int → Int → CellType

/-- One generation of the naive whole-grid transition: `eval` applied to
every cell and its eight neighbours (first coordinate `x`, second `y`). -/
def naiveStep (rules : RuleTable) (g : Grid) : Grid := fun x y =>
  eval rules (g (x - 1) (y - 1)) (g (x - 1) y) (g (x - 1) (y + 1))
    (g x (y - 1)) (g x y) (g x (y + 1))
    (g (x + 1) (y - 1)) (g (x + 1) y) (g (x + 1) (y + 1))

/-- The naive transition applied `t` times. -/
def naiveSteps (rules : RuleTable) : Nat → Grid → Grid
  | 0, g => g
  | t + 1, g => naiveSteps rules t (naiveStep rules g)

/-- The infinite grid a universe state denotes: the root's cells, and the
background value everywhere else. -/
def GameState.toGrid (gs : GameState) : Grid := fun x y => (gs.getCell x y).getD 0

/-- Well-formed nodes: the four children of every non-leaf are well-formed
and have one common level. -/
def NodeType.WellFormed : NodeType → Prop
  | NodeType.leaf _ _ _ _ => True
  | NodeType.nonleaf nxny nxpy pxny pxpy =>
    nxny.WellFormed ∧ nxpy.WellFormed ∧ pxny.WellFormed ∧ pxpy.WellFormed
      ∧ nxpy.level = nxny.level ∧ pxny.level = nxny.level ∧ pxpy.level = nxny.level

/-- Every entry of the table is 0 or 1. -/
def RuleTable.Binary (rules : RuleTable) : Prop := ∀ i j, rules i j = 0 ∨ rules i j = 1

/-- The node `n`, centred at `(centerX, centerY)`, holds the cells of the
grid `g` on its whole square: `getCellH` succeeds there and returns the
grid's value. -/
def NodeType.Agrees (n : NodeType) (centerX centerY : Int) (g : Grid) : Prop :=
  ∀ x y : Int, centerX - 2 ^ n.level ≤ x → x < centerX + 2 ^ n.level →
    centerY - 2 ^ n.level ≤ y → y < centerY + 2 ^ n.level →
    getCellH n centerX centerY x y = some (g x y)

/-- A well-formed node of level `L`, centred at `(centerX, centerY)`, that
holds the cells of the grid `g`. -/
def NodeType.Holds (n : NodeType) (L : Nat) (centerX centerY : Int) (g : Grid) : Prop :=
  n.WellFormed ∧ n.level = L ∧ n.Agrees centerX centerY g

/-- The universe state `gs` has a well-formed root and `getCell` returns the
value of the grid `g` at every coordinate. -/
def GameState.Denotes (gs : GameState) (g : Grid) : Prop :=
  gs.rootNode.WellFormed ∧ ∀ x y : Int, gs.getCell x y = some (g x y)

/-- One generation on a uniform grid: `eval` of a cell whose eight
neighbours all hold the same value as the cell. -/
def backgroundStep (rules : RuleTable) (b : CellType) : CellType :=
  eval rules b b b b b b b b b

/-- The grid `g` has the value `b` everywhere outside the square
`[-R, R) x [-R, R)`. -/
def OutsideIs (R : Int) (g : Grid) (b : CellType) : Prop :=
  ∀ x y : Int, ¬ (-R ≤ x ∧ x < R ∧ -R ≤ y ∧ y < R) → g x y = b

/-- Well-formedness is decidable. -/
instance NodeType.decidableWellFormed : (n : NodeType) → Decidable n.WellFormed
  | NodeType.leaf _ _ _ _ => isTrue trivial
  | NodeType.nonleaf nxny nxpy pxny pxpy =>
    have := NodeType.decidableWellFormed nxny
    have := NodeType.decidableWellFormed nxpy
    have := NodeType.decidableWellFormed pxny
    have := NodeType.decidableWellFormed pxpy
    inferInstanceAs (Decidable (nxny.WellFormed ∧ nxpy.WellFormed ∧ pxny.WellFormed
      ∧ pxpy.WellFormed ∧ nxpy.level = nxny.level ∧ pxny.level = nxny.level
      ∧ pxpy.level = nxny.level))

/-- The rule B1/S: birth on exactly one neighbour, no survival. -/
def ruleB1 : RuleTable := clearRules.set 0 1 1

/-- A universe holding a single live cell at the origin. -/
def singleCell : GameState := ⟨NodeType.leaf 0 0 0 1, 0⟩

/-- A pattern entered cell by cell: `setCell(x, y, 1)` for every listed
coordinate, in order. -/
def GameState.setCells (gs : GameState) (cells : List (Int × Int)) : Option GameState :=
  cells.foldl (fun o c => o.bind fun s => s.setCell c.1 c.2 1) (some gs)

/-- Seven live cells in a column at `x = -4`, `y = -4 .. 2`. -/
def column7 : List (Int × Int) :=
  [(-4, -4), (-4, -3), (-4, -2), (-4, -1), (-4, 0), (-4, 1), (-4, 2)]

/-- The universe after entering `column7` into an empty universe. -/
def lifeColumn : GameState :=
  ⟨NodeType.nonleaf
    (NodeType.nonleaf (NodeType.leaf 1 1 0 0) (NodeType.leaf 1 1 0 0) (getNullNode 0 0)
      (getNullNode 0 0))
    (NodeType.nonleaf (NodeType.leaf 1 1 0 0) (NodeType.leaf 1 0 0 0) (getNullNode 0 0)
      (getNullNode 0 0))
    (getNullNode 1 0) (getNullNode 1 0), 0⟩

/-- The rule B2/S023. -/
def ruleB2S023 : RuleTable := (((clearRules.set 0 2 1).set 1 0 1).set 1 2 1).set 1 3 1

/-- A universe whose root was raised to level 4 by `setCell(8, 8, 0)` and
that holds two live cells, at `(-1, -1)` and `(1, 1)`. -/
def twoCells : GameState :=
  ⟨NodeType.nonleaf
    (NodeType.nonleaf (getNullNode 2 0) (getNullNode 2 0) (getNullNode 2 0)
      (NodeType.nonleaf (getNullNode 1 0) (getNullNode 1 0) (getNullNode 1 0)
        (NodeType.nonleaf (getNullNode 0 0) (getNullNode 0 0) (getNullNode 0 0)
          (NodeType.leaf 0 0 0 1))))
    (getNullNode 3 0) (getNullNode 3 0)
    (NodeType.nonleaf
      (NodeType.nonleaf
        (NodeType.nonleaf (NodeType.leaf 0 0 0 1) (getNullNode 0 0) (getNullNode 0 0)
          (getNullNode 0 0))
        (getNullNode 1 0) (getNullNode 1 0) (getNullNode 1 0))
      (getNullNode 2 0) (getNullNode 2 0) (getNullNode 2 0)), 0⟩

/-- The eight neighbours of the origin, live, in a root of level 1. -/
def ring8 : GameState :=
  ⟨NodeType.nonleaf (NodeType.leaf 0 0 0 1) (NodeType.leaf 0 0 1 1) (NodeType.leaf 0 1 0 1)
    (NodeType.leaf 0 1 1 1), 0⟩

/-! ## The node store (heap level)

Node objects live at addresses; a bucket chain (the `table[i]` head followed
by the `hashNext` links) is the list of the addresses it links, head first;
the transient `gcNext` list of the collector is a list as well.  The only
`NodeWeakReference` objects of the program are the `nonleaf_nextState`
members of the nodes, so the weak-reference list of a node is the set of
nodes whose `nonleaf_nextState` targets it, and destroying a node clears
those targets.  Execution is sequential: locks, `runningGC`,
`testingForRemove`, `removing` and `weakGetCount` have no effect and are left
out. -/

namespace Heap

/-- A `const NodeType *`. -/
abbrev Addr := Nat

/-- The ways a run can stop: the `exit(1)` of `onAllocate`, an 8-bit
reference count that would wrap, a failed assertion (or a dangling pointer),
and an exhausted recursion budget of the model. -/
inductive Failure where
  | outOfMemory
  | refcountWrap
  | assertion
  | budget
  deriving DecidableEq, Repr

/-- A `struct NodeType` object.  The four `SectionType` unions are raw words:
cells when `level = 0`, child addresses otherwise. -/
structure Node where
  refcount : Nat
  used : Bool
  level : Nat
  nxny : Nat
  nxpy : Nat
  pxny : Nat
  pxpy : Nat
  nonleaf_nextState : Option Addr
  nextStateLogStep : Nat
  deriving DecidableEq, Repr

/-- Constructor `NodeType(CellType, CellType, CellType, CellType)`. -/
def Node.leaf (nxny nxpy pxny pxpy : CellType) : Node :=
  { refcount := 0, used := false, level := 0, nxny := nxny, nxpy := nxpy, pxny := pxny,
    pxpy := pxpy, nonleaf_nextState := none, nextStateLogStep := 0 }

/-- Constructor `NodeType(const NodeType *, ...)`; `childLevel` is
`nxny->level`. -/
def Node.nonleaf (childLevel : Nat) (nxny nxpy pxny pxpy : Addr) : Node :=
  { refcount := 0, used := false, level := 1 + childLevel, nxny := nxny, nxpy := nxpy,
    pxny := pxny, pxpy := pxpy, nonleaf_nextState := none, nextStateLogStep := childLevel }

/-- The allocated node objects. -/
abbrev Memory := Addr → Option Node

/-- The struct `NodeGCHashTable`: the node objects, the bucket chains,
`nodeCount` and the `nullNodes` vectors. -/
structure NodeGCHashTable where
  memory : Memory
  table : Nat → List Addr
  nodeCount : Nat
  nullNodes : List (List Addr)

/-- What the build and the platform fix: the constants `hashPrime` and
`maxNodeCount`, the two `std::hash` instances, and the address `new` returns
in a given store state. -/
structure Config where
  hashPrime : Nat
  maxNodeCount : Nat
  hashCell : CellType → Nat
  hashPtr : Addr → Nat
  alloc : NodeGCHashTable → Addr

/-- The constant `startGCNodeCount`. -/
def Config.startGCNodeCount (cfg : Config) : Nat := 6 * cfg.maxNodeCount / 7

/-- The empty store of the constructor `NodeGCHashTable()`. -/
def NodeGCHashTable.empty : NodeGCHashTable :=
  { memory := fun _ => none, table := fun _ => [], nodeCount := 0, nullNodes := [] }

/-- Function `hashNodeLeaf` (in `size_t` arithmetic). -/
def hashNodeLeaf (cfg : Config) (nxny nxpy pxny pxpy : CellType) : Nat :=
  (3 + cfg.hashCell nxny + 9 * cfg.hashCell nxpy + 9 * 9 * cfg.hashCell pxny
    + 9 * 9 * 9 * cfg.hashCell pxpy) % 2 ^ 64

/-- Function `hashNodeNonleaf` (in `size_t` arithmetic). -/
def hashNodeNonleaf (cfg : Config) (nxny nxpy pxny pxpy : Addr) : Nat :=
  (cfg.hashPtr nxny + 9 * cfg.hashPtr nxpy + 9 * 9 * cfg.hashPtr pxny
    + 9 * 9 * 9 * cfg.hashPtr pxpy) % 2 ^ 64

/-- The bucket a node object belongs to: `hash<NodeType>` modulo `hashPrime`. -/
def bucketOf (cfg : Config) (n : Node) : Nat :=
  if n.level = 0 then hashNodeLeaf cfg n.nxny n.nxpy n.pxny n.pxpy % cfg.hashPrime
  else hashNodeNonleaf cfg n.nxny n.nxpy n.pxny n.pxpy % cfg.hashPrime

/-- Store `n` at address `a`. -/
def Memory.set (m : Memory) (a : Addr) (n : Node) : Memory :=
  fun x => if x = a then some n else m x

/-- Function `NodeReference::incRefCount` on the 8-bit counter. -/
def incRefCount (a : Addr) (s : NodeGCHashTable) : Except Failure NodeGCHashTable :=
  match s.memory a with
  | none => .error .assertion
  | some n =>
    if n.refcount + 1 < 256 then
      .ok { s with memory := s.memory.set a { n with refcount := n.refcount + 1 } }
    else .error .refcountWrap

/-- Function `NodeReference::decRefCount` on the 8-bit counter. -/
def decRefCount (a : Addr) (s : NodeGCHashTable) : Except Failure NodeGCHashTable :=
  match s.memory a with
  | none => .error .assertion
  | some n =>
    .ok { s with memory := s.memory.set a { n with refcount := (n.refcount + 255) % 256 } }

/-! ### The collector -/

/-- The inner loop of `clearAllNodes` over one bucket chain. -/
def clearChain : List Addr → Memory → List Addr → Memory × List Addr
  | [], m, usedList => (m, usedList)
  | node :: rest, m, usedList =>
    match m node with
    | none => clearChain rest m usedList
    | some n =>
      let used := decide (n.refcount > 0)
      clearChain rest (m.set node { n with used := used })
        (if used then node :: usedList else usedList)

/-- The outer loop of `clearAllNodes` over the buckets `i, i + 1, ...`. -/
def clearBuckets (table : Nat → List Addr) : List Nat → Memory → List Addr → Memory × List Addr
  | [], m, usedList => (m, usedList)
  | i :: rest, m, usedList =>
    clearBuckets table rest (clearChain (table i) m usedList).1
      (clearChain (table i) m usedList).2

/-- Function `clearAllNodes`: the memory with every `used` flag set to
`refcount > 0`, and the list of the nodes with `refcount > 0`. -/
def clearAllNodes (cfg : Config) (s : NodeGCHashTable) : Memory × List Addr :=
  clearBuckets s.table (List.range cfg.hashPrime) s.memory []

/-- Function `markNode`, with a recursion budget. -/
def markNode : Nat → Addr → Memory → Option Memory
  | 0, _, _ => none
  | fuel + 1, node, m =>
    match m node with
    | none => none
    | some n =>
      if n.used then some m
      else if n.level > 0 then
        match markNode fuel n.nxny (m.set node { n with used := true }) with
        | none => none
        | some m1 =>
        match markNode fuel n.nxpy m1 with
        | none => none
        | some m2 =>
        match markNode fuel n.pxny m2 with
        | none => none
        | some m3 => markNode fuel n.pxpy m3
      else some (m.set node { n with used := true })

/-- Function `markAllNodes` over the list of used nodes. -/
def markAllNodes (fuel : Nat) : List Addr → Memory → Option Memory
  | [], m => some m
  | node :: rest, m =>
    match m node with
    | none => none
    | some n =>
      if n.level > 0 then
        match markNode fuel n.nxny (m.set node { n with used := true }) with
        | none => none
        | some m1 =>
        match markNode fuel n.nxpy m1 with
        | none => none
        | some m2 =>
        match markNode fuel n.pxny m2 with
        | none => none
        | some m3 =>
        match markNode fuel n.pxpy m3 with
        | none => none
        | some m4 => markAllNodes fuel rest m4
      else markAllNodes fuel rest (m.set node { n with used := true })

/-- Statement `delete deleteMe`: the object is gone and every weak reference
that targeted it holds null. -/
def deleteNode (node : Addr) (m : Memory) : Memory :=
  fun x =>
    if x = node then none
    else
      match m x with
      | none => none
      | some n =>
        if n.nonleaf_nextState = some node then some { n with nonleaf_nextState := none }
        else some n

/-- The inner loop of `sweepUnusedNodes` over one bucket chain: the chain
that is left, the memory and `nodeCount`. -/
def sweepChain : List Addr → Memory → Nat → List Addr × Memory × Nat
  | [], m, nodeCount => ([], m, nodeCount)
  | node :: rest, m, nodeCount =>
    match m node with
    | none => sweepChain rest m nodeCount
    | some n =>
      if n.used || decide (n.refcount > 0) then
        (node :: (sweepChain rest m nodeCount).1, (sweepChain rest m nodeCount).2)
      else sweepChain rest (deleteNode node m) (nodeCount - 1)

/-- The outer loop of `sweepUnusedNodes` over the buckets. -/
def sweepBuckets : List Nat → NodeGCHashTable → NodeGCHashTable
  | [], s => s
  | i :: rest, s =>
    sweepBuckets rest
      { s with
        table := fun j => if j = i then (sweepChain (s.table i) s.memory s.nodeCount).1
          else s.table j
        memory := (sweepChain (s.table i) s.memory s.nodeCount).2.1
        nodeCount := (sweepChain (s.table i) s.memory s.nodeCount).2.2 }

/-- Function `sweepUnusedNodes`. -/
def sweepUnusedNodes (cfg : Config) (s : NodeGCHashTable) : NodeGCHashTable :=
  sweepBuckets (List.range cfg.hashPrime) s

/-- Function `gc`.  The recursion budget of the marking phase is `nodeCount`,
which bounds the level of every node. -/
def gc (cfg : Config) (s : NodeGCHashTable) : Except Failure NodeGCHashTable :=
  match markAllNodes s.nodeCount (clearAllNodes cfg s).2 (clearAllNodes cfg s).1 with
  | none => .error .budget
  | some m => .ok (sweepUnusedNodes cfg { s with memory := m })

/-- Function `onAllocate`. -/
def onAllocate (cfg : Config) (s : NodeGCHashTable) : Except Failure NodeGCHashTable :=
  if s.nodeCount > cfg.startGCNodeCount then
    match gc cfg s with
    | .error e => .error e
    | .ok s1 => if s1.nodeCount > cfg.maxNodeCount then .error .outOfMemory else .ok s1
  else .ok s

/-! ### Interning -/

/-- The test of the search loop of `findOrInsertLeaf`. -/
def isLeafWith (m : Memory) (nxny nxpy pxny pxpy : CellType) (node : Addr) : Bool :=
  match m node with
  | none => false
  | some n => n.level == 0 && n.nxny == nxny && n.nxpy == nxpy && n.pxny == pxny
      && n.pxpy == pxpy

/-- The test of the search loop of `findOrInsertNonleaf`. -/
def isNonleafWith (m : Memory) (nxny nxpy pxny pxpy : Addr) (node : Addr) : Bool :=
  match m node with
  | none => false
  | some n => decide (n.level > 0) && n.nxny == nxny && n.nxpy == nxpy && n.pxny == pxny
      && n.pxpy == pxpy

/-- The hit branch of both search loops: the node moves to the head of its
chain and a `NodeReference` to it is returned. -/
def moveToFront (hash : Nat) (node : Addr) (s : NodeGCHashTable) :
    Except Failure (Addr × NodeGCHashTable) :=
  match incRefCount node
      { s with table := fun j => if j = hash then node :: (s.table hash).erase node
          else s.table j } with
  | .error e => .error e
  | .ok s1 => .ok (node, s1)

/-- The miss branch of both search loops: `nodeCount++`, the new object is
linked at the head of the chain and a `NodeReference` to it is returned. -/
def insertNew (cfg : Config) (hash : Nat) (n : Node) (s : NodeGCHashTable) :
    Except Failure (Addr × NodeGCHashTable) :=
  match incRefCount (cfg.alloc s)
      { s with
        nodeCount := s.nodeCount + 1
        memory := s.memory.set (cfg.alloc s) n
        table := fun j => if j = hash then cfg.alloc s :: s.table hash else s.table j } with
  | .error e => .error e
  | .ok s1 => .ok (cfg.alloc s, s1)

/-- Function `findOrInsertLeaf`. -/
def findOrInsertLeaf (cfg : Config) (nxny nxpy pxny pxpy : CellType) (s : NodeGCHashTable) :
    Except Failure (Addr × NodeGCHashTable) :=
  match onAllocate cfg s with
  | .error e => .error e
  | .ok s1 =>
    match (s1.table (hashNodeLeaf cfg nxny nxpy pxny pxpy % cfg.hashPrime)).find?
        (isLeafWith s1.memory nxny nxpy pxny pxpy) with
    | some node => moveToFront (hashNodeLeaf cfg nxny nxpy pxny pxpy % cfg.hashPrime) node s1
    | none =>
      insertNew cfg (hashNodeLeaf cfg nxny nxpy pxny pxpy % cfg.hashPrime)
        (Node.leaf nxny nxpy pxny pxpy) s1

/-- Function `findOrInsertNonleaf`, called with four handles the caller
holds. -/
def findOrInsertNonleaf (cfg : Config) (nxny nxpy pxny pxpy : Addr) (s : NodeGCHashTable) :
    Except Failure (Addr × NodeGCHashTable) :=
  match onAllocate cfg s with
  | .error e => .error e
  | .ok s1 =>
    match (s1.table (hashNodeNonleaf cfg nxny nxpy pxny pxpy % cfg.hashPrime)).find?
        (isNonleafWith s1.memory nxny nxpy pxny pxpy) with
    | some node => moveToFront (hashNodeNonleaf cfg nxny nxpy pxny pxpy % cfg.hashPrime) node s1
    | none =>
      match s1.memory nxny with
      | none => .error .assertion
      | some child =>
        insertNew cfg (hashNodeNonleaf cfg nxny nxpy pxny pxpy % cfg.hashPrime)
          (Node.nonleaf child.level nxny nxpy pxny pxpy) s1

end Heap

/-! ### Invariants of the store -/

namespace Heap

/-- The four `SectionType` words of a node, read as child addresses. -/
def Node.kids (n : Node) : List Addr := [n.nxny, n.nxpy, n.pxny, n.pxpy]

/-- The part of a node object that never changes after construction: the
level and the four children. -/
def Node.SameShape (n n1 : Node) : Prop :=
  n1.level = n.level ∧ n1.nxny = n.nxny ∧ n1.nxpy = n.nxpy ∧ n1.pxny = n.pxny ∧ n1.pxpy = n.pxpy

/-- The node with its `used` flag replaced. -/
def Node.withUsed (n : Node) (u : Bool) : Node := { n with used := u }

/-- The node `a` is allocated and its `used` flag is set. -/
def UsedIn (m : Memory) (a : Addr) : Prop := ∃ n, m a = some n ∧ n.used = true

/-- The memories `m` and `m1` hold the same node objects up to the `used`
flags. -/
def SameButUsed (m m1 : Memory) : Prop :=
  ∀ a, (m1 a).map (fun n => n.withUsed false) = (m a).map (fun n => n.withUsed false)

/-- Every used non-leaf outside of `pending` has used children. -/
def Closed (m : Memory) (pending : List Addr) : Prop :=
  ∀ a n, m a = some n → n.used = true → a ∉ pending → 0 < n.level → ∀ k ∈ n.kids, UsedIn m k

/-- The children of every non-leaf are allocated nodes one level lower. -/
def KidsLive (m : Memory) : Prop :=
  ∀ a n, m a = some n → 0 < n.level → ∀ k ∈ n.kids, ∃ nk, m k = some nk ∧ nk.level + 1 = n.level

/-- The node `x` is `a` or a descendant of `a` through child links. -/
inductive Desc (m : Memory) (a : Addr) : Addr → Prop
  | self : Desc m a a
  | kid {x k : Addr} {n : Node} : Desc m a x → m x = some n → 0 < n.level → k ∈ n.kids →
      Desc m a k

/-- The four consecutive `markNode` calls of `markNode` and `markAllNodes`,
as a loop over the children. -/
def markList (fuel : Nat) : List Addr → Memory → Option Memory
  | [], m => some m
  | k :: rest, m =>
    match markNode fuel k m with
    | none => none
    | some m1 => markList fuel rest m1

/-- What a marking call achieves, as a predicate of the call's result. -/
def Marked (m : Memory) (roots : List Addr) (pending : List Addr) (m1 : Memory) : Prop :=
  SameButUsed m m1 ∧ (∀ x, UsedIn m x → UsedIn m1 x) ∧ (∀ k ∈ roots, UsedIn m1 k)
    ∧ Closed m1 pending ∧ ∀ x, UsedIn m1 x → UsedIn m x ∨ ∃ k ∈ roots, Desc m k x

/-- The node with its weak reference cleared when the target is in `dead`. -/
def nullDead (dead : List Addr) (n : Node) : Node :=
  match n.nonleaf_nextState with
  | none => n
  | some t => if t ∈ dead then { n with nonleaf_nextState := none } else n

/-- The memory after the nodes in `dead` were deleted. -/
def removeAll (dead : List Addr) (m : Memory) : Memory :=
  fun a => if a ∈ dead then none else (m a).map (nullDead dead)

/-- The test of the sweep: the `used` flag or a positive reference count. -/
def keep (m : Memory) (a : Addr) : Bool :=
  match m a with
  | none => false
  | some n => n.used || decide (n.refcount > 0)

/-- The addresses linked in the bucket chains, bucket by bucket. -/
def NodeGCHashTable.allNodes (cfg : Config) (s : NodeGCHashTable) : List Addr :=
  (List.range cfg.hashPrime).flatMap s.table

/-- An allocator for executable examples: one more than the largest address
linked in the table. -/
def allocAbove (hashPrime : Nat) (s : NodeGCHashTable) : Addr :=
  (((List.range hashPrime).flatMap s.table).foldl max 0) + 1

/-- The structural invariant of the store: the bucket chains hold exactly the
allocated nodes, each in the bucket of its hash and once; no two nodes have the
same level and children; the children of a non-leaf are allocated nodes one
level lower; `nodeCount` is the number of nodes; a non-null weak reference
targets an allocated node. -/
structure Inv (cfg : Config) (s : NodeGCHashTable) : Prop where
  mem_table : ∀ i a, a ∈ s.table i → i < cfg.hashPrime ∧ ∃ n, s.memory a = some n ∧ bucketOf cfg n = i
  in_table : ∀ a n, s.memory a = some n → a ∈ s.table (bucketOf cfg n)
  nodup : ∀ i, (s.table i).Nodup
  unique : ∀ a b na nb, s.memory a = some na → s.memory b = some nb →
    (na.level = 0 ↔ nb.level = 0) → na.nxny = nb.nxny → na.nxpy = nb.nxpy → na.pxny = nb.pxny →
    na.pxpy = nb.pxpy → a = b
  kids_live : ∀ a n, s.memory a = some n → 0 < n.level →
    ∀ k ∈ n.kids, ∃ nk, s.memory k = some nk ∧ nk.level + 1 = n.level
  count : s.nodeCount = (s.allNodes cfg).length
  weak_live : ∀ a n t, s.memory a = some n → n.nonleaf_nextState = some t →
    ∃ nt, s.memory t = some nt

/-- What the platform guarantees: there is at least one bucket, and `new`
returns an address that holds no node object. -/
structure Config.Valid (cfg : Config) : Prop where
  hashPrime_pos : 0 < cfg.hashPrime
  alloc_fresh : ∀ s, Inv cfg s → s.memory (cfg.alloc s) = none

/-- A node is reachable when it has `refcount > 0` or is a child of a
reachable non-leaf. -/
inductive Reach (m : Memory) : Addr → Prop
  | root {a : Addr} {n : Node} : m a = some n → 0 < n.refcount → Reach m a
  | kid {a k : Addr} {n : Node} : Reach m a → m a = some n → 0 < n.level → k ∈ n.kids →
      Reach m k

/-- One operation on the store: an interning call (the non-leaf one with four
held handles of one level), a collection, or the construction or destruction
of a `NodeReference`. -/
inductive Step (cfg : Config) : NodeGCHashTable → NodeGCHashTable → Prop
  | leaf {s s1 : NodeGCHashTable} (nxny nxpy pxny pxpy : CellType) (a : Addr) :
      findOrInsertLeaf cfg nxny nxpy pxny pxpy s = .ok (a, s1) → Step cfg s s1
  | nonleaf {s s1 : NodeGCHashTable} (nxny nxpy pxny pxpy : Addr) (L : Nat) (a : Addr) :
      (∀ k ∈ [nxny, nxpy, pxny, pxpy], ∃ n, s.memory k = some n ∧ 0 < n.refcount ∧ n.level = L) →
      findOrInsertNonleaf cfg nxny nxpy pxny pxpy s = .ok (a, s1) → Step cfg s s1
  | collect {s s1 : NodeGCHashTable} : gc cfg s = .ok s1 → Step cfg s s1
  | acquire {s s1 : NodeGCHashTable} (a : Addr) : incRefCount a s = .ok s1 → Step cfg s s1
  | release {s s1 : NodeGCHashTable} (a : Addr) :
      (∃ n, s.memory a = some n ∧ 0 < n.refcount) → decRefCount a s = .ok s1 → Step cfg s s1

/-- The store states reachable from the empty store. -/
inductive Reachable (cfg : Config) : NodeGCHashTable → Prop
  | empty : Reachable cfg NodeGCHashTable.empty
  | step {s s1 : NodeGCHashTable} : Reachable cfg s → Step cfg s s1 → Reachable cfg s1

/-- A sequence of operations after each of which the node `a` is still
referenced. -/
inductive StepsHolding (cfg : Config) (a : Addr) : NodeGCHashTable → NodeGCHashTable → Prop
  | refl (s : NodeGCHashTable) : StepsHolding cfg a s s
  | step {s s1 s2 : NodeGCHashTable} : StepsHolding cfg a s s1 → Step cfg s1 s2 →
      (∃ n, s2.memory a = some n ∧ 0 < n.refcount) → StepsHolding cfg a s s2

/-- What a call of `onAllocate` may do to the store: nothing appears, a node
that is left keeps its level, children and counters, a weak reference is kept
or cleared, every node with a positive reference count is left, and the
chains only lose links. -/
structure Shrinks (s s1 : NodeGCHashTable) : Prop where
  old : ∀ a n1, s1.memory a = some n1 → ∃ n, s.memory a = some n ∧ n.SameShape n1
    ∧ n1.refcount = n.refcount ∧ n1.nextStateLogStep = n.nextStateLogStep
    ∧ ∀ t, n1.nonleaf_nextState = some t → n.nonleaf_nextState = some t
  roots : ∀ a n, s.memory a = some n → 0 < n.refcount → ∃ n1, s1.memory a = some n1
  nullNodes : s1.nullNodes = s.nullNodes

/-- What the search loop of an interning call does to the store `s1` that
`onAllocate` left: only the node `r` it returns changes; `r` either existed
and its reference count went up by one, or is a new object with reference
count one and no weak reference; the count did not wrap. -/
structure Interned (s1 : NodeGCHashTable) (r : Addr) (n2 : Node) (s2 : NodeGCHashTable) :
    Prop where
  other : ∀ a, a ≠ r → s2.memory a = s1.memory a
  self : s2.memory r = some n2
  cases : (∃ n, s1.memory r = some n ∧ n2 = { n with refcount := n.refcount + 1 })
    ∨ (s1.memory r = none ∧ n2.refcount = 1 ∧ n2.nonleaf_nextState = none)
  nullNodes : s2.nullNodes = s1.nullNodes
  small : n2.refcount < 256

/-- A small platform for executable examples: five buckets, identity hashes,
collection from seven nodes on. -/
def exampleConfig : Config :=
  { hashPrime := 5, maxNodeCount := 7, hashCell := fun c => c, hashPtr := fun a => a,
    alloc := allocAbove 5 }

/-- The store a successful interning call leaves. -/
def storeAfter (r : Except Failure (Addr × NodeGCHashTable)) : NodeGCHashTable :=
  match r with
  | .ok (_, s) => s
  | .error _ => NodeGCHashTable.empty

/-- Example: the store after `findOrInsertLeaf(0, 0, 0, 1)`. -/
def exampleStore1 : NodeGCHashTable :=
  storeAfter (findOrInsertLeaf exampleConfig 0 0 0 1 NodeGCHashTable.empty)

/-- Example: the store after a second call `findOrInsertLeaf(0, 0, 1, 0)`. -/
def exampleStore2 : NodeGCHashTable :=
  storeAfter (findOrInsertLeaf exampleConfig 0 0 1 0 exampleStore1)

/-- Example: the store after the handle to the first leaf was destroyed. -/
def exampleStore3 : NodeGCHashTable :=
  match decRefCount 1 exampleStore2 with
  | .ok s => s
  | .error _ => exampleStore2

/-- What the examples look at in a store: the objects at the addresses 1 and
2, `nodeCount`, and the five bucket chains. -/
def observeStore (r : Except Failure NodeGCHashTable) :
    Option (Option Node × Option Node × Nat × List (List Addr)) :=
  match r with
  | .ok s => some (s.memory 1, s.memory 2, s.nodeCount, (List.range 5).map s.table)
  | .error _ => none

end Heap

/-! ## Rule strings -/

/-- Function `clearRules` as a transformer of the global table: the two
loops assign 0 to every entry, whatever it held. -/
def clearRulesFrom (_rules : RuleTable) : RuleTable := fun _ _ => 0

/-- Function `parseRules` as a transformer of the global table `rules`:
the result and the table on return. -/
def parseRulesFrom (rules : RuleTable) (rulesString : String) : Bool × RuleTable :=
  parseRulesLoop rulesString.data false false false (clearRulesFrom rules)

/-- The character of the digit `n`. -/
def digitChar (n : Fin 9) : Char := Char.ofNat ('0'.toNat + n.val)

/-- The string `B<ds1>/S<ds2>`. -/
def ruleString (ds1 ds2 : List (Fin 9)) : String :=
  String.mk ('B' :: ds1.map digitChar ++ '/' :: 'S' :: ds2.map digitChar)

/-- The test `ch >= '0' && ch <= '8'`. -/
def isRuleDigit (ch : Char) : Prop := '0' ≤ ch ∧ ch ≤ '8'

/-- Decidability of the digit test. -/
instance isRuleDigit.decidable (ch : Char) : Decidable (isRuleDigit ch) :=
  inferInstanceAs (Decidable ('0' ≤ ch ∧ ch ≤ '8'))

/-- The table after the digits `ds` were entered into the row `row`. -/
def RuleTable.setAll (rules : RuleTable) (row : Fin 2) (ds : List (Fin 9)) : RuleTable :=
  ds.foldl (fun r d => r.set row d 1) rules

/-- The deviations from the form `B<digits>/S<digits>` that make `parseRules`
fail: a digit repeated with no `/` between the two occurrences, an `S` before
a `/`, an `S` that no `/` precedes, one of `/`, `B`, `S` twice, a digit before
a `B`, a character that is none of `B`, `/`, `S`, `0`..`8`. -/
inductive Malformed : List Char → Prop
  | repeatedDigit (pre : List Char) (d : Char) (mid post : List Char) : isRuleDigit d →
      '/' ∉ mid → Malformed (pre ++ d :: (mid ++ d :: post))
  | sBeforeSlash (pre mid post : List Char) : Malformed (pre ++ 'S' :: (mid ++ '/' :: post))
  | sWithoutSlash (pre post : List Char) : '/' ∉ pre → Malformed (pre ++ 'S' :: post)
  | twice (c : Char) (pre mid post : List Char) : c = '/' ∨ c = 'B' ∨ c = 'S' →
      Malformed (pre ++ c :: (mid ++ c :: post))
  | digitBeforeB (pre : List Char) (d : Char) (mid post : List Char) : isRuleDigit d →
      Malformed (pre ++ d :: (mid ++ 'B' :: post))
  | other (pre : List Char) (c : Char) (post : List Char) : c ≠ 'B' → c ≠ '/' → c ≠ 'S' →
      ¬ isRuleDigit c → Malformed (pre ++ c :: post)

/-! ## Cells of a node and contraction steps -/

/-- The cell at `(x, y)` of a node centred at the origin (0 outside of the
node). -/
def NodeType.cellAt (n : NodeType) (x y : Int) : CellType := (getCellH n 0 0 x y).getD 0

/-- The iterations of the loop of `checkForContractRoot`: the root is
replaced by its centre as long as the level is at least 2 and the twelve
outer grandchildren are the null node of level `level - 2`; the loop ends at
the first state for which this fails. -/
inductive GameState.Contracts : GameState → GameState → Prop
  | stop (gs : GameState) : gs.rootNode.level < 2 ∨ gs.outerRingIsNull = false →
      GameState.Contracts gs gs
  | step (gs : GameState) (c : NodeType) (gs1 : GameState) : 2 ≤ gs.rootNode.level →
      gs.outerRingIsNull = true → gs.rootNode.getCenter = some c →
      GameState.Contracts { gs with rootNode := c } gs1 → GameState.Contracts gs gs1

/-- The rule B0/S: birth on no neighbour, no survival. -/
def ruleB0 : RuleTable := clearRules.set 0 0 1

/-! ## The engine on the store (heap level)

The functions of the engine run on the store: a node handle is an address,
every construction of a `NodeReference` increments the 8-bit reference count
of its node and every destruction decrements it, and every interning call may
run the collector.  A run stops with `Failure.outOfMemory` at the `exit(1)` of
`onAllocate`, with `Failure.refcountWrap` where a reference count would wrap,
with `Failure.assertion` at a failed `assert` or a read through a pointer to
a deleted node, and with `Failure.budget` when a recursion budget of the
model is used up. -/

namespace Heap

/-- A computation on the store. -/
abbrev M (α : Type) : Type := NodeGCHashTable → Except Failure (α × NodeGCHashTable)

/-- Return a value, the store unchanged. -/
def ret {α : Type} (a : α) : M α := fun s => .ok (a, s)

/-- Stop with a failure. -/
def fail {α : Type} (e : Failure) : M α := fun _ => .error e

/-- Sequencing: a failure of the first computation ends the run. -/
def bindM {α β : Type} (x : M α) (f : α → M β) : M β := fun s =>
  match x s with
  | .error e => .error e
  | .ok (a, s1) => f a s1

/-- Construction of a `NodeReference` to the node `a`. -/
def incRef (a : Addr) : M Unit := fun s =>
  match incRefCount a s with
  | .error e => .error e
  | .ok s1 => .ok ((), s1)

/-- Destruction of a `NodeReference` to the node `a`. -/
def decRef (a : Addr) : M Unit := fun s =>
  match decRefCount a s with
  | .error e => .error e
  | .ok s1 => .ok ((), s1)

/-- Destruction of a `NodeReference` that may be null. -/
def decRefOpt : Option Addr → M Unit
  | none => ret ()
  | some a => decRef a

/-- A read through the pointer `a`. -/
def readNode (a : Addr) : M Node := fun s =>
  match s.memory a with
  | none => .error .assertion
  | some n => .ok (n, s)

/-- A run ends well: it returns a value and a store that satisfy `Q`, or it
stops at the out-of-memory exit. -/
def Ok {α : Type} (Q : α → NodeGCHashTable → Prop)
    (r : Except Failure (α × NodeGCHashTable)) : Prop :=
  match r with
  | .ok (a, s) => Q a s
  | .error e => e = Failure.outOfMemory

/-- The node at the address `a` and its descendants hold the quadtree `t`. -/
def Repr (m : Memory) : Addr → NodeType → Prop
  | a, NodeType.leaf c0 c1 c2 c3 =>
    ∃ n, m a = some n ∧ n.level = 0 ∧ n.nxny = c0 ∧ n.nxpy = c1 ∧ n.pxny = c2 ∧ n.pxpy = c3
  | a, NodeType.nonleaf t0 t1 t2 t3 =>
    ∃ n, m a = some n ∧ n.level = t0.level + 1 ∧ Repr m n.nxny t0 ∧ Repr m n.nxpy t1
      ∧ Repr m n.pxny t2 ∧ Repr m n.pxpy t3

/-- Every node of `m` is a node of `m1` with the same level and children. -/
def ShapeLe (m m1 : Memory) : Prop :=
  ∀ a n, m a = some n → ∃ n1, m1 a = some n1 ∧ n.SameShape n1

/-- The handles that exist: those of the list `H` (held by the running code,
each with the quadtree it stands for) and those in the `nullNodes` vectors. -/
def held (s : NodeGCHashTable) (H : List (Addr × NodeType)) : List Addr :=
  H.map Prod.fst ++ s.nullNodes.flatten

/-- The number of handles of the list `H` to quadtrees of level `l`. -/
def lc (l : Nat) (H : List (Addr × NodeType)) : Nat :=
  H.countP (fun p => decide (p.2.level = l))

/-- There is room for `k` more handles to nodes of every level up to `L`: no
8-bit reference count reaches its limit. -/
def Free (k L : Nat) (H : List (Addr × NodeType)) : Prop :=
  ∀ l, l ≤ L → lc l H + k ≤ 254

/-- The number of free handles a call that holds at most `F` handles at a
time needs at level `l`, when it runs on a node of level `L`: the handles of
one call point at nodes of the call's level and of the two levels below, so a
level gets handles from three nested calls at most. -/
def roomNeed (F L l : Nat) : Nat :=
  if l = L then F else if l + 1 = L then 2 * F else 3 * F

/-- There is room for a call of `getNextState` on a node of level `L`, when a
call holds at most `F` handles at a time. -/
def Room (F L : Nat) (H : List (Addr × NodeType)) : Prop :=
  ∀ l, l ≤ L → lc l H + roomNeed F L l ≤ 254

/-- The list `H1` is the list `H` with at most `n` more handles in front, each
to a quadtree of level `L` or higher. -/
def Ext (L n : Nat) (H H1 : List (Addr × NodeType)) : Prop :=
  ∃ hs : List (Addr × NodeType), H1 = hs ++ H ∧ hs.length ≤ n ∧ ∀ p ∈ hs, L ≤ p.2.level

/-- The handle list of a `NodeReference` that may be null: empty, or one
handle to the quadtree `t`. -/
def optHandle (old : Option Addr) (t : NodeType) : List (Addr × NodeType) :=
  match old with
  | none => []
  | some r => [(r, t)]

/-- The invariant of the engine between two operations, for the handles `H`
held by the running code: the platform is valid, the store satisfies its
structural invariant, no reference count is at its limit, the reference count
of every node is the number of handles to it, every handle of `H` holds its
quadtree, entry `level` of `nullNodes[backgroundType]` holds the null node of
that level and background, no node is in the `nullNodes` vectors twice, and
every non-null `nonleaf_nextState` targets the node that holds the next state
of its owner for the recorded `nextStateLogStep`. -/
structure St (cfg : Config) (rules : RuleTable) (s : NodeGCHashTable)
    (H : List (Addr × NodeType)) : Prop where
  valid : cfg.Valid
  inv : Inv cfg s
  small : ∀ a n, s.memory a = some n → n.refcount < 256
  owns : ∀ a n, s.memory a = some n → n.refcount = (held s H).count a
  trees : ∀ p, p ∈ H → Repr s.memory p.1 p.2
  nulls : ∀ (bg i : Nat) (a : Addr), (s.nullNodes.getD bg [])[i]? = some a →
    Repr s.memory a (getNullNode i bg)
  nullOnce : ∀ a, s.nullNodes.flatten.count a ≤ 1
  cache : ∀ a n r, s.memory a = some n → n.nonleaf_nextState = some r →
    ∃ t tr, Repr s.memory a t ∧ n.nextStateLogStep + 1 ≤ n.level
      ∧ t.getNextStateStep rules n.nextStateLogStep = some tr ∧ Repr s.memory r tr

end Heap

/-! ### The engine functions on the store

Temporaries follow the Itanium C++ ABI: the `NodeReference` parameters of a
call are constructed left to right before the call and destroyed, in reverse
order, at the end of the full expression that contains the call. -/

namespace Heap

/-- A call `gc->findOrInsertNonleaf(a, b, c, d)` on pointers or handles of the
caller whose result initialises a variable: the four `NodeReference`
parameters are constructed, the call is made, the parameters are
destroyed. -/
def callNonleaf (cfg : Config) (a b c d : Addr) : M Addr :=
  bindM (incRef a) fun _ =>
  bindM (incRef b) fun _ =>
  bindM (incRef c) fun _ =>
  bindM (incRef d) fun _ =>
  bindM (findOrInsertNonleaf cfg a b c d) fun r =>
  bindM (decRef d) fun _ =>
  bindM (decRef c) fun _ =>
  bindM (decRef b) fun _ =>
  bindM (decRef a) fun _ => ret r

/-- An expression `gc->findOrInsertNonleaf(a, b, c, d)->f(...)`: the result
of the interning call is a temporary that lives, with the four parameters,
until `f` has returned. -/
def withNonleaf (cfg : Config) (a b c d : Addr) (f : Addr → M Addr) : M Addr :=
  bindM (incRef a) fun _ =>
  bindM (incRef b) fun _ =>
  bindM (incRef c) fun _ =>
  bindM (incRef d) fun _ =>
  bindM (findOrInsertNonleaf cfg a b c d) fun tmp =>
  bindM (f tmp) fun r =>
  bindM (decRef tmp) fun _ =>
  bindM (decRef d) fun _ =>
  bindM (decRef c) fun _ =>
  bindM (decRef b) fun _ =>
  bindM (decRef a) fun _ => ret r

/-- Function `NodeWeakReference::get` on the member `nonleaf_nextState` of the
node `this`, in sequential execution: a handle to the target, or null. -/
def weakGet (this : Addr) : M (Option Addr) :=
  bindM (readNode this) fun n =>
  match n.nonleaf_nextState with
  | none => ret none
  | some r => bindM (incRef r) fun _ => ret (some r)

/-- The two stores `nonleaf_nextState = ...; nextStateLogStep = ...;` into the
node `this`. -/
def writeNextState (this r : Addr) (logStep : Nat) : M Unit := fun s =>
  match s.memory this with
  | none => .error .assertion
  | some n =>
    .ok ((), { s with
      memory := s.memory.set this
        { n with nonleaf_nextState := some r, nextStateLogStep := logStep } })

/-- The statements `nonleaf_nextState = retval; nextStateLogStep = logStep;`:
the assignment operator of the weak reference takes a `NodeReference` by
value. -/
def setNextState (this r : Addr) (logStep : Nat) : M Unit :=
  bindM (incRef r) fun _ =>
  bindM (writeNextState this r logStep) fun _ => decRef r

/-- Function `NodeType::getCenter`. -/
def getCenter (cfg : Config) (this : Addr) : M Addr :=
  bindM (incRef this) fun _ =>
  bindM (readNode this) fun n =>
  if n.level = 0 then fail .assertion
  else
    bindM (readNode n.nxny) fun a =>
    bindM (readNode n.nxpy) fun b =>
    bindM (readNode n.pxny) fun c =>
    bindM (readNode n.pxpy) fun d =>
    if n.level = 1 then
      bindM (findOrInsertLeaf cfg a.pxpy b.pxny c.nxpy d.nxny) fun r =>
      bindM (decRef this) fun _ => ret r
    else
      bindM (callNonleaf cfg a.pxpy b.pxny c.nxpy d.nxny) fun r =>
      bindM (decRef this) fun _ => ret r

/-- The `level == 1` branch of `getNextState(gc)`: the four `eval` calls on
the cells of the four leaves and the interning call. -/
def nextStateLeaf (cfg : Config) (rules : RuleTable) (n : Node) : M Addr :=
  bindM (readNode n.nxny) fun a =>
  bindM (readNode n.nxpy) fun b =>
  bindM (readNode n.pxny) fun c =>
  bindM (readNode n.pxpy) fun d =>
  findOrInsertLeaf cfg
    (eval rules a.nxny a.nxpy b.nxny a.pxny a.pxpy b.pxny c.nxny c.nxpy d.nxny)
    (eval rules a.nxpy b.nxny b.nxpy a.pxpy b.pxny b.pxpy c.nxpy d.nxny d.nxpy)
    (eval rules a.pxny a.pxpy b.pxny c.nxny c.nxpy d.nxny c.pxny c.pxpy d.pxny)
    (eval rules a.pxpy b.pxny b.pxpy c.nxpy d.nxny d.nxpy c.pxpy d.pxny d.pxpy)

/-- The nine first-round results of both `getNextState` overloads: `f` is the
recursive call.  Every use of a child pointer is a read through `this`. -/
def firstRound (cfg : Config) (this : Addr) (f : Addr → M Addr) :
    M (Addr × Addr × Addr × Addr × Addr × Addr × Addr × Addr × Addr) :=
  bindM (readNode this) fun n =>
  bindM (f n.nxny) fun step1_nxny =>
  bindM (readNode this) fun n =>
  bindM (f n.nxpy) fun step1_nxpy =>
  bindM (readNode this) fun n =>
  bindM (f n.pxny) fun step1_pxny =>
  bindM (readNode this) fun n =>
  bindM (f n.pxpy) fun step1_pxpy =>
  bindM (readNode this) fun n =>
  bindM (readNode n.nxny) fun a =>
  bindM (readNode n.nxpy) fun b =>
  bindM (withNonleaf cfg a.nxpy b.nxny a.pxpy b.pxny f) fun step1_nxcy =>
  bindM (readNode this) fun n =>
  bindM (readNode n.pxny) fun c =>
  bindM (readNode n.pxpy) fun d =>
  bindM (withNonleaf cfg c.nxpy d.nxny c.pxpy d.pxny f) fun step1_pxcy =>
  bindM (readNode this) fun n =>
  bindM (readNode n.nxny) fun a =>
  bindM (readNode n.pxny) fun c =>
  bindM (withNonleaf cfg a.pxny a.pxpy c.nxny c.nxpy f) fun step1_cxny =>
  bindM (readNode this) fun n =>
  bindM (readNode n.nxpy) fun b =>
  bindM (readNode n.pxpy) fun d =>
  bindM (withNonleaf cfg b.pxny b.pxpy d.nxny d.nxpy f) fun step1_cxpy =>
  bindM (readNode this) fun n =>
  bindM (readNode n.nxny) fun a =>
  bindM (readNode n.nxpy) fun b =>
  bindM (readNode n.pxny) fun c =>
  bindM (readNode n.pxpy) fun d =>
  bindM (withNonleaf cfg a.pxpy b.pxny c.nxpy d.nxny f) fun step1_cxcy =>
  ret (step1_nxny, step1_nxpy, step1_pxny, step1_pxpy, step1_nxcy, step1_pxcy, step1_cxny,
    step1_cxpy, step1_cxcy)

/-- The four second-round results and the interning call of both
`getNextState` overloads: `g` is `getNextState(gc)` or `getCenter(gc)`. -/
def secondRound (cfg : Config)
    (p : Addr × Addr × Addr × Addr × Addr × Addr × Addr × Addr × Addr) (g : Addr → M Addr) :
    M (Addr × Addr × Addr × Addr × Addr) :=
  match p with
  | (step1_nxny, step1_nxpy, step1_pxny, step1_pxpy, step1_nxcy, step1_pxcy, step1_cxny,
      step1_cxpy, step1_cxcy) =>
    bindM (withNonleaf cfg step1_nxny step1_nxcy step1_cxny step1_cxcy g) fun final_nxny =>
    bindM (withNonleaf cfg step1_nxcy step1_nxpy step1_cxcy step1_cxpy g) fun final_nxpy =>
    bindM (withNonleaf cfg step1_cxny step1_cxcy step1_pxny step1_pxcy g) fun final_pxny =>
    bindM (withNonleaf cfg step1_cxcy step1_cxpy step1_pxcy step1_pxpy g) fun final_pxpy =>
    bindM (callNonleaf cfg final_nxny final_nxpy final_pxny final_pxpy) fun r =>
    ret (r, final_nxny, final_nxpy, final_pxny, final_pxpy)

/-- Destruction of the thirteen local handles of a `getNextState` overload, in
reverse order of declaration. -/
def dropLocals (p : Addr × Addr × Addr × Addr × Addr × Addr × Addr × Addr × Addr)
    (q : Addr × Addr × Addr × Addr × Addr) : M Unit :=
  match p, q with
  | (step1_nxny, step1_nxpy, step1_pxny, step1_pxpy, step1_nxcy, step1_pxcy, step1_cxny,
      step1_cxpy, step1_cxcy), (_, final_nxny, final_nxpy, final_pxny, final_pxpy) =>
    bindM (decRef final_pxpy) fun _ =>
    bindM (decRef final_pxny) fun _ =>
    bindM (decRef final_nxpy) fun _ =>
    bindM (decRef final_nxny) fun _ =>
    bindM (decRef step1_cxcy) fun _ =>
    bindM (decRef step1_cxpy) fun _ =>
    bindM (decRef step1_cxny) fun _ =>
    bindM (decRef step1_pxcy) fun _ =>
    bindM (decRef step1_nxcy) fun _ =>
    bindM (decRef step1_pxpy) fun _ =>
    bindM (decRef step1_pxny) fun _ =>
    bindM (decRef step1_nxpy) fun _ => decRef step1_nxny

/-- The part of `getNextState(gc)` after the test of the cache, with `f` for
the recursive call and `old` for the handle `retval` read from the cache: the
new result replaces `old` by a move assignment (the old handle is destroyed
with the temporary), the locals of the `else` block are destroyed at its end,
then the cache is written. -/
def nextStateCompute (cfg : Config) (rules : RuleTable) (f : Addr → M Addr) (this : Addr)
    (n : Node) (old : Option Addr) : M Addr :=
  if n.level = 0 then fail .assertion
  else if n.level = 1 then
    bindM (nextStateLeaf cfg rules n) fun new =>
    bindM (decRefOpt old) fun _ =>
    bindM (setNextState this new (n.level - 1)) fun _ =>
    bindM (decRef this) fun _ => ret new
  else
    bindM (firstRound cfg this f) fun p =>
    bindM (secondRound cfg p f) fun q =>
    bindM (decRefOpt old) fun _ =>
    bindM (dropLocals p q) fun _ =>
    bindM (setNextState this q.1 (n.level - 1)) fun _ =>
    bindM (decRef this) fun _ => ret q.1

/-- Function `NodeType::getNextState(gc)`, with a recursion budget. -/
def getNextStateFuel (cfg : Config) (rules : RuleTable) : Nat → Addr → M Addr
  | 0, _ => fail .budget
  | fuel + 1, this =>
    bindM (incRef this) fun _ =>
    bindM (weakGet this) fun retval =>
    bindM (readNode this) fun n =>
    match retval with
    | some r =>
      if n.nextStateLogStep + 1 = n.level then bindM (decRef this) fun _ => ret r
      else nextStateCompute cfg rules (getNextStateFuel cfg rules fuel) this n (some r)
    | none => nextStateCompute cfg rules (getNextStateFuel cfg rules fuel) this n none

/-- Function `NodeType::getNextState(gc)`: the budget is the node's level. -/
def getNextState (cfg : Config) (rules : RuleTable) (this : Addr) : M Addr :=
  bindM (readNode this) fun n => getNextStateFuel cfg rules n.level this

/-- The part of `getNextState(gc, logStepSize)` after the test of the cache,
with `f` for the recursive call and `old` for the handle `retval` read from
the cache: the cache is written first, the locals are destroyed when the
function returns. -/
def nextStateStepCompute (cfg : Config) (f : Addr → M Addr) (this : Addr) (logStepSize : Nat)
    (old : Option Addr) : M Addr :=
  bindM (firstRound cfg this f) fun p =>
  bindM (secondRound cfg p (getCenter cfg)) fun q =>
  bindM (decRefOpt old) fun _ =>
  bindM (setNextState this q.1 logStepSize) fun _ =>
  bindM (dropLocals p q) fun _ =>
  bindM (decRef this) fun _ => ret q.1

/-- Function `NodeType::getNextState(gc, logStepSize)`, with a recursion
budget. -/
def getNextStateStepFuel (cfg : Config) (rules : RuleTable) : Nat → Addr → Nat → M Addr
  | 0, _, _ => fail .budget
  | fuel + 1, this, logStepSize =>
    bindM (incRef this) fun _ =>
    bindM (readNode this) fun n =>
    if n.level < logStepSize + 1 then fail .assertion
    else if logStepSize = n.level - 1 then
      bindM (getNextState cfg rules this) fun r =>
      bindM (decRef this) fun _ => ret r
    else
      bindM (weakGet this) fun retval =>
      bindM (readNode this) fun n1 =>
      match retval with
      | some r =>
        if n1.nextStateLogStep = logStepSize then bindM (decRef this) fun _ => ret r
        else
          nextStateStepCompute cfg (fun x => getNextStateStepFuel cfg rules fuel x logStepSize)
            this logStepSize (some r)
      | none =>
        nextStateStepCompute cfg (fun x => getNextStateStepFuel cfg rules fuel x logStepSize)
          this logStepSize none

/-- Function `NodeType::getNextState(gc, logStepSize)`: the budget is the
node's level. -/
def getNextStateStep (cfg : Config) (rules : RuleTable) (this : Addr) (logStepSize : Nat) :
    M Addr :=
  bindM (readNode this) fun n => getNextStateStepFuel cfg rules n.level this logStepSize

end Heap

/-! ## The fallback `BigFloat` (`src/bigfloat.h`)

The class `BigFloat` that is compiled when `USE_DOUBLE_FOR_BIGFLOAT` is not
defined: a 32-bit signed mantissa (`Word`) and an `int` exponent.  Machine
integers are integers in the range of their type; arithmetic that leaves the
range wraps in two's complement, `>>` on a signed value is the arithmetic
shift and `/` truncates. -/

/-- The value an integer has when it is stored in a signed two's complement
word of `w` bits. -/
def wrapInt (w : Nat) (v : Int) : Int := (v + 2 ^ (w - 1)) % 2 ^ w - 2 ^ (w - 1)

/-- The class `BigFloat`: the members `mantissa` and `exponent`. -/
structure BigFloat where
  mantissa : Int
  exponent : Int
  deriving DecidableEq, Repr

namespace BigFloat

/-- The constant `WordSize`. -/
def WordSize : Int := 32

/-- The `do ... while((mantissa & 1) == 0)` loop of `normalize`, with an
iteration budget. -/
def normalizeLoop : Nat → Int → Int → Option (Int × Int)
  | 0, _, _ => none
  | fuel + 1, mantissa, exponent =>
    if (mantissa / 2) % 2 = 0 then normalizeLoop fuel (mantissa / 2) (wrapInt 32 (exponent + 1))
    else some (mantissa / 2, wrapInt 32 (exponent + 1))

/-- Function `normalize`.  The budget of 32 iterations is never used up on a
32-bit mantissa (`normalize_spec`). -/
def normalize (x : BigFloat) : Option BigFloat :=
  if x.mantissa ≠ 0 ∧ x.mantissa % 2 = 0 then
    match normalizeLoop 32 x.mantissa x.exponent with
    | none => none
    | some (m, e) => some { mantissa := m, exponent := e }
  else if x.mantissa = 0 then some { x with exponent := 0 }
  else some x

/-- The loop `while(mantissa << 1 == (DoubleWord)mantissa << 1)` of
`unnormalize`, with an iteration budget. -/
def unnormalizeLoop : Nat → Int → Int → Option (Int × Int)
  | 0, _, _ => none
  | fuel + 1, mantissa, exponent =>
    if wrapInt 32 (mantissa * 2) = wrapInt 64 (mantissa * 2) then
      unnormalizeLoop fuel (wrapInt 32 (mantissa * 2)) (wrapInt 32 (exponent - 1))
    else some (mantissa, exponent)

/-- Function `unnormalize`. -/
def unnormalize (x : BigFloat) : Option BigFloat :=
  if x.mantissa = 0 then some x
  else
    match unnormalizeLoop 32 x.mantissa x.exponent with
    | none => none
    | some (m, e) => some { mantissa := m, exponent := e }

/-- Function `isTooBigForWord`. -/
def isTooBigForWord (v : Int) : Bool := wrapInt 32 v != v

/-- Constructor `BigFloat(Word mantissa, int exponent)`. -/
def new (mantissa exponent : Int) : Option BigFloat :=
  normalize { mantissa := mantissa, exponent := exponent }

/-- Function `operator +(BigFloat a, BigFloat b)`. -/
def add (a b : BigFloat) : Option BigFloat :=
  if a.mantissa = 0 then some b
  else if b.mantissa = 0 then some a
  else
    match a.unnormalize with
    | none => none
    | some a1 =>
    match b.unnormalize with
    | none => none
    | some b1 =>
      let maxExponent := max a1.exponent b1.exponent
      if wrapInt 32 (maxExponent - a1.exponent) ≥ WordSize then b1.normalize
      else if wrapInt 32 (maxExponent - b1.exponent) ≥ WordSize then a1.normalize
      else
        let result := wrapInt 64 (0 + a1.mantissa / 2 ^ (wrapInt 32 (maxExponent - a1.exponent)).toNat)
        let result := wrapInt 64 (result + b1.mantissa / 2 ^ (wrapInt 32 (maxExponent - b1.exponent)).toNat)
        if isTooBigForWord result then new (wrapInt 32 (result / 2)) (wrapInt 32 (maxExponent + 1))
        else new (wrapInt 32 result) maxExponent

/-- Function `operator -() const`. -/
def neg (a : BigFloat) : Option BigFloat := new (wrapInt 32 (-a.mantissa)) a.exponent

/-- Function `operator -(BigFloat a, BigFloat b)`. -/
def sub (a b : BigFloat) : Option BigFloat :=
  match b.neg with
  | none => none
  | some nb => a.add nb

/-- The loop `while(isTooBigForWord(result))` of `operator *` and
`operator /`, with an iteration budget. -/
def shrinkLoop : Nat → Int → Int → Option (Int × Int)
  | 0, _, _ => none
  | fuel + 1, result, resultExponent =>
    if isTooBigForWord result then shrinkLoop fuel (result / 2) (wrapInt 32 (resultExponent + 1))
    else some (result, resultExponent)

/-- Function `operator /(BigFloat a, BigFloat b)`; `none` is the division by
zero. -/
def div (a b : BigFloat) : Option BigFloat :=
  let result := a.mantissa
  let resultExponent := wrapInt 32 (a.exponent - b.exponent)
  let result := wrapInt 64 (result * 2 ^ 32)
  let resultExponent := wrapInt 32 (resultExponent - WordSize)
  if a.mantissa = 0 then none
  else
    match shrinkLoop 64 (wrapInt 64 (Int.tdiv result a.mantissa)) resultExponent with
    | none => none
    | some (r, e) => new (wrapInt 32 r) e

/-- Function `operator ==(BigFloat a, BigFloat b)`. -/
def eq (a b : BigFloat) : Bool := a.mantissa == b.mantissa && a.exponent == b.exponent

/-- The number a `BigFloat` stands for: `mantissa * 2 ^ exponent`. -/
def toRat (x : BigFloat) : ℚ := x.mantissa * 2 ^ x.exponent

/-- The representation is normalized: the mantissa is odd, or the mantissa
is 0 and the exponent is 0. -/
def Normalized (x : BigFloat) : Prop :=
  x.mantissa % 2 = 1 ∨ (x.mantissa = 0 ∧ x.exponent = 0)

end BigFloat

/-! ## More example universes -/

/-- The blinker `(0,0), (1,0), (2,0)` entered cell by cell into an empty
universe: a root of level 2. -/
def blinker : GameState :=
  ⟨NodeType.nonleaf (getNullNode 1 0) (getNullNode 1 0) (getNullNode 1 0)
    (NodeType.nonleaf (NodeType.leaf 1 0 1 0) (getNullNode 0 0) (NodeType.leaf 1 0 0 0)
      (getNullNode 0 0)), 0⟩

/-- The blinker turned: the cells `(1,-1), (1,0), (1,1)` in a root of
level 1. -/
def blinkerTurned : GameState :=
  ⟨NodeType.nonleaf (getNullNode 0 0) (getNullNode 0 0) (NodeType.leaf 0 0 0 1)
    (NodeType.leaf 0 0 1 1), 0⟩

/-- The block `(0,0), (1,0), (0,1), (1,1)` in a root of level 1. -/
def block : GameState :=
  ⟨NodeType.nonleaf (getNullNode 0 0) (getNullNode 0 0) (getNullNode 0 0)
    (NodeType.leaf 1 1 1 1), 0⟩

/-! ### The null nodes, the cell accessors and the universe on the store

The `nullNodes` vectors are lists of handles; the copies a `std::vector` makes
of its elements when it grows are not modelled.  Where C++ leaves the order of
evaluation of the arguments of a call open, the arguments are evaluated left
to right. -/

namespace Heap

/-- The statement `if(backgroundType >= nullNodes.size())
nullNodes.resize(backgroundType + 1);` of `getNullNode`. -/
def resizeNullNodes (backgroundType : CellType) : M Unit := fun s =>
  if backgroundType ≥ s.nullNodes.length then
    .ok ((), { s with
      nullNodes := s.nullNodes
        ++ List.replicate (backgroundType + 1 - s.nullNodes.length) [] })
  else .ok ((), s)

/-- A read of `nullNodes[backgroundType][i]`. -/
def readNullNode (backgroundType : CellType) (i : Nat) : M Addr := fun s =>
  match (s.nullNodes.getD backgroundType [])[i]? with
  | none => .error .assertion
  | some a => .ok (a, s)

/-- The statement `nullNodes[backgroundType].push_back(retval)`: a copy of the
handle is constructed at the end of the vector. -/
def pushNullNode (backgroundType : CellType) (retval : Addr) : M Unit :=
  bindM (incRef retval) fun _ => fun s =>
    .ok ((), { s with
      nullNodes := s.nullNodes.set backgroundType
        (s.nullNodes.getD backgroundType [] ++ [retval]) })

/-- The `if`/`else` of the loop body of `getNullNode` for the level `i`, with
`retval` for the handle the variable `retval` holds: the new node replaces it
by a move assignment, the old handle is destroyed with the temporary, before
the parameters of the call and the local `prevNullNode`. -/
def nullNodeStep (cfg : Config) (backgroundType : CellType) (i : Nat) (retval : Option Addr) :
    M Addr :=
  if i = 0 then
    bindM (findOrInsertLeaf cfg backgroundType backgroundType backgroundType backgroundType)
      fun r =>
    bindM (decRefOpt retval) fun _ => ret r
  else
    bindM (readNullNode backgroundType (i - 1)) fun prevNullNode =>
    bindM (incRef prevNullNode) fun _ =>
    bindM (incRef prevNullNode) fun _ =>
    bindM (incRef prevNullNode) fun _ =>
    bindM (incRef prevNullNode) fun _ =>
    bindM (incRef prevNullNode) fun _ =>
    bindM (findOrInsertNonleaf cfg prevNullNode prevNullNode prevNullNode prevNullNode) fun r =>
    bindM (decRefOpt retval) fun _ =>
    bindM (decRef prevNullNode) fun _ =>
    bindM (decRef prevNullNode) fun _ =>
    bindM (decRef prevNullNode) fun _ =>
    bindM (decRef prevNullNode) fun _ =>
    bindM (decRef prevNullNode) fun _ => ret r

/-- The loop `for(size_t i = nullNodes[backgroundType].size(); i <= level;
i++)` of `getNullNode`: `count` iterations are left, the next one is for the
level `i`. -/
def getNullNodeLoop (cfg : Config) (backgroundType : CellType) :
    Nat → Nat → Option Addr → M (Option Addr)
  | 0, _, retval => ret retval
  | count + 1, i, retval =>
    bindM (nullNodeStep cfg backgroundType i retval) fun r =>
    bindM (pushNullNode backgroundType r) fun _ =>
    getNullNodeLoop cfg backgroundType count (i + 1) (some r)

/-- Function `NodeGCHashTable::getNullNode`.  A null result ends the run:
every caller reads through the handle or asserts that it is not null. -/
def getNullNode (cfg : Config) (level : Nat) (backgroundType : CellType) : M Addr :=
  bindM (resizeNullNodes backgroundType) fun _ => fun s =>
    if level < (s.nullNodes.getD backgroundType []).length then
      (bindM (readNullNode backgroundType level) fun r =>
        bindM (incRef r) fun _ => ret r) s
    else
      (bindM (getNullNodeLoop cfg backgroundType
          (level + 1 - (s.nullNodes.getD backgroundType []).length)
          (s.nullNodes.getD backgroundType []).length none) fun retval =>
        match retval with
        | none => fail .assertion
        | some r => ret r) s

/-- The bounds test at the head of `setCellH`, `isInNodeBounds` and
`getCellH`, on the level read from the node. -/
def outOfBounds (level : Nat) (centerX centerY x y : Int) : Bool :=
  let subNodeSize : Int := 2 ^ level
  x < centerX - subNodeSize || x ≥ centerX + subNodeSize
    || y < centerY - subNodeSize || y ≥ centerY + subNodeSize

/-- Function `isInNodeBounds`, without the handle of its parameter `node`. -/
def isInNodeBounds (node : Addr) (centerX centerY x y : Int) : M Bool :=
  bindM (readNode node) fun n => ret (!outOfBounds n.level centerX centerY x y)

/-- A statement `NodeReference child = node->child.nonleaf; return
getCellH(child, ...);` of `getCellH`: the local handle and the copy of it
that is the parameter of the call. -/
def getCellHChild (child : Addr) (f : Addr → M CellType) : M CellType :=
  bindM (incRef child) fun _ =>
  bindM (incRef child) fun _ =>
  bindM (f child) fun r =>
  bindM (decRef child) fun _ =>
  bindM (decRef child) fun _ => ret r

/-- Function `getCellH`, without the handle of its parameter `node`, with a
recursion budget. -/
def getCellHFuel : Nat → Addr → Int → Int → Int → Int → M CellType
  | fuel, node, centerX, centerY, x, y =>
    bindM (readNode node) fun n =>
    if outOfBounds n.level centerX centerY x y then fail .assertion
    else if n.level = 0 then
      if x = centerX - 1 ∧ y = centerY - 1 then ret n.nxny
      else if x = centerX - 1 ∧ y = centerY then ret n.nxpy
      else if x = centerX ∧ y = centerY - 1 then ret n.pxny
      else if x = centerX ∧ y = centerY then ret n.pxpy
      else fail .assertion
    else
      match fuel with
      | 0 => fail .budget
      | fuel + 1 =>
        if x < centerX then
          if y < centerY then
            getCellHChild n.nxny fun c =>
              getCellHFuel fuel c (centerX - 2 ^ n.level / 2) (centerY - 2 ^ n.level / 2) x y
          else
            getCellHChild n.nxpy fun c =>
              getCellHFuel fuel c (centerX - 2 ^ n.level / 2) (centerY + 2 ^ n.level / 2) x y
        else
          if y < centerY then
            getCellHChild n.pxny fun c =>
              getCellHFuel fuel c (centerX + 2 ^ n.level / 2) (centerY - 2 ^ n.level / 2) x y
          else
            getCellHChild n.pxpy fun c =>
              getCellHFuel fuel c (centerX + 2 ^ n.level / 2) (centerY + 2 ^ n.level / 2) x y

/-- Function `getCellH`, without the handle of its parameter `node`: the
budget is the node's level. -/
def getCellH (node : Addr) (centerX centerY x y : Int) : M CellType :=
  bindM (readNode node) fun n => getCellHFuel n.level node centerX centerY x y

/-- The four local handles `nxny`, `nxpy`, `pxny`, `pxpy` of `setCellH`. -/
def setCellHLocals (n : Node) : M Unit :=
  bindM (incRef n.nxny) fun _ =>
  bindM (incRef n.nxpy) fun _ =>
  bindM (incRef n.pxny) fun _ =>
  incRef n.pxpy

/-- A statement `child = setCellH(child, ...);` of `setCellH`: the parameter
is a copy of the local handle, the result replaces the local handle by a move
assignment, and the old handle is destroyed with the temporary, before the
parameter. -/
def setCellHChild (child : Addr) (f : Addr → M Addr) : M Addr :=
  bindM (incRef child) fun _ =>
  bindM (f child) fun r =>
  bindM (decRef child) fun _ =>
  bindM (decRef child) fun _ => ret r

/-- The statement `return gc->findOrInsertNonleaf(nxny, nxpy, pxny, pxpy);` of
`setCellH` and the destruction of the four local handles. -/
def setCellHReturn (cfg : Config) (nxny nxpy pxny pxpy : Addr) : M Addr :=
  bindM (callNonleaf cfg nxny nxpy pxny pxpy) fun r =>
  bindM (decRef pxpy) fun _ =>
  bindM (decRef pxny) fun _ =>
  bindM (decRef nxpy) fun _ =>
  bindM (decRef nxny) fun _ => ret r

/-- Function `setCellH`, without the handle of its parameter `node`, with a
recursion budget. -/
def setCellHFuel (cfg : Config) : Nat → Addr → Int → Int → Int → Int → CellType → M Addr
  | fuel, node, centerX, centerY, x, y, newCell =>
    bindM (readNode node) fun n =>
    if outOfBounds n.level centerX centerY x y then fail .assertion
    else if n.level = 0 then
      if x = centerX - 1 ∧ y = centerY - 1 then findOrInsertLeaf cfg newCell n.nxpy n.pxny n.pxpy
      else if x = centerX - 1 ∧ y = centerY then
        findOrInsertLeaf cfg n.nxny newCell n.pxny n.pxpy
      else if x = centerX ∧ y = centerY - 1 then
        findOrInsertLeaf cfg n.nxny n.nxpy newCell n.pxpy
      else if x = centerX ∧ y = centerY then findOrInsertLeaf cfg n.nxny n.nxpy n.pxny newCell
      else fail .assertion
    else
      match fuel with
      | 0 => fail .budget
      | fuel + 1 =>
        bindM (setCellHLocals n) fun _ =>
        if x < centerX then
          if y < centerY then
            bindM (setCellHChild n.nxny fun c => setCellHFuel cfg fuel c
              (centerX - 2 ^ n.level / 2) (centerY - 2 ^ n.level / 2) x y newCell) fun r =>
            setCellHReturn cfg r n.nxpy n.pxny n.pxpy
          else
            bindM (setCellHChild n.nxpy fun c => setCellHFuel cfg fuel c
              (centerX - 2 ^ n.level / 2) (centerY + 2 ^ n.level / 2) x y newCell) fun r =>
            setCellHReturn cfg n.nxny r n.pxny n.pxpy
        else
          if y < centerY then
            bindM (setCellHChild n.pxny fun c => setCellHFuel cfg fuel c
              (centerX + 2 ^ n.level / 2) (centerY - 2 ^ n.level / 2) x y newCell) fun r =>
            setCellHReturn cfg n.nxny n.nxpy r n.pxpy
          else
            bindM (setCellHChild n.pxpy fun c => setCellHFuel cfg fuel c
              (centerX + 2 ^ n.level / 2) (centerY + 2 ^ n.level / 2) x y newCell) fun r =>
            setCellHReturn cfg n.nxny n.nxpy n.pxny r

/-- Function `setCellH`, without the handle of its parameter `node`: the
budget is the node's level. -/
def setCellH (cfg : Config) (node : Addr) (centerX centerY x y : Int) (newCell : CellType) :
    M Addr :=
  bindM (readNode node) fun n => setCellHFuel cfg n.level node centerX centerY x y newCell

/-- The struct `GameState` on the store: the handle `rootNode` and the
background cell value. -/
structure GameState where
  rootNode : Addr
  backgroundType : CellType
  deriving DecidableEq

namespace GameState

/-- Constructor `GameState(gc, nullptr, backgroundType)`. -/
def new (cfg : Config) (backgroundType : CellType) : M GameState :=
  bindM (getNullNode cfg 0 backgroundType) fun r =>
  ret { rootNode := r, backgroundType := backgroundType }

/-- The `level == 0` branch of `expandRoot`: four leaves, the new root, the
move assignment to `rootNode`, and the destruction of the temporaries in
reverse order of construction. -/
def expandRootLeaf (cfg : Config) (gs : GameState) : M GameState :=
  bindM (readNode gs.rootNode) fun n =>
  bindM (findOrInsertLeaf cfg gs.backgroundType gs.backgroundType gs.backgroundType n.nxny)
    fun a =>
  bindM (readNode gs.rootNode) fun n =>
  bindM (findOrInsertLeaf cfg gs.backgroundType gs.backgroundType n.nxpy gs.backgroundType)
    fun b =>
  bindM (readNode gs.rootNode) fun n =>
  bindM (findOrInsertLeaf cfg gs.backgroundType n.pxny gs.backgroundType gs.backgroundType)
    fun c =>
  bindM (readNode gs.rootNode) fun n =>
  bindM (findOrInsertLeaf cfg n.pxpy gs.backgroundType gs.backgroundType gs.backgroundType)
    fun d =>
  bindM (findOrInsertNonleaf cfg a b c d) fun r =>
  bindM (decRef gs.rootNode) fun _ =>
  bindM (decRef d) fun _ =>
  bindM (decRef c) fun _ =>
  bindM (decRef b) fun _ =>
  bindM (decRef a) fun _ => ret { gs with rootNode := r }

/-- An argument `gc->findOrInsertNonleaf(a, b, c, d)` of the outer call of
`expandRoot`: the four parameters stay until the outer call has returned. -/
def expandRootArg (cfg : Config) (a b c d : Addr) : M Addr :=
  bindM (incRef a) fun _ =>
  bindM (incRef b) fun _ =>
  bindM (incRef c) fun _ =>
  bindM (incRef d) fun _ =>
  findOrInsertNonleaf cfg a b c d

/-- Destruction of an argument of the outer call of `expandRoot` and of its
four parameters. -/
def dropRootArg (r a b c d : Addr) : M Unit :=
  bindM (decRef r) fun _ =>
  bindM (decRef d) fun _ =>
  bindM (decRef c) fun _ =>
  bindM (decRef b) fun _ =>
  decRef a

/-- The `else` branch of `expandRoot`: the local `nullNode`, four nodes of the
root's level, the new root, the move assignment to `rootNode`, the destruction
of the temporaries in reverse order of construction, and the destruction of
`nullNode`. -/
def expandRootNonleaf (cfg : Config) (gs : GameState) : M GameState :=
  bindM (readNode gs.rootNode) fun n =>
  bindM (getNullNode cfg (n.level - 1) gs.backgroundType) fun nullNode =>
  bindM (readNode gs.rootNode) fun n1 =>
  bindM (expandRootArg cfg nullNode nullNode nullNode n1.nxny) fun a =>
  bindM (readNode gs.rootNode) fun n2 =>
  bindM (expandRootArg cfg nullNode nullNode n2.nxpy nullNode) fun b =>
  bindM (readNode gs.rootNode) fun n3 =>
  bindM (expandRootArg cfg nullNode n3.pxny nullNode nullNode) fun c =>
  bindM (readNode gs.rootNode) fun n4 =>
  bindM (expandRootArg cfg n4.pxpy nullNode nullNode nullNode) fun d =>
  bindM (findOrInsertNonleaf cfg a b c d) fun r =>
  bindM (decRef gs.rootNode) fun _ =>
  bindM (dropRootArg d n4.pxpy nullNode nullNode nullNode) fun _ =>
  bindM (dropRootArg c nullNode n3.pxny nullNode nullNode) fun _ =>
  bindM (dropRootArg b nullNode nullNode n2.nxpy nullNode) fun _ =>
  bindM (dropRootArg a nullNode nullNode nullNode n1.nxny) fun _ =>
  bindM (decRef nullNode) fun _ => ret { gs with rootNode := r }

/-- Function `GameState::expandRoot`. -/
def expandRoot (cfg : Config) (gs : GameState) : M GameState :=
  bindM (readNode gs.rootNode) fun n =>
  if n.level = 0 then expandRootLeaf cfg gs else expandRootNonleaf cfg gs

/-- A call `isInNodeBounds(rootNode, 0, 0, x, y)`: the parameter is a copy of
the handle `rootNode`. -/
def rootInBounds (gs : GameState) (x y : Int) : M Bool :=
  bindM (incRef gs.rootNode) fun _ =>
  bindM (isInNodeBounds gs.rootNode 0 0 x y) fun b =>
  bindM (decRef gs.rootNode) fun _ => ret b

/-- The loop `while(!isInNodeBounds(rootNode, 0, 0, x, y)) expandRoot();` of
`setCell`, with an iteration budget. -/
def expandToBounds (cfg : Config) : Nat → GameState → Int → Int → M GameState
  | 0, gs, x, y =>
    bindM (rootInBounds gs x y) fun b => if b then ret gs else fail .budget
  | fuel + 1, gs, x, y =>
    bindM (rootInBounds gs x y) fun b =>
    if b then ret gs
    else bindM (expandRoot cfg gs) fun gs1 => expandToBounds cfg fuel gs1 x y

/-- Function `GameState::setCell`, with the loop budget of the value-level
model: the parameter of `setCellH` is a copy of the handle `rootNode`, the
result replaces `rootNode` by a move assignment, and the old handle is
destroyed with the temporary, before the parameter. -/
def setCell (cfg : Config) (gs : GameState) (x y : Int) (newCell : CellType) : M GameState :=
  bindM (expandToBounds cfg (x.natAbs + y.natAbs + 1) gs x y) fun gs1 =>
  bindM (incRef gs1.rootNode) fun _ =>
  bindM (setCellH cfg gs1.rootNode 0 0 x y newCell) fun r =>
  bindM (decRef gs1.rootNode) fun _ =>
  bindM (decRef gs1.rootNode) fun _ => ret { gs1 with rootNode := r }

/-- Function `GameState::getCell`. -/
def getCell (gs : GameState) (x y : Int) : M CellType :=
  bindM (rootInBounds gs x y) fun b =>
  if !b then ret gs.backgroundType
  else
    bindM (incRef gs.rootNode) fun _ =>
    bindM (getCellH gs.rootNode 0 0 x y) fun c =>
    bindM (decRef gs.rootNode) fun _ => ret c

/-- A read of `rootNode->outer.nonleaf->inner.nonleaf`. -/
def grandchild (root : Addr) (outer inner : Node → Addr) : M Addr :=
  bindM (readNode root) fun n =>
  bindM (readNode (outer n)) fun k => ret (inner k)

/-- The twelve tests `if(rootNode->... != nullNode) return;` of
`checkForContractRoot`: true when none of them returns. -/
def outerRingIsNull (root nullNode : Addr) : M Bool :=
  bindM (grandchild root Node.nxny Node.nxny) fun g =>
  if g ≠ nullNode then ret false else
  bindM (grandchild root Node.nxny Node.nxpy) fun g =>
  if g ≠ nullNode then ret false else
  bindM (grandchild root Node.nxny Node.pxny) fun g =>
  if g ≠ nullNode then ret false else
  bindM (grandchild root Node.nxpy Node.nxny) fun g =>
  if g ≠ nullNode then ret false else
  bindM (grandchild root Node.nxpy Node.nxpy) fun g =>
  if g ≠ nullNode then ret false else
  bindM (grandchild root Node.nxpy Node.pxpy) fun g =>
  if g ≠ nullNode then ret false else
  bindM (grandchild root Node.pxny Node.nxny) fun g =>
  if g ≠ nullNode then ret false else
  bindM (grandchild root Node.pxny Node.pxny) fun g =>
  if g ≠ nullNode then ret false else
  bindM (grandchild root Node.pxny Node.pxpy) fun g =>
  if g ≠ nullNode then ret false else
  bindM (grandchild root Node.pxpy Node.nxpy) fun g =>
  if g ≠ nullNode then ret false else
  bindM (grandchild root Node.pxpy Node.pxny) fun g =>
  if g ≠ nullNode then ret false else
  bindM (grandchild root Node.pxpy Node.pxpy) fun g =>
  if g ≠ nullNode then ret false else ret true

/-- Function `GameState::checkForContractRoot`, with an iteration budget: the
local `nullNode` is destroyed at every `return` and at the end of the loop
body; the centre replaces `rootNode` by a move assignment. -/
def checkForContractRootFuel (cfg : Config) : Nat → GameState → M GameState
  | fuel, gs =>
    bindM (readNode gs.rootNode) fun n =>
    if n.level < 2 then ret gs
    else
      match fuel with
      | 0 => fail .budget
      | fuel + 1 =>
        bindM (getNullNode cfg (n.level - 2) gs.backgroundType) fun nullNode =>
        bindM (outerRingIsNull gs.rootNode nullNode) fun b =>
        if !b then bindM (decRef nullNode) fun _ => ret gs
        else
          bindM (getCenter cfg gs.rootNode) fun c =>
          bindM (decRef gs.rootNode) fun _ =>
          bindM (decRef nullNode) fun _ =>
          checkForContractRootFuel cfg fuel { gs with rootNode := c }

/-- Function `GameState::checkForContractRoot`: the budget is the root's
level. -/
def checkForContractRoot (cfg : Config) (gs : GameState) : M GameState :=
  bindM (readNode gs.rootNode) fun n => checkForContractRootFuel cfg n.level gs

/-- The loop `while(rootNode->level < logStepSize + 1) expandRoot();` of
`step`, with an iteration budget. -/
def expandToLevel (cfg : Config) : Nat → GameState → Nat → M GameState
  | fuel, gs, logStepSize =>
    bindM (readNode gs.rootNode) fun n =>
    if n.level < logStepSize + 1 then
      match fuel with
      | 0 => fail .budget
      | fuel + 1 =>
        bindM (expandRoot cfg gs) fun gs1 => expandToLevel cfg fuel gs1 logStepSize
    else ret gs

/-- The statement `backgroundType = getCellH(gc->getNullNode(rootNode->level,
backgroundType)->getNextState(gc, logStepSize), 0, 0, 0, 0);` of `step`: the
result of `getNextState` is the parameter of `getCellH`. -/
def nextBackground (cfg : Config) (rules : RuleTable) (gs : GameState) (logStepSize : Nat) :
    M CellType :=
  bindM (readNode gs.rootNode) fun n =>
  bindM (getNullNode cfg n.level gs.backgroundType) fun nullNode =>
  bindM (getNextStateStep cfg rules nullNode logStepSize) fun nullNext =>
  bindM (getCellH nullNext 0 0 0 0) fun c =>
  bindM (decRef nullNext) fun _ =>
  bindM (decRef nullNode) fun _ => ret c

/-- Function `GameState::step`, with the loop budget of the value-level
model. -/
def step (cfg : Config) (rules : RuleTable) (gs : GameState) (logStepSize : Nat) :
    M GameState :=
  bindM (expandRoot cfg gs) fun gs1 =>
  bindM (expandRoot cfg gs1) fun gs2 =>
  bindM (expandToLevel cfg (logStepSize + 1) gs2 logStepSize) fun gs3 =>
  bindM (nextBackground cfg rules gs3 logStepSize) fun newBackground =>
  bindM (getNextStateStep cfg rules gs3.rootNode logStepSize) fun r =>
  bindM (decRef gs3.rootNode) fun _ =>
  checkForContractRoot cfg { rootNode := r, backgroundType := newBackground }

end GameState

end Heap
/-! ### What the claims about the engine on the store are stated with -/

/-- The universe `g` on the store holds the universe `gs` of the value level:
with the handles `H` of the running code and the handle `rootNode`, the store
satisfies the invariant of the engine, the root node holds the root quadtree,
and the background values are equal. -/
def Engine.Refines (cfg : Heap.Config) (rules : RuleTable) (s : Heap.NodeGCHashTable)
    (H : List (Heap.Addr × NodeType)) (g : Heap.GameState) (gs : GameState) : Prop :=
  Heap.St cfg rules s ((g.rootNode, gs.rootNode) :: H) ∧ g.backgroundType = gs.backgroundType

namespace Heap

/-- A sequence of calls `getNullNode(level, backgroundType)`, in the order of
the list; the caller destroys each handle before the next call and keeps the
pointers. -/
def getNullNodes (cfg : Config) : List (Nat × CellType) → M (List Addr)
  | [] => ret []
  | q :: qs =>
    bindM (getNullNode cfg q.1 q.2) fun r =>
    bindM (decRef r) fun _ =>
    bindM (getNullNodes cfg qs) fun rs => ret (r :: rs)

/-- Every non-leaf node of the store has four children in the store, each one
level below the node. -/
def LevelsOk (s : NodeGCHashTable) : Prop :=
  ∀ a n, s.memory a = some n → 0 < n.level →
    ∀ k ∈ n.kids, ∃ nk, s.memory k = some nk ∧ nk.level + 1 = n.level

end Heap
/-! ### What the later claims are stated with -/

namespace Heap

/-- The invariant of the next-state cache: for every node of the store whose
cache `nonleaf_nextState` is not empty, the recorded `nextStateLogStep` is
below the level of the node, the cached node is in the store and is one level
lower, and the cached node holds the quadtree that `getNextState(gc,
nextStateLogStep)` computes from the quadtree of the node. -/
def CacheOk (rules : RuleTable) (s : NodeGCHashTable) : Prop :=
  ∀ (a : Addr) (n : Node) (r : Addr), s.memory a = some n → n.nonleaf_nextState = some r →
    n.nextStateLogStep + 1 ≤ n.level
    ∧ (∃ nr, s.memory r = some nr ∧ nr.level + 1 = n.level)
    ∧ ∃ t tr, Repr s.memory a t ∧ t.getNextStateStep rules n.nextStateLogStep = some tr
        ∧ Repr s.memory r tr

end Heap

namespace GameState

/-- The coordinates of the outer ring of the root: inside the root's square
`[-2^level, 2^level)` in both directions, outside the centre square
`[-2^(level-1), 2^(level-1))`.  For a root of level at least 2 these are the
cells of its twelve outer grandchildren. -/
def InOuterRing (gs : GameState) (x y : Int) : Prop :=
  (-2 ^ gs.rootNode.level ≤ x ∧ x < 2 ^ gs.rootNode.level
      ∧ -2 ^ gs.rootNode.level ≤ y ∧ y < 2 ^ gs.rootNode.level)
    ∧ ¬ (-2 ^ (gs.rootNode.level - 1) ≤ x ∧ x < 2 ^ (gs.rootNode.level - 1)
      ∧ -2 ^ (gs.rootNode.level - 1) ≤ y ∧ y < 2 ^ (gs.rootNode.level - 1))

instance (gs : GameState) (x y : Int) : Decidable (gs.InOuterRing x y) := by
  unfold InOuterRing; infer_instance

end GameState

namespace Heap

/-- The example platform with `maxNodeCount = 2`, so that `startGCNodeCount`
is 1 and a call of `onAllocate` on a store of two nodes runs the collector. -/
def smallConfig : Config :=
  { hashPrime := 5, maxNodeCount := 2, hashCell := fun c => c, hashPtr := fun a => a,
    alloc := allocAbove 5 }

/-- What the frame examples look at after an interning call: the node
returned and the five bucket chains. -/
def observeCall (r : Except Failure (Addr × NodeGCHashTable)) : Option (Addr × List (List Addr)) :=
  match r with
  | .ok (a, s) => some (a, (List.range 5).map s.table)
  | .error _ => none

/-- What the search loop of an interning call that returns `r` does to the
bucket chains of the store `s1` it starts from: the chains of the other
buckets are unchanged, and in the bucket `hash` either `r` was linked (a hit)
and is now at the head of the chain, which holds the same nodes as before, or
`r` is a new object (a miss) linked in front of the unchanged chain. -/
def FrameOk (hash : Nat) (s1 : NodeGCHashTable) (r : Addr) (s2 : NodeGCHashTable) : Prop :=
  (∀ j, j ≠ hash → s2.table j = s1.table j)
  ∧ ((r ∈ s1.table hash ∧ (∃ n, s1.memory r = some n)
        ∧ s2.table hash = r :: (s1.table hash).erase r
        ∧ (s2.table hash).Perm (s1.table hash))
      ∨ (r ∉ s1.table hash ∧ s1.memory r = none ∧ s2.table hash = r :: s1.table hash))

end Heap

/-! ## The class `NodeReference`: reference counts -/

namespace NodeReference

/-- The reference counts and the handles: the member `refcount`
(`atomic_uint_least8_t`) of every node object, the member `node` of every
`NodeReference` object alive (`none` is `nullptr`; the objects matter only
through their targets), and per node the number of pointers `detach()` handed
out minus the number of pointers passed to `attach()`. -/
structure State where
  refcount : Heap.Addr → Nat
  handles : List (Option Heap.Addr)
  balance : Heap.Addr → Int

/-- No handle, every counter 0. -/
def State.init : State := { refcount := fun _ => 0, handles := [], balance := fun _ => 0 }

/-- Function `NodeReference::incRefCount`: `node->refcount++` on the 8-bit
counter. -/
def incRefCount (node : Heap.Addr) (s : State) : State :=
  { s with refcount := fun x => if x = node then (s.refcount x + 1) % 256 else s.refcount x }

/-- Function `NodeReference::decRefCount`: `node->refcount--` on the 8-bit
counter. -/
def decRefCount (node : Heap.Addr) (s : State) : State :=
  { s with refcount := fun x => if x = node then (s.refcount x + 255) % 256 else s.refcount x }

/-- The guarded call `if(node != nullptr) incRefCount();`. -/
def incIfSet (node : Option Heap.Addr) (s : State) : State :=
  match node with
  | none => s
  | some a => incRefCount a s

/-- The guarded call `if(node != nullptr) decRefCount();`. -/
def decIfSet (node : Option Heap.Addr) (s : State) : State :=
  match node with
  | none => s
  | some a => decRefCount a s

/-- One more pointer handed out by `detach()` (`d = 1`) or taken back by
`attach()` (`d = -1`). -/
def bump (node : Option Heap.Addr) (d : Int) (s : State) : State :=
  match node with
  | none => s
  | some a => { s with balance := fun x => if x = a then s.balance x + d else s.balance x }

/-- Constructor `NodeReference(const NodeType *node)`. -/
def new (node : Option Heap.Addr) (s : State) : State :=
  incIfSet node { s with handles := node :: s.handles }

/-- Copy constructor `NodeReference(const NodeReference &rt)`, `rt` a handle
with the target `rt`. -/
def copy (rt : Option Heap.Addr) (s : State) : Option State :=
  if rt ∈ s.handles then some (new rt s) else none

/-- Move constructor `NodeReference(NodeReference &&rt)`: the new handle
takes the target, `rt` is left with `nullptr`. -/
def move (rt : Option Heap.Addr) (s : State) : Option State :=
  if rt ∈ s.handles then some { s with handles := rt :: none :: s.handles.erase rt } else none

/-- Copy assignment `operator =(const NodeReference &rt)` to a handle with
the target `this`. -/
def assign (this rt : Option Heap.Addr) (s : State) : Option State :=
  if this ∈ s.handles ∧ rt ∈ s.handles then
    if rt = this then some s
    else some (incIfSet rt (decIfSet this { s with handles := rt :: s.handles.erase this }))
  else none

/-- Move assignment `operator =(NodeReference &&rt)`: the two handles swap
their targets. -/
def moveAssign (this rt : Option Heap.Addr) (s : State) : Option State :=
  if this ∈ s.handles ∧ rt ∈ s.handles then some s else none

/-- Destructor `~NodeReference()` of a handle with the target `this`. -/
def destroy (this : Option Heap.Addr) (s : State) : Option State :=
  if this ∈ s.handles then some (decIfSet this { s with handles := s.handles.erase this })
  else none

/-- Function `detach()`: the handle is left with `nullptr`, the count is not
changed, the pointer is handed out. -/
def detach (this : Option Heap.Addr) (s : State) : Option State :=
  if this ∈ s.handles then
    some (bump this 1 { s with handles := none :: s.handles.erase this })
  else none

/-- Function `attach(node)`: a new handle, the count is not changed. -/
def attach (node : Option Heap.Addr) (s : State) : State :=
  bump node (-1) { s with handles := node :: s.handles }

/-- The operations of the class. -/
inductive Op where
  | new (node : Option Heap.Addr)
  | copy (rt : Option Heap.Addr)
  | move (rt : Option Heap.Addr)
  | assign (this rt : Option Heap.Addr)
  | moveAssign (this rt : Option Heap.Addr)
  | destroy (this : Option Heap.Addr)
  | detach (this : Option Heap.Addr)
  | attach (node : Option Heap.Addr)
  deriving DecidableEq

/-- One operation; `none` when it names a handle that does not exist. -/
def Op.apply : Op → State → Option State
  | Op.new node, s => some (NodeReference.new node s)
  | Op.copy rt, s => NodeReference.copy rt s
  | Op.move rt, s => NodeReference.move rt s
  | Op.assign this rt, s => NodeReference.assign this rt s
  | Op.moveAssign this rt, s => NodeReference.moveAssign this rt s
  | Op.destroy this, s => NodeReference.destroy this s
  | Op.detach this, s => NodeReference.detach this s
  | Op.attach node, s => some (NodeReference.attach node s)

/-- A sequence of operations. -/
def run : List Op → State → Option State
  | [], s => some s
  | op :: ops, s =>
    match op.apply s with
    | none => none
    | some s1 => run ops s1

/-- The number of handles alive that point at the node `a`. -/
def State.live (s : State) (a : Heap.Addr) : Nat := s.handles.count (some a)

/-- The accounting that holds on the code: every count is the number of
handles to the node plus the pointers handed out by `detach()` and not taken
back by `attach()`, modulo 256. -/
def State.Accounted (s : State) : Prop :=
  ∀ a : Heap.Addr, (s.refcount a : Int) = ((s.live a : Int) + s.balance a) % 256

/-- What the examples look at: the count of the node `a`, the number of
handles to it, and the pointers to it handed out and not taken back. -/
def observe (r : Option State) (a : Heap.Addr) : Option (Nat × Nat × Int) :=
  r.map fun s => (s.refcount a, s.live a, s.balance a)

/-- Example: a handle is constructed, copied, moved from, and the handle
left with `nullptr` is destroyed. -/
def exampleOps : List Op := [Op.new (some 1), Op.copy (some 1), Op.move (some 1), Op.destroy none]

/-- The state after `exampleOps`. -/
def exampleState : State := (run exampleOps State.init).getD State.init

end NodeReference

/-! ## Function `readRLE`: the two-character tokens -/

/-- The cell value `readRLE` passes to `setCell` for the two-character token
`ch1 ch2` of the branches `ch == 'p'`, `ch >= 'q' && ch < 'y'` and
`ch == 'y'`; `none` where the function reports `read failed` (or where `ch1`
starts no such token). -/
def readRLEToken (ch1 ch2 : Char) : Option CellType :=
  if ch1 = 'p' then
    if 'A' ≤ ch2 ∧ ch2 ≤ 'X' then some (25 + (ch2.toNat - 'A'.toNat)) else none
  else if 'q' ≤ ch1 ∧ ch1 < 'y' then
    if 'A' ≤ ch2 ∧ ch2 ≤ 'Z' then
      some (49 + 26 * (ch1.toNat - 'q'.toNat) + (ch2.toNat - 'A'.toNat))
    else none
  else if ch1 = 'y' then
    if 'A' ≤ ch2 ∧ ch2 ≤ 'O' then some (241 + (ch2.toNat - 'A'.toNat)) else none
  else none


/-! # Properties

## Rule table and `eval` -/



theorem clearRules_binary : clearRules.Binary := fun _ _ => Or.inl rfl

theorem RuleTable.set_one_binary {rules : RuleTable} (h : rules.Binary) (row : Fin 2) (n : Fin 9) :
    (rules.set row n 1).Binary := by
  intro i j
  unfold RuleTable.set
  split
  · exact Or.inr rfl
  · exact h i j

theorem setLifeRules_binary : setLifeRules.Binary :=
  RuleTable.set_one_binary (RuleTable.set_one_binary (RuleTable.set_one_binary clearRules_binary _ _) _ _) _ _

theorem parseRulesLoop_binary (s : List Char) :
    ∀ (gotB gotSlash gotS : Bool) (rules : RuleTable), rules.Binary →
      (parseRulesLoop s gotB gotSlash gotS rules).2.Binary := by
  induction s with
  | nil => intro _ _ _ rules h; simpa [parseRulesLoop] using h
  | cons ch rest ih =>
    intro gotB gotSlash gotS rules h
    unfold parseRulesLoop
    split_ifs <;> first | exact h | exact ih _ _ _ _ h | exact ih _ _ _ _ (RuleTable.set_one_binary h _ _)

theorem RuleTable.Written.binary {rules : RuleTable} (h : rules.Written) : rules.Binary := by
  cases h with
  | clear => exact clearRules_binary
  | life => exact setLifeRules_binary
  | parse s => exact parseRulesLoop_binary _ _ _ _ _ clearRules_binary

theorem neighbourCount_val (nxny nxcy nxpy cxny cxpy pxny pxcy pxpy : CellType) :
    (neighbourCount nxny nxcy nxpy cxny cxpy pxny pxcy pxpy).val
      = ([nxny, nxcy, nxpy, cxny, cxpy, pxny, pxcy, pxpy].filter fun c => decide (c ≠ 0)).length := by
  have key : ∀ (c : CellType) (l : List CellType),
      ((c :: l).filter fun c => decide (c ≠ 0)).length
        = (if c ≠ 0 then 1 else 0) + (l.filter fun c => decide (c ≠ 0)).length := by
    intro c l
    by_cases h : c = 0 <;> simp [List.filter_cons, h, Nat.add_comm]
  simp only [neighbourCount, key, List.filter_nil, List.length_nil]
  omega

/-- C10. With `n` the number of non-zero cells among the eight neighbours
(the centre not counted), `eval` is non-zero exactly when the centre is
non-zero and `survive[n]` is set or the centre is zero and `birth[n]` is set,
and it is 0 otherwise; for a table written by the program a born cell is 1. -/
theorem eval_spec (rules : RuleTable) (hw : rules.Written)
    (nxny nxcy nxpy cxny cxcy cxpy pxny pxcy pxpy : CellType) :
    ∃ n : Fin 9,
      n.val = ([nxny, nxcy, nxpy, cxny, cxpy, pxny, pxcy, pxpy].filter
        fun c => decide (c ≠ 0)).length
      ∧ (eval rules nxny nxcy nxpy cxny cxcy cxpy pxny pxcy pxpy ≠ 0
          ↔ (cxcy ≠ 0 ∧ rules 1 n ≠ 0) ∨ (cxcy = 0 ∧ rules 0 n ≠ 0))
      ∧ (¬ ((cxcy ≠ 0 ∧ rules 1 n ≠ 0) ∨ (cxcy = 0 ∧ rules 0 n ≠ 0))
          → eval rules nxny nxcy nxpy cxny cxcy cxpy pxny pxcy pxpy = 0)
      ∧ (cxcy = 0 → rules 0 n ≠ 0
          → eval rules nxny nxcy nxpy cxny cxcy cxpy pxny pxcy pxpy = 1) := by
  refine ⟨neighbourCount nxny nxcy nxpy cxny cxpy pxny pxcy pxpy, neighbourCount_val _ _ _ _ _ _ _ _, ?_, ?_, ?_⟩
  · unfold eval
    by_cases hc : cxcy = 0 <;> simp [hc]
  · unfold eval
    by_cases hc : cxcy = 0 <;> simp [hc]
  · intro hc hb
    unfold eval
    simp only [hc, ne_eq, not_true_eq_false, if_false]
    rcases hw.binary 0 (neighbourCount nxny nxcy nxpy cxny cxpy pxny pxcy pxpy) with h | h
    · exact absurd h hb
    · exact h

theorem eval_spec_witness :
    setLifeRules.Written ∧ ∃ n : Fin 9,
      n.val = ([1, 0, 1, 0, 0, 2, 0, 0].filter fun c => decide (c ≠ 0)).length
      ∧ (eval setLifeRules 1 0 1 0 0 0 2 0 0 ≠ 0
          ↔ ((0 : CellType) ≠ 0 ∧ setLifeRules 1 n ≠ 0) ∨ ((0 : CellType) = 0 ∧ setLifeRules 0 n ≠ 0))
      ∧ (¬ (((0 : CellType) ≠ 0 ∧ setLifeRules 1 n ≠ 0) ∨ ((0 : CellType) = 0 ∧ setLifeRules 0 n ≠ 0))
          → eval setLifeRules 1 0 1 0 0 0 2 0 0 = 0)
      ∧ ((0 : CellType) = 0 → setLifeRules 0 n ≠ 0 → eval setLifeRules 1 0 1 0 0 0 2 0 0 = 1) :=
  ⟨RuleTable.Written.life, eval_spec setLifeRules RuleTable.Written.life 1 0 1 0 0 0 2 0 0⟩

/-! ## Nodes and the grid they hold -/

namespace NodeType

@[simp]
theorem level_leaf (a b c d : CellType) : (leaf a b c d).level = 0 := rfl

@[simp]
theorem level_nonleaf (a b c d : NodeType) : (nonleaf a b c d).level = 1 + a.level := rfl

theorem wellFormed_nonleaf {a b c d : NodeType} :
    (nonleaf a b c d).WellFormed ↔ a.WellFormed ∧ b.WellFormed ∧ c.WellFormed ∧ d.WellFormed
      ∧ b.level = a.level ∧ c.level = a.level ∧ d.level = a.level := Iff.rfl

theorem eq_leaf_of_level_zero {n : NodeType} (h : n.level = 0) :
    ∃ a b c d, n = leaf a b c d := by
  cases n with
  | leaf a b c d => exact ⟨a, b, c, d, rfl⟩
  | nonleaf a b c d => simp at h

theorem eq_nonleaf_of_level_succ {n : NodeType} {L : Nat} (h : n.level = L + 1) :
    ∃ a b c d, n = nonleaf a b c d ∧ a.level = L := by
  cases n with
  | leaf a b c d => simp at h
  | nonleaf a b c d => exact ⟨a, b, c, d, rfl, by simp at h; omega⟩

theorem Agrees.recenter {n : NodeType} {cx cy cx1 cy1 : Int} {g : Grid}
    (h : n.Agrees cx cy g) (hx : cx = cx1) (hy : cy = cy1) : n.Agrees cx1 cy1 g := by
  subst hx; subst hy; exact h

theorem agrees_leaf (a b c d : CellType) (cx cy : Int) (g : Grid) :
    (leaf a b c d).Agrees cx cy g
      ↔ g (cx - 1) (cy - 1) = a ∧ g (cx - 1) cy = b ∧ g cx (cy - 1) = c ∧ g cx cy = d := by
  have e1 : ¬ (cx = cx - 1) := by omega
  have e2 : ¬ (cy = cy - 1) := by omega
  constructor
  · intro h
    have h1 := h (cx - 1) (cy - 1) (by simp) (by simp; omega) (by simp) (by simp; omega)
    have h2 := h (cx - 1) cy (by simp) (by simp; omega) (by simp) (by simp)
    have h3 := h cx (cy - 1) (by simp) (by simp) (by simp) (by simp; omega)
    have h4 := h cx cy (by simp) (by simp) (by simp) (by simp)
    simp only [getCellH, and_self, if_true, e1, e2, and_false, false_and, if_false, true_and,
      and_true, Option.some.injEq] at h1 h2 h3 h4
    exact ⟨h1.symm, h2.symm, h3.symm, h4.symm⟩
  · rintro ⟨h1, h2, h3, h4⟩ x y hx1 hx2 hy1 hy2
    simp only [level_leaf, pow_zero] at hx1 hx2 hy1 hy2
    have hx : x = cx - 1 ∨ x = cx := by omega
    have hy : y = cy - 1 ∨ y = cy := by omega
    rcases hx with hx | hx <;> rcases hy with hy | hy <;> subst hx <;> subst hy <;>
      simp only [getCellH, and_self, if_true, e1, e2, and_false, false_and, if_false, true_and,
        and_true, h1, h2, h3, h4]

theorem getCellH_nonleaf (a b c d : NodeType) (cx cy x y : Int)
    (hx1 : cx - 2 * 2 ^ a.level ≤ x) (hx2 : x < cx + 2 * 2 ^ a.level)
    (hy1 : cy - 2 * 2 ^ a.level ≤ y) (hy2 : y < cy + 2 * 2 ^ a.level) :
    getCellH (nonleaf a b c d) cx cy x y =
      if x < cx then
        if y < cy then getCellH a (cx - 2 ^ a.level) (cy - 2 ^ a.level) x y
        else getCellH b (cx - 2 ^ a.level) (cy + 2 ^ a.level) x y
      else
        if y < cy then getCellH c (cx + 2 ^ a.level) (cy - 2 ^ a.level) x y
        else getCellH d (cx + 2 ^ a.level) (cy + 2 ^ a.level) x y := by
  have hp : (2 : Int) ^ (1 + a.level) = 2 * 2 ^ a.level := by rw [pow_add, pow_one]
  have hh : (2 * 2 ^ a.level : Int) / 2 = 2 ^ a.level := by
    rw [Int.mul_ediv_cancel_left _ (by norm_num)]
  have hb : ¬ (x < cx - 2 * 2 ^ a.level ∨ x ≥ cx + 2 * 2 ^ a.level
      ∨ y < cy - 2 * 2 ^ a.level ∨ y ≥ cy + 2 * 2 ^ a.level) := by omega
  rw [getCellH]
  simp only [level_nonleaf, hp, hh, hb, if_false]

theorem agrees_nonleaf {a b c d : NodeType} (hb : b.level = a.level) (hc : c.level = a.level)
    (hd : d.level = a.level) (cx cy : Int) (g : Grid) :
    (nonleaf a b c d).Agrees cx cy g
      ↔ a.Agrees (cx - 2 ^ a.level) (cy - 2 ^ a.level) g
        ∧ b.Agrees (cx - 2 ^ a.level) (cy + 2 ^ a.level) g
        ∧ c.Agrees (cx + 2 ^ a.level) (cy - 2 ^ a.level) g
        ∧ d.Agrees (cx + 2 ^ a.level) (cy + 2 ^ a.level) g := by
  have hp : (2 : Int) ^ (1 + a.level) = 2 * 2 ^ a.level := by rw [pow_add, pow_one]
  have hpos : (0 : Int) < 2 ^ a.level := by positivity
  constructor
  · intro h
    refine ⟨?_, ?_, ?_, ?_⟩
    · intro x y hx1 hx2 hy1 hy2
      have := h x y (by rw [level_nonleaf, hp]; omega) (by rw [level_nonleaf, hp]; omega)
        (by rw [level_nonleaf, hp]; omega) (by rw [level_nonleaf, hp]; omega)
      rw [getCellH_nonleaf _ _ _ _ _ _ _ _ (by omega) (by omega) (by omega) (by omega)] at this
      rwa [if_pos (by omega), if_pos (by omega)] at this
    · intro x y hx1 hx2 hy1 hy2
      rw [hb] at hx1 hx2 hy1 hy2
      have := h x y (by rw [level_nonleaf, hp]; omega) (by rw [level_nonleaf, hp]; omega)
        (by rw [level_nonleaf, hp]; omega) (by rw [level_nonleaf, hp]; omega)
      rw [getCellH_nonleaf _ _ _ _ _ _ _ _ (by omega) (by omega) (by omega) (by omega)] at this
      rwa [if_pos (by omega), if_neg (by omega)] at this
    · intro x y hx1 hx2 hy1 hy2
      rw [hc] at hx1 hx2 hy1 hy2
      have := h x y (by rw [level_nonleaf, hp]; omega) (by rw [level_nonleaf, hp]; omega)
        (by rw [level_nonleaf, hp]; omega) (by rw [level_nonleaf, hp]; omega)
      rw [getCellH_nonleaf _ _ _ _ _ _ _ _ (by omega) (by omega) (by omega) (by omega)] at this
      rwa [if_neg (by omega), if_pos (by omega)] at this
    · intro x y hx1 hx2 hy1 hy2
      rw [hd] at hx1 hx2 hy1 hy2
      have := h x y (by rw [level_nonleaf, hp]; omega) (by rw [level_nonleaf, hp]; omega)
        (by rw [level_nonleaf, hp]; omega) (by rw [level_nonleaf, hp]; omega)
      rw [getCellH_nonleaf _ _ _ _ _ _ _ _ (by omega) (by omega) (by omega) (by omega)] at this
      rwa [if_neg (by omega), if_neg (by omega)] at this
  · rintro ⟨ha, hb1, hc1, hd1⟩ x y hx1 hx2 hy1 hy2
    rw [level_nonleaf, hp] at hx1 hx2 hy1 hy2
    rw [getCellH_nonleaf _ _ _ _ _ _ _ _ hx1 hx2 hy1 hy2]
    by_cases hx : x < cx <;> by_cases hy : y < cy
    · rw [if_pos hx, if_pos hy]; exact ha x y (by omega) (by omega) (by omega) (by omega)
    · rw [if_pos hx, if_neg hy]
      exact hb1 x y (by rw [hb]; omega) (by rw [hb]; omega) (by rw [hb]; omega) (by rw [hb]; omega)
    · rw [if_neg hx, if_pos hy]
      exact hc1 x y (by rw [hc]; omega) (by rw [hc]; omega) (by rw [hc]; omega) (by rw [hc]; omega)
    · rw [if_neg hx, if_neg hy]
      exact hd1 x y (by rw [hd]; omega) (by rw [hd]; omega) (by rw [hd]; omega) (by rw [hd]; omega)

/-- Form of `agrees_nonleaf` with the common child level named. -/
theorem agrees_four {p q r s : NodeType} {L : Nat} (hp : p.level = L) (hq : q.level = L)
    (hr : r.level = L) (hs : s.level = L) (X Y : Int) (g : Grid) :
    (nonleaf p q r s).Agrees X Y g
      ↔ p.Agrees (X - 2 ^ L) (Y - 2 ^ L) g ∧ q.Agrees (X - 2 ^ L) (Y + 2 ^ L) g
        ∧ r.Agrees (X + 2 ^ L) (Y - 2 ^ L) g ∧ s.Agrees (X + 2 ^ L) (Y + 2 ^ L) g := by
  rw [agrees_nonleaf (by rw [hp, hq]) (by rw [hp, hr]) (by rw [hp, hs]), hp]

theorem wellFormed_four {p q r s : NodeType} {L : Nat} (wp : p.WellFormed) (wq : q.WellFormed)
    (wr : r.WellFormed) (ws : s.WellFormed) (hp : p.level = L) (hq : q.level = L)
    (hr : r.level = L) (hs : s.level = L) :
    (nonleaf p q r s).WellFormed ∧ (nonleaf p q r s).level = L + 1 :=
  ⟨⟨wp, wq, wr, ws, by rw [hp, hq], by rw [hp, hr], by rw [hp, hs]⟩, by rw [level_nonleaf, hp, Nat.add_comm]⟩

/-- A well-formed node of level `L + 1` is four well-formed nodes of level `L`. -/
theorem wellFormed_split {n : NodeType} {L : Nat} (w : n.WellFormed) (h : n.level = L + 1) :
    ∃ p q r s, n = nonleaf p q r s ∧ p.WellFormed ∧ q.WellFormed ∧ r.WellFormed ∧ s.WellFormed
      ∧ p.level = L ∧ q.level = L ∧ r.level = L ∧ s.level = L := by
  obtain ⟨p, q, r, s, rfl, hp⟩ := eq_nonleaf_of_level_succ h
  obtain ⟨wp, wq, wr, ws, hq, hr, hs⟩ := w
  exact ⟨p, q, r, s, rfl, wp, wq, wr, ws, hp, by rw [hq, hp], by rw [hr, hp], by rw [hs, hp]⟩

end NodeType

theorem naiveSteps_add (rules : RuleTable) (a b : Nat) (g : Grid) :
    naiveSteps rules (a + b) g = naiveSteps rules b (naiveSteps rules a g) := by
  induction a generalizing g with
  | zero => simp [naiveSteps]
  | succ a ih => rw [Nat.add_right_comm, naiveSteps, ih, naiveSteps]

namespace NodeType

theorem getNextStateFuel_level_one (rules : RuleTable) {n : NodeType} (w : n.WellFormed)
    (hl : n.level = 1) (cx cy : Int) (g : Grid) (h : n.Agrees cx cy g) (fuel : Nat) :
    ∃ r, getNextStateFuel rules (fuel + 1) n = some r ∧ r.WellFormed ∧ r.level = 0
      ∧ r.Agrees cx cy (naiveStep rules g) := by
  obtain ⟨a, b, c, d, rfl, wa, wb, wc, wd, la, lb, lc, ld⟩ := wellFormed_split w hl
  obtain ⟨a0, a1, a2, a3, rfl⟩ := eq_leaf_of_level_zero la
  obtain ⟨b0, b1, b2, b3, rfl⟩ := eq_leaf_of_level_zero lb
  obtain ⟨c0, c1, c2, c3, rfl⟩ := eq_leaf_of_level_zero lc
  obtain ⟨d0, d1, d2, d3, rfl⟩ := eq_leaf_of_level_zero ld
  rw [agrees_four la lb lc ld] at h
  simp only [agrees_leaf, pow_zero] at h
  obtain ⟨⟨h1, h2, h3, h4⟩, ⟨h5, h6, h7, h8⟩, ⟨h9, h10, h11, h12⟩, h13, h14, h15, h16⟩ := h
  refine ⟨leaf (eval rules a0 a1 b0 a2 a3 b2 c0 c1 d0) (eval rules a1 b0 b1 a3 b2 b3 c1 d0 d1)
      (eval rules a2 a3 b2 c0 c1 d0 c2 c3 d2) (eval rules a3 b2 b3 c1 d0 d1 c3 d2 d3),
    by rw [getNextStateFuel], trivial, rfl, ?_⟩
  rw [agrees_leaf]
  subst h1 h2 h3 h4 h5 h6 h7 h8 h9 h10 h11 h12 h13 h14 h15 h16
  simp only [naiveStep]
  refine ⟨?_, ?_, ?_, ?_⟩ <;> ring_nf


theorem Holds.shift {n : NodeType} {L : Nat} {cx cy cx1 cy1 : Int} {g : Grid}
    (h : n.Holds L cx cy g) (hx : cx = cx1) (hy : cy = cy1) : n.Holds L cx1 cy1 g := by
  subst hx; subst hy; exact h

theorem holds_four {p q r s : NodeType} {L : Nat} {X Y : Int} {g : Grid}
    (hp : p.Holds L (X - 2 ^ L) (Y - 2 ^ L) g) (hq : q.Holds L (X - 2 ^ L) (Y + 2 ^ L) g)
    (hr : r.Holds L (X + 2 ^ L) (Y - 2 ^ L) g) (hs : s.Holds L (X + 2 ^ L) (Y + 2 ^ L) g) :
    (nonleaf p q r s).Holds (L + 1) X Y g :=
  ⟨(wellFormed_four hp.1 hq.1 hr.1 hs.1 hp.2.1 hq.2.1 hr.2.1 hs.2.1).1,
    (wellFormed_four hp.1 hq.1 hr.1 hs.1 hp.2.1 hq.2.1 hr.2.1 hs.2.1).2,
    (agrees_four hp.2.1 hq.2.1 hr.2.1 hs.2.1 X Y g).2 ⟨hp.2.2, hq.2.2, hr.2.2, hs.2.2⟩⟩

theorem holds_split {n : NodeType} {L : Nat} {X Y : Int} {g : Grid} (h : n.Holds (L + 1) X Y g) :
    ∃ p q r s, n = nonleaf p q r s ∧ p.Holds L (X - 2 ^ L) (Y - 2 ^ L) g
      ∧ q.Holds L (X - 2 ^ L) (Y + 2 ^ L) g ∧ r.Holds L (X + 2 ^ L) (Y - 2 ^ L) g
      ∧ s.Holds L (X + 2 ^ L) (Y + 2 ^ L) g := by
  obtain ⟨w, hl, ha⟩ := h
  obtain ⟨p, q, r, s, rfl, wp, wq, wr, ws, lp, lq, lr, ls⟩ := wellFormed_split w hl
  obtain ⟨ap, aq, ar, as⟩ := (agrees_four lp lq lr ls X Y g).1 ha
  exact ⟨p, q, r, s, rfl, ⟨wp, lp, ap⟩, ⟨wq, lq, aq⟩, ⟨wr, lr, ar⟩, ⟨ws, ls, as⟩⟩

/-- The sixteen grandchildren of a node of level `L + 2`, with their centres. -/
theorem holds_split_two {n : NodeType} {L : Nat} {X Y : Int} {g : Grid}
    (h : n.Holds (L + 2) X Y g) :
    ∃ a0 a1 a2 a3 b0 b1 b2 b3 c0 c1 c2 c3 d0 d1 d2 d3,
      n = nonleaf (nonleaf a0 a1 a2 a3) (nonleaf b0 b1 b2 b3) (nonleaf c0 c1 c2 c3)
        (nonleaf d0 d1 d2 d3)
      ∧ a0.Holds L (X - 3 * 2 ^ L) (Y - 3 * 2 ^ L) g ∧ a1.Holds L (X - 3 * 2 ^ L) (Y - 2 ^ L) g
      ∧ a2.Holds L (X - 2 ^ L) (Y - 3 * 2 ^ L) g ∧ a3.Holds L (X - 2 ^ L) (Y - 2 ^ L) g
      ∧ b0.Holds L (X - 3 * 2 ^ L) (Y + 2 ^ L) g ∧ b1.Holds L (X - 3 * 2 ^ L) (Y + 3 * 2 ^ L) g
      ∧ b2.Holds L (X - 2 ^ L) (Y + 2 ^ L) g ∧ b3.Holds L (X - 2 ^ L) (Y + 3 * 2 ^ L) g
      ∧ c0.Holds L (X + 2 ^ L) (Y - 3 * 2 ^ L) g ∧ c1.Holds L (X + 2 ^ L) (Y - 2 ^ L) g
      ∧ c2.Holds L (X + 3 * 2 ^ L) (Y - 3 * 2 ^ L) g ∧ c3.Holds L (X + 3 * 2 ^ L) (Y - 2 ^ L) g
      ∧ d0.Holds L (X + 2 ^ L) (Y + 2 ^ L) g ∧ d1.Holds L (X + 2 ^ L) (Y + 3 * 2 ^ L) g
      ∧ d2.Holds L (X + 3 * 2 ^ L) (Y + 2 ^ L) g ∧ d3.Holds L (X + 3 * 2 ^ L) (Y + 3 * 2 ^ L) g := by
  have hP : (2 : Int) ^ (L + 1) = 2 * 2 ^ L := by rw [pow_succ]; ring
  obtain ⟨a, b, c, d, rfl, ha, hb, hc, hd⟩ := holds_split h
  obtain ⟨a0, a1, a2, a3, rfl, ha0, ha1, ha2, ha3⟩ := holds_split ha
  obtain ⟨b0, b1, b2, b3, rfl, hb0, hb1, hb2, hb3⟩ := holds_split hb
  obtain ⟨c0, c1, c2, c3, rfl, hc0, hc1, hc2, hc3⟩ := holds_split hc
  obtain ⟨d0, d1, d2, d3, rfl, hd0, hd1, hd2, hd3⟩ := holds_split hd
  exact ⟨a0, a1, a2, a3, b0, b1, b2, b3, c0, c1, c2, c3, d0, d1, d2, d3, rfl,
    ha0.shift (by omega) (by omega), ha1.shift (by omega) (by omega),
    ha2.shift (by omega) (by omega), ha3.shift (by omega) (by omega),
    hb0.shift (by omega) (by omega), hb1.shift (by omega) (by omega),
    hb2.shift (by omega) (by omega), hb3.shift (by omega) (by omega),
    hc0.shift (by omega) (by omega), hc1.shift (by omega) (by omega),
    hc2.shift (by omega) (by omega), hc3.shift (by omega) (by omega),
    hd0.shift (by omega) (by omega), hd1.shift (by omega) (by omega),
    hd2.shift (by omega) (by omega), hd3.shift (by omega) (by omega)⟩

/-- Correctness of the full-speed recursion: the result of `getNextStateFuel`
on a node of level `L + 1` holds the centre square after `2 ^ L` generations. -/
theorem getNextStateFuel_holds (rules : RuleTable) :
    ∀ (L : Nat) (n : NodeType) (cx cy : Int) (g : Grid), n.Holds (L + 1) cx cy g →
      ∃ r, getNextStateFuel rules (L + 1) n = some r
        ∧ r.Holds L cx cy (naiveSteps rules (2 ^ L) g) := by
  intro L
  induction L with
  | zero =>
    intro n cx cy g h
    obtain ⟨r, e, w, l, a⟩ := getNextStateFuel_level_one rules h.1 h.2.1 cx cy g h.2.2 0
    exact ⟨r, e, w, l, a⟩
  | succ L ih =>
    intro n cx cy g h
    have hP : (2 : Int) ^ (L + 1) = 2 * 2 ^ L := by rw [pow_succ]; ring
    obtain ⟨a0, a1, a2, a3, b0, b1, b2, b3, c0, c1, c2, c3, d0, d1, d2, d3, rfl,
      ha0, ha1, ha2, ha3, hb0, hb1, hb2, hb3, hc0, hc1, hc2, hc3, hd0, hd1, hd2, hd3⟩ :=
      holds_split_two h
    -- the nine overlapping subnodes
    obtain ⟨s1, e1, k1⟩ := ih (nonleaf a0 a1 a2 a3) (cx - 2 ^ (L + 1)) (cy - 2 ^ (L + 1)) g
      (holds_four (ha0.shift (by omega) (by omega)) (ha1.shift (by omega) (by omega))
        (ha2.shift (by omega) (by omega)) (ha3.shift (by omega) (by omega)))
    obtain ⟨s2, e2, k2⟩ := ih (nonleaf b0 b1 b2 b3) (cx - 2 ^ (L + 1)) (cy + 2 ^ (L + 1)) g
      (holds_four (hb0.shift (by omega) (by omega)) (hb1.shift (by omega) (by omega))
        (hb2.shift (by omega) (by omega)) (hb3.shift (by omega) (by omega)))
    obtain ⟨s3, e3, k3⟩ := ih (nonleaf c0 c1 c2 c3) (cx + 2 ^ (L + 1)) (cy - 2 ^ (L + 1)) g
      (holds_four (hc0.shift (by omega) (by omega)) (hc1.shift (by omega) (by omega))
        (hc2.shift (by omega) (by omega)) (hc3.shift (by omega) (by omega)))
    obtain ⟨s4, e4, k4⟩ := ih (nonleaf d0 d1 d2 d3) (cx + 2 ^ (L + 1)) (cy + 2 ^ (L + 1)) g
      (holds_four (hd0.shift (by omega) (by omega)) (hd1.shift (by omega) (by omega))
        (hd2.shift (by omega) (by omega)) (hd3.shift (by omega) (by omega)))
    obtain ⟨s5, e5, k5⟩ := ih (nonleaf a1 b0 a3 b2) (cx - 2 ^ (L + 1)) cy g
      (holds_four (ha1.shift (by omega) (by omega)) (hb0.shift (by omega) (by omega))
        (ha3.shift (by omega) (by omega)) (hb2.shift (by omega) (by omega)))
    obtain ⟨s6, e6, k6⟩ := ih (nonleaf c1 d0 c3 d2) (cx + 2 ^ (L + 1)) cy g
      (holds_four (hc1.shift (by omega) (by omega)) (hd0.shift (by omega) (by omega))
        (hc3.shift (by omega) (by omega)) (hd2.shift (by omega) (by omega)))
    obtain ⟨s7, e7, k7⟩ := ih (nonleaf a2 a3 c0 c1) cx (cy - 2 ^ (L + 1)) g
      (holds_four (ha2.shift (by omega) (by omega)) (ha3.shift (by omega) (by omega))
        (hc0.shift (by omega) (by omega)) (hc1.shift (by omega) (by omega)))
    obtain ⟨s8, e8, k8⟩ := ih (nonleaf b2 b3 d0 d1) cx (cy + 2 ^ (L + 1)) g
      (holds_four (hb2.shift (by omega) (by omega)) (hb3.shift (by omega) (by omega))
        (hd0.shift (by omega) (by omega)) (hd1.shift (by omega) (by omega)))
    obtain ⟨s9, e9, k9⟩ := ih (nonleaf a3 b2 c1 d0) cx cy g
      (holds_four (ha3.shift (by omega) (by omega)) (hb2.shift (by omega) (by omega))
        (hc1.shift (by omega) (by omega)) (hd0.shift (by omega) (by omega)))
    -- the four nodes of the second round
    obtain ⟨f1, e10, m1⟩ := ih (nonleaf s1 s5 s7 s9) (cx - 2 ^ L) (cy - 2 ^ L) _
      (holds_four (k1.shift (by omega) (by omega)) (k5.shift (by omega) (by omega))
        (k7.shift (by omega) (by omega)) (k9.shift (by omega) (by omega)))
    obtain ⟨f2, e11, m2⟩ := ih (nonleaf s5 s2 s9 s8) (cx - 2 ^ L) (cy + 2 ^ L) _
      (holds_four (k5.shift (by omega) (by omega)) (k2.shift (by omega) (by omega))
        (k9.shift (by omega) (by omega)) (k8.shift (by omega) (by omega)))
    obtain ⟨f3, e12, m3⟩ := ih (nonleaf s7 s9 s3 s6) (cx + 2 ^ L) (cy - 2 ^ L) _
      (holds_four (k7.shift (by omega) (by omega)) (k9.shift (by omega) (by omega))
        (k3.shift (by omega) (by omega)) (k6.shift (by omega) (by omega)))
    obtain ⟨f4, e13, m4⟩ := ih (nonleaf s9 s8 s6 s4) (cx + 2 ^ L) (cy + 2 ^ L) _
      (holds_four (k9.shift (by omega) (by omega)) (k8.shift (by omega) (by omega))
        (k6.shift (by omega) (by omega)) (k4.shift (by omega) (by omega)))
    refine ⟨nonleaf f1 f2 f3 f4, ?_, ?_⟩
    · rw [getNextStateFuel]
      simp only [e1, e2, e3, e4, e5, e6, e7, e8, e9, e10, e11, e12, e13]
    · have hg : naiveSteps rules (2 ^ (L + 1)) g
          = naiveSteps rules (2 ^ L) (naiveSteps rules (2 ^ L) g) := by
        rw [← naiveSteps_add, pow_succ, Nat.mul_two]
      rw [hg]
      exact holds_four m1 m2 m3 m4


/-- The centre of a node of level `L + 1` holds the centre square of the same grid. -/
theorem getCenter_holds : ∀ (L : Nat) (n : NodeType) (X Y : Int) (g : Grid),
    n.Holds (L + 1) X Y g → ∃ c, n.getCenter = some c ∧ c.Holds L X Y g := by
  intro L
  cases L with
  | zero =>
    intro n X Y g h
    obtain ⟨p, q, r, s, rfl, ⟨-, lp, hp⟩, ⟨-, lq, hq⟩, ⟨-, lr, hr⟩, ⟨-, ls, hs⟩⟩ := holds_split h
    obtain ⟨p0, p1, p2, p3, rfl⟩ := eq_leaf_of_level_zero lp
    obtain ⟨q0, q1, q2, q3, rfl⟩ := eq_leaf_of_level_zero lq
    obtain ⟨r0, r1, r2, r3, rfl⟩ := eq_leaf_of_level_zero lr
    obtain ⟨s0, s1, s2, s3, rfl⟩ := eq_leaf_of_level_zero ls
    simp only [agrees_leaf, pow_zero] at hp hq hr hs
    refine ⟨leaf p3 q2 r1 s0, rfl, trivial, rfl, ?_⟩
    rw [agrees_leaf]
    refine ⟨?_, ?_, ?_, ?_⟩
    · exact hp.2.2.2
    · rw [← hq.2.2.1]; ring_nf
    · rw [← hr.2.1]; ring_nf
    · rw [← hs.1]; ring_nf
  | succ L =>
    intro n X Y g h
    obtain ⟨a0, a1, a2, a3, b0, b1, b2, b3, c0, c1, c2, c3, d0, d1, d2, d3, rfl,
      ha0, ha1, ha2, ha3, hb0, hb1, hb2, hb3, hc0, hc1, hc2, hc3, hd0, hd1, hd2, hd3⟩ :=
      holds_split_two h
    exact ⟨nonleaf a3 b2 c1 d0, rfl, holds_four ha3 hb2 hc1 hd0⟩

theorem getNextStateStepFuel_top (rules : RuleTable) (fuel : Nat) {n : NodeType} {k : Nat}
    (h : n.level = k + 1) : getNextStateStepFuel rules (fuel + 1) n k = getNextState rules n := by
  unfold getNextStateStepFuel
  rw [if_neg (by omega), if_pos (by omega)]

/-- Correctness of the recursion with a chosen step: on a node of level
`L + 1` and for `logStepSize ≤ L`, the result holds the centre square after
`2 ^ logStepSize` generations. -/
theorem getNextStateStepFuel_holds (rules : RuleTable) :
    ∀ (L : Nat) (n : NodeType) (cx cy : Int) (g : Grid) (k : Nat), n.Holds (L + 1) cx cy g →
      k ≤ L → ∃ r, getNextStateStepFuel rules (L + 1) n k = some r
        ∧ r.Holds L cx cy (naiveSteps rules (2 ^ k) g) := by
  intro L
  induction L with
  | zero =>
    intro n cx cy g k h hk
    obtain rfl : k = 0 := by omega
    obtain ⟨r, e, hr⟩ := getNextStateFuel_holds rules 0 n cx cy g h
    refine ⟨r, ?_, hr⟩
    rw [getNextStateStepFuel_top rules 0 h.2.1, getNextState, h.2.1]
    exact e
  | succ L ih =>
    intro n cx cy g k h hk
    by_cases hkL : k = L + 1
    · subst hkL
      obtain ⟨r, e, hr⟩ := getNextStateFuel_holds rules (L + 1) n cx cy g h
      refine ⟨r, ?_, hr⟩
      rw [getNextStateStepFuel_top rules (L + 1) h.2.1, getNextState, h.2.1]
      exact e
    · have hk1 : k ≤ L := by omega
      have hP : (2 : Int) ^ (L + 1) = 2 * 2 ^ L := by rw [pow_succ]; ring
      have hlev := h.2.1
      obtain ⟨a0, a1, a2, a3, b0, b1, b2, b3, c0, c1, c2, c3, d0, d1, d2, d3, rfl,
        ha0, ha1, ha2, ha3, hb0, hb1, hb2, hb3, hc0, hc1, hc2, hc3, hd0, hd1, hd2, hd3⟩ :=
        holds_split_two h
      obtain ⟨s1, e1, k1⟩ := ih (nonleaf a0 a1 a2 a3) (cx - 2 ^ (L + 1)) (cy - 2 ^ (L + 1)) g k
        (holds_four (ha0.shift (by omega) (by omega)) (ha1.shift (by omega) (by omega))
          (ha2.shift (by omega) (by omega)) (ha3.shift (by omega) (by omega))) hk1
      obtain ⟨s2, e2, k2⟩ := ih (nonleaf b0 b1 b2 b3) (cx - 2 ^ (L + 1)) (cy + 2 ^ (L + 1)) g k
        (holds_four (hb0.shift (by omega) (by omega)) (hb1.shift (by omega) (by omega))
          (hb2.shift (by omega) (by omega)) (hb3.shift (by omega) (by omega))) hk1
      obtain ⟨s3, e3, k3⟩ := ih (nonleaf c0 c1 c2 c3) (cx + 2 ^ (L + 1)) (cy - 2 ^ (L + 1)) g k
        (holds_four (hc0.shift (by omega) (by omega)) (hc1.shift (by omega) (by omega))
          (hc2.shift (by omega) (by omega)) (hc3.shift (by omega) (by omega))) hk1
      obtain ⟨s4, e4, k4⟩ := ih (nonleaf d0 d1 d2 d3) (cx + 2 ^ (L + 1)) (cy + 2 ^ (L + 1)) g k
        (holds_four (hd0.shift (by omega) (by omega)) (hd1.shift (by omega) (by omega))
          (hd2.shift (by omega) (by omega)) (hd3.shift (by omega) (by omega))) hk1
      obtain ⟨s5, e5, k5⟩ := ih (nonleaf a1 b0 a3 b2) (cx - 2 ^ (L + 1)) cy g k
        (holds_four (ha1.shift (by omega) (by omega)) (hb0.shift (by omega) (by omega))
          (ha3.shift (by omega) (by omega)) (hb2.shift (by omega) (by omega))) hk1
      obtain ⟨s6, e6, k6⟩ := ih (nonleaf c1 d0 c3 d2) (cx + 2 ^ (L + 1)) cy g k
        (holds_four (hc1.shift (by omega) (by omega)) (hd0.shift (by omega) (by omega))
          (hc3.shift (by omega) (by omega)) (hd2.shift (by omega) (by omega))) hk1
      obtain ⟨s7, e7, k7⟩ := ih (nonleaf a2 a3 c0 c1) cx (cy - 2 ^ (L + 1)) g k
        (holds_four (ha2.shift (by omega) (by omega)) (ha3.shift (by omega) (by omega))
          (hc0.shift (by omega) (by omega)) (hc1.shift (by omega) (by omega))) hk1
      obtain ⟨s8, e8, k8⟩ := ih (nonleaf b2 b3 d0 d1) cx (cy + 2 ^ (L + 1)) g k
        (holds_four (hb2.shift (by omega) (by omega)) (hb3.shift (by omega) (by omega))
          (hd0.shift (by omega) (by omega)) (hd1.shift (by omega) (by omega))) hk1
      obtain ⟨s9, e9, k9⟩ := ih (nonleaf a3 b2 c1 d0) cx cy g k
        (holds_four (ha3.shift (by omega) (by omega)) (hb2.shift (by omega) (by omega))
          (hc1.shift (by omega) (by omega)) (hd0.shift (by omega) (by omega))) hk1
      obtain ⟨f1, e10, m1⟩ := getCenter_holds L (nonleaf s1 s5 s7 s9) (cx - 2 ^ L) (cy - 2 ^ L) _
        (holds_four (k1.shift (by omega) (by omega)) (k5.shift (by omega) (by omega))
          (k7.shift (by omega) (by omega)) (k9.shift (by omega) (by omega)))
      obtain ⟨f2, e11, m2⟩ := getCenter_holds L (nonleaf s5 s2 s9 s8) (cx - 2 ^ L) (cy + 2 ^ L) _
        (holds_four (k5.shift (by omega) (by omega)) (k2.shift (by omega) (by omega))
          (k9.shift (by omega) (by omega)) (k8.shift (by omega) (by omega)))
      obtain ⟨f3, e12, m3⟩ := getCenter_holds L (nonleaf s7 s9 s3 s6) (cx + 2 ^ L) (cy - 2 ^ L) _
        (holds_four (k7.shift (by omega) (by omega)) (k9.shift (by omega) (by omega))
          (k3.shift (by omega) (by omega)) (k6.shift (by omega) (by omega)))
      obtain ⟨f4, e13, m4⟩ := getCenter_holds L (nonleaf s9 s8 s6 s4) (cx + 2 ^ L) (cy + 2 ^ L) _
        (holds_four (k9.shift (by omega) (by omega)) (k8.shift (by omega) (by omega))
          (k6.shift (by omega) (by omega)) (k4.shift (by omega) (by omega)))
      refine ⟨nonleaf f1 f2 f3 f4, ?_, holds_four m1 m2 m3 m4⟩
      unfold getNextStateStepFuel
      rw [if_neg (by rw [hlev]; omega), if_neg (by rw [hlev]; omega)]
      simp only [e1, e2, e3, e4, e5, e6, e7, e8, e9, e10, e11, e12, e13]



theorem setCellH_nonleaf (a b c d : NodeType) (cx cy x y : Int) (v : CellType)
    (hx1 : cx - 2 * 2 ^ a.level ≤ x) (hx2 : x < cx + 2 * 2 ^ a.level)
    (hy1 : cy - 2 * 2 ^ a.level ≤ y) (hy2 : y < cy + 2 * 2 ^ a.level) :
    setCellH (nonleaf a b c d) cx cy x y v =
      if x < cx then
        if y < cy then
          (setCellH a (cx - 2 ^ a.level) (cy - 2 ^ a.level) x y v).map fun r => nonleaf r b c d
        else (setCellH b (cx - 2 ^ a.level) (cy + 2 ^ a.level) x y v).map fun r => nonleaf a r c d
      else
        if y < cy then
          (setCellH c (cx + 2 ^ a.level) (cy - 2 ^ a.level) x y v).map fun r => nonleaf a b r d
        else (setCellH d (cx + 2 ^ a.level) (cy + 2 ^ a.level) x y v).map fun r => nonleaf a b c r := by
  have hp : (2 : Int) ^ (1 + a.level) = 2 * 2 ^ a.level := by rw [pow_add, pow_one]
  have hh : (2 * 2 ^ a.level : Int) / 2 = 2 ^ a.level := by
    rw [Int.mul_ediv_cancel_left _ (by norm_num)]
  have hb : ¬ (x < cx - 2 * 2 ^ a.level ∨ x ≥ cx + 2 * 2 ^ a.level
      ∨ y < cy - 2 * 2 ^ a.level ∨ y ≥ cy + 2 * 2 ^ a.level) := by omega
  rw [setCellH]
  simp only [level_nonleaf, hp, hh, hb, if_false]

/-- On a well-formed node, `getCellH` succeeds at every coordinate of the
node's square. -/
theorem getCellH_isSome : ∀ (n : NodeType), n.WellFormed → ∀ (cx cy x y : Int),
    cx - 2 ^ n.level ≤ x → x < cx + 2 ^ n.level → cy - 2 ^ n.level ≤ y → y < cy + 2 ^ n.level →
    ∃ v, getCellH n cx cy x y = some v := by
  intro n
  induction n with
  | leaf a b c d =>
    intro _ cx cy x y hx1 hx2 hy1 hy2
    simp only [level_leaf, pow_zero] at hx1 hx2 hy1 hy2
    have hx : x = cx - 1 ∨ x = cx := by omega
    have hy : y = cy - 1 ∨ y = cy := by omega
    have e1 : ¬ (cx = cx - 1) := by omega
    have e2 : ¬ (cy = cy - 1) := by omega
    rcases hx with hx | hx <;> rcases hy with hy | hy <;>
      simp only [hx, hy, getCellH, and_self, if_true, e1, e2, and_false, false_and, if_false,
        true_and, and_true, Option.some.injEq, exists_eq']
  | nonleaf a b c d iha ihb ihc ihd =>
    intro w cx cy x y hx1 hx2 hy1 hy2
    obtain ⟨wa, wb, wc, wd, lb, lc, ld⟩ := w
    have hp : (2 : Int) ^ (1 + a.level) = 2 * 2 ^ a.level := by rw [pow_add, pow_one]
    have hpos : (0 : Int) < 2 ^ a.level := by positivity
    rw [level_nonleaf, hp] at hx1 hx2 hy1 hy2
    rw [getCellH_nonleaf _ _ _ _ _ _ _ _ hx1 hx2 hy1 hy2]
    by_cases hx : x < cx <;> by_cases hy : y < cy
    · rw [if_pos hx, if_pos hy]; exact iha wa _ _ _ _ (by omega) (by omega) (by omega) (by omega)
    · rw [if_pos hx, if_neg hy]
      exact ihb wb _ _ _ _ (by rw [lb]; omega) (by rw [lb]; omega) (by rw [lb]; omega)
        (by rw [lb]; omega)
    · rw [if_neg hx, if_pos hy]
      exact ihc wc _ _ _ _ (by rw [lc]; omega) (by rw [lc]; omega) (by rw [lc]; omega)
        (by rw [lc]; omega)
    · rw [if_neg hx, if_neg hy]
      exact ihd wd _ _ _ _ (by rw [ld]; omega) (by rw [ld]; omega) (by rw [ld]; omega)
        (by rw [ld]; omega)

/-- Function `setCellH` on a well-formed node and a coordinate of its square:
it returns a well-formed node of the same level that holds the new cell at
`(x, y)` and the old cells elsewhere. -/
theorem setCellH_spec : ∀ (n : NodeType), n.WellFormed → ∀ (cx cy x y : Int) (v : CellType),
    cx - 2 ^ n.level ≤ x → x < cx + 2 ^ n.level → cy - 2 ^ n.level ≤ y → y < cy + 2 ^ n.level →
    ∃ r, setCellH n cx cy x y v = some r ∧ r.WellFormed ∧ r.level = n.level
      ∧ getCellH r cx cy x y = some v
      ∧ ∀ x1 y1 : Int, cx - 2 ^ n.level ≤ x1 → x1 < cx + 2 ^ n.level → cy - 2 ^ n.level ≤ y1 →
          y1 < cy + 2 ^ n.level → ¬ (x1 = x ∧ y1 = y) →
          getCellH r cx cy x1 y1 = getCellH n cx cy x1 y1 := by
  intro n
  induction n with
  | leaf a b c d =>
    intro _ cx cy x y v hx1 hx2 hy1 hy2
    simp only [level_leaf, pow_zero] at hx1 hx2 hy1 hy2
    have hx : x = cx - 1 ∨ x = cx := by omega
    have hy : y = cy - 1 ∨ y = cy := by omega
    have e1 : ¬ (cx = cx - 1) := by omega
    have e2 : ¬ (cy = cy - 1) := by omega
    have e3 : ¬ (cx - 1 = cx) := by omega
    have e4 : ¬ (cy - 1 = cy) := by omega
    rcases hx with hx | hx <;> rcases hy with hy | hy <;>
      simp only [hx, hy, setCellH, and_self, if_true, e1, e2, e3, e4, and_false, false_and,
        if_false, true_and, and_true, Option.some.injEq, exists_eq_left', level_leaf, pow_zero,
        WellFormed, getCellH] <;>
      · intro x1 y1 h1 h2 h3 h4 hne
        have hx1 : x1 = cx - 1 ∨ x1 = cx := by omega
        have hy1 : y1 = cy - 1 ∨ y1 = cy := by omega
        rcases hx1 with hx1 | hx1 <;> rcases hy1 with hy1 | hy1 <;>
          simp only [hx1, hy1, and_self, if_true, e1, e2, e3, e4, and_false, false_and, if_false,
            true_and, and_true, not_true_eq_false] at hne ⊢
  | nonleaf a b c d iha ihb ihc ihd =>
    intro w cx cy x y v hx1 hx2 hy1 hy2
    obtain ⟨wa, wb, wc, wd, lb, lc, ld⟩ := w
    have hp : (2 : Int) ^ (1 + a.level) = 2 * 2 ^ a.level := by rw [pow_add, pow_one]
    have hpos : (0 : Int) < 2 ^ a.level := by positivity
    rw [level_nonleaf, hp] at hx1 hx2 hy1 hy2
    rw [setCellH_nonleaf _ _ _ _ _ _ _ _ _ hx1 hx2 hy1 hy2]
    simp only [level_nonleaf, hp]
    by_cases hx : x < cx <;> by_cases hy : y < cy
    · rw [if_pos hx, if_pos hy]
      obtain ⟨r, e, wr, lr, gr, fr⟩ := iha wa (cx - 2 ^ a.level) (cy - 2 ^ a.level) x y v
        (by omega) (by omega) (by omega) (by omega)
      refine ⟨nonleaf r b c d, by rw [e]; rfl, ⟨wr, wb, wc, wd, by rw [lr, lb], by rw [lr, lc],
        by rw [lr, ld]⟩, by rw [level_nonleaf, lr], ?_, ?_⟩
      · rw [getCellH_nonleaf _ _ _ _ _ _ _ _ (by rw [lr]; omega) (by rw [lr]; omega)
          (by rw [lr]; omega) (by rw [lr]; omega), if_pos hx, if_pos hy, lr]
        exact gr
      · intro x1 y1 h1 h2 h3 h4 hne
        rw [getCellH_nonleaf _ _ _ _ _ _ _ _ (by rw [lr]; omega) (by rw [lr]; omega)
          (by rw [lr]; omega) (by rw [lr]; omega),
          getCellH_nonleaf _ _ _ _ _ _ _ _ h1 h2 h3 h4, lr]
        by_cases hx' : x1 < cx <;> by_cases hy' : y1 < cy <;>
          simp only [hx', hy', if_true, if_false]
        exact fr x1 y1 (by omega) (by omega) (by omega) (by omega) hne
    · rw [if_pos hx, if_neg hy]
      obtain ⟨r, e, wr, lr, gr, fr⟩ := ihb wb (cx - 2 ^ a.level) (cy + 2 ^ a.level) x y v
        (by rw [lb]; omega) (by rw [lb]; omega) (by rw [lb]; omega) (by rw [lb]; omega)
      refine ⟨nonleaf a r c d, by rw [e]; rfl, ⟨wa, wr, wc, wd, by rw [lr, lb], lc, ld⟩,
        by rw [level_nonleaf], ?_, ?_⟩
      · rw [getCellH_nonleaf _ _ _ _ _ _ _ _ hx1 hx2 hy1 hy2, if_pos hx, if_neg hy]
        exact gr
      · intro x1 y1 h1 h2 h3 h4 hne
        rw [getCellH_nonleaf _ _ _ _ _ _ _ _ h1 h2 h3 h4,
          getCellH_nonleaf _ _ _ _ _ _ _ _ h1 h2 h3 h4]
        by_cases hx' : x1 < cx <;> by_cases hy' : y1 < cy <;>
          simp only [hx', hy', if_true, if_false]
        exact fr x1 y1 (by rw [lb]; omega) (by rw [lb]; omega) (by rw [lb]; omega)
          (by rw [lb]; omega) hne
    · rw [if_neg hx, if_pos hy]
      obtain ⟨r, e, wr, lr, gr, fr⟩ := ihc wc (cx + 2 ^ a.level) (cy - 2 ^ a.level) x y v
        (by rw [lc]; omega) (by rw [lc]; omega) (by rw [lc]; omega) (by rw [lc]; omega)
      refine ⟨nonleaf a b r d, by rw [e]; rfl, ⟨wa, wb, wr, wd, lb, by rw [lr, lc], ld⟩,
        by rw [level_nonleaf], ?_, ?_⟩
      · rw [getCellH_nonleaf _ _ _ _ _ _ _ _ hx1 hx2 hy1 hy2, if_neg hx, if_pos hy]
        exact gr
      · intro x1 y1 h1 h2 h3 h4 hne
        rw [getCellH_nonleaf _ _ _ _ _ _ _ _ h1 h2 h3 h4,
          getCellH_nonleaf _ _ _ _ _ _ _ _ h1 h2 h3 h4]
        by_cases hx' : x1 < cx <;> by_cases hy' : y1 < cy <;>
          simp only [hx', hy', if_true, if_false]
        exact fr x1 y1 (by rw [lc]; omega) (by rw [lc]; omega) (by rw [lc]; omega)
          (by rw [lc]; omega) hne
    · rw [if_neg hx, if_neg hy]
      obtain ⟨r, e, wr, lr, gr, fr⟩ := ihd wd (cx + 2 ^ a.level) (cy + 2 ^ a.level) x y v
        (by rw [ld]; omega) (by rw [ld]; omega) (by rw [ld]; omega) (by rw [ld]; omega)
      refine ⟨nonleaf a b c r, by rw [e]; rfl, ⟨wa, wb, wc, wr, lb, lc, by rw [lr, ld]⟩,
        by rw [level_nonleaf], ?_, ?_⟩
      · rw [getCellH_nonleaf _ _ _ _ _ _ _ _ hx1 hx2 hy1 hy2, if_neg hx, if_neg hy]
        exact gr
      · intro x1 y1 h1 h2 h3 h4 hne
        rw [getCellH_nonleaf _ _ _ _ _ _ _ _ h1 h2 h3 h4,
          getCellH_nonleaf _ _ _ _ _ _ _ _ h1 h2 h3 h4]
        by_cases hx' : x1 < cx <;> by_cases hy' : y1 < cy <;>
          simp only [hx', hy', if_true, if_false]
        exact fr x1 y1 (by rw [ld]; omega) (by rw [ld]; omega) (by rw [ld]; omega)
          (by rw [ld]; omega) hne

end NodeType

/-! ## The universe -/

theorem isInNodeBounds_iff (n : NodeType) (cx cy x y : Int) :
    isInNodeBounds n cx cy x y = true
      ↔ cx - 2 ^ n.level ≤ x ∧ x < cx + 2 ^ n.level ∧ cy - 2 ^ n.level ≤ y
        ∧ y < cy + 2 ^ n.level := by
  simp only [isInNodeBounds, Bool.not_eq_true', Bool.or_eq_false_iff, decide_eq_false_iff_not,
    not_lt, ge_iff_le, not_le]
  constructor
  · rintro ⟨⟨⟨h1, h2⟩, h3⟩, h4⟩; exact ⟨h1, h2, h3, h4⟩
  · rintro ⟨h1, h2, h3, h4⟩; exact ⟨⟨⟨h1, h2⟩, h3⟩, h4⟩

theorem getNullNode_level (L : Nat) (b : CellType) : (getNullNode L b).level = L := by
  induction L with
  | zero => rfl
  | succ L ih => rw [getNullNode, NodeType.level_nonleaf, ih, Nat.add_comm]

theorem getNullNode_wellFormed (L : Nat) (b : CellType) : (getNullNode L b).WellFormed := by
  induction L with
  | zero => trivial
  | succ L ih => exact ⟨ih, ih, ih, ih, rfl, rfl, rfl⟩

/-- The null node holds every grid that is `b` on the node's square. -/
theorem getNullNode_holds (b : CellType) : ∀ (L : Nat) (cx cy : Int) (g : Grid),
    (∀ x y : Int, cx - 2 ^ L ≤ x → x < cx + 2 ^ L → cy - 2 ^ L ≤ y → y < cy + 2 ^ L → g x y = b) →
    (getNullNode L b).Holds L cx cy g := by
  intro L
  induction L with
  | zero =>
    intro cx cy g h
    refine ⟨trivial, rfl, ?_⟩
    rw [getNullNode, NodeType.agrees_leaf]
    simp only [pow_zero] at h
    exact ⟨h _ _ (by omega) (by omega) (by omega) (by omega),
      h _ _ (by omega) (by omega) (by omega) (by omega),
      h _ _ (by omega) (by omega) (by omega) (by omega),
      h _ _ (by omega) (by omega) (by omega) (by omega)⟩
  | succ L ih =>
    intro cx cy g h
    have hP : (2 : Int) ^ (L + 1) = 2 * 2 ^ L := by rw [pow_succ]; ring
    have hpos : (0 : Int) < 2 ^ L := by positivity
    rw [hP] at h
    rw [getNullNode]
    exact NodeType.holds_four
      (ih _ _ g fun x y h1 h2 h3 h4 => h x y (by omega) (by omega) (by omega) (by omega))
      (ih _ _ g fun x y h1 h2 h3 h4 => h x y (by omega) (by omega) (by omega) (by omega))
      (ih _ _ g fun x y h1 h2 h3 h4 => h x y (by omega) (by omega) (by omega) (by omega))
      (ih _ _ g fun x y h1 h2 h3 h4 => h x y (by omega) (by omega) (by omega) (by omega))

/-- A grid held by the null node is `b` on the node's square. -/
theorem getNullNode_agrees_eq {L : Nat} {b : CellType} {cx cy : Int} {g : Grid}
    (h : (getNullNode L b).Agrees cx cy g) (x y : Int) (hx1 : cx - 2 ^ L ≤ x)
    (hx2 : x < cx + 2 ^ L) (hy1 : cy - 2 ^ L ≤ y) (hy2 : y < cy + 2 ^ L) : g x y = b := by
  have h1 := (getNullNode_holds b L cx cy (fun _ _ => b) (fun _ _ _ _ _ _ => rfl)).2.2 x y
    (by rw [getNullNode_level]; exact hx1) (by rw [getNullNode_level]; exact hx2)
    (by rw [getNullNode_level]; exact hy1) (by rw [getNullNode_level]; exact hy2)
  have h2 := h x y (by rw [getNullNode_level]; exact hx1) (by rw [getNullNode_level]; exact hx2)
    (by rw [getNullNode_level]; exact hy1) (by rw [getNullNode_level]; exact hy2)
  rw [h1] at h2
  exact (Option.some.inj h2).symm

namespace GameState

/-- The two halves of `Denotes`: the root holds the grid on its square and
the grid is the background value outside of it. -/
theorem denotes_iff (gs : GameState) (g : Grid) :
    gs.Denotes g ↔ gs.rootNode.Holds gs.rootNode.level 0 0 g
      ∧ ∀ x y : Int, ¬ (0 - 2 ^ gs.rootNode.level ≤ x ∧ x < 0 + 2 ^ gs.rootNode.level
          ∧ 0 - 2 ^ gs.rootNode.level ≤ y ∧ y < 0 + 2 ^ gs.rootNode.level) →
          g x y = gs.backgroundType := by
  constructor
  · rintro ⟨w, h⟩
    refine ⟨⟨w, rfl, ?_⟩, ?_⟩
    · intro x y h1 h2 h3 h4
      have := h x y
      rwa [getCell, (isInNodeBounds_iff _ 0 0 x y).2 ⟨h1, h2, h3, h4⟩] at this
    · intro x y hn
      have := h x y
      have hb : isInNodeBounds gs.rootNode 0 0 x y = false := by
        rw [← Bool.not_eq_true, isInNodeBounds_iff]; exact hn
      rw [getCell, hb] at this
      exact (Option.some.inj this).symm
  · rintro ⟨⟨w, -, ha⟩, ho⟩
    refine ⟨w, fun x y => ?_⟩
    by_cases hb : isInNodeBounds gs.rootNode 0 0 x y = true
    · rw [getCell, hb]
      obtain ⟨h1, h2, h3, h4⟩ := (isInNodeBounds_iff _ 0 0 x y).1 hb
      exact ha x y h1 h2 h3 h4
    · have hn := mt (isInNodeBounds_iff _ 0 0 x y).2 hb
      rw [Bool.not_eq_true] at hb
      rw [getCell, hb, ho x y hn]
      rfl

/-- Every state with a well-formed root denotes its own grid. -/
theorem denotes_toGrid (gs : GameState) (w : gs.rootNode.WellFormed) : gs.Denotes gs.toGrid := by
  refine ⟨w, fun x y => ?_⟩
  unfold toGrid
  by_cases hb : isInNodeBounds gs.rootNode 0 0 x y = true
  · obtain ⟨h1, h2, h3, h4⟩ := (isInNodeBounds_iff _ 0 0 x y).1 hb
    obtain ⟨v, hv⟩ := NodeType.getCellH_isSome gs.rootNode w 0 0 x y h1 h2 h3 h4
    have : gs.getCell x y = some v := by rw [getCell, hb]; exact hv
    rw [this]; rfl
  · rw [Bool.not_eq_true] at hb
    have : gs.getCell x y = some gs.backgroundType := by rw [getCell, hb]; rfl
    rw [this]; rfl

theorem expandRoot_backgroundType (gs : GameState) :
    gs.expandRoot.backgroundType = gs.backgroundType := by
  unfold expandRoot; split <;> rfl

/-- Function `expandRoot` raises the level by one and keeps the grid. -/
theorem expandRoot_denotes {gs : GameState} {g : Grid} (h : gs.Denotes g) :
    gs.expandRoot.Denotes g ∧ gs.expandRoot.rootNode.level = gs.rootNode.level + 1 := by
  obtain ⟨⟨w, -, ha⟩, ho⟩ := (denotes_iff gs g).1 h
  obtain ⟨root, bg⟩ := gs
  simp only at w ha ho
  cases root with
  | leaf p q r s =>
    rw [NodeType.agrees_leaf] at ha
    simp only [NodeType.level_leaf, pow_zero] at ho
    obtain ⟨h1, h2, h3, h4⟩ := ha
    have key : (expandRoot ⟨NodeType.leaf p q r s, bg⟩).rootNode.Holds 1 0 0 g := by
      simp only [expandRoot]
      refine @NodeType.holds_four _ _ _ _ 0 _ _ _ ⟨trivial, rfl, ?_⟩ ⟨trivial, rfl, ?_⟩ ⟨trivial, rfl, ?_⟩
        ⟨trivial, rfl, ?_⟩ <;> rw [NodeType.agrees_leaf] <;> simp only [pow_zero] <;>
        refine ⟨?_, ?_, ?_, ?_⟩ <;>
        first
          | exact h1 | exact h2 | exact h3 | exact h4
          | (apply ho; omega)
    refine ⟨(denotes_iff _ g).2 ⟨?_, ?_⟩, key.2.1⟩
    · rw [key.2.1]; exact key
    · intro x y hn
      rw [key.2.1] at hn
      rw [expandRoot_backgroundType]
      apply ho
      simp only [pow_one] at hn
      omega
  | nonleaf a b c d =>
    obtain ⟨wa, wb, wc, wd, lb, lc, ld⟩ := w
    simp only [NodeType.level_nonleaf] at ha ho
    have hP : (2 : Int) ^ (1 + a.level) = 2 * 2 ^ a.level := by rw [pow_add, pow_one]
    have hpos : (0 : Int) < 2 ^ a.level := by positivity
    rw [hP] at ho
    obtain ⟨ha1, hb1, hc1, hd1⟩ := (NodeType.agrees_nonleaf lb lc ld 0 0 g).1 ha
    have hnull : ∀ cx cy : Int,
        (∀ x y : Int, cx - 2 ^ a.level ≤ x → x < cx + 2 ^ a.level → cy - 2 ^ a.level ≤ y →
          y < cy + 2 ^ a.level → ¬ (0 - 2 * 2 ^ a.level ≤ x ∧ x < 0 + 2 * 2 ^ a.level
            ∧ 0 - 2 * 2 ^ a.level ≤ y ∧ y < 0 + 2 * 2 ^ a.level)) →
        (getNullNode a.level bg).Holds a.level cx cy g := fun cx cy hout =>
      getNullNode_holds bg a.level cx cy g fun x y h1 h2 h3 h4 => ho x y (hout x y h1 h2 h3 h4)
    have hP2 : (2 : Int) ^ (a.level + 1) = 2 * 2 ^ a.level := by rw [pow_succ]; ring
    have key : (expandRoot ⟨NodeType.nonleaf a b c d, bg⟩).rootNode.Holds (a.level + 1 + 1) 0 0 g := by
      simp only [expandRoot, NodeType.level_nonleaf, Nat.add_sub_cancel_left]
      refine NodeType.holds_four
        (NodeType.holds_four (hnull _ _ ?_) (hnull _ _ ?_) (hnull _ _ ?_)
          (NodeType.Holds.shift ⟨wa, rfl, ha1⟩ (by omega) (by omega)))
        (NodeType.holds_four (hnull _ _ ?_) (hnull _ _ ?_)
          (NodeType.Holds.shift ⟨wb, lb, hb1⟩ (by omega) (by omega)) (hnull _ _ ?_))
        (NodeType.holds_four (hnull _ _ ?_)
          (NodeType.Holds.shift ⟨wc, lc, hc1⟩ (by omega) (by omega)) (hnull _ _ ?_) (hnull _ _ ?_))
        (NodeType.holds_four
          (NodeType.Holds.shift ⟨wd, ld, hd1⟩ (by omega) (by omega)) (hnull _ _ ?_) (hnull _ _ ?_)
          (hnull _ _ ?_)) <;>
        · intro x y h1 h2 h3 h4
          omega
    refine ⟨(denotes_iff _ g).2 ⟨?_, ?_⟩, ?_⟩
    · rw [key.2.1]; exact key
    · intro x y hn
      rw [key.2.1] at hn
      rw [expandRoot_backgroundType]
      apply ho
      rw [pow_succ, hP2] at hn
      omega
    · rw [key.2.1, NodeType.level_nonleaf]; omega



theorem inBounds_of_natAbs_lt {n : NodeType} {x y : Int} (hx : x.natAbs < 2 ^ n.level)
    (hy : y.natAbs < 2 ^ n.level) : isInNodeBounds n 0 0 x y = true := by
  rw [isInNodeBounds_iff]
  have hx1 : (x.natAbs : Int) < 2 ^ n.level := by exact_mod_cast hx
  have hy1 : (y.natAbs : Int) < 2 ^ n.level := by exact_mod_cast hy
  omega

/-- The expansion loop of `setCell` ends within its budget, in a state that
denotes the same grid and whose root contains `(x, y)`. -/
theorem expandToBounds_spec : ∀ (fuel : Nat) (gs : GameState) (g : Grid) (x y : Int),
    gs.Denotes g → x.natAbs < 2 ^ (gs.rootNode.level + fuel) →
    y.natAbs < 2 ^ (gs.rootNode.level + fuel) →
    ∃ gs1, expandToBounds fuel gs x y = some gs1 ∧ gs1.Denotes g
      ∧ isInNodeBounds gs1.rootNode 0 0 x y = true ∧ gs1.backgroundType = gs.backgroundType
      ∧ gs.rootNode.level ≤ gs1.rootNode.level := by
  intro fuel
  induction fuel with
  | zero =>
    intro gs g x y h hx hy
    have hb := inBounds_of_natAbs_lt hx hy
    exact ⟨gs, by rw [expandToBounds, if_pos hb], h, hb, rfl, le_refl _⟩
  | succ fuel ih =>
    intro gs g x y h hx hy
    by_cases hb : isInNodeBounds gs.rootNode 0 0 x y = true
    · exact ⟨gs, by rw [expandToBounds, if_pos hb], h, hb, rfl, le_refl _⟩
    · obtain ⟨h1, hl⟩ := expandRoot_denotes h
      obtain ⟨gs1, e, hd, hin, hbg, hle⟩ := ih gs.expandRoot g x y h1
        (by rw [hl]; rwa [Nat.add_assoc, Nat.add_comm 1 fuel])
        (by rw [hl]; rwa [Nat.add_assoc, Nat.add_comm 1 fuel])
      exact ⟨gs1, by rw [expandToBounds, if_neg hb]; exact e, hd, hin,
        by rw [hbg, expandRoot_backgroundType], by omega⟩

/-- Function `setCell` always succeeds on a well-formed universe; the new
state denotes the old grid with the cell at `(x, y)` replaced. -/
theorem setCell_denotes {gs : GameState} {g : Grid} (h : gs.Denotes g) (x y : Int)
    (newCell : CellType) :
    ∃ gs1, gs.setCell x y newCell = some gs1
      ∧ gs1.Denotes (fun x1 y1 => if x1 = x ∧ y1 = y then newCell else g x1 y1)
      ∧ gs1.backgroundType = gs.backgroundType ∧ gs.rootNode.level ≤ gs1.rootNode.level := by
  have hpow : x.natAbs + y.natAbs + 1
      < 2 ^ (gs.rootNode.level + (x.natAbs + y.natAbs + 1)) :=
    lt_of_lt_of_le (Nat.lt_two_pow _) (Nat.pow_le_pow_right (by norm_num) (by omega))
  obtain ⟨gs1, e, hd, hin, hbg, hle⟩ := expandToBounds_spec (x.natAbs + y.natAbs + 1) gs g x y h
    (by omega) (by omega)
  obtain ⟨⟨w, -, ha⟩, ho⟩ := (denotes_iff gs1 g).1 hd
  obtain ⟨h1, h2, h3, h4⟩ := (isInNodeBounds_iff _ 0 0 x y).1 hin
  obtain ⟨r, er, wr, lr, gr, fr⟩ := NodeType.setCellH_spec gs1.rootNode w 0 0 x y newCell h1 h2 h3 h4
  refine ⟨{ gs1 with rootNode := r }, ?_, ?_, hbg, by simp only [lr]; exact hle⟩
  · rw [setCell, e]; simp only [er]
  · refine (denotes_iff _ _).2 ⟨⟨wr, rfl, ?_⟩, ?_⟩
    · intro x1 y1 k1 k2 k3 k4
      simp only [lr] at k1 k2 k3 k4
      show getCellH r 0 0 x1 y1 = some (if x1 = x ∧ y1 = y then newCell else g x1 y1)
      by_cases hxy : x1 = x ∧ y1 = y
      · rw [if_pos hxy, hxy.1, hxy.2]; exact gr
      · rw [if_neg hxy, fr x1 y1 k1 k2 k3 k4 hxy]
        exact ha x1 y1 k1 k2 k3 k4
    · intro x1 y1 hn
      simp only [lr] at hn
      have hxy : ¬ (x1 = x ∧ y1 = y) := by
        rintro ⟨rfl, rfl⟩; exact hn ⟨h1, h2, h3, h4⟩
      show (if x1 = x ∧ y1 = y then newCell else g x1 y1) = gs1.backgroundType
      rw [if_neg hxy]
      exact ho x1 y1 hn

end GameState

/-! ## Locality of the naive transition -/

theorem naiveStep_const (rules : RuleTable) (b : CellType) :
    naiveStep rules (fun _ _ => b) = fun _ _ => backgroundStep rules b := rfl

theorem naiveSteps_const (rules : RuleTable) (t : Nat) (b : CellType) :
    naiveSteps rules t (fun _ _ => b) = fun _ _ => (backgroundStep rules)^[t] b := by
  induction t generalizing b with
  | zero => rfl
  | succ t ih => rw [naiveSteps, naiveStep_const, ih, Function.iterate_succ_apply]

theorem outsideIs_naiveStep {rules : RuleTable} {R : Int} {g : Grid} {b : CellType}
    (h : OutsideIs R g b) : OutsideIs (R + 1) (naiveStep rules g) (backgroundStep rules b) := by
  intro x y hn
  unfold naiveStep backgroundStep
  rw [h (x - 1) (y - 1) (by omega), h (x - 1) y (by omega), h (x - 1) (y + 1) (by omega),
    h x (y - 1) (by omega), h x y (by omega), h x (y + 1) (by omega),
    h (x + 1) (y - 1) (by omega), h (x + 1) y (by omega), h (x + 1) (y + 1) (by omega)]

theorem outsideIs_naiveSteps {rules : RuleTable} (t : Nat) {R : Int} {g : Grid} {b : CellType}
    (h : OutsideIs R g b) :
    OutsideIs (R + t) (naiveSteps rules t g) ((backgroundStep rules)^[t] b) := by
  induction t generalizing R g b with
  | zero => simpa [naiveSteps] using h
  | succ t ih =>
    rw [naiveSteps, Function.iterate_succ_apply]
    have := ih (@outsideIs_naiveStep rules R g b h)
    have e : R + 1 + (t : Int) = R + ((t + 1 : Nat) : Int) := by push_cast; ring
    rwa [e] at this

theorem NodeType.Agrees.congr_grid {n : NodeType} {cx cy : Int} {g g1 : Grid}
    (h : n.Agrees cx cy g)
    (hg : ∀ x y : Int, cx - 2 ^ n.level ≤ x → x < cx + 2 ^ n.level → cy - 2 ^ n.level ≤ y →
      y < cy + 2 ^ n.level → g x y = g1 x y) : n.Agrees cx cy g1 := by
  intro x y h1 h2 h3 h4
  rw [← hg x y h1 h2 h3 h4]
  exact h x y h1 h2 h3 h4

namespace GameState

/-- The expansion loop of `step` ends within its budget at level
`max level (logStepSize + 1)`, in a state that denotes the same grid. -/
theorem expandToLevel_spec : ∀ (fuel : Nat) (gs : GameState) (g : Grid) (k : Nat),
    gs.Denotes g → k + 1 ≤ gs.rootNode.level + fuel →
    ∃ gs1, expandToLevel fuel gs k = some gs1 ∧ gs1.Denotes g
      ∧ gs1.backgroundType = gs.backgroundType
      ∧ gs1.rootNode.level = max gs.rootNode.level (k + 1) := by
  intro fuel
  induction fuel with
  | zero =>
    intro gs g k h hk
    exact ⟨gs, by rw [expandToLevel, if_neg (by omega)], h, rfl, by omega⟩
  | succ fuel ih =>
    intro gs g k h hk
    by_cases hl : gs.rootNode.level < k + 1
    · obtain ⟨h1, hl1⟩ := expandRoot_denotes h
      obtain ⟨gs1, e, hd, hbg, hlev⟩ := ih gs.expandRoot g k h1 (by omega)
      exact ⟨gs1, by rw [expandToLevel, if_pos hl]; exact e, hd,
        by rw [hbg, expandRoot_backgroundType], by omega⟩
    · exact ⟨gs, by rw [expandToLevel, if_neg hl], h, rfl, by omega⟩

theorem outerRingIsNull_eq_true {gs : GameState} (h : gs.outerRingIsNull = true) :
    ∃ a3 b2 c1 d0, gs.rootNode =
      NodeType.nonleaf
        (NodeType.nonleaf (getNullNode (gs.rootNode.level - 2) gs.backgroundType)
          (getNullNode (gs.rootNode.level - 2) gs.backgroundType)
          (getNullNode (gs.rootNode.level - 2) gs.backgroundType) a3)
        (NodeType.nonleaf (getNullNode (gs.rootNode.level - 2) gs.backgroundType)
          (getNullNode (gs.rootNode.level - 2) gs.backgroundType) b2
          (getNullNode (gs.rootNode.level - 2) gs.backgroundType))
        (NodeType.nonleaf (getNullNode (gs.rootNode.level - 2) gs.backgroundType) c1
          (getNullNode (gs.rootNode.level - 2) gs.backgroundType)
          (getNullNode (gs.rootNode.level - 2) gs.backgroundType))
        (NodeType.nonleaf d0 (getNullNode (gs.rootNode.level - 2) gs.backgroundType)
          (getNullNode (gs.rootNode.level - 2) gs.backgroundType)
          (getNullNode (gs.rootNode.level - 2) gs.backgroundType)) := by
  unfold outerRingIsNull at h
  split at h
  · rename_i a0 a1 a2 a3 b0 b1 b2 b3 c0 c1 c2 c3 d0 d1 d2 d3 heq
    simp only [Bool.and_eq_true, beq_iff_eq] at h
    obtain ⟨⟨⟨⟨⟨⟨⟨⟨⟨⟨⟨h1, h2⟩, h3⟩, h4⟩, h5⟩, h6⟩, h7⟩, h8⟩, h9⟩, h10⟩, h11⟩, h12⟩ := h
    refine ⟨a3, b2, c1, d0, ?_⟩
    rw [h1, h2, h3, h4, h5, h6, h7, h8, h9, h10, h11, h12] at heq
    exact heq
  · exact absurd h (by simp)


/-- One iteration of `checkForContractRoot` that replaces the root by its
centre keeps the grid. -/
theorem contract_once {gs : GameState} {G : Grid} (h : gs.Denotes G)
    (hl : 2 ≤ gs.rootNode.level) (hr : gs.outerRingIsNull = true) :
    ∃ c, gs.rootNode.getCenter = some c
      ∧ GameState.Denotes { gs with rootNode := c } G ∧ c.level + 1 = gs.rootNode.level := by
  obtain ⟨L, hL⟩ : ∃ L, gs.rootNode.level = L + 2 := ⟨gs.rootNode.level - 2, by omega⟩
  obtain ⟨hh, ho⟩ := (denotes_iff gs G).1 h
  rw [hL] at hh ho
  obtain ⟨p3, q2, r1, s0, hshape⟩ := outerRingIsNull_eq_true hr
  rw [hL, Nat.add_sub_cancel] at hshape
  obtain ⟨a0, a1, a2, a3, b0, b1, b2, b3, c0, c1, c2, c3, d0, d1, d2, d3, heq,
    ha0, ha1, ha2, ha3, hb0, hb1, hb2, hb3, hc0, hc1, hc2, hc3, hd0, hd1, hd2, hd3⟩ :=
    NodeType.holds_split_two hh
  rw [hshape] at heq
  injection heq with e1 e2 e3 e4
  injection e1 with e10 e11 e12 e13
  injection e2 with e20 e21 e22 e23
  injection e3 with e30 e31 e32 e33
  injection e4 with e40 e41 e42 e43
  subst e10 e11 e12 e13 e20 e21 e22 e23 e30 e31 e32 e33 e40 e41 e42 e43
  have hP : (2 : Int) ^ (L + 2) = 4 * 2 ^ L := by rw [pow_add]; ring
  have hP1 : (2 : Int) ^ (L + 1) = 2 * 2 ^ L := by rw [pow_succ]; ring
  have hpos : (0 : Int) < 2 ^ L := by positivity
  have hc : (NodeType.nonleaf p3 q2 r1 s0).Holds (L + 1) 0 0 G :=
    NodeType.holds_four ha3 hb2 hc1 hd0
  refine ⟨NodeType.nonleaf p3 q2 r1 s0, by rw [hshape]; rfl, ?_, by rw [hc.2.1, hL]⟩
  refine (denotes_iff _ G).2 ⟨?_, ?_⟩
  · show (NodeType.nonleaf p3 q2 r1 s0).Holds (NodeType.nonleaf p3 q2 r1 s0).level 0 0 G
    rw [hc.2.1]; exact hc
  · intro x y hn
    show G x y = gs.backgroundType
    have hn1 : ¬ (0 - 2 ^ (L + 1) ≤ x ∧ x < 0 + 2 ^ (L + 1) ∧ 0 - 2 ^ (L + 1) ≤ y
        ∧ y < 0 + 2 ^ (L + 1)) := by
      have : (NodeType.nonleaf p3 q2 r1 s0).level = L + 1 := hc.2.1
      rw [← this]; exact hn
    by_cases hout : (0 - 2 ^ (L + 2) ≤ x ∧ x < 0 + 2 ^ (L + 2) ∧ 0 - 2 ^ (L + 2) ≤ y
        ∧ y < 0 + 2 ^ (L + 2))
    · have k := fun {cx cy : Int} (hN : (getNullNode L gs.backgroundType).Holds L cx cy G) =>
        getNullNode_agrees_eq hN.2.2 x y
      rw [hP] at hout
      rw [hP1] at hn1
      by_cases hx1 : x < -2 * 2 ^ L <;> by_cases hx2 : x < 0 <;> by_cases hx3 : x < 2 * 2 ^ L <;>
        by_cases hy1 : y < -2 * 2 ^ L <;> by_cases hy2 : y < 0 <;>
        by_cases hy3 : y < 2 * 2 ^ L <;>
        first
          | (exfalso; omega)
          | exact k ha0 (by omega) (by omega) (by omega) (by omega)
          | exact k ha1 (by omega) (by omega) (by omega) (by omega)
          | exact k ha2 (by omega) (by omega) (by omega) (by omega)
          | exact k hb0 (by omega) (by omega) (by omega) (by omega)
          | exact k hb1 (by omega) (by omega) (by omega) (by omega)
          | exact k hb3 (by omega) (by omega) (by omega) (by omega)
          | exact k hc0 (by omega) (by omega) (by omega) (by omega)
          | exact k hc2 (by omega) (by omega) (by omega) (by omega)
          | exact k hc3 (by omega) (by omega) (by omega) (by omega)
          | exact k hd1 (by omega) (by omega) (by omega) (by omega)
          | exact k hd2 (by omega) (by omega) (by omega) (by omega)
          | exact k hd3 (by omega) (by omega) (by omega) (by omega)
    · exact ho x y hout

/-- The contraction loop ends within its budget and keeps the grid and the
background value. -/
theorem checkForContractRootFuel_spec : ∀ (fuel : Nat) (gs : GameState) (G : Grid),
    gs.Denotes G → gs.rootNode.level ≤ fuel + 1 →
    ∃ gs1, checkForContractRootFuel fuel gs = some gs1 ∧ gs1.Denotes G
      ∧ gs1.backgroundType = gs.backgroundType ∧ gs1.rootNode.level ≤ gs.rootNode.level := by
  intro fuel
  induction fuel with
  | zero =>
    intro gs G h hl
    exact ⟨gs, by rw [checkForContractRootFuel, if_pos (by omega)], h, rfl, le_refl _⟩
  | succ fuel ih =>
    intro gs G h hl
    by_cases h2 : gs.rootNode.level < 2
    · exact ⟨gs, by rw [checkForContractRootFuel, if_pos h2], h, rfl, le_refl _⟩
    · by_cases hr : gs.outerRingIsNull = true
      · obtain ⟨c, ec, hc, hlc⟩ := contract_once h (by omega) hr
        obtain ⟨gs1, e, hd, hbg, hle⟩ := ih { gs with rootNode := c } G hc
          (by show c.level ≤ fuel + 1; omega)
        refine ⟨gs1, ?_, hd, hbg, ?_⟩
        · rw [checkForContractRootFuel, if_neg h2, hr]
          simp only [Bool.not_true, Bool.false_eq_true, if_false, ec]
          exact e
        · have : c.level ≤ gs.rootNode.level := by omega
          exact le_trans hle this
      · rw [Bool.not_eq_true] at hr
        exact ⟨gs, by rw [checkForContractRootFuel, if_neg h2, hr]; rfl, h, rfl, le_refl _⟩

theorem checkForContractRoot_spec {gs : GameState} {G : Grid} (h : gs.Denotes G) :
    ∃ gs1, gs.checkForContractRoot = some gs1 ∧ gs1.Denotes G
      ∧ gs1.backgroundType = gs.backgroundType ∧ gs1.rootNode.level ≤ gs.rootNode.level :=
  checkForContractRootFuel_spec gs.rootNode.level gs G h (by omega)


/-- What `step` computes in general: it succeeds, the new background is the
old one advanced on a uniform grid, and the new state denotes the naive
result inside the square of half-width `2 ^ max (level + 1) logStepSize` and
the new background outside of it. -/
theorem step_spec (rules : RuleTable) {gs : GameState} {g : Grid} (h : gs.Denotes g) (k : Nat) :
    ∃ gs1, gs.step rules k = some gs1
      ∧ gs1.backgroundType = (backgroundStep rules)^[2 ^ k] gs.backgroundType
      ∧ gs1.rootNode.level ≤ max (gs.rootNode.level + 1) k
      ∧ gs1.Denotes (fun x y =>
          if -2 ^ max (gs.rootNode.level + 1) k ≤ x ∧ x < 2 ^ max (gs.rootNode.level + 1) k
              ∧ -2 ^ max (gs.rootNode.level + 1) k ≤ y ∧ y < 2 ^ max (gs.rootNode.level + 1) k then
            naiveSteps rules (2 ^ k) g x y
          else (backgroundStep rules)^[2 ^ k] gs.backgroundType) := by
  obtain ⟨h1, l1⟩ := expandRoot_denotes h
  obtain ⟨h2, l2⟩ := expandRoot_denotes h1
  obtain ⟨gs1, e1, hd, hbg, hlev⟩ := expandToLevel_spec (k + 1) gs.expandRoot.expandRoot g k h2
    (by omega)
  rw [expandRoot_backgroundType, expandRoot_backgroundType] at hbg
  have hM : gs1.rootNode.level = max (gs.rootNode.level + 1) k + 1 := by omega
  generalize max (gs.rootNode.level + 1) k = M at hM ⊢
  have hkM : k ≤ M := by omega
  -- the null node of the root's level
  have hN := getNullNode_holds gs1.backgroundType (M + 1) 0 0 (fun _ _ => gs1.backgroundType)
    (fun _ _ _ _ _ _ => rfl)
  obtain ⟨r0, e0, hr0⟩ := NodeType.getNextStateStepFuel_holds rules M _ 0 0 _ k hN hkM
  rw [naiveSteps_const] at hr0
  have e0c : getCellH r0 0 0 0 0 = some ((backgroundStep rules)^[2 ^ k] gs1.backgroundType) := by
    have hpos : (0 : Int) < 2 ^ r0.level := by positivity
    exact hr0.2.2 0 0 (by omega) (by omega) (by omega) (by omega)
  -- the root
  obtain ⟨hroot, ho⟩ := (denotes_iff gs1 g).1 hd
  rw [hM] at hroot
  obtain ⟨r, e, hr⟩ := NodeType.getNextStateStepFuel_holds rules M _ 0 0 _ k hroot hkM
  have hmid : GameState.Denotes ⟨r, (backgroundStep rules)^[2 ^ k] gs1.backgroundType⟩
      (fun x y => if -2 ^ M ≤ x ∧ x < 2 ^ M ∧ -2 ^ M ≤ y ∧ y < 2 ^ M then
        naiveSteps rules (2 ^ k) g x y else (backgroundStep rules)^[2 ^ k] gs1.backgroundType) := by
    refine (denotes_iff _ _).2 ⟨⟨hr.1, rfl, ?_⟩, ?_⟩
    · refine hr.2.2.congr_grid ?_
      intro x y k1 k2 k3 k4
      rw [hr.2.1] at k1 k2 k3 k4
      rw [if_pos ⟨by omega, by omega, by omega, by omega⟩]
    · intro x y hn
      have : r.level = M := hr.2.1
      simp only [this] at hn
      show (if -2 ^ M ≤ x ∧ x < 2 ^ M ∧ -2 ^ M ≤ y ∧ y < 2 ^ M then _ else _) = _
      rw [if_neg (by omega)]
  obtain ⟨gs2, e2, hd2, hbg2, hlev2⟩ := checkForContractRoot_spec hmid
  refine ⟨gs2, ?_, by rw [hbg2, hbg], le_trans hlev2 (le_of_eq hr.2.1), by rw [← hbg]; exact hd2⟩
  rw [step, e1]
  simp only [NodeType.getNextStateStep, getNullNode_level, hM, e0, e0c, e]
  exact e2

/-- When `logStepSize` does not exceed the root level, `step` is exact: the
new state denotes the grid after `2 ^ logStepSize` naive generations. -/
theorem step_exact (rules : RuleTable) {gs : GameState} {g : Grid} (h : gs.Denotes g) (k : Nat)
    (hk : k ≤ gs.rootNode.level) :
    ∃ gs1, gs.step rules k = some gs1 ∧ gs1.Denotes (naiveSteps rules (2 ^ k) g) := by
  obtain ⟨gs1, e, hbg, -, hd⟩ := step_spec rules h k
  refine ⟨gs1, e, ?_⟩
  have hmax : max (gs.rootNode.level + 1) k = gs.rootNode.level + 1 := by omega
  rw [hmax] at hd
  have hout : OutsideIs (2 ^ gs.rootNode.level) g gs.backgroundType := by
    intro x y hn
    exact ((denotes_iff gs g).1 h).2 x y (by omega)
  have hout2 := @outsideIs_naiveSteps rules (2 ^ k) _ _ _ hout
  have hpow : (2 : Int) ^ k ≤ 2 ^ gs.rootNode.level :=
    pow_le_pow_right₀ (by norm_num) hk
  have hP : (2 : Int) ^ (gs.rootNode.level + 1) = 2 * 2 ^ gs.rootNode.level := by
    rw [pow_succ]; ring
  have : (fun x y => if -2 ^ (gs.rootNode.level + 1) ≤ x ∧ x < 2 ^ (gs.rootNode.level + 1)
        ∧ -2 ^ (gs.rootNode.level + 1) ≤ y ∧ y < 2 ^ (gs.rootNode.level + 1) then
        naiveSteps rules (2 ^ k) g x y else (backgroundStep rules)^[2 ^ k] gs.backgroundType)
      = naiveSteps rules (2 ^ k) g := by
    funext x y
    split
    · rfl
    · rename_i hn
      refine (hout2 x y ?_).symm
      push_cast
      rw [hP] at hn
      omega
  rw [this] at hd
  exact hd

end GameState

/-! ## The claims about `getNextState` and `step` -/

/-- C1. For a well-formed node `n` of level `L ≥ 1`, a step exponent
`k ≤ L - 1` and a grid `g` that agrees with `n` on its square (both centred
at the origin), `getNextState(gc, k)` returns a well-formed node of level
`L - 1` whose cell at every `(x, y)` of the centre square equals the cell of
`g` after `2 ^ k` naive generations; the call without a step argument is the
case `k = L - 1`. -/
theorem getNextState_correct (rules : RuleTable) (n : NodeType) (k : Nat) (g : Grid)
    (hw : n.WellFormed) (hL : 1 ≤ n.level) (hk : k ≤ n.level - 1)
    (hg : ∀ x y : Int, -2 ^ n.level ≤ x → x < 2 ^ n.level → -2 ^ n.level ≤ y → y < 2 ^ n.level →
      getCellH n 0 0 x y = some (g x y)) :
    ∃ r, n.getNextStateStep rules k = some r ∧ r.WellFormed ∧ r.level = n.level - 1
      ∧ (∀ x y : Int, -2 ^ (n.level - 1) ≤ x → x < 2 ^ (n.level - 1) → -2 ^ (n.level - 1) ≤ y →
          y < 2 ^ (n.level - 1) → getCellH r 0 0 x y = some (naiveSteps rules (2 ^ k) g x y))
      ∧ n.getNextState rules = n.getNextStateStep rules (n.level - 1) := by
  obtain ⟨L, hLe⟩ : ∃ L, n.level = L + 1 := ⟨n.level - 1, by omega⟩
  have hh : n.Holds (L + 1) 0 0 g :=
    ⟨hw, hLe, fun x y h1 h2 h3 h4 => hg x y (by omega) (by omega) (by omega) (by omega)⟩
  obtain ⟨r, e, wr, lr, ar⟩ := NodeType.getNextStateStepFuel_holds rules L n 0 0 g k hh
    (by omega)
  refine ⟨r, by rw [NodeType.getNextStateStep, hLe]; exact e, wr, by rw [lr, hLe]; rfl, ?_, ?_⟩
  · intro x y h1 h2 h3 h4
    rw [hLe, Nat.add_sub_cancel] at h1 h2 h3 h4
    exact ar x y (by rw [lr]; omega) (by rw [lr]; omega) (by rw [lr]; omega) (by rw [lr]; omega)
  · rw [NodeType.getNextStateStep, hLe, Nat.add_sub_cancel,
      NodeType.getNextStateStepFuel_top rules L hLe]

theorem getNextState_correct_witness :
    ∃ r, (GameState.expandRoot singleCell).rootNode.getNextStateStep setLifeRules 0 = some r
      ∧ r.WellFormed ∧ r.level = (GameState.expandRoot singleCell).rootNode.level - 1
      ∧ (∀ x y : Int, -2 ^ ((GameState.expandRoot singleCell).rootNode.level - 1) ≤ x →
          x < 2 ^ ((GameState.expandRoot singleCell).rootNode.level - 1) →
          -2 ^ ((GameState.expandRoot singleCell).rootNode.level - 1) ≤ y →
          y < 2 ^ ((GameState.expandRoot singleCell).rootNode.level - 1) →
          getCellH r 0 0 x y = some (naiveSteps setLifeRules (2 ^ 0) singleCell.toGrid x y))
      ∧ (GameState.expandRoot singleCell).rootNode.getNextState setLifeRules
          = (GameState.expandRoot singleCell).rootNode.getNextStateStep setLifeRules
              ((GameState.expandRoot singleCell).rootNode.level - 1) :=
  getNextState_correct setLifeRules (GameState.expandRoot singleCell).rootNode 0
    singleCell.toGrid (by decide) (by decide) (by decide)
    (fun x y h1 h2 h3 h4 =>
      ((GameState.denotes_iff _ _).1
        (GameState.expandRoot_denotes (GameState.denotes_toGrid singleCell trivial)).1).1.2.2
        x y (by omega) (by omega) (by omega) (by omega))

/-- C2 (the code at the failing input). Under B1/S, a single live cell at
the origin and `step(1)`: the naive grid after `2 ^ 1` generations has a live
cell at `(2, 2)`, but the stepped universe has root level 1 and `getCell(2, 2)`
returns the background value 0. -/
theorem step_loses_cell_B1 :
    (parseRules "B1/S").1 = true ∧ (∀ i j, (parseRules "B1/S").2 i j = ruleB1 i j)
      ∧ (GameState.new 0).setCell 0 0 1 = some singleCell
      ∧ (singleCell.step ruleB1 1).bind (fun gs => gs.getCell 2 2) = some 0
      ∧ naiveSteps ruleB1 (2 ^ 1) singleCell.toGrid 2 2 = 1 := by
  refine ⟨by decide, by decide, by decide, by decide, by decide⟩

/-- C3 (the code at the failing input). Conway's Life, the seven-cell column
entered with `setCell` into an empty universe, and `step(3)`: the naive grid
after `2 ^ 3` generations has a live cell at `(-9, -1)`, but `getCell(-9, -1)`
on the stepped universe returns 0; the live cell lies outside the new root
and is lost. -/
theorem life_step_loses_cell :
    (GameState.new 0).setCells column7 = some lifeColumn
      ∧ (∃ gs1, lifeColumn.step setLifeRules 3 = some gs1 ∧ gs1.getCell (-9) (-1) = some 0)
      ∧ naiveSteps setLifeRules (2 ^ 3) lifeColumn.toGrid (-9) (-1) = 1 := by
  have hd := GameState.denotes_toGrid lifeColumn (by decide)
  refine ⟨by decide, ?_, ?_⟩
  · obtain ⟨gs1, e, hbg, hlev, -⟩ := GameState.step_spec setLifeRules hd 3
    refine ⟨gs1, e, ?_⟩
    have hl : gs1.rootNode.level ≤ 3 := hlev
    have hp : (2 : Int) ^ gs1.rootNode.level ≤ 2 ^ 3 := pow_le_pow_right₀ (by norm_num) hl
    have hb : isInNodeBounds gs1.rootNode 0 0 (-9) (-1) = false := by
      rw [← Bool.not_eq_true, isInNodeBounds_iff]
      omega
    have hbg0 : gs1.backgroundType = 0 := by rw [hbg]; decide
    rw [GameState.getCell, hb, hbg0]; rfl
  · obtain ⟨h1, l1⟩ := GameState.expandRoot_denotes hd
    obtain ⟨h2, l2⟩ := GameState.expandRoot_denotes h1
    obtain ⟨h3, l3⟩ := GameState.expandRoot_denotes h2
    have hl : lifeColumn.expandRoot.expandRoot.expandRoot.rootNode.level = 4 + 1 := by decide
    have hh := ((GameState.denotes_iff _ _).1 h3).1
    rw [hl] at hh
    obtain ⟨r, e, hr⟩ := NodeType.getNextStateStepFuel_holds setLifeRules 4 _ 0 0 _ 3 hh
      (by omega)
    have hdec : (NodeType.getNextStateStepFuel setLifeRules (4 + 1)
        lifeColumn.expandRoot.expandRoot.expandRoot.rootNode 3).bind
          (fun r => getCellH r 0 0 (-9) (-1)) = some 1 := by decide
    rw [e] at hdec
    have := hr.2.2 (-9) (-1) (by rw [hr.2.1]; norm_num) (by rw [hr.2.1]; norm_num)
      (by rw [hr.2.1]; norm_num) (by rw [hr.2.1]; norm_num)
    rw [Option.some_bind, this] at hdec
    exact Option.some.inj hdec

/-- The stages of `step`, each given by its value. -/
theorem GameState.step_eq_of_stages {rules : RuleTable} {gs gsE gs1 : GameState} {k : Nat}
    {nn r : NodeType} {b : CellType}
    (h1 : GameState.expandToLevel (k + 1) gs.expandRoot.expandRoot k = some gsE)
    (h2 : (getNullNode gsE.rootNode.level gsE.backgroundType).getNextStateStep rules k = some nn)
    (h3 : getCellH nn 0 0 0 0 = some b)
    (h4 : gsE.rootNode.getNextStateStep rules k = some r)
    (h5 : GameState.checkForContractRoot ⟨r, b⟩ = some gs1) :
    gs.step rules k = some gs1 := by
  rw [GameState.step, h1]
  simp only [h2, h3, h4]
  exact h5

/-- C9 (the code at the failing input). Under B2/S023, with a root of level 4
holding two live cells, `step(2)` twice and `step(3)` once disagree at
`(-1, 4)` although `2 + 1 ≤ level - 1`: the first `step(2)` contracts the root
to level 1 and the second one loses the cell that `step(3)` keeps. -/
theorem step_not_additive :
    ((GameState.new 0).setCell 8 8 0).bind (fun s => s.setCells [(-1, -1), (1, 1)])
        = some twoCells
      ∧ 2 + 1 ≤ twoCells.rootNode.level - 1
      ∧ ∃ gs1 gs2 gs3, twoCells.step ruleB2S023 2 = some gs1
          ∧ gs1.step ruleB2S023 2 = some gs2
          ∧ twoCells.step ruleB2S023 (2 + 1) = some gs3
          ∧ gs2.getCell (-1) 4 = some 0 ∧ gs3.getCell (-1) 4 = some 1 := by
  have hd := GameState.denotes_toGrid twoCells (by decide)
  have hd1 := GameState.denotes_toGrid ring8 (by decide)
  have e1 : twoCells.step ruleB2S023 2 = some ring8 :=
    @GameState.step_eq_of_stages ruleB2S023 twoCells twoCells.expandRoot.expandRoot ring8 2
      (getNullNode 5 0) ring8.expandRoot.expandRoot.expandRoot.expandRoot.rootNode 0
      (by decide) (by decide) (by decide) (by decide) (by decide)
  obtain ⟨gs2, e2, hbg2, -, hd2⟩ := GameState.step_spec ruleB2S023 hd1 2
  obtain ⟨gs3, e3, hd3⟩ := GameState.step_exact ruleB2S023 hd (2 + 1) (by decide)
  refine ⟨by decide, by decide, ring8, gs2, gs3, e1, e2, e3, ?_, ?_⟩
  · have := hd2.2 (-1) 4
    rw [this]
    decide
  · rw [hd3.2 (-1) 4]
    obtain ⟨h1, l1⟩ := GameState.expandRoot_denotes hd
    have hl : twoCells.expandRoot.rootNode.level = 4 + 1 := by decide
    have hh := ((GameState.denotes_iff _ _).1 h1).1
    rw [hl] at hh
    obtain ⟨r, e, hr⟩ := NodeType.getNextStateStepFuel_holds ruleB2S023 4 _ 0 0 _ 3 hh
      (by omega)
    have hdec : (NodeType.getNextStateStepFuel ruleB2S023 (4 + 1)
        twoCells.expandRoot.rootNode 3).bind (fun r => getCellH r 0 0 (-1) 4) = some 1 := by
      decide
    rw [e] at hdec
    have := hr.2.2 (-1) 4 (by rw [hr.2.1]; norm_num) (by rw [hr.2.1]; norm_num)
      (by rw [hr.2.1]; norm_num) (by rw [hr.2.1]; norm_num)
    rw [Option.some_bind, this] at hdec
    exact hdec

/-! ## The collector -/

namespace Heap

theorem Memory.set_same (m : Memory) (a : Addr) (n : Node) : m.set a n a = some n := by
  simp [Memory.set]

theorem Memory.set_other (m : Memory) {a x : Addr} (n : Node) (h : x ≠ a) :
    m.set a n x = m x := by
  simp [Memory.set, h]

theorem clearChain_spec : ∀ (chain : List Addr) (m : Memory) (usedList : List Addr),
    (∀ a, (clearChain chain m usedList).1 a
        = if a ∈ chain then (m a).map fun n => n.withUsed (decide (n.refcount > 0)) else m a)
      ∧ (∀ a, a ∈ (clearChain chain m usedList).2
          ↔ a ∈ usedList ∨ (a ∈ chain ∧ ∃ n, m a = some n ∧ 0 < n.refcount)) := by
  intro chain
  induction chain with
  | nil => intro m u; simp [clearChain]
  | cons node rest ih =>
    intro m u
    cases hn : m node with
    | none =>
      simp only [clearChain, hn]
      obtain ⟨h1, h2⟩ := ih m u
      refine ⟨fun a => ?_, fun a => ?_⟩
      · rw [h1 a]
        by_cases ha : a = node
        · subst ha; simp [hn]
        · simp [ha]
      · rw [h2 a]
        by_cases ha : a = node
        · subst ha; simp [hn]
        · simp [ha]
    | some n =>
      simp only [clearChain, hn]
      obtain ⟨h1, h2⟩ := ih (m.set node { n with used := decide (n.refcount > 0) })
        (if decide (n.refcount > 0) = true then node :: u else u)
      refine ⟨fun a => ?_, fun a => ?_⟩
      · rw [h1 a]
        by_cases ha : a = node
        · subst ha
          simp only [Memory.set_same, List.mem_cons, true_or, if_true, hn, Option.map_some',
            Node.withUsed]
          split <;> rfl
        · simp [ha, Memory.set_other]
      · rw [h2 a]
        by_cases ha : a = node
        · subst ha
          by_cases hr : 0 < n.refcount
          · simp [hr, hn, Memory.set_same]
          · simp [hr, hn, Memory.set_same]
        · by_cases hr : 0 < n.refcount
          · simp [hr, ha, Memory.set_other]
          · simp [hr, ha, Memory.set_other]

theorem clearBuckets_spec (table : Nat → List Addr) : ∀ (is : List Nat) (m : Memory)
    (usedList : List Addr),
    (∀ a, (clearBuckets table is m usedList).1 a
        = if ∃ i ∈ is, a ∈ table i then (m a).map fun n => n.withUsed (decide (n.refcount > 0))
          else m a)
      ∧ (∀ a, a ∈ (clearBuckets table is m usedList).2
          ↔ a ∈ usedList ∨ ((∃ i ∈ is, a ∈ table i) ∧ ∃ n, m a = some n ∧ 0 < n.refcount)) := by
  intro is
  induction is with
  | nil => intro m u; simp [clearBuckets]
  | cons i rest ih =>
    intro m u
    obtain ⟨c1, c2⟩ := clearChain_spec (table i) m u
    obtain ⟨h1, h2⟩ := ih (clearChain (table i) m u).1 (clearChain (table i) m u).2
    simp only [clearBuckets]
    refine ⟨fun a => ?_, fun a => ?_⟩
    · rw [h1 a, c1 a]
      by_cases hi : a ∈ table i <;> by_cases hr : ∃ j ∈ rest, a ∈ table j
      · have : ∃ j ∈ i :: rest, a ∈ table j := ⟨i, List.mem_cons_self _ _, hi⟩
        simp only [hi, hr, this, if_true]
        cases m a with
        | none => rfl
        | some n => simp [Node.withUsed]
      · have : ∃ j ∈ i :: rest, a ∈ table j := ⟨i, List.mem_cons_self _ _, hi⟩
        simp only [hi, hr, this, if_true, if_false]
      · have : ∃ j ∈ i :: rest, a ∈ table j := by
          obtain ⟨j, hj, hja⟩ := hr; exact ⟨j, List.mem_cons_of_mem _ hj, hja⟩
        simp only [hi, hr, this, if_true, if_false]
      · have : ¬ ∃ j ∈ i :: rest, a ∈ table j := by
          rintro ⟨j, hj, hja⟩
          rcases List.mem_cons.1 hj with rfl | hj
          · exact hi hja
          · exact hr ⟨j, hj, hja⟩
        simp only [hi, hr, this, if_false]
    · rw [h2 a, c2 a, c1 a]
      have hroot : (∃ n, (if a ∈ table i then
            (m a).map fun n => n.withUsed (decide (n.refcount > 0)) else m a) = some n
          ∧ 0 < n.refcount) ↔ ∃ n, m a = some n ∧ 0 < n.refcount := by
        by_cases hi : a ∈ table i
        · simp only [hi, if_true]
          cases m a with
          | none => simp
          | some n => simp [Node.withUsed]
        · simp only [hi, if_false]
      rw [hroot]
      constructor
      · rintro ((h | ⟨hi, hn⟩) | ⟨⟨j, hj, hja⟩, hn⟩)
        · exact Or.inl h
        · exact Or.inr ⟨⟨i, List.mem_cons_self _ _, hi⟩, hn⟩
        · exact Or.inr ⟨⟨j, List.mem_cons_of_mem _ hj, hja⟩, hn⟩
      · rintro (h | ⟨⟨j, hj, hja⟩, hn⟩)
        · exact Or.inl (Or.inl h)
        · rcases List.mem_cons.1 hj with rfl | hj
          · exact Or.inl (Or.inr ⟨hja, hn⟩)
          · exact Or.inr ⟨⟨j, hj, hja⟩, hn⟩

/-- Function `clearAllNodes` on a store that satisfies the invariant: every
`used` flag becomes `refcount > 0`, and the list holds the nodes with
`refcount > 0`. -/
theorem clearAllNodes_spec {cfg : Config} {s : NodeGCHashTable} (hinv : Inv cfg s) :
    (∀ a, (clearAllNodes cfg s).1 a
        = (s.memory a).map fun n => n.withUsed (decide (n.refcount > 0)))
      ∧ (∀ a, a ∈ (clearAllNodes cfg s).2 ↔ ∃ n, s.memory a = some n ∧ 0 < n.refcount) := by
  obtain ⟨h1, h2⟩ := clearBuckets_spec s.table (List.range cfg.hashPrime) s.memory []
  have key : ∀ a n, s.memory a = some n → ∃ i ∈ List.range cfg.hashPrime, a ∈ s.table i := by
    intro a n hn
    have hin := hinv.in_table a n hn
    exact ⟨_, List.mem_range.2 (hinv.mem_table _ a hin).1, hin⟩
  refine ⟨fun a => ?_, fun a => ?_⟩
  · rw [clearAllNodes, h1 a]
    cases hn : s.memory a with
    | none => simp
    | some n => rw [if_pos (key a n hn)]
  · rw [clearAllNodes, h2 a]
    constructor
    · rintro (h | ⟨-, hn⟩)
      · exact absurd h (List.not_mem_nil _)
      · exact hn
    · rintro ⟨n, hn, hr⟩
      exact Or.inr ⟨key a n hn, n, hn, hr⟩



theorem SameButUsed.refl (m : Memory) : SameButUsed m m := fun _ => rfl

theorem SameButUsed.trans {m m1 m2 : Memory} (h1 : SameButUsed m m1) (h2 : SameButUsed m1 m2) :
    SameButUsed m m2 := fun a => (h2 a).trans (h1 a)

theorem SameButUsed.symm {m m1 : Memory} (h : SameButUsed m m1) : SameButUsed m1 m :=
  fun a => (h a).symm

theorem Node.withUsed_eq_iff {n n1 : Node} :
    n1.withUsed false = n.withUsed false ↔ n1 = n.withUsed n1.used := by
  cases n; cases n1
  simp only [Node.withUsed, Node.mk.injEq, true_and]

/-- Under `SameButUsed` a node keeps everything but its `used` flag. -/
theorem SameButUsed.get {m m1 : Memory} (h : SameButUsed m m1) {a : Addr} {n : Node}
    (hn : m a = some n) : ∃ u, m1 a = some (n.withUsed u) := by
  have := h a
  rw [hn] at this
  cases h1 : m1 a with
  | none => rw [h1] at this; simp at this
  | some n1 =>
    rw [h1] at this
    simp only [Option.map_some', Option.some.injEq] at this
    exact ⟨n1.used, congrArg Option.some (Node.withUsed_eq_iff.1 this)⟩

theorem SameButUsed.set {m : Memory} {a : Addr} {n : Node} (hn : m a = some n) (u : Bool) :
    SameButUsed m (m.set a (n.withUsed u)) := by
  intro x
  by_cases hx : x = a
  · subst hx; rw [Memory.set_same, hn]; rfl
  · rw [Memory.set_other _ _ hx]

theorem SameButUsed.kidsLive {m m1 : Memory} (h : SameButUsed m m1) (hk : KidsLive m) :
    KidsLive m1 := by
  intro a n1 hn1 hl k hkk
  obtain ⟨u, hu⟩ := h.symm.get hn1
  obtain ⟨nk, hnk, hlev⟩ := hk a _ hu hl k hkk
  obtain ⟨u1, hu1⟩ := h.get hnk
  exact ⟨_, hu1, hlev⟩

theorem Desc.append {m : Memory} {a b c : Addr} (h1 : Desc m a b) (h2 : Desc m b c) :
    Desc m a c := by
  induction h2 with
  | self => exact h1
  | kid _ hn hl hk ih => exact Desc.kid ih hn hl hk

theorem SameButUsed.desc {m m1 : Memory} (h : SameButUsed m m1) {a x : Addr}
    (hd : Desc m1 a x) : Desc m a x := by
  induction hd with
  | self => exact Desc.self
  | kid _ hn hl hk ih =>
    obtain ⟨u, hu⟩ := h.symm.get hn
    exact Desc.kid ih hu hl hk

theorem UsedIn.mono_set {m : Memory} {a x : Addr} {n : Node} (hn : m a = some n)
    (h : UsedIn m x) : UsedIn (m.set a (n.withUsed true)) x := by
  by_cases hx : x = a
  · subst hx; exact ⟨_, Memory.set_same _ _ _, rfl⟩
  · obtain ⟨nx, hnx, hu⟩ := h
    exact ⟨nx, by rw [Memory.set_other _ _ hx]; exact hnx, hu⟩

theorem markList_spec (fuel : Nat)
    (H : ∀ (a : Addr) (m : Memory) (E : List Addr), KidsLive m →
      (∃ n, m a = some n ∧ n.level < fuel) → Closed m E →
      ∃ m1, markNode fuel a m = some m1 ∧ Marked m [a] E m1) :
    ∀ (ks : List Addr) (m : Memory) (E : List Addr), KidsLive m →
      (∀ k ∈ ks, ∃ n, m k = some n ∧ n.level < fuel) → Closed m E →
      ∃ m1, markList fuel ks m = some m1 ∧ Marked m ks E m1 := by
  intro ks
  induction ks with
  | nil =>
    intro m E _ _ hc
    exact ⟨m, rfl, SameButUsed.refl m, fun _ h => h, fun _ h => absurd h (List.not_mem_nil _), hc,
      fun _ h => Or.inl h⟩
  | cons k rest ih =>
    intro m E hk hl hc
    obtain ⟨m1, e1, s1, mo1, u1, c1, d1⟩ := H k m E hk (hl k (List.mem_cons_self _ _)) hc
    have hl1 : ∀ j ∈ rest, ∃ n, m1 j = some n ∧ n.level < fuel := by
      intro j hj
      obtain ⟨n, hn, hlt⟩ := hl j (List.mem_cons_of_mem _ hj)
      obtain ⟨u, hu⟩ := s1.get hn
      exact ⟨_, hu, hlt⟩
    obtain ⟨m2, e2, s2, mo2, u2, c2, d2⟩ := ih m1 E (s1.kidsLive hk) hl1 c1
    refine ⟨m2, by rw [markList, e1]; exact e2, s1.trans s2, fun x h => mo2 x (mo1 x h), ?_, c2, ?_⟩
    · intro j hj
      rcases List.mem_cons.1 hj with rfl | hj
      · exact mo2 _ (u1 _ (List.mem_cons_self _ _))
      · exact u2 j hj
    · intro x hx
      rcases d2 x hx with h | ⟨j, hj, hd⟩
      · rcases d1 x h with h | ⟨j, hj, hd⟩
        · exact Or.inl h
        · rcases List.mem_cons.1 hj with rfl | hj
          · exact Or.inr ⟨j, List.mem_cons_self _ _, hd⟩
          · exact absurd hj (List.not_mem_nil _)
      · exact Or.inr ⟨j, List.mem_cons_of_mem _ hj, s1.desc hd⟩

theorem markNode_eq_markList (fuel : Nat) (node : Addr) (m : Memory) (n : Node)
    (hn : m node = some n) (hu : n.used = false) (hl : 0 < n.level) :
    markNode (fuel + 1) node m = markList fuel n.kids (m.set node (n.withUsed true)) := by
  rw [markNode, hn]
  simp only [hu, Bool.false_eq_true, if_false, gt_iff_lt, hl, if_true, Node.kids, markList,
    Node.withUsed]
  cases markNode fuel n.nxny (m.set node { n with used := true }) with
  | none => rfl
  | some m1 =>
    simp only
    cases markNode fuel n.nxpy m1 with
    | none => rfl
    | some m2 =>
      simp only
      cases markNode fuel n.pxny m2 with
      | none => rfl
      | some m3 =>
        simp only
        cases markNode fuel n.pxpy m3 with
        | none => rfl
        | some m4 => rfl


theorem closed_after_kids {m m4 : Memory} {a : Addr} {n : Node} {E : List Addr}
    (hn : m a = some n) (hs : SameButUsed m m4) (hc : Closed m4 (a :: E))
    (hk : ∀ k ∈ n.kids, UsedIn m4 k) : Closed m4 E := by
  intro x nx hnx hu hxE hl k hkk
  by_cases hx : x = a
  · subst hx
    obtain ⟨u, hu1⟩ := hs.get hn
    rw [hu1] at hnx
    cases hnx
    exact hk k hkk
  · exact hc x nx hnx hu (by simp [hx, hxE]) hl k hkk

theorem closed_set {m : Memory} {a : Addr} {n : Node} {E : List Addr} (hn : m a = some n)
    (hc : Closed m E) : Closed (m.set a (n.withUsed true)) (a :: E) := by
  intro x nx hnx hu hxE hl k hkk
  have hxa : x ≠ a := fun h => hxE (by simp [h])
  rw [Memory.set_other _ _ hxa] at hnx
  exact UsedIn.mono_set hn (hc x nx hnx hu (fun h => hxE (List.mem_cons_of_mem _ h)) hl k hkk)

/-- Function `markNode` with a budget above the node's level: the node and
everything below it become used, and nothing else does. -/
theorem markNode_spec : ∀ (fuel : Nat) (a : Addr) (m : Memory) (E : List Addr), KidsLive m →
    (∃ n, m a = some n ∧ n.level < fuel) → Closed m E →
    ∃ m1, markNode fuel a m = some m1 ∧ Marked m [a] E m1 := by
  intro fuel
  induction fuel with
  | zero => rintro a m E - ⟨n, -, hl⟩ -; omega
  | succ fuel ih =>
    rintro a m E hk ⟨n, hn, hl⟩ hc
    by_cases hu : n.used = true
    · refine ⟨m, by rw [markNode, hn]; simp only [hu, if_true], SameButUsed.refl m, fun _ h => h, ?_, hc,
        fun _ h => Or.inl h⟩
      intro k hkk
      rw [List.mem_singleton.1 hkk]
      exact ⟨n, hn, hu⟩
    · rw [Bool.not_eq_true] at hu
      have hs0 : SameButUsed m (m.set a (n.withUsed true)) := SameButUsed.set hn true
      have ha0 : UsedIn (m.set a (n.withUsed true)) a := ⟨_, Memory.set_same _ _ _, rfl⟩
      by_cases hlev : 0 < n.level
      · have hkids : ∀ k ∈ n.kids, ∃ nk, (m.set a (n.withUsed true)) k = some nk
            ∧ nk.level < fuel := by
          intro k hkk
          obtain ⟨nk, hnk, hl1⟩ := hk a n hn hlev k hkk
          obtain ⟨u, hu1⟩ := hs0.get hnk
          exact ⟨_, hu1, by show nk.level < fuel; omega⟩
        obtain ⟨m4, e4, s4, mo4, u4, c4, d4⟩ := markList_spec fuel ih n.kids _ (a :: E)
          (hs0.kidsLive hk) hkids (closed_set hn hc)
        refine ⟨m4, by rw [markNode_eq_markList fuel a m n hn hu hlev]; exact e4, hs0.trans s4,
          fun x h => mo4 x (UsedIn.mono_set hn h), ?_,
          closed_after_kids hn (hs0.trans s4) c4 u4, ?_⟩
        · intro k hkk
          rw [List.mem_singleton.1 hkk]
          exact mo4 a ha0
        · intro x hx
          rcases d4 x hx with h | ⟨k, hkk, hd⟩
          · by_cases hxa : x = a
            · exact Or.inr ⟨a, List.mem_singleton_self a, hxa ▸ Desc.self⟩
            · obtain ⟨nx, hnx, hux⟩ := h
              rw [Memory.set_other _ _ hxa] at hnx
              exact Or.inl ⟨nx, hnx, hux⟩
          · exact Or.inr ⟨a, List.mem_singleton_self a,
              (Desc.kid Desc.self hn hlev hkk).append (hs0.desc hd)⟩
      · refine ⟨m.set a (n.withUsed true), ?_, hs0, fun x h => UsedIn.mono_set hn h, ?_, ?_, ?_⟩
        · rw [markNode, hn]
          simp only [hu, Bool.false_eq_true, if_false, gt_iff_lt, hlev]
          rfl
        · intro k hkk
          rw [List.mem_singleton.1 hkk]
          exact ha0
        · intro x nx hnx hux hxE hl1 k hkk
          by_cases hxa : x = a
          · subst hxa
            rw [Memory.set_same] at hnx
            cases hnx
            exact absurd hl1 hlev
          · rw [Memory.set_other _ _ hxa] at hnx
            exact UsedIn.mono_set hn (hc x nx hnx hux hxE hl1 k hkk)
        · intro x hx
          by_cases hxa : x = a
          · exact Or.inr ⟨a, List.mem_singleton_self a, hxa ▸ Desc.self⟩
          · obtain ⟨nx, hnx, hux⟩ := hx
            rw [Memory.set_other _ _ hxa] at hnx
            exact Or.inl ⟨nx, hnx, hux⟩

theorem markAllNodes_cons (fuel : Nat) (node : Addr) (rest : List Addr) (m : Memory) (n : Node)
    (hn : m node = some n) :
    markAllNodes fuel (node :: rest) m =
      if 0 < n.level then
        match markList fuel n.kids (m.set node (n.withUsed true)) with
        | none => none
        | some m4 => markAllNodes fuel rest m4
      else markAllNodes fuel rest (m.set node (n.withUsed true)) := by
  rw [markAllNodes, hn]
  by_cases hl : 0 < n.level
  · simp only [gt_iff_lt, hl, if_true, Node.kids, markList, Node.withUsed]
    cases markNode fuel n.nxny (m.set node { n with used := true }) with
    | none => rfl
    | some m1 =>
      simp only
      cases markNode fuel n.nxpy m1 with
      | none => rfl
      | some m2 =>
        simp only
        cases markNode fuel n.pxny m2 with
        | none => rfl
        | some m3 =>
          simp only
          cases markNode fuel n.pxpy m3 with
          | none => rfl
          | some m4 => rfl
  · simp only [gt_iff_lt, hl, if_false, Node.withUsed]

/-- Function `markAllNodes` over a list of pending roots. -/
theorem markAllNodes_spec (fuel : Nat) : ∀ (roots : List Addr) (m : Memory), KidsLive m →
    (∀ a n, m a = some n → n.level < fuel) → (∀ a ∈ roots, ∃ n, m a = some n) →
    Closed m roots →
    ∃ m1, markAllNodes fuel roots m = some m1 ∧ Marked m roots [] m1 := by
  intro roots
  induction roots with
  | nil =>
    intro m _ _ _ hc
    exact ⟨m, rfl, SameButUsed.refl m, fun _ h => h, fun _ h => absurd h (List.not_mem_nil _), hc,
      fun _ h => Or.inl h⟩
  | cons a rest ih =>
    intro m hk hlev hlive hc
    obtain ⟨n, hn⟩ := hlive a (List.mem_cons_self _ _)
    have hs0 : SameButUsed m (m.set a (n.withUsed true)) := SameButUsed.set hn true
    have ha0 : UsedIn (m.set a (n.withUsed true)) a := ⟨_, Memory.set_same _ _ _, rfl⟩
    have hc0 : Closed (m.set a (n.withUsed true)) (a :: rest) := by
      intro x nx hnx hux hxE hl1 k hkk
      have hxa : x ≠ a := fun h => hxE (by simp [h])
      rw [Memory.set_other _ _ hxa] at hnx
      exact UsedIn.mono_set hn (hc x nx hnx hux hxE hl1 k hkk)
    have hlev1 : ∀ {m1 : Memory}, SameButUsed m m1 → ∀ a n, m1 a = some n → n.level < fuel := by
      intro m1 hs x nx hnx
      obtain ⟨u, hu⟩ := hs.symm.get hnx
      have := hlev x _ hu
      exact this
    have hlive1 : ∀ {m1 : Memory}, SameButUsed m m1 → ∀ x ∈ rest, ∃ n, m1 x = some n := by
      intro m1 hs x hx
      obtain ⟨nx, hnx⟩ := hlive x (List.mem_cons_of_mem _ hx)
      obtain ⟨u, hu⟩ := hs.get hnx
      exact ⟨_, hu⟩
    rw [markAllNodes_cons fuel a rest m n hn]
    by_cases hl : 0 < n.level
    · rw [if_pos hl]
      have hkids : ∀ k ∈ n.kids, ∃ nk, (m.set a (n.withUsed true)) k = some nk
          ∧ nk.level < fuel := by
        intro k hkk
        obtain ⟨nk, hnk, -⟩ := hk a n hn hl k hkk
        obtain ⟨u, hu1⟩ := hs0.get hnk
        exact ⟨_, hu1, hlev1 hs0 k _ hu1⟩
      obtain ⟨m4, e4, s4, mo4, u4, c4, d4⟩ := markList_spec fuel
        (fun a m E hk hl hc => markNode_spec fuel a m E hk hl hc) n.kids _ (a :: rest)
        (hs0.kidsLive hk) hkids hc0
      have c4r : Closed m4 rest := closed_after_kids hn (hs0.trans s4) c4 u4
      obtain ⟨m5, e5, s5, mo5, u5, c5, d5⟩ := ih m4 ((hs0.trans s4).kidsLive hk)
        (hlev1 (hs0.trans s4)) (hlive1 (hs0.trans s4)) c4r
      refine ⟨m5, by rw [e4]; exact e5, (hs0.trans s4).trans s5,
        fun x h => mo5 x (mo4 x (UsedIn.mono_set hn h)), ?_, c5, ?_⟩
      · intro k hkk
        rcases List.mem_cons.1 hkk with rfl | hkk
        · exact mo5 _ (mo4 _ ha0)
        · exact u5 k hkk
      · intro x hx
        rcases d5 x hx with h | ⟨k, hkk, hd⟩
        · rcases d4 x h with h | ⟨k, hkk, hd⟩
          · by_cases hxa : x = a
            · exact Or.inr ⟨a, List.mem_cons_self _ _, hxa ▸ Desc.self⟩
            · obtain ⟨nx, hnx, hux⟩ := h
              rw [Memory.set_other _ _ hxa] at hnx
              exact Or.inl ⟨nx, hnx, hux⟩
          · exact Or.inr ⟨a, List.mem_cons_self _ _,
              (Desc.kid Desc.self hn hl hkk).append (hs0.desc hd)⟩
        · exact Or.inr ⟨k, List.mem_cons_of_mem _ hkk, (hs0.trans s4).desc hd⟩
    · rw [if_neg hl]
      have c0r : Closed (m.set a (n.withUsed true)) rest := by
        intro x nx hnx hux hxE hl1 k hkk
        by_cases hxa : x = a
        · subst hxa
          rw [Memory.set_same] at hnx
          cases hnx
          exact absurd hl1 hl
        · exact hc0 x nx hnx hux (by simp [hxa, hxE]) hl1 k hkk
      obtain ⟨m5, e5, s5, mo5, u5, c5, d5⟩ := ih _ (hs0.kidsLive hk) (hlev1 hs0) (hlive1 hs0) c0r
      refine ⟨m5, e5, hs0.trans s5, fun x h => mo5 x (UsedIn.mono_set hn h), ?_, c5, ?_⟩
      · intro k hkk
        rcases List.mem_cons.1 hkk with rfl | hkk
        · exact mo5 _ ha0
        · exact u5 k hkk
      · intro x hx
        rcases d5 x hx with h | ⟨k, hkk, hd⟩
        · by_cases hxa : x = a
          · exact Or.inr ⟨a, List.mem_cons_self _ _, hxa ▸ Desc.self⟩
          · obtain ⟨nx, hnx, hux⟩ := h
            rw [Memory.set_other _ _ hxa] at hnx
            exact Or.inl ⟨nx, hnx, hux⟩
        · exact Or.inr ⟨k, List.mem_cons_of_mem _ hkk, hs0.desc hd⟩

/-! ### The sweep phase -/


theorem removeAll_congr {D D1 : List Addr} (h : ∀ a, a ∈ D ↔ a ∈ D1) (m : Memory) :
    removeAll D m = removeAll D1 m := by
  funext a
  have hn : ∀ n : Node, nullDead D n = nullDead D1 n := by
    intro n
    unfold nullDead
    cases n.nonleaf_nextState with
    | none => rfl
    | some t => simp only [h t]
  simp only [removeAll, h a]
  split
  · rfl
  · cases m a with
    | none => rfl
    | some n => simp [hn]

theorem removeAll_nil (m : Memory) : removeAll [] m = m := by
  funext a
  simp only [removeAll, List.not_mem_nil, if_false]
  cases m a with
  | none => rfl
  | some n =>
    simp only [Option.map_some', nullDead]
    cases n.nonleaf_nextState <;> simp

theorem deleteNode_removeAll (x : Addr) (D : List Addr) (m : Memory) :
    deleteNode x (removeAll D m) = removeAll (x :: D) m := by
  funext a
  simp only [deleteNode, removeAll, List.mem_cons]
  by_cases hax : a = x
  · simp [hax]
  · by_cases haD : a ∈ D
    · simp [hax, haD]
    · simp only [hax, haD, if_false, or_self]
      cases m a with
      | none => rfl
      | some n =>
        simp only [Option.map_some', nullDead]
        cases hc : n.nonleaf_nextState with
        | none => simp [hc]
        | some t =>
          by_cases htD : t ∈ D
          · simp [htD]
          · by_cases htx : t = x
            · subst htx
              simp [htD, hc]
            · simp [htD, htx, hc]

theorem keep_removeAll {D : List Addr} {a : Addr} (h : a ∉ D) (m : Memory) :
    keep (removeAll D m) a = keep m a := by
  simp only [keep, removeAll, h, if_false]
  cases m a with
  | none => rfl
  | some n =>
    simp only [Option.map_some', nullDead]
    cases n.nonleaf_nextState with
    | none => rfl
    | some t => by_cases ht : t ∈ D <;> simp [ht]

/-- The inner loop of the sweep on a chain of allocated nodes. -/
theorem sweepChain_spec (m0 : Memory) : ∀ (chain : List Addr) (D : List Addr) (cnt : Nat),
    (∀ a ∈ chain, a ∉ D) → chain.Nodup → (∀ a ∈ chain, ∃ n, m0 a = some n) →
    sweepChain chain (removeAll D m0) cnt
      = (chain.filter (keep m0),
          removeAll ((chain.filter fun a => !keep m0 a).reverse ++ D) m0,
          cnt - (chain.filter fun a => !keep m0 a).length) := by
  intro chain
  induction chain with
  | nil => intro D cnt _ _ _; simp [sweepChain]
  | cons node rest ih =>
    intro D cnt hD hnd hlive
    have hnode : node ∉ D := hD node (List.mem_cons_self _ _)
    obtain ⟨n, hn⟩ := hlive node (List.mem_cons_self _ _)
    have hcur : removeAll D m0 node = some (nullDead D n) := by
      simp [removeAll, hnode, hn]
    have hkeep := keep_removeAll hnode m0
    have hk : ((nullDead D n).used || decide ((nullDead D n).refcount > 0)) = keep m0 node := by
      rw [← hkeep, keep, hcur]
    rw [sweepChain, hcur]
    simp only [hk]
    by_cases hkn : keep m0 node = true
    · rw [List.nodup_cons] at hnd
      have := ih D cnt (fun a h => hD a (List.mem_cons_of_mem _ h)) hnd.2
        (fun a h => hlive a (List.mem_cons_of_mem _ h))
      simp only [hkn, if_true, this, List.filter_cons, Bool.not_true, Bool.false_eq_true,
        if_false]
    · rw [Bool.not_eq_true] at hkn
      rw [List.nodup_cons] at hnd
      have hD1 : ∀ a ∈ rest, a ∉ node :: D := by
        intro a ha h
        rcases List.mem_cons.1 h with rfl | h
        · exact hnd.1 ha
        · exact hD a (List.mem_cons_of_mem _ ha) h
      have := ih (node :: D) (cnt - 1) hD1 hnd.2 (fun a h => hlive a (List.mem_cons_of_mem _ h))
      simp only [hkn, Bool.false_eq_true, if_false, deleteNode_removeAll, this, List.filter_cons,
        Bool.not_false, if_true, List.reverse_cons, List.append_assoc, List.singleton_append,
        List.length_cons, Nat.sub_sub, Nat.add_comm 1]


/-- The outer loop of the sweep. -/
theorem sweepBuckets_spec (m0 : Memory) : ∀ (is : List Nat) (s : NodeGCHashTable)
    (D : List Addr), s.memory = removeAll D m0 → is.Nodup →
    (∀ i ∈ is, ∀ a ∈ s.table i, a ∉ D ∧ ∃ n, m0 a = some n) → (∀ i, (s.table i).Nodup) →
    (∀ i j a, a ∈ s.table i → a ∈ s.table j → i = j) →
    ∃ D1, (sweepBuckets is s).memory = removeAll D1 m0
      ∧ (∀ a, a ∈ D1 ↔ a ∈ D ∨ ∃ i ∈ is, a ∈ s.table i ∧ keep m0 a = false)
      ∧ (∀ j, (sweepBuckets is s).table j
          = if j ∈ is then (s.table j).filter (keep m0) else s.table j)
      ∧ (sweepBuckets is s).nodeCount
          = s.nodeCount - (is.map fun i => ((s.table i).filter fun a => !keep m0 a).length).sum
      ∧ (sweepBuckets is s).nullNodes = s.nullNodes := by
  intro is
  induction is with
  | nil =>
    intro s D hm _ _ _ _
    exact ⟨D, hm, fun a => by simp, fun j => by simp [sweepBuckets], by simp [sweepBuckets], rfl⟩
  | cons i rest ih =>
    intro s D hm hnd hlive hchain hdisj
    rw [List.nodup_cons] at hnd
    have hsw := sweepChain_spec m0 (s.table i) D s.nodeCount
      (fun a ha => (hlive i (List.mem_cons_self _ _) a ha).1) (hchain i)
      (fun a ha => (hlive i (List.mem_cons_self _ _) a ha).2)
    rw [← hm] at hsw
    rw [sweepBuckets]
    simp only [hsw]
    obtain ⟨D1, e1, hD1, ht1, hc1, hn1⟩ := ih
      { s with
        table := fun j => if j = i then (s.table i).filter (keep m0) else s.table j
        memory := removeAll (((s.table i).filter fun a => !keep m0 a).reverse ++ D) m0
        nodeCount := s.nodeCount - ((s.table i).filter fun a => !keep m0 a).length }
      (((s.table i).filter fun a => !keep m0 a).reverse ++ D) rfl hnd.2
      (by
        intro j hj a ha
        have hji : j ≠ i := fun h => hnd.1 (h ▸ hj)
        simp only [hji, if_false] at ha
        obtain ⟨haD, hl⟩ := hlive j (List.mem_cons_of_mem _ hj) a ha
        refine ⟨?_, hl⟩
        intro h
        rcases List.mem_append.1 h with h | h
        · have hai : a ∈ s.table i := (List.mem_filter.1 (List.mem_reverse.1 h)).1
          exact hji (hdisj j i a ha hai)
        · exact haD h)
      (by
        intro j
        by_cases hji : j = i
        · simp only [hji, if_true]; exact (hchain i).filter _
        · simp only [hji, if_false]; exact hchain j)
      (by
        intro j k a hj hk
        have hj1 : a ∈ s.table j := by
          by_cases hji : j = i
          · simp only [hji, if_true] at hj; rw [hji]; exact (List.mem_filter.1 hj).1
          · simpa only [hji, if_false] using hj
        have hk1 : a ∈ s.table k := by
          by_cases hki : k = i
          · simp only [hki, if_true] at hk; rw [hki]; exact (List.mem_filter.1 hk).1
          · simpa only [hki, if_false] using hk
        exact hdisj j k a hj1 hk1)
    refine ⟨D1, e1, ?_, ?_, ?_, hn1⟩
    · intro a
      rw [hD1 a]
      constructor
      · rintro (h | ⟨j, hj, haj, hk⟩)
        · rcases List.mem_append.1 h with h | h
          · have := List.mem_filter.1 (List.mem_reverse.1 h)
            exact Or.inr ⟨i, List.mem_cons_self _ _, this.1, by simpa using this.2⟩
          · exact Or.inl h
        · have hji : j ≠ i := fun h => hnd.1 (h ▸ hj)
          simp only [hji, if_false] at haj
          exact Or.inr ⟨j, List.mem_cons_of_mem _ hj, haj, hk⟩
      · rintro (h | ⟨j, hj, haj, hk⟩)
        · exact Or.inl (List.mem_append.2 (Or.inr h))
        · rcases List.mem_cons.1 hj with rfl | hj
          · exact Or.inl (List.mem_append.2 (Or.inl (List.mem_reverse.2
              (List.mem_filter.2 ⟨haj, by simp [hk]⟩))))
          · have hji : j ≠ i := fun h => hnd.1 (h ▸ hj)
            exact Or.inr ⟨j, hj, by simpa only [hji, if_false] using haj, hk⟩
    · intro j
      rw [ht1 j]
      by_cases hji : j = i
      · subst hji
        simp only [hnd.1, if_false, if_true, List.mem_cons, true_or]
      · by_cases hjr : j ∈ rest
        · simp only [hjr, hji, if_true, if_false, List.mem_cons, or_true]
        · simp only [hjr, hji, if_false, List.mem_cons, or_self]
    · rw [hc1]
      have : (rest.map fun k => ((if k = i then (s.table i).filter (keep m0) else s.table k).filter
            fun a => !keep m0 a).length)
          = rest.map fun k => ((s.table k).filter fun a => !keep m0 a).length := by
        apply List.map_congr_left
        intro k hk
        have hki : k ≠ i := fun h => hnd.1 (h ▸ hk)
        simp only [hki, if_false]
      simp only [this, List.map_cons, List.sum_cons, Nat.sub_sub]

/-! ### The collector as a whole -/


theorem Inv.mem_allNodes {cfg : Config} {s : NodeGCHashTable} (hinv : Inv cfg s) {a : Addr}
    {n : Node} (hn : s.memory a = some n) : a ∈ s.allNodes cfg := by
  have hin := hinv.in_table a n hn
  exact List.mem_flatMap.2 ⟨_, List.mem_range.2 (hinv.mem_table _ a hin).1, hin⟩

/-- Below a node of level `L` there is a node of every lower level, so there
are more than `L` nodes. -/
theorem descending_chain {m : Memory} (hk : KidsLive m) : ∀ (L : Nat) (a : Addr) (n : Node),
    m a = some n → n.level = L →
    ∃ l : List Addr, l.Nodup ∧ l.length = L + 1
      ∧ ∀ x ∈ l, ∃ nx, m x = some nx ∧ nx.level ≤ L := by
  intro L
  induction L with
  | zero =>
    intro a n hn hl
    exact ⟨[a], List.nodup_singleton a, rfl, fun x hx => by
      rw [List.mem_singleton] at hx; subst hx; exact ⟨n, hn, by omega⟩⟩
  | succ L ih =>
    intro a n hn hl
    obtain ⟨nk, hnk, hlk⟩ := hk a n hn (by omega) n.nxny (by simp [Node.kids])
    obtain ⟨l, hnd, hlen, hall⟩ := ih n.nxny nk hnk (by omega)
    refine ⟨a :: l, List.nodup_cons.2 ⟨?_, hnd⟩, by simp [hlen], ?_⟩
    · intro hmem
      obtain ⟨nx, hnx, hle⟩ := hall a hmem
      rw [hn] at hnx
      cases hnx
      omega
    · intro x hx
      rcases List.mem_cons.1 hx with rfl | hx
      · exact ⟨n, hn, by omega⟩
      · obtain ⟨nx, hnx, hle⟩ := hall x hx
        exact ⟨nx, hnx, by omega⟩

/-- The level of every node is below `nodeCount`. -/
theorem Inv.level_lt {cfg : Config} {s : NodeGCHashTable} (hinv : Inv cfg s) {a : Addr}
    {n : Node} (hn : s.memory a = some n) : n.level < s.nodeCount := by
  obtain ⟨l, hnd, hlen, hall⟩ := descending_chain hinv.kids_live n.level a n hn rfl
  have hsub : l ⊆ s.allNodes cfg := by
    intro x hx
    obtain ⟨nx, hnx, _⟩ := hall x hx
    exact hinv.mem_allNodes hnx
  have := (List.subperm_of_subset hnd hsub).length_le
  rw [hinv.count]
  omega


theorem Desc.reach {m : Memory} {a x : Addr} (hd : Desc m a x) (ha : Reach m a) : Reach m x := by
  induction hd with
  | self => exact ha
  | kid _ hn hl hk ih => exact Reach.kid ih hn hl hk

/-- A reachable node is allocated. -/
theorem Reach.live {m : Memory} (hk : KidsLive m) {a : Addr} (h : Reach m a) :
    ∃ n, m a = some n := by
  induction h with
  | root hn _ => exact ⟨_, hn⟩
  | kid _ hn hl hkk _ =>
    obtain ⟨nk, hnk, _⟩ := hk _ _ hn hl _ hkk
    exact ⟨nk, hnk⟩

/-- The clearing and marking phases of `gc` succeed within the budget, change
nothing but `used` flags, and leave the sweep test true exactly at the
reachable nodes. -/
theorem gc_mark {cfg : Config} {s : NodeGCHashTable} (hinv : Inv cfg s) :
    ∃ m1, markAllNodes s.nodeCount (clearAllNodes cfg s).2 (clearAllNodes cfg s).1 = some m1
      ∧ SameButUsed s.memory m1 ∧ ∀ a, keep m1 a = true ↔ Reach s.memory a := by
  obtain ⟨hc1, hc2⟩ := clearAllNodes_spec hinv
  have hsame : SameButUsed s.memory (clearAllNodes cfg s).1 := by
    intro a
    rw [hc1 a]
    cases s.memory a with
    | none => rfl
    | some n => rfl
  have hkl : KidsLive (clearAllNodes cfg s).1 := hsame.kidsLive hinv.kids_live
  have hused : ∀ x, UsedIn (clearAllNodes cfg s).1 x → ∃ n, s.memory x = some n ∧ 0 < n.refcount := by
    rintro x ⟨n, hn, hu⟩
    rw [hc1 x] at hn
    cases hx : s.memory x with
    | none => rw [hx] at hn; simp at hn
    | some n0 =>
      rw [hx] at hn
      simp only [Option.map_some', Option.some.injEq] at hn
      subst hn
      simp only [Node.withUsed, decide_eq_true_eq] at hu
      exact ⟨n0, rfl, hu⟩
  obtain ⟨m1, hm1, hs1, hmono, hroots, hclosed, hsound⟩ :=
    markAllNodes_spec s.nodeCount (clearAllNodes cfg s).2 (clearAllNodes cfg s).1 hkl
      (by
        intro a n hn
        obtain ⟨u, hu⟩ := hsame.symm.get hn
        have := hinv.level_lt hu
        simpa [Node.withUsed] using this)
      (by
        intro a ha
        obtain ⟨n, hn, _⟩ := (hc2 a).1 ha
        obtain ⟨u, hu⟩ := hsame.get hn
        exact ⟨_, hu⟩)
      (by
        intro a n hn hu hnot
        exact absurd ((hc2 a).2 (hused a ⟨n, hn, hu⟩)) hnot)
  have hall : SameButUsed s.memory m1 := hsame.trans hs1
  refine ⟨m1, hm1, hall, fun a => ⟨?_, ?_⟩⟩
  · intro hkeep
    unfold keep at hkeep
    cases hn1 : m1 a with
    | none => rw [hn1] at hkeep; simp at hkeep
    | some n1 =>
      rw [hn1] at hkeep
      simp only [Bool.or_eq_true, decide_eq_true_eq] at hkeep
      obtain ⟨u, hu⟩ := hall.symm.get hn1
      rcases hkeep with hu1 | hr
      · rcases hsound a ⟨n1, hn1, hu1⟩ with h | ⟨k, hk, hd⟩
        · obtain ⟨n, hn, hr⟩ := hused a h
          exact Reach.root hn hr
        · obtain ⟨nk, hnk, hr⟩ := (hc2 k).1 hk
          exact (hsame.desc hd).reach (Reach.root hnk hr)
      · exact Reach.root hu (by simpa [Node.withUsed] using hr)
  · intro hr
    have hu : UsedIn m1 a := by
      induction hr with
      | root hn hpos => exact hroots _ ((hc2 _).2 ⟨_, hn, hpos⟩)
      | kid _ hn hl hk ih =>
        obtain ⟨np, hnp, hup⟩ := ih
        obtain ⟨u, hu⟩ := hall.get hn
        rw [hnp] at hu
        cases hu
        exact hclosed _ _ hnp hup (List.not_mem_nil _) (by simpa [Node.withUsed] using hl) _
          (by simpa [Node.withUsed, Node.kids] using hk)
    obtain ⟨n1, hn1, hu1⟩ := hu
    simp [keep, hn1, hu1]


theorem length_allNodes_split (table : Nat → List Addr) (p : Addr → Bool) : ∀ is : List Nat,
    ((is.flatMap fun j => (table j).filter p).length)
      + (is.map fun i => ((table i).filter fun a => !p a).length).sum
      = (is.flatMap table).length := by
  intro is
  induction is with
  | nil => rfl
  | cons i rest ih =>
    simp only [List.flatMap_cons, List.length_append, List.map_cons, List.sum_cons]
    have h : ((table i).filter p).length + ((table i).filter fun a => !p a).length
        = (table i).length := by
      induction table i with
      | nil => rfl
      | cons x xs ihx =>
        by_cases hp : p x = true
        · simp only [List.filter_cons, hp, if_true, Bool.not_true, List.length_cons] at ihx ⊢
          simp only [Bool.false_eq_true, if_false]
          omega
        · simp only [Bool.not_eq_true] at hp
          simp only [List.filter_cons, hp, Bool.not_false, if_true, List.length_cons] at ihx ⊢
          simp only [Bool.false_eq_true, if_false]
          omega
    omega

/-- The result of `gc` under the invariant: the run succeeds; the memory is
the marked memory without the unreachable nodes, weak references to them
cleared; every chain is filtered by reachability; `nodeCount` is the number
of nodes left. -/
theorem gc_result {cfg : Config} {s : NodeGCHashTable} (hinv : Inv cfg s) :
    ∃ s1 m1 D, gc cfg s = .ok s1 ∧ SameButUsed s.memory m1
      ∧ (∀ a, keep m1 a = true ↔ Reach s.memory a)
      ∧ (∀ a, a ∈ D ↔ (∃ n, s.memory a = some n) ∧ ¬ Reach s.memory a)
      ∧ s1.memory = removeAll D m1
      ∧ (∀ j, s1.table j = (s.table j).filter (keep m1))
      ∧ s1.nodeCount = (s1.allNodes cfg).length
      ∧ s1.nullNodes = s.nullNodes := by
  obtain ⟨m1, hm1, hsame, hkeep⟩ := gc_mark hinv
  have hlive : ∀ i a, a ∈ s.table i → ∃ n, m1 a = some n := by
    intro i a ha
    obtain ⟨_, n, hn, _⟩ := hinv.mem_table i a ha
    obtain ⟨u, hu⟩ := hsame.get hn
    exact ⟨_, hu⟩
  obtain ⟨D, hmem, hD, htab, hcnt, hnull⟩ :=
    sweepBuckets_spec m1 (List.range cfg.hashPrime) { s with memory := m1 } []
      (removeAll_nil m1).symm (List.nodup_range _)
      (fun i _ a ha => ⟨List.not_mem_nil _, hlive i a ha⟩) hinv.nodup
      (by
        intro i j a hi hj
        obtain ⟨_, n, hn, hb⟩ := hinv.mem_table i a hi
        obtain ⟨_, n2, hn2, hb2⟩ := hinv.mem_table j a hj
        rw [hn] at hn2
        cases hn2
        rw [← hb, ← hb2])
  have htab2 : ∀ j, (sweepBuckets (List.range cfg.hashPrime) { s with memory := m1 }).table j
      = (s.table j).filter (keep m1) := by
    intro j
    rw [htab j]
    by_cases hj : j ∈ List.range cfg.hashPrime
    · simp only [hj, if_true]
    · simp only [hj, if_false]
      have : s.table j = [] := by
        apply List.eq_nil_iff_forall_not_mem.2
        intro a ha
        exact hj (List.mem_range.2 (hinv.mem_table j a ha).1)
      rw [this]
      rfl
  refine ⟨sweepBuckets (List.range cfg.hashPrime) { s with memory := m1 }, m1, D, ?_, hsame, hkeep,
    ?_, hmem, htab2, ?_, hnull⟩
  · simp only [gc, hm1, sweepUnusedNodes]
  · intro a
    rw [hD a]
    simp only [List.not_mem_nil, false_or, List.mem_range]
    constructor
    · rintro ⟨i, _, hai, hk⟩
      obtain ⟨_, n, hn, _⟩ := hinv.mem_table i a hai
      refine ⟨⟨n, hn⟩, fun hr => ?_⟩
      rw [(hkeep a).2 hr] at hk
      cases hk
    · rintro ⟨⟨n, hn⟩, hr⟩
      have hin := hinv.in_table a n hn
      refine ⟨_, (hinv.mem_table _ a hin).1, hin, ?_⟩
      cases hk : keep m1 a with
      | false => rfl
      | true => exact absurd ((hkeep a).1 hk) hr
  · rw [hcnt]
    have hsplit := length_allNodes_split s.table (keep m1) (List.range cfg.hashPrime)
    have hc := hinv.count
    simp only [NodeGCHashTable.allNodes] at hc ⊢
    rw [funext htab2]
    omega


theorem bucketOf_congr (cfg : Config) {n n1 : Node} (h : n.SameShape n1) :
    bucketOf cfg n1 = bucketOf cfg n := by
  obtain ⟨h0, h1, h2, h3, h4⟩ := h
  simp only [bucketOf, h0, h1, h2, h3, h4]

theorem Node.SameShape.withUsed (n : Node) (u : Bool) : n.SameShape (n.withUsed u) :=
  ⟨rfl, rfl, rfl, rfl, rfl⟩

theorem Node.SameShape.nullDead (D : List Addr) (n : Node) : n.SameShape (nullDead D n) := by
  unfold Heap.nullDead
  cases n.nonleaf_nextState with
  | none => exact ⟨rfl, rfl, rfl, rfl, rfl⟩
  | some t =>
    by_cases ht : t ∈ D
    · simp only [ht, if_true]; exact ⟨rfl, rfl, rfl, rfl, rfl⟩
    · simp only [ht, if_false]; exact ⟨rfl, rfl, rfl, rfl, rfl⟩

theorem nullDead_refcount (D : List Addr) (n : Node) :
    (nullDead D n).refcount = n.refcount ∧ (nullDead D n).nextStateLogStep = n.nextStateLogStep
      ∧ (nullDead D n).used = n.used := by
  unfold nullDead
  cases n.nonleaf_nextState with
  | none => exact ⟨rfl, rfl, rfl⟩
  | some t =>
    by_cases ht : t ∈ D
    · simp only [ht, if_true, and_self]
    · simp only [ht, if_false, and_self]

theorem nullDead_next (D : List Addr) (n : Node) (t : Addr) :
    (nullDead D n).nonleaf_nextState = some t ↔ n.nonleaf_nextState = some t ∧ t ∉ D := by
  unfold nullDead
  cases hn : n.nonleaf_nextState with
  | none => simp [hn]
  | some t1 =>
    by_cases ht : t1 ∈ D
    · simp only [ht, if_true, Option.some.injEq]
      constructor
      · intro h; cases h
      · rintro ⟨rfl, h⟩; exact absurd ht h
    · simp only [ht, if_false, hn, Option.some.injEq]
      constructor
      · rintro rfl; exact ⟨rfl, ht⟩
      · rintro ⟨rfl, _⟩; rfl

/-- A collection under the invariant succeeds and re-establishes the
invariant; a node is left exactly when it was reachable, with its level,
children and reference count; a weak reference is left exactly when its
target was reachable; the chains keep their order. -/
theorem gc_ok {cfg : Config} {s : NodeGCHashTable} (hinv : Inv cfg s) :
    ∃ s1, gc cfg s = .ok s1 ∧ Inv cfg s1
      ∧ (∀ j, ∃ p : Addr → Bool, s1.table j = (s.table j).filter p)
      ∧ (∀ i a, a ∈ s1.table i ↔ a ∈ s.table i ∧ Reach s.memory a)
      ∧ (∀ a, ¬ Reach s.memory a → s1.memory a = none)
      ∧ (∀ a, Reach s.memory a → ∃ n n1, s.memory a = some n ∧ s1.memory a = some n1
          ∧ n.SameShape n1 ∧ n1.refcount = n.refcount
          ∧ n1.nextStateLogStep = n.nextStateLogStep
          ∧ ∀ t, n1.nonleaf_nextState = some t ↔ n.nonleaf_nextState = some t ∧ Reach s.memory t)
      ∧ s1.nullNodes = s.nullNodes := by
  obtain ⟨s1, m1, D, hgc, hsame, hkeep, hD, hmem, htab, hcnt, hnull⟩ := gc_result hinv
  have hdead : ∀ a, ¬ Reach s.memory a → s1.memory a = none := by
    intro a hr
    rw [hmem]
    unfold removeAll
    by_cases haD : a ∈ D
    · simp only [haD, if_true]
    · simp only [haD, if_false]
      cases hn : s.memory a with
      | none =>
        have := hsame a
        rw [hn] at this
        cases h1 : m1 a with
        | none => rfl
        | some n1 => rw [h1] at this; simp at this
      | some n => exact absurd ((hD a).2 ⟨⟨n, hn⟩, hr⟩) haD
  have hkept : ∀ a, Reach s.memory a → ∃ n n1, s.memory a = some n ∧ s1.memory a = some n1
      ∧ n.SameShape n1 ∧ n1.refcount = n.refcount
      ∧ n1.nextStateLogStep = n.nextStateLogStep
      ∧ ∀ t, n1.nonleaf_nextState = some t ↔ n.nonleaf_nextState = some t ∧ Reach s.memory t := by
    intro a hr
    obtain ⟨n, hn⟩ := hr.live hinv.kids_live
    obtain ⟨u, hu⟩ := hsame.get hn
    have haD : a ∉ D := fun h => ((hD a).1 h).2 hr
    refine ⟨n, nullDead D (n.withUsed u), hn, ?_, ?_, ?_, ?_, ?_⟩
    · rw [hmem]
      simp only [removeAll, haD, if_false, hu, Option.map_some']
    · obtain ⟨h0, h1, h2, h3, h4⟩ := Node.SameShape.nullDead D (n.withUsed u)
      exact ⟨h0, h1, h2, h3, h4⟩
    · exact (nullDead_refcount D _).1
    · exact (nullDead_refcount D _).2.1
    · intro t
      rw [nullDead_next]
      show n.nonleaf_nextState = some t ∧ t ∉ D ↔ _
      constructor
      · rintro ⟨h1, h2⟩
        refine ⟨h1, ?_⟩
        by_contra hnr
        exact h2 ((hD t).2 ⟨hinv.weak_live a n t hn h1, hnr⟩)
      · rintro ⟨h1, h2⟩
        exact ⟨h1, fun h => ((hD t).1 h).2 h2⟩
  have hlive1 : ∀ a n1, s1.memory a = some n1 → Reach s.memory a := by
    intro a n1 hn1
    by_contra hr
    rw [hdead a hr] at hn1
    cases hn1
  have htab1 : ∀ i a, a ∈ s1.table i ↔ a ∈ s.table i ∧ Reach s.memory a := by
    intro i a
    rw [htab i, List.mem_filter, hkeep a]
  refine ⟨s1, hgc, ?_, fun j => ⟨_, htab j⟩, htab1, hdead, hkept, hnull⟩
  constructor
  · intro i a ha
    obtain ⟨hai, hr⟩ := (htab1 i a).1 ha
    obtain ⟨hi, n, hn, hb⟩ := hinv.mem_table i a hai
    obtain ⟨n0, n1, hn0, hn1, hsh, _⟩ := hkept a hr
    rw [hn] at hn0
    cases hn0
    exact ⟨hi, n1, hn1, by rw [bucketOf_congr cfg hsh, hb]⟩
  · intro a n1 hn1
    have hr := hlive1 a n1 hn1
    obtain ⟨n0, n1b, hn0, hn1b, hsh, _⟩ := hkept a hr
    rw [hn1] at hn1b
    cases hn1b
    rw [htab1, bucketOf_congr cfg hsh]
    exact ⟨hinv.in_table a n0 hn0, hr⟩
  · intro i
    rw [htab i]
    exact (hinv.nodup i).filter _
  · intro a b na nb ha hb hl h1 h2 h3 h4
    obtain ⟨n0, n1, hn0, hn1, hsh, _⟩ := hkept a (hlive1 a na ha)
    obtain ⟨p0, p1, hp0, hp1, hsp, _⟩ := hkept b (hlive1 b nb hb)
    rw [ha] at hn1
    rw [hb] at hp1
    cases hn1
    cases hp1
    obtain ⟨e0, e1, e2, e3, e4⟩ := hsh
    obtain ⟨f0, f1, f2, f3, f4⟩ := hsp
    exact hinv.unique a b n0 p0 hn0 hp0 (by rw [← e0, ← f0]; exact hl) (by rw [← e1, ← f1, h1])
      (by rw [← e2, ← f2, h2]) (by rw [← e3, ← f3, h3]) (by rw [← e4, ← f4, h4])
  · intro a n1 hn1 hl k hk
    have hr := hlive1 a n1 hn1
    obtain ⟨n0, n1b, hn0, hn1b, hsh, _⟩ := hkept a hr
    rw [hn1] at hn1b
    cases hn1b
    obtain ⟨e0, e1, e2, e3, e4⟩ := hsh
    have hk0 : k ∈ n0.kids := by
      simp only [Node.kids, e1, e2, e3, e4] at hk
      exact hk
    have hrk : Reach s.memory k := Reach.kid hr hn0 (by omega) hk0
    obtain ⟨nk, hnk, hlk⟩ := hinv.kids_live a n0 hn0 (by omega) k hk0
    obtain ⟨k0, k1, hk0m, hk1m, hshk, _⟩ := hkept k hrk
    rw [hnk] at hk0m
    cases hk0m
    exact ⟨k1, hk1m, by rw [hshk.1, e0]; exact hlk⟩
  · exact hcnt
  · intro a n1 t hn1 ht
    have hr := hlive1 a n1 hn1
    obtain ⟨n0, n1b, hn0, hn1b, _, _, _, hnext⟩ := hkept a hr
    rw [hn1] at hn1b
    cases hn1b
    obtain ⟨_, hrt⟩ := (hnext t).1 ht
    obtain ⟨t0, t1, _, ht1, _⟩ := hkept t hrt
    exact ⟨t1, ht1⟩

end Heap
/-! ### Interning and the invariant -/

namespace Heap


theorem Shrinks.same (s : NodeGCHashTable) : Shrinks s s :=
  ⟨fun _ n1 h => ⟨n1, h, ⟨rfl, rfl, rfl, rfl, rfl⟩, rfl, rfl, fun _ h => h⟩,
    fun _ n h _ => ⟨n, h⟩, rfl⟩

theorem gc_shrinks {cfg : Config} {s : NodeGCHashTable} (hinv : Inv cfg s) :
    ∃ s1, gc cfg s = .ok s1 ∧ Inv cfg s1 ∧ Shrinks s s1 := by
  obtain ⟨s1, hgc, hinv1, _, _, hdead, hkept, hnull⟩ := gc_ok hinv
  refine ⟨s1, hgc, hinv1, ?_, ?_, hnull⟩
  · intro a n1 hn1
    have hr : Reach s.memory a := by
      by_contra hr
      rw [hdead a hr] at hn1
      cases hn1
    obtain ⟨n, n1b, hn, hn1b, hsh, hrc, hls, hnext⟩ := hkept a hr
    rw [hn1] at hn1b
    cases hn1b
    exact ⟨n, hn, hsh, hrc, hls, fun t ht => ((hnext t).1 ht).1⟩
  · intro a n hn hpos
    obtain ⟨_, n1, _, hn1, _⟩ := hkept a (Reach.root hn hpos)
    exact ⟨n1, hn1⟩

theorem onAllocate_ok {cfg : Config} {s : NodeGCHashTable} (hinv : Inv cfg s) :
    (∃ s1, onAllocate cfg s = .ok s1 ∧ Inv cfg s1 ∧ Shrinks s s1)
      ∨ onAllocate cfg s = .error .outOfMemory := by
  unfold onAllocate
  by_cases h : s.nodeCount > cfg.startGCNodeCount
  · obtain ⟨s1, hgc, hinv1, hsh⟩ := gc_shrinks hinv
    simp only [h, if_true, hgc]
    by_cases h2 : s1.nodeCount > cfg.maxNodeCount
    · simp only [h2, if_true, or_true]
    · simp only [h2, if_false]; exact Or.inl ⟨s1, rfl, hinv1, hsh⟩
  · simp only [h, if_false]
    exact Or.inl ⟨s, rfl, hinv, Shrinks.same s⟩

/-- The invariant does not depend on reference counts, `used` flags and, as
long as the targets are allocated, the weak references. -/
theorem Inv.set_node {cfg : Config} {s : NodeGCHashTable} (hinv : Inv cfg s) {a : Addr}
    {n n1 : Node} (hn : s.memory a = some n) (hsh : n.SameShape n1)
    (hw : ∀ t, n1.nonleaf_nextState = some t → ∃ nt, s.memory t = some nt) :
    Inv cfg { s with memory := s.memory.set a n1 } := by
  have hget : ∀ x nx, (s.memory.set a n1) x = some nx →
      ∃ n0, s.memory x = some n0 ∧ n0.SameShape nx := by
    intro x nx hx
    by_cases hxa : x = a
    · subst hxa
      rw [Memory.set_same] at hx
      cases hx
      exact ⟨n, hn, hsh⟩
    · rw [Memory.set_other _ _ hxa] at hx
      exact ⟨nx, hx, ⟨rfl, rfl, rfl, rfl, rfl⟩⟩
  have hlive : ∀ x n0, s.memory x = some n0 → ∃ nx, (s.memory.set a n1) x = some nx
      ∧ n0.SameShape nx := by
    intro x n0 hx
    by_cases hxa : x = a
    · subst hxa
      rw [hn] at hx
      cases hx
      exact ⟨n1, Memory.set_same _ _ _, hsh⟩
    · exact ⟨n0, by rw [Memory.set_other _ _ hxa]; exact hx, ⟨rfl, rfl, rfl, rfl, rfl⟩⟩
  constructor
  · intro i x hx
    obtain ⟨hi, n0, hn0, hb⟩ := hinv.mem_table i x hx
    obtain ⟨nx, hnx, hs⟩ := hlive x n0 hn0
    exact ⟨hi, nx, hnx, by rw [bucketOf_congr cfg hs, hb]⟩
  · intro x nx hx
    obtain ⟨n0, hn0, hs⟩ := hget x nx hx
    show x ∈ s.table (bucketOf cfg nx)
    rw [bucketOf_congr cfg hs]
    exact hinv.in_table x n0 hn0
  · exact hinv.nodup
  · intro x y nx ny hx hy hl h1 h2 h3 h4
    obtain ⟨x0, hx0, ⟨e0, e1, e2, e3, e4⟩⟩ := hget x nx hx
    obtain ⟨y0, hy0, ⟨f0, f1, f2, f3, f4⟩⟩ := hget y ny hy
    exact hinv.unique x y x0 y0 hx0 hy0 (by rw [← e0, ← f0]; exact hl) (by rw [← e1, ← f1, h1])
      (by rw [← e2, ← f2, h2]) (by rw [← e3, ← f3, h3]) (by rw [← e4, ← f4, h4])
  · intro x nx hx hl k hk
    obtain ⟨x0, hx0, ⟨e0, e1, e2, e3, e4⟩⟩ := hget x nx hx
    have hk0 : k ∈ x0.kids := by
      simp only [Node.kids, e1, e2, e3, e4] at hk
      exact hk
    obtain ⟨nk, hnk, hlk⟩ := hinv.kids_live x x0 hx0 (by omega) k hk0
    obtain ⟨nk1, hnk1, hs⟩ := hlive k nk hnk
    exact ⟨nk1, hnk1, by rw [hs.1, e0]; exact hlk⟩
  · exact hinv.count
  · intro x nx t hx ht
    replace hx : (s.memory.set a n1) x = some nx := hx
    have : ∃ nt, s.memory t = some nt := by
      by_cases hxa : x = a
      · rw [hxa, Memory.set_same] at hx
        cases hx
        exact hw t ht
      · rw [Memory.set_other _ _ hxa] at hx
        exact hinv.weak_live x nx t hx ht
    obtain ⟨nt, hnt⟩ := this
    obtain ⟨nt1, hnt1, _⟩ := hlive t nt hnt
    exact ⟨nt1, hnt1⟩


theorem length_flatMap_congr (t t1 : Nat → List Addr) : ∀ l : List Nat,
    (∀ i ∈ l, (t1 i).length = (t i).length) → (l.flatMap t1).length = (l.flatMap t).length := by
  intro l
  induction l with
  | nil => intro _; rfl
  | cons i rest ih =>
    intro h
    simp only [List.flatMap_cons, List.length_append]
    rw [h i (List.mem_cons_self _ _), ih fun j hj => h j (List.mem_cons_of_mem _ hj)]

theorem length_flatMap_push (t : Nat → List Addr) (h : Nat) (x : Addr) : ∀ l : List Nat,
    l.Nodup → h ∈ l →
    (l.flatMap fun j => if j = h then x :: t h else t j).length = (l.flatMap t).length + 1 := by
  intro l
  induction l with
  | nil => intro _ hm; cases hm
  | cons i rest ih =>
    intro hnd hm
    rw [List.nodup_cons] at hnd
    simp only [List.flatMap_cons, List.length_append]
    by_cases hi : i = h
    · subst hi
      have : (rest.flatMap fun j => if j = i then x :: t i else t j).length
          = (rest.flatMap t).length := by
        apply length_flatMap_congr
        intro j hj
        have : j ≠ i := fun e => hnd.1 (e ▸ hj)
        simp only [this, if_false]
      rw [this]
      simp only [if_true, List.length_cons]
      omega
    · have hm2 : h ∈ rest := by
        rcases List.mem_cons.1 hm with e | e
        · exact absurd e.symm hi
        · exact e
      rw [ih hnd.2 hm2]
      simp only [hi, if_false]
      omega

/-- Moving a node to the head of its chain keeps the invariant. -/
theorem Inv.move_front {cfg : Config} {s : NodeGCHashTable} (hinv : Inv cfg s) {hash : Nat}
    {node : Addr} (hmem : node ∈ s.table hash) :
    Inv cfg { s with
      table := fun j => if j = hash then node :: (s.table hash).erase node else s.table j } := by
  have hiff : ∀ i x, x ∈ (if i = hash then node :: (s.table hash).erase node else s.table i)
      ↔ x ∈ s.table i := by
    intro i x
    by_cases hi : i = hash
    · subst hi
      simp only [if_true, List.mem_cons]
      constructor
      · rintro (rfl | h)
        · exact hmem
        · exact List.mem_of_mem_erase h
      · intro h
        by_cases hx : x = node
        · exact Or.inl hx
        · exact Or.inr ((List.mem_erase_of_ne hx).2 h)
    · simp only [hi, if_false]
  constructor
  · intro i x hx
    exact hinv.mem_table i x ((hiff i x).1 hx)
  · intro x nx hx
    exact (hiff _ x).2 (hinv.in_table x nx hx)
  · intro i
    show (if i = hash then node :: (s.table hash).erase node else s.table i).Nodup
    by_cases hi : i = hash
    · simp only [hi, if_true]
      exact List.nodup_cons.2 ⟨(hinv.nodup hash).not_mem_erase, (hinv.nodup hash).erase node⟩
    · simp only [hi, if_false]
      exact hinv.nodup i
  · exact hinv.unique
  · exact hinv.kids_live
  · show s.nodeCount = ((List.range cfg.hashPrime).flatMap fun j =>
      if j = hash then node :: (s.table hash).erase node else s.table j).length
    rw [length_flatMap_congr s.table]
    · exact hinv.count
    · intro i _
      by_cases hi : i = hash
      · subst hi
        simp only [if_true]
        exact (List.perm_cons_erase hmem).length_eq.symm
      · simp only [hi, if_false]
  · exact hinv.weak_live

/-- Linking a new node object keeps the invariant when no node with its level
and children exists. -/
theorem Inv.insert {cfg : Config} {s : NodeGCHashTable} (hinv : Inv cfg s) {x : Addr} {n : Node}
    (hfresh : s.memory x = none) (hpos : bucketOf cfg n < cfg.hashPrime)
    (hnew : ∀ b nb, s.memory b = some nb → (n.level = 0 ↔ nb.level = 0) → n.nxny = nb.nxny →
      n.nxpy = nb.nxpy → n.pxny = nb.pxny → n.pxpy = nb.pxpy → False)
    (hkids : 0 < n.level → ∀ k ∈ n.kids, ∃ nk, s.memory k = some nk ∧ nk.level + 1 = n.level)
    (hweak : n.nonleaf_nextState = none) :
    Inv cfg { s with
      nodeCount := s.nodeCount + 1
      memory := s.memory.set x n
      table := fun j => if j = bucketOf cfg n then x :: s.table (bucketOf cfg n)
        else s.table j } := by
  have hold : ∀ a na, s.memory a = some na → (s.memory.set x n) a = some na := by
    intro a na ha
    have : a ≠ x := fun e => by rw [e, hfresh] at ha; cases ha
    rw [Memory.set_other _ _ this]
    exact ha
  have hget : ∀ a na, (s.memory.set x n) a = some na →
      (a = x ∧ na = n) ∨ (a ≠ x ∧ s.memory a = some na) := by
    intro a na ha
    by_cases hax : a = x
    · rw [hax, Memory.set_same] at ha
      cases ha
      exact Or.inl ⟨hax, rfl⟩
    · rw [Memory.set_other _ _ hax] at ha
      exact Or.inr ⟨hax, ha⟩
  have hnot : ∀ i, x ∉ s.table i := by
    intro i hx
    obtain ⟨_, nx, hnx, _⟩ := hinv.mem_table i x hx
    rw [hfresh] at hnx
    cases hnx
  constructor
  · intro i a ha
    replace ha : a ∈ (if i = bucketOf cfg n then x :: s.table (bucketOf cfg n) else s.table i) := ha
    by_cases hi : i = bucketOf cfg n
    · simp only [hi, if_true, List.mem_cons] at ha
      rcases ha with rfl | ha
      · exact ⟨hi ▸ hpos, n, Memory.set_same _ _ _, hi.symm⟩
      · obtain ⟨h1, na, hna, hb⟩ := hinv.mem_table _ a ha
        exact ⟨hi ▸ h1, na, hold a na hna, hi ▸ hb⟩
    · simp only [hi, if_false] at ha
      obtain ⟨h1, na, hna, hb⟩ := hinv.mem_table _ a ha
      exact ⟨h1, na, hold a na hna, hb⟩
  · intro a na ha
    show a ∈ (if bucketOf cfg na = bucketOf cfg n then x :: s.table (bucketOf cfg n)
      else s.table (bucketOf cfg na))
    rcases hget a na ha with ⟨rfl, rfl⟩ | ⟨_, h⟩
    · simp only [if_true, List.mem_cons, true_or]
    · have := hinv.in_table a na h
      by_cases hb : bucketOf cfg na = bucketOf cfg n
      · simp only [hb, if_true, List.mem_cons]
        exact Or.inr (hb ▸ this)
      · simp only [hb, if_false]
        exact this
  · intro i
    show (if i = bucketOf cfg n then x :: s.table (bucketOf cfg n) else s.table i).Nodup
    by_cases hi : i = bucketOf cfg n
    · simp only [hi, if_true]
      exact List.nodup_cons.2 ⟨hnot _, hinv.nodup _⟩
    · simp only [hi, if_false]
      exact hinv.nodup i
  · intro a b na nb ha hb hl h1 h2 h3 h4
    rcases hget a na ha with ⟨rfl, rfl⟩ | ⟨_, ha0⟩
    · rcases hget b nb hb with ⟨rfl, rfl⟩ | ⟨_, hb0⟩
      · rfl
      · exact (hnew b nb hb0 hl h1 h2 h3 h4).elim
    · rcases hget b nb hb with ⟨rfl, rfl⟩ | ⟨_, hb0⟩
      · exact (hnew a na ha0 hl.symm h1.symm h2.symm h3.symm h4.symm).elim
      · exact hinv.unique a b na nb ha0 hb0 hl h1 h2 h3 h4
  · intro a na ha hl k hk
    rcases hget a na ha with ⟨rfl, rfl⟩ | ⟨_, ha0⟩
    · obtain ⟨nk, hnk, hlk⟩ := hkids hl k hk
      exact ⟨nk, hold k nk hnk, hlk⟩
    · obtain ⟨nk, hnk, hlk⟩ := hinv.kids_live a na ha0 hl k hk
      exact ⟨nk, hold k nk hnk, hlk⟩
  · show s.nodeCount + 1 = ((List.range cfg.hashPrime).flatMap fun j =>
      if j = bucketOf cfg n then x :: s.table (bucketOf cfg n) else s.table j).length
    rw [length_flatMap_push s.table _ x _ (List.nodup_range _) (List.mem_range.2 hpos)]
    rw [hinv.count]
    rfl
  · intro a na t ha ht
    rcases hget a na ha with ⟨rfl, rfl⟩ | ⟨_, ha0⟩
    · rw [hweak] at ht
      cases ht
    · obtain ⟨nt, hnt⟩ := hinv.weak_live a na t ha0 ht
      exact ⟨nt, hold t nt hnt⟩


theorem moveToFront_ok {cfg : Config} {s1 : NodeGCHashTable} (hinv : Inv cfg s1) {hash : Nat}
    {node : Addr} {n : Node} (hmem : node ∈ s1.table hash) (hn : s1.memory node = some n) :
    (∃ s2, moveToFront hash node s1 = .ok (node, s2) ∧ Inv cfg s2
        ∧ Interned s1 node { n with refcount := n.refcount + 1 } s2)
      ∨ moveToFront hash node s1 = .error .refcountWrap := by
  unfold moveToFront incRefCount
  simp only [hn]
  by_cases hlt : n.refcount + 1 < 256
  · simp only [hlt, if_true]
    refine Or.inl ⟨_, rfl, ?_, ?_⟩
    · have := @Inv.set_node cfg _ (hinv.move_front hmem) node n
        { n with refcount := n.refcount + 1 } hn ⟨rfl, rfl, rfl, rfl, rfl⟩
        (fun t ht => hinv.weak_live node n t hn ht)
      exact this
    · exact ⟨fun a ha => Memory.set_other _ _ ha, Memory.set_same _ _ _, Or.inl ⟨n, hn, rfl⟩, rfl,
        hlt⟩
  · simp only [hlt, if_false, or_true]

theorem insertNew_ok {cfg : Config} {s1 : NodeGCHashTable} (hinv : Inv cfg s1) {n : Node}
    (hfresh : s1.memory (cfg.alloc s1) = none) (hpos : bucketOf cfg n < cfg.hashPrime)
    (hnew : ∀ b nb, s1.memory b = some nb → (n.level = 0 ↔ nb.level = 0) → n.nxny = nb.nxny →
      n.nxpy = nb.nxpy → n.pxny = nb.pxny → n.pxpy = nb.pxpy → False)
    (hkids : 0 < n.level → ∀ k ∈ n.kids, ∃ nk, s1.memory k = some nk ∧ nk.level + 1 = n.level)
    (hweak : n.nonleaf_nextState = none) (hrc : n.refcount = 0) :
    ∃ s2, insertNew cfg (bucketOf cfg n) n s1 = .ok (cfg.alloc s1, s2) ∧ Inv cfg s2
      ∧ Interned s1 (cfg.alloc s1) { n with refcount := 1 } s2 := by
  unfold insertNew incRefCount
  simp only [Memory.set_same, hrc, Nat.zero_add, Nat.one_lt_ofNat, if_true]
  refine ⟨_, rfl, ?_, ?_⟩
  · have h1 := hinv.insert hfresh hpos hnew hkids hweak
    have := @Inv.set_node cfg _ h1 (cfg.alloc s1) n { n with refcount := 1 }
      (Memory.set_same _ _ _) ⟨rfl, rfl, rfl, rfl, rfl⟩
      (fun t ht => by rw [show n.nonleaf_nextState = some t from ht] at hweak; cases hweak)
    exact this
  · refine ⟨fun a ha => ?_, Memory.set_same _ _ _, Or.inr ⟨hfresh, rfl, hweak⟩, rfl,
      Nat.one_lt_ofNat⟩
    show ((s1.memory.set (cfg.alloc s1) n).set (cfg.alloc s1) _) a = s1.memory a
    rw [Memory.set_other _ _ ha, Memory.set_other _ _ ha]


theorem isLeafWith_iff (m : Memory) (c0 c1 c2 c3 : CellType) (a : Addr) :
    isLeafWith m c0 c1 c2 c3 a = true ↔ ∃ n, m a = some n ∧ n.level = 0 ∧ n.nxny = c0
      ∧ n.nxpy = c1 ∧ n.pxny = c2 ∧ n.pxpy = c3 := by
  unfold isLeafWith
  cases m a with
  | none => simp
  | some n => simp [and_assoc]

theorem isNonleafWith_iff (m : Memory) (c0 c1 c2 c3 : Addr) (a : Addr) :
    isNonleafWith m c0 c1 c2 c3 a = true ↔ ∃ n, m a = some n ∧ 0 < n.level ∧ n.nxny = c0
      ∧ n.nxpy = c1 ∧ n.pxny = c2 ∧ n.pxpy = c3 := by
  unfold isNonleafWith
  cases m a with
  | none => simp
  | some n => simp [and_assoc]

/-- Function `findOrInsertLeaf` under the invariant: it stops with one of the
two resource failures or returns a leaf with the four cells, after a step of
`onAllocate` and a step of the search loop. -/
theorem findOrInsertLeaf_ok {cfg : Config} (hv : cfg.Valid) {s : NodeGCHashTable}
    (hinv : Inv cfg s) (c0 c1 c2 c3 : CellType) :
    (∃ r s1 s2 n2, findOrInsertLeaf cfg c0 c1 c2 c3 s = .ok (r, s2) ∧ Inv cfg s1 ∧ Shrinks s s1
        ∧ Inv cfg s2 ∧ Interned s1 r n2 s2 ∧ n2.level = 0 ∧ n2.nxny = c0 ∧ n2.nxpy = c1
        ∧ n2.pxny = c2 ∧ n2.pxpy = c3)
      ∨ findOrInsertLeaf cfg c0 c1 c2 c3 s = .error .outOfMemory
      ∨ findOrInsertLeaf cfg c0 c1 c2 c3 s = .error .refcountWrap := by
  unfold findOrInsertLeaf
  rcases onAllocate_ok hinv with ⟨s1, h1, hinv1, hsh⟩ | herr
  swap
  · simp only [herr, true_or, or_true]
  simp only [h1]
  cases hf : (s1.table (hashNodeLeaf cfg c0 c1 c2 c3 % cfg.hashPrime)).find?
      (isLeafWith s1.memory c0 c1 c2 c3) with
  | some node =>
    simp only []
    obtain ⟨n, hn, hl, e0, e1, e2, e3⟩ := (isLeafWith_iff _ _ _ _ _ _).1 (List.find?_some hf)
    rcases moveToFront_ok hinv1 (List.mem_of_find?_eq_some hf) hn with ⟨s2, h2, hinv2, hint⟩ | herr
    · exact Or.inl ⟨node, s1, s2, _, h2, hinv1, hsh, hinv2, hint, hl, e0, e1, e2, e3⟩
    · exact Or.inr (Or.inr herr)
  | none =>
    simp only []
    have hb : bucketOf cfg (Node.leaf c0 c1 c2 c3)
        = hashNodeLeaf cfg c0 c1 c2 c3 % cfg.hashPrime := by
      simp [bucketOf, Node.leaf]
    obtain ⟨s2, h2, hinv2, hint⟩ := @insertNew_ok cfg s1 hinv1 (Node.leaf c0 c1 c2 c3)
      (hv.alloc_fresh s1 hinv1) (by rw [hb]; exact Nat.mod_lt _ hv.hashPrime_pos)
      (by
        intro b nb hnb hl e0 e1 e2 e3
        have hin := hinv1.in_table b nb hnb
        have hbb : bucketOf cfg nb = hashNodeLeaf cfg c0 c1 c2 c3 % cfg.hashPrime := by
          rw [← hb]
          exact @bucketOf_congr cfg (Node.leaf c0 c1 c2 c3) nb
            ⟨by have := hl.1 rfl; rw [this]; rfl, e0.symm, e1.symm, e2.symm, e3.symm⟩
        rw [hbb] at hin
        have := (List.find?_eq_none.1 hf) b hin
        exact this ((isLeafWith_iff _ _ _ _ _ _).2 ⟨nb, hnb, hl.1 rfl, e0.symm, e1.symm, e2.symm,
          e3.symm⟩))
      (by intro h; exact absurd h (by simp [Node.leaf])) rfl rfl
    rw [hb] at h2
    exact Or.inl ⟨_, s1, s2, _, h2, hinv1, hsh, hinv2, hint, rfl, rfl, rfl, rfl, rfl⟩

/-- Function `findOrInsertNonleaf` under the invariant, called with four
handles to nodes of level `L`: it stops with one of the two resource failures
or returns a node of level `L + 1` with the four children. -/
theorem findOrInsertNonleaf_ok {cfg : Config} (hv : cfg.Valid) {s : NodeGCHashTable}
    (hinv : Inv cfg s) (c0 c1 c2 c3 : Addr) (L : Nat)
    (hheld : ∀ k ∈ [c0, c1, c2, c3], ∃ n, s.memory k = some n ∧ 0 < n.refcount ∧ n.level = L) :
    (∃ r s1 s2 n2, findOrInsertNonleaf cfg c0 c1 c2 c3 s = .ok (r, s2) ∧ Inv cfg s1 ∧ Shrinks s s1
        ∧ Inv cfg s2 ∧ Interned s1 r n2 s2 ∧ n2.level = L + 1 ∧ n2.nxny = c0 ∧ n2.nxpy = c1
        ∧ n2.pxny = c2 ∧ n2.pxpy = c3)
      ∨ findOrInsertNonleaf cfg c0 c1 c2 c3 s = .error .outOfMemory
      ∨ findOrInsertNonleaf cfg c0 c1 c2 c3 s = .error .refcountWrap := by
  unfold findOrInsertNonleaf
  rcases onAllocate_ok hinv with ⟨s1, h1, hinv1, hsh⟩ | herr
  swap
  · simp only [herr, true_or, or_true]
  simp only [h1]
  have hkid : ∀ k ∈ [c0, c1, c2, c3], ∃ nk, s1.memory k = some nk ∧ nk.level = L := by
    intro k hk
    obtain ⟨n, hn, hpos, hl⟩ := hheld k hk
    obtain ⟨n1, hn1⟩ := hsh.roots k n hn hpos
    obtain ⟨n0, hn0, hs, _⟩ := hsh.old k n1 hn1
    rw [hn] at hn0
    cases hn0
    exact ⟨n1, hn1, by rw [hs.1, hl]⟩
  cases hf : (s1.table (hashNodeNonleaf cfg c0 c1 c2 c3 % cfg.hashPrime)).find?
      (isNonleafWith s1.memory c0 c1 c2 c3) with
  | some node =>
    simp only []
    obtain ⟨n, hn, hl, e0, e1, e2, e3⟩ := (isNonleafWith_iff _ _ _ _ _ _).1 (List.find?_some hf)
    have hlev : n.level = L + 1 := by
      obtain ⟨nk, hnk, hlk⟩ := hinv1.kids_live node n hn hl n.nxny (by simp [Node.kids])
      obtain ⟨nk0, hnk0, hl0⟩ := hkid c0 (by simp)
      rw [e0, hnk0] at hnk
      cases hnk
      omega
    rcases moveToFront_ok hinv1 (List.mem_of_find?_eq_some hf) hn with ⟨s2, h2, hinv2, hint⟩ | herr
    · exact Or.inl ⟨node, s1, s2, _, h2, hinv1, hsh, hinv2, hint, hlev, e0, e1, e2, e3⟩
    · exact Or.inr (Or.inr herr)
  | none =>
    simp only []
    obtain ⟨child, hchild, hcl⟩ := hkid c0 (by simp)
    simp only [hchild]
    have hb : bucketOf cfg (Node.nonleaf child.level c0 c1 c2 c3)
        = hashNodeNonleaf cfg c0 c1 c2 c3 % cfg.hashPrime := by
      simp [bucketOf, Node.nonleaf]
    obtain ⟨s2, h2, hinv2, hint⟩ := @insertNew_ok cfg s1 hinv1
      (Node.nonleaf child.level c0 c1 c2 c3)
      (hv.alloc_fresh s1 hinv1) (by rw [hb]; exact Nat.mod_lt _ hv.hashPrime_pos)
      (by
        intro b nb hnb hl e0 e1 e2 e3
        have hlb : 0 < nb.level := by
          rcases Nat.eq_zero_or_pos nb.level with h | h
          · have := hl.2 h
            simp [Node.nonleaf] at this
          · exact h
        have hin := hinv1.in_table b nb hnb
        have hbb : bucketOf cfg nb = hashNodeNonleaf cfg c0 c1 c2 c3 % cfg.hashPrime := by
          have h0 : nb.nxny = c0 := e0.symm
          have h1 : nb.nxpy = c1 := e1.symm
          have h2 : nb.pxny = c2 := e2.symm
          have h3 : nb.pxpy = c3 := e3.symm
          have : nb.level ≠ 0 := by omega
          simp only [bucketOf, this, if_false, h0, h1, h2, h3]
        rw [hbb] at hin
        have := (List.find?_eq_none.1 hf) b hin
        exact this ((isNonleafWith_iff _ _ _ _ _ _).2 ⟨nb, hnb, hlb, e0.symm, e1.symm, e2.symm,
          e3.symm⟩))
      (by
        intro _ k hk
        obtain ⟨nk, hnk, hlk⟩ := hkid k (by simpa [Node.kids, Node.nonleaf] using hk)
        refine ⟨nk, hnk, ?_⟩
        show nk.level + 1 = 1 + child.level
        omega)
      rfl rfl
    rw [hb] at h2
    refine Or.inl ⟨_, s1, s2, _, h2, hinv1, hsh, hinv2, hint, ?_, rfl, rfl, rfl, rfl⟩
    show 1 + child.level = L + 1
    omega


theorem Interned.keeps_node {s1 s2 : NodeGCHashTable} {r : Addr} {n2 : Node}
    (h : Interned s1 r n2 s2) {a : Addr} {n : Node} (hn : s1.memory a = some n) :
    ∃ n1, s2.memory a = some n1 ∧ n.SameShape n1 ∧ n.refcount ≤ n1.refcount := by
  by_cases har : a = r
  · subst har
    rcases h.cases with ⟨n0, hn0, e⟩ | ⟨hnone, _⟩
    · rw [hn] at hn0
      cases hn0
      exact ⟨n2, h.self, by rw [e]; exact ⟨rfl, rfl, rfl, rfl, rfl⟩, by rw [e]; exact Nat.le_succ _⟩
    · rw [hn] at hnone
      cases hnone
  · exact ⟨n, by rw [h.other a har]; exact hn, ⟨rfl, rfl, rfl, rfl, rfl⟩, le_refl _⟩

theorem Shrinks.keeps_root {s s1 : NodeGCHashTable} (h : Shrinks s s1) {a : Addr} {n : Node}
    (hn : s.memory a = some n) (hpos : 0 < n.refcount) :
    ∃ n1, s1.memory a = some n1 ∧ n.SameShape n1 ∧ n1.refcount = n.refcount := by
  obtain ⟨n1, hn1⟩ := h.roots a n hn hpos
  obtain ⟨n0, hn0, hs, hrc, _⟩ := h.old a n1 hn1
  rw [hn] at hn0
  cases hn0
  exact ⟨n1, hn1, hs, hrc⟩

theorem Node.SameShape.comp {a b c : Node} (h1 : a.SameShape b) (h2 : b.SameShape c) :
    a.SameShape c :=
  ⟨h2.1.trans h1.1, h2.2.1.trans h1.2.1, h2.2.2.1.trans h1.2.2.1, h2.2.2.2.1.trans h1.2.2.2.1,
    h2.2.2.2.2.trans h1.2.2.2.2⟩

theorem incRefCount_ok {cfg : Config} {s s1 : NodeGCHashTable} (hinv : Inv cfg s) {a : Addr}
    (h : incRefCount a s = .ok s1) :
    ∃ n, s.memory a = some n ∧ n.refcount + 1 < 256
      ∧ s1 = { s with memory := s.memory.set a { n with refcount := n.refcount + 1 } }
      ∧ Inv cfg s1 := by
  unfold incRefCount at h
  cases hn : s.memory a with
  | none => rw [hn] at h; cases h
  | some n =>
    rw [hn] at h
    by_cases hlt : n.refcount + 1 < 256
    · simp only [hlt, if_true, Except.ok.injEq] at h
      subst h
      exact ⟨n, rfl, hlt, rfl, hinv.set_node hn ⟨rfl, rfl, rfl, rfl, rfl⟩
        (fun t ht => hinv.weak_live a n t hn ht)⟩
    · simp only [hlt, if_false] at h
      cases h

theorem decRefCount_ok {cfg : Config} {s s1 : NodeGCHashTable} (hinv : Inv cfg s) {a : Addr}
    (h : decRefCount a s = .ok s1) :
    ∃ n, s.memory a = some n
      ∧ s1 = { s with memory := s.memory.set a { n with refcount := (n.refcount + 255) % 256 } }
      ∧ Inv cfg s1 := by
  unfold decRefCount at h
  cases hn : s.memory a with
  | none => rw [hn] at h; cases h
  | some n =>
    rw [hn] at h
    simp only [Except.ok.injEq] at h
    subst h
    exact ⟨n, rfl, rfl, hinv.set_node hn ⟨rfl, rfl, rfl, rfl, rfl⟩
      (fun t ht => hinv.weak_live a n t hn ht)⟩

/-- Every operation keeps the invariant, and a node that is referenced before
the operation is still allocated after it, with its level and children. -/
theorem Step.preserves {cfg : Config} (hv : cfg.Valid) {s s1 : NodeGCHashTable} (hinv : Inv cfg s)
    (h : Step cfg s s1) :
    Inv cfg s1 ∧ ∀ a n, s.memory a = some n → 0 < n.refcount →
      ∃ n1, s1.memory a = some n1 ∧ n.SameShape n1 := by
  cases h with
  | leaf c0 c1 c2 c3 r hcall =>
    rcases findOrInsertLeaf_ok hv hinv c0 c1 c2 c3 with
      ⟨r1, s1a, s2, n2, h2, _, hsh, hinv2, hint, _⟩ | herr | herr
    · rw [hcall] at h2
      cases h2
      refine ⟨hinv2, fun a n hn hpos => ?_⟩
      obtain ⟨n1, hn1, hs1, _⟩ := hsh.keeps_root hn hpos
      obtain ⟨n3, hn3, hs3, _⟩ := hint.keeps_node hn1
      exact ⟨n3, hn3, hs1.comp hs3⟩
    · rw [hcall] at herr; cases herr
    · rw [hcall] at herr; cases herr
  | nonleaf c0 c1 c2 c3 L r hheld hcall =>
    rcases findOrInsertNonleaf_ok hv hinv c0 c1 c2 c3 L hheld with
      ⟨r1, s1a, s2, n2, h2, _, hsh, hinv2, hint, _⟩ | herr | herr
    · rw [hcall] at h2
      cases h2
      refine ⟨hinv2, fun a n hn hpos => ?_⟩
      obtain ⟨n1, hn1, hs1, _⟩ := hsh.keeps_root hn hpos
      obtain ⟨n3, hn3, hs3, _⟩ := hint.keeps_node hn1
      exact ⟨n3, hn3, hs1.comp hs3⟩
    · rw [hcall] at herr; cases herr
    · rw [hcall] at herr; cases herr
  | collect hgc =>
    obtain ⟨s2, h2, hinv2, hsh⟩ := gc_shrinks hinv
    rw [hgc] at h2
    cases h2
    refine ⟨hinv2, fun a n hn hpos => ?_⟩
    obtain ⟨n1, hn1, hs1, _⟩ := hsh.keeps_root hn hpos
    exact ⟨n1, hn1, hs1⟩
  | acquire x hinc =>
    obtain ⟨nx, hnx, _, rfl, hinv2⟩ := incRefCount_ok hinv hinc
    refine ⟨hinv2, fun a n hn _ => ?_⟩
    by_cases hax : a = x
    · subst hax
      rw [hnx] at hn
      cases hn
      exact ⟨_, Memory.set_same _ _ _, ⟨rfl, rfl, rfl, rfl, rfl⟩⟩
    · exact ⟨n, by show (s.memory.set x _) a = some n; rw [Memory.set_other _ _ hax]; exact hn,
        ⟨rfl, rfl, rfl, rfl, rfl⟩⟩
  | release x _ hdec =>
    obtain ⟨nx, hnx, rfl, hinv2⟩ := decRefCount_ok hinv hdec
    refine ⟨hinv2, fun a n hn _ => ?_⟩
    by_cases hax : a = x
    · subst hax
      rw [hnx] at hn
      cases hn
      exact ⟨_, Memory.set_same _ _ _, ⟨rfl, rfl, rfl, rfl, rfl⟩⟩
    · exact ⟨n, by show (s.memory.set x _) a = some n; rw [Memory.set_other _ _ hax]; exact hn,
        ⟨rfl, rfl, rfl, rfl, rfl⟩⟩

theorem Inv.empty (cfg : Config) : Inv cfg NodeGCHashTable.empty := by
  constructor
  · intro i a ha; cases ha
  · intro a n hn; cases hn
  · intro i; exact List.nodup_nil
  · intro a b na nb ha; cases ha
  · intro a n hn; cases hn
  · show 0 = ((List.range cfg.hashPrime).flatMap fun _ => ([] : List Addr)).length
    induction List.range cfg.hashPrime with
    | nil => rfl
    | cons i rest ih => simpa using ih
  · intro a n t hn; cases hn

/-- Every store state reachable from the empty store satisfies the
invariant. -/
theorem Reachable.inv {cfg : Config} (hv : cfg.Valid) {s : NodeGCHashTable}
    (h : Reachable cfg s) : Inv cfg s := by
  induction h with
  | empty => exact Inv.empty cfg
  | step _ hstep ih => exact (Step.preserves hv ih hstep).1

/-- As long as the node `a` stays referenced the invariant holds and `a` keeps
its level and children. -/
theorem StepsHolding.holds {cfg : Config} (hv : cfg.Valid) {a : Addr} {s s2 : NodeGCHashTable}
    (h : StepsHolding cfg a s s2) (hinv : Inv cfg s) {n : Node} (hn : s.memory a = some n)
    (hpos : 0 < n.refcount) :
    Inv cfg s2 ∧ ∃ n2, s2.memory a = some n2 ∧ 0 < n2.refcount ∧ n.SameShape n2 := by
  induction h with
  | refl => exact ⟨hinv, n, hn, hpos, ⟨rfl, rfl, rfl, rfl, rfl⟩⟩
  | step _ hstep hheld ih =>
    obtain ⟨hinv1, n1, hn1, hpos1, hs1⟩ := ih
    obtain ⟨hinv2, hkeep⟩ := Step.preserves hv hinv1 hstep
    obtain ⟨n2, hn2, hs2⟩ := hkeep a n1 hn1 hpos1
    obtain ⟨n3, hn3, hpos3⟩ := hheld
    rw [hn2] at hn3
    cases hn3
    exact ⟨hinv2, n2, hn2, hpos3, hs1.comp hs2⟩

/-- A call of `findOrInsertLeaf` with the cells of a referenced leaf returns
that leaf. -/
theorem findOrInsertLeaf_hit {cfg : Config} {s : NodeGCHashTable} (hinv : Inv cfg s) {a : Addr}
    {n : Node} (hn : s.memory a = some n) (hpos : 0 < n.refcount) (hl : n.level = 0) {b : Addr}
    {s3 : NodeGCHashTable}
    (hcall : findOrInsertLeaf cfg n.nxny n.nxpy n.pxny n.pxpy s = .ok (b, s3)) : b = a := by
  unfold findOrInsertLeaf at hcall
  rcases onAllocate_ok hinv with ⟨s1, h1, hinv1, hsh⟩ | herr
  swap
  · rw [herr] at hcall; cases hcall
  simp only [h1] at hcall
  obtain ⟨n1, hn1, ⟨e0, e1, e2, e3, e4⟩, _⟩ := hsh.keeps_root hn hpos
  have hmatch : isLeafWith s1.memory n.nxny n.nxpy n.pxny n.pxpy a = true :=
    (isLeafWith_iff _ _ _ _ _ _).2 ⟨n1, hn1, by rw [e0, hl], e1, e2, e3, e4⟩
  have hin : a ∈ s1.table (hashNodeLeaf cfg n.nxny n.nxpy n.pxny n.pxpy % cfg.hashPrime) := by
    have := hinv1.in_table a n1 hn1
    have hl1 : n1.level = 0 := by rw [e0, hl]
    simpa only [bucketOf, hl1, if_true, e1, e2, e3, e4] using this
  cases hf : (s1.table (hashNodeLeaf cfg n.nxny n.nxpy n.pxny n.pxpy % cfg.hashPrime)).find?
      (isLeafWith s1.memory n.nxny n.nxpy n.pxny n.pxpy) with
  | none => exact absurd hmatch ((List.find?_eq_none.1 hf) a hin)
  | some node =>
    rw [hf] at hcall
    simp only [] at hcall
    obtain ⟨nn, hnn, hln, f1, f2, f3, f4⟩ := (isLeafWith_iff _ _ _ _ _ _).1 (List.find?_some hf)
    have hnode : node = a := hinv1.unique node a nn n1 hnn hn1
      (by rw [hln, e0, hl]) (by rw [f1, e1]) (by rw [f2, e2]) (by rw [f3, e3]) (by rw [f4, e4])
    unfold moveToFront at hcall
    split at hcall
    · cases hcall
    · simp only [Except.ok.injEq, Prod.mk.injEq] at hcall
      rw [← hcall.1, hnode]

/-- A call of `findOrInsertNonleaf` with the children of a referenced non-leaf
returns that node. -/
theorem findOrInsertNonleaf_hit {cfg : Config} {s : NodeGCHashTable} (hinv : Inv cfg s)
    {a : Addr} {n : Node} (hn : s.memory a = some n) (hpos : 0 < n.refcount) (hl : 0 < n.level)
    {b : Addr} {s3 : NodeGCHashTable}
    (hcall : findOrInsertNonleaf cfg n.nxny n.nxpy n.pxny n.pxpy s = .ok (b, s3)) : b = a := by
  unfold findOrInsertNonleaf at hcall
  rcases onAllocate_ok hinv with ⟨s1, h1, hinv1, hsh⟩ | herr
  swap
  · rw [herr] at hcall; cases hcall
  simp only [h1] at hcall
  obtain ⟨n1, hn1, ⟨e0, e1, e2, e3, e4⟩, _⟩ := hsh.keeps_root hn hpos
  have hmatch : isNonleafWith s1.memory n.nxny n.nxpy n.pxny n.pxpy a = true :=
    (isNonleafWith_iff _ _ _ _ _ _).2 ⟨n1, hn1, by rw [e0]; exact hl, e1, e2, e3, e4⟩
  have hin : a ∈ s1.table (hashNodeNonleaf cfg n.nxny n.nxpy n.pxny n.pxpy % cfg.hashPrime) := by
    have := hinv1.in_table a n1 hn1
    have hl1 : n1.level ≠ 0 := by rw [e0]; omega
    simpa only [bucketOf, hl1, if_false, e1, e2, e3, e4] using this
  cases hf : (s1.table (hashNodeNonleaf cfg n.nxny n.nxpy n.pxny n.pxpy % cfg.hashPrime)).find?
      (isNonleafWith s1.memory n.nxny n.nxpy n.pxny n.pxpy) with
  | none => exact absurd hmatch ((List.find?_eq_none.1 hf) a hin)
  | some node =>
    rw [hf] at hcall
    simp only [] at hcall
    obtain ⟨nn, hnn, hln, f1, f2, f3, f4⟩ :=
      (isNonleafWith_iff _ _ _ _ _ _).1 (List.find?_some hf)
    have hnode : node = a := hinv1.unique node a nn n1 hnn hn1
      (by rw [e0]; constructor <;> intro h <;> omega) (by rw [f1, e1]) (by rw [f2, e2])
      (by rw [f3, e3]) (by rw [f4, e4])
    unfold moveToFront at hcall
    split at hcall
    · cases hcall
    · simp only [Except.ok.injEq, Prod.mk.injEq] at hcall
      rw [← hcall.1, hnode]

end Heap
/-! ### Hash-consing and collection -/

namespace Heap


theorem le_foldl_max : ∀ (l : List Nat) (init : Nat),
    init ≤ l.foldl max init ∧ ∀ x ∈ l, x ≤ l.foldl max init := by
  intro l
  induction l with
  | nil => intro init; exact ⟨le_refl _, fun x hx => by cases hx⟩
  | cons y rest ih =>
    intro init
    obtain ⟨h1, h2⟩ := ih (max init y)
    refine ⟨le_trans (le_max_left _ _) h1, fun x hx => ?_⟩
    rcases List.mem_cons.1 hx with rfl | hx
    · exact le_trans (le_max_right _ _) h1
    · exact h2 x hx

/-- The example allocator returns an address that holds no node object. -/
theorem allocAbove_valid (cfg : Config) (hp : 0 < cfg.hashPrime)
    (halloc : cfg.alloc = allocAbove cfg.hashPrime) : cfg.Valid := by
  refine ⟨hp, fun s hinv => ?_⟩
  cases hn : s.memory (cfg.alloc s) with
  | none => rfl
  | some n =>
    have hmem := hinv.mem_allNodes hn
    have := (le_foldl_max (s.allNodes cfg) 0).2 _ hmem
    rw [halloc] at this
    simp only [allocAbove, NodeGCHashTable.allNodes] at this
    omega

theorem exampleConfig_valid : exampleConfig.Valid :=
  allocAbove_valid exampleConfig (by decide) rfl

theorem exampleStore3_reachable : Reachable exampleConfig exampleStore3 :=
  Reachable.step (Reachable.step (Reachable.step Reachable.empty (Step.leaf 0 0 0 1 1 rfl))
    (Step.leaf 0 0 1 0 2 rfl)) (Step.release 1 ⟨_, rfl, by decide⟩ rfl)


/-- C6: a sequential `gc` run on a store that satisfies the structural
invariant returns, and the table then links exactly the nodes that were
reachable through child links from a node with `refcount > 0` before the run:
every such node is still allocated with its level and its four children, and
every other node is gone. -/
theorem gc_spec (cfg : Config) (s : NodeGCHashTable) (hinv : Inv cfg s) :
    ∃ s1, gc cfg s = .ok s1
      ∧ (∀ i a, a ∈ s1.table i ↔ a ∈ s.table i ∧ Reach s.memory a)
      ∧ (∀ a, Reach s.memory a → ∃ n n1, s.memory a = some n ∧ s1.memory a = some n1
          ∧ n1.level = n.level ∧ n1.nxny = n.nxny ∧ n1.nxpy = n.nxpy ∧ n1.pxny = n.pxny
          ∧ n1.pxpy = n.pxpy)
      ∧ (∀ a, ¬ Reach s.memory a → s1.memory a = none) := by
  obtain ⟨s1, hgc, _, _, htab, hdead, hkept, _⟩ := gc_ok hinv
  refine ⟨s1, hgc, htab, fun a hr => ?_, hdead⟩
  obtain ⟨n, n1, hn, hn1, hsh, _⟩ := hkept a hr
  exact ⟨n, n1, hn, hn1, hsh⟩

theorem gc_spec_witness :
    Inv exampleConfig exampleStore3
      ∧ ∃ s1, gc exampleConfig exampleStore3 = .ok s1
        ∧ (∀ i a, a ∈ s1.table i ↔ a ∈ exampleStore3.table i ∧ Reach exampleStore3.memory a)
        ∧ (∀ a, Reach exampleStore3.memory a → ∃ n n1, exampleStore3.memory a = some n
            ∧ s1.memory a = some n1 ∧ n1.level = n.level ∧ n1.nxny = n.nxny
            ∧ n1.nxpy = n.nxpy ∧ n1.pxny = n.pxny ∧ n1.pxpy = n.pxpy)
        ∧ (∀ a, ¬ Reach exampleStore3.memory a → s1.memory a = none) :=
  ⟨exampleStore3_reachable.inv exampleConfig_valid,
    gc_spec exampleConfig exampleStore3 (exampleStore3_reachable.inv exampleConfig_valid)⟩

/-- The collection of the example store: the unreferenced leaf at address 1
is deleted, the referenced leaf at address 2 is kept, one node is left. -/
theorem gc_example :
    observeStore (gc exampleConfig exampleStore3)
      = some (none, some (Node.mk 1 true 0 0 0 1 0 none 0), 1, [[], [], [], [], [2]]) := by
  decide


end Heap
/-! ## Rule strings, `eval` on survivors, and the node and universe functions -/

/-- C11 (as amended): for every non-zero centre value and every
neighbourhood with `n` non-zero neighbours such that `survive[n]` is set,
`eval` returns the table entry `rules[1][n]`, which is 1 in every table the
program writes: a surviving cell gets the value 1 whatever value it had. -/
theorem eval_survivor (rules : RuleTable) (hw : rules.Written)
    (nxny nxcy nxpy cxny cxcy cxpy pxny pxcy pxpy : CellType) (hc : cxcy ≠ 0)
    (hs : rules 1 (neighbourCount nxny nxcy nxpy cxny cxpy pxny pxcy pxpy) ≠ 0) :
    eval rules nxny nxcy nxpy cxny cxcy cxpy pxny pxcy pxpy
        = rules 1 (neighbourCount nxny nxcy nxpy cxny cxpy pxny pxcy pxpy)
      ∧ eval rules nxny nxcy nxpy cxny cxcy cxpy pxny pxcy pxpy = 1 := by
  have h : eval rules nxny nxcy nxpy cxny cxcy cxpy pxny pxcy pxpy
      = rules 1 (neighbourCount nxny nxcy nxpy cxny cxpy pxny pxcy pxpy) := by
    unfold eval
    rw [if_pos hc]
  refine ⟨h, ?_⟩
  rw [h]
  rcases hw.binary 1 (neighbourCount nxny nxcy nxpy cxny cxpy pxny pxcy pxpy) with h0 | h1
  · exact absurd h0 hs
  · exact h1

theorem eval_survivor_witness :
    eval setLifeRules 1 1 0 0 2 0 0 0 0 = setLifeRules 1 (neighbourCount 1 1 0 0 0 0 0 0)
      ∧ eval setLifeRules 1 1 0 0 2 0 0 0 0 = 1 :=
  eval_survivor setLifeRules RuleTable.Written.life 1 1 0 0 2 0 0 0 0 (by decide) (by decide)

/-- C11 (as stated) fails: under Conway's rule a cell of value 2 with two
live neighbours survives (`survive[2]` is set) and `eval` returns 1, not 2. -/
theorem eval_drops_colour :
    (2 : CellType) ≠ 0 ∧ setLifeRules 1 (neighbourCount 1 1 0 0 0 0 0 0) ≠ 0
      ∧ (neighbourCount 1 1 0 0 0 0 0 0).val = 2
      ∧ eval setLifeRules 1 1 0 0 2 0 0 0 0 ≠ 2 := by
  decide

theorem digitChar_spec : ∀ n : Fin 9, digitChar n ≠ 'B' ∧ digitChar n ≠ '/' ∧ digitChar n ≠ 'S'
    ∧ isRuleDigit (digitChar n) ∧ digitIndex (digitChar n) = n := by
  decide

theorem parseRulesFrom_eq (rules : RuleTable) (s : String) :
    parseRulesFrom rules s = parseRules s := rfl

theorem RuleTable.setAll_apply (row : Fin 2) : ∀ (ds : List (Fin 9)) (rules : RuleTable)
    (i : Fin 2) (n : Fin 9),
    rules.setAll row ds i n = if i = row ∧ n ∈ ds then 1 else rules i n := by
  intro ds
  induction ds with
  | nil => intro rules i n; simp [RuleTable.setAll]
  | cons d rest ih =>
    intro rules i n
    have : rules.setAll row (d :: rest) = (rules.set row d 1).setAll row rest := rfl
    rw [this, ih]
    unfold RuleTable.set
    by_cases h1 : i = row
    · by_cases h2 : n = d
      · simp [h1, h2]
      · by_cases h3 : n ∈ rest
        · simp [h1, h3]
        · simp [h1, h2, h3]
    · simp [h1]

/-- The digits of the birth side, read with `gotB` set and `gotSlash`
clear. -/
theorem parseRulesLoop_birth_digits : ∀ (ds : List (Fin 9)) (rest : List Char)
    (rules : RuleTable), ds.Nodup → (∀ d ∈ ds, rules 0 d = 0) →
    parseRulesLoop (ds.map digitChar ++ rest) true false false rules
      = parseRulesLoop rest true false false (rules.setAll 0 ds) := by
  intro ds
  induction ds with
  | nil => intro rest rules _ _; rfl
  | cons d tl ih =>
    intro rest rules hnd hz
    rw [List.nodup_cons] at hnd
    obtain ⟨hB, hSl, hS, hdig, hidx⟩ := digitChar_spec d
    have hz0 : rules 0 d = 0 := hz d (List.mem_cons_self _ _)
    simp only [List.map_cons, List.cons_append]
    rw [parseRulesLoop]
    simp only [hB, hSl, hS, if_false, show ('0' ≤ digitChar d ∧ digitChar d ≤ '8') from hdig,
      if_true, Bool.not_true, Bool.false_eq_true, hidx, hz0, ne_eq, not_true_eq_false]
    rw [ih rest _ hnd.2]
    · rfl
    · intro e he
      have : e ≠ d := fun h => hnd.1 (h ▸ he)
      simp [RuleTable.set, this, hz e (List.mem_cons_of_mem _ he)]

/-- The digits of the survival side, read with all three flags set. -/
theorem parseRulesLoop_survive_digits : ∀ (ds : List (Fin 9)) (rest : List Char)
    (rules : RuleTable), ds.Nodup → (∀ d ∈ ds, rules 1 d = 0) →
    parseRulesLoop (ds.map digitChar ++ rest) true true true rules
      = parseRulesLoop rest true true true (rules.setAll 1 ds) := by
  intro ds
  induction ds with
  | nil => intro rest rules _ _; rfl
  | cons d tl ih =>
    intro rest rules hnd hz
    rw [List.nodup_cons] at hnd
    obtain ⟨hB, hSl, hS, hdig, hidx⟩ := digitChar_spec d
    have hz0 : rules 1 d = 0 := hz d (List.mem_cons_self _ _)
    simp only [List.map_cons, List.cons_append]
    rw [parseRulesLoop]
    simp only [hB, hSl, hS, if_false, show ('0' ≤ digitChar d ∧ digitChar d ≤ '8') from hdig,
      if_true, Bool.not_true, Bool.false_eq_true, hidx, hz0, ne_eq, not_true_eq_false]
    rw [ih rest _ hnd.2]
    · rfl
    · intro e he
      have : e ≠ d := fun h => hnd.1 (h ▸ he)
      simp [RuleTable.set, this, hz e (List.mem_cons_of_mem _ he)]

/-- C12: for every string `B<ds1>/S<ds2>` whose digit sequences (digits 0..8,
possibly empty) have no repetition inside a side, `parseRules` returns true
and leaves `rules[0][n]` set exactly for the digits of `ds1` and `rules[1][n]`
exactly for the digits of `ds2`, whatever the table held before. -/
theorem parseRules_accepts (old : RuleTable) (ds1 ds2 : List (Fin 9)) (h1 : ds1.Nodup)
    (h2 : ds2.Nodup) :
    (parseRulesFrom old (ruleString ds1 ds2)).1 = true
      ∧ ∀ n : Fin 9,
        (parseRulesFrom old (ruleString ds1 ds2)).2 0 n = (if n ∈ ds1 then 1 else 0)
        ∧ (parseRulesFrom old (ruleString ds1 ds2)).2 1 n = (if n ∈ ds2 then 1 else 0) := by
  have key : parseRulesFrom old (ruleString ds1 ds2)
      = (true, ((clearRulesFrom old).setAll 0 ds1).setAll 1 ds2) := by
    show parseRulesLoop ('B' :: (ds1.map digitChar ++ '/' :: 'S' :: ds2.map digitChar)) false false
      false (clearRulesFrom old) = _
    rw [parseRulesLoop]
    simp only [if_true, Bool.false_eq_true, if_false]
    rw [parseRulesLoop_birth_digits ds1 _ _ h1 (fun _ _ => rfl)]
    rw [parseRulesLoop]
    simp only [show ¬ ('/' = 'B') by decide, if_false, if_true, Bool.not_true, Bool.or_false,
      Bool.false_eq_true]
    rw [parseRulesLoop]
    simp only [show ¬ ('S' = 'B') by decide, show ¬ ('S' = '/') by decide, if_false, if_true,
      Bool.not_true, Bool.or_false, Bool.false_eq_true]
    have := parseRulesLoop_survive_digits ds2 [] ((clearRulesFrom old).setAll 0 ds1) h2
      (by intro d _; rw [RuleTable.setAll_apply]; simp [clearRulesFrom])
    rw [List.append_nil] at this
    rw [this]
    rfl
  rw [key]
  refine ⟨rfl, fun n => ⟨?_, ?_⟩⟩
  · simp only [RuleTable.setAll_apply]
    simp [clearRulesFrom]
  · simp only [RuleTable.setAll_apply]
    simp [clearRulesFrom]

theorem parseRules_accepts_witness :
    (ruleString [3] [2, 3] = "B3/S23" ∧ ruleString [] [] = "B/S")
      ∧ ((parseRulesFrom setLifeRules (ruleString [3] [2, 3])).1 = true
        ∧ ∀ n : Fin 9,
          (parseRulesFrom setLifeRules (ruleString [3] [2, 3])).2 0 n
              = (if n ∈ [(3 : Fin 9)] then 1 else 0)
          ∧ (parseRulesFrom setLifeRules (ruleString [3] [2, 3])).2 1 n
              = (if n ∈ [(2 : Fin 9), 3] then 1 else 0)) :=
  ⟨by decide, parseRules_accepts setLifeRules [3] [2, 3] (by decide) (by decide)⟩

theorem parseRulesLoop_B (l : List Char) (gotB gotSlash gotS : Bool) (rules : RuleTable) :
    parseRulesLoop ('B' :: l) gotB gotSlash gotS rules
      = if gotB then (false, rules) else parseRulesLoop l true gotSlash gotS rules := by
  rw [parseRulesLoop, if_pos rfl]

theorem parseRulesLoop_slash (l : List Char) (gotB gotSlash gotS : Bool) (rules : RuleTable) :
    parseRulesLoop ('/' :: l) gotB gotSlash gotS rules
      = if !gotB || gotSlash then (false, rules) else parseRulesLoop l gotB true gotS rules := by
  rw [parseRulesLoop, if_neg (by decide), if_pos rfl]

theorem parseRulesLoop_S (l : List Char) (gotB gotSlash gotS : Bool) (rules : RuleTable) :
    parseRulesLoop ('S' :: l) gotB gotSlash gotS rules
      = if !gotB || !gotSlash || gotS then (false, rules)
        else parseRulesLoop l gotB gotSlash true rules := by
  rw [parseRulesLoop, if_neg (by decide), if_neg (by decide), if_pos rfl]

theorem isRuleDigit.ne {ch : Char} (hd : isRuleDigit ch) : ch ≠ 'B' ∧ ch ≠ '/' ∧ ch ≠ 'S' := by
  refine ⟨?_, ?_, ?_⟩ <;> rintro rfl <;> revert hd <;> decide

theorem parseRulesLoop_digit {ch : Char} (hd : isRuleDigit ch) (l : List Char)
    (gotB gotSlash gotS : Bool) (rules : RuleTable) :
    parseRulesLoop (ch :: l) gotB gotSlash gotS rules
      = if !gotB then (false, rules)
        else if gotSlash then
          if !gotS then (false, rules)
          else if rules 1 (digitIndex ch) ≠ 0 then (false, rules)
          else parseRulesLoop l gotB gotSlash gotS (rules.set 1 (digitIndex ch) 1)
        else
          if rules 0 (digitIndex ch) ≠ 0 then (false, rules)
          else parseRulesLoop l gotB gotSlash gotS (rules.set 0 (digitIndex ch) 1) := by
  obtain ⟨h1, h2, h3⟩ := hd.ne
  rw [parseRulesLoop, if_neg h1, if_neg h2, if_neg h3,
    if_pos (show '0' ≤ ch ∧ ch ≤ '8' from hd)]

theorem parseRulesLoop_other {ch : Char} (h1 : ch ≠ 'B') (h2 : ch ≠ '/') (h3 : ch ≠ 'S')
    (hd : ¬ isRuleDigit ch) (l : List Char) (gotB gotSlash gotS : Bool) (rules : RuleTable) :
    parseRulesLoop (ch :: l) gotB gotSlash gotS rules = (false, rules) := by
  rw [parseRulesLoop, if_neg h1, if_neg h2, if_neg h3,
    if_neg (show ¬ ('0' ≤ ch ∧ ch ≤ '8') from hd)]

theorem RuleTable.set_ne_zero (rules : RuleTable) (row : Fin 2) (d : Fin 9) (i : Fin 2)
    (j : Fin 9) (h : rules i j ≠ 0) : rules.set row d 1 i j ≠ 0 := by
  unfold RuleTable.set
  split
  · exact one_ne_zero
  · exact h

/-- Reading a prefix either makes `parseRules` return false or leaves the
loop in a state in which flags and entries that were set are still set; the
prefix alone is then accepted with the same table. -/
theorem parseRulesLoop_append : ∀ (pre rest : List Char) (gotB gotSlash gotS : Bool)
    (rules : RuleTable),
    (parseRulesLoop (pre ++ rest) gotB gotSlash gotS rules).1 = false
      ∨ ∃ (gotB1 gotSlash1 gotS1 : Bool) (rules1 : RuleTable),
        parseRulesLoop (pre ++ rest) gotB gotSlash gotS rules
            = parseRulesLoop rest gotB1 gotSlash1 gotS1 rules1
          ∧ (gotB = true → gotB1 = true) ∧ (gotSlash = true → gotSlash1 = true)
          ∧ (gotS = true → gotS1 = true) ∧ (∀ i j, rules i j ≠ 0 → rules1 i j ≠ 0)
          ∧ ('/' ∉ pre → gotSlash1 = gotSlash) ∧ ('B' ∉ pre → gotB1 = gotB)
          ∧ parseRulesLoop pre gotB gotSlash gotS rules = (true, rules1) := by
  intro pre
  induction pre with
  | nil =>
    intro rest gotB gotSlash gotS rules
    exact Or.inr ⟨gotB, gotSlash, gotS, rules, rfl, id, id, id, fun _ _ h => h, fun _ => rfl,
      fun _ => rfl, rfl⟩
  | cons ch tl ih =>
    intro rest gotB gotSlash gotS rules
    have hmem : ∀ {c : Char} {p : Prop}, (c ∉ tl → p) → (c ∉ ch :: tl → p) :=
      fun f h => f (fun h2 => h (List.mem_cons_of_mem _ h2))
    have hhead : ∀ {p : Prop}, (ch ∉ ch :: tl → p) :=
      fun h => absurd (List.mem_cons_self ch tl) h
    rw [List.cons_append]
    by_cases hB : ch = 'B'
    · subst hB
      rw [parseRulesLoop_B, parseRulesLoop_B]
      cases gotB with
      | true => exact Or.inl rfl
      | false =>
        rcases ih rest true gotSlash gotS rules with
          h | ⟨b, sl, s, r, e, _, m2, m3, m4, m5, _, m7⟩
        · exact Or.inl h
        · exact Or.inr ⟨b, sl, s, r, e, (fun h => by cases h), m2, m3, m4, hmem m5, hhead, m7⟩
    by_cases hSl : ch = '/'
    · subst hSl
      rw [parseRulesLoop_slash, parseRulesLoop_slash]
      cases gotB with
      | false => exact Or.inl rfl
      | true =>
        cases gotSlash with
        | true => exact Or.inl rfl
        | false =>
          rcases ih rest true true gotS rules with
            h | ⟨b, sl, s, r, e, m1, _, m3, m4, _, m6, m7⟩
          · exact Or.inl h
          · exact Or.inr ⟨b, sl, s, r, e, m1, (fun h => by cases h), m3, m4, hhead, hmem m6, m7⟩
    by_cases hS : ch = 'S'
    · subst hS
      rw [parseRulesLoop_S, parseRulesLoop_S]
      cases gotB with
      | false => exact Or.inl rfl
      | true =>
        cases gotSlash with
        | false => exact Or.inl rfl
        | true =>
          cases gotS with
          | true => exact Or.inl rfl
          | false =>
            rcases ih rest true true true rules with
              h | ⟨b, sl, s, r, e, m1, m2, _, m4, m5, m6, m7⟩
            · exact Or.inl h
            · exact Or.inr ⟨b, sl, s, r, e, m1, m2, (fun h => by cases h), m4, hmem m5,
                hmem m6, m7⟩
    by_cases hd : isRuleDigit ch
    swap
    · rw [parseRulesLoop_other hB hSl hS hd]
      exact Or.inl rfl
    rw [parseRulesLoop_digit hd, parseRulesLoop_digit hd]
    cases gotB with
    | false => exact Or.inl rfl
    | true =>
      cases gotSlash with
      | true =>
        cases gotS with
        | false => exact Or.inl rfl
        | true =>
          by_cases hz : rules 1 (digitIndex ch) = 0
          · simp only [Bool.not_true, Bool.false_eq_true, if_false, if_true, hz, ne_eq,
              not_true_eq_false]
            rcases ih rest true true true (rules.set 1 (digitIndex ch) 1) with
              h | ⟨b, sl, s, r, e, m1, m2, m3, m4, m5, m6, m7⟩
            · exact Or.inl h
            · exact Or.inr ⟨b, sl, s, r, e, (fun _ => m1 rfl), (fun _ => m2 rfl),
                (fun _ => m3 rfl), (fun i j h => m4 i j (rules.set_ne_zero _ _ i j h)), hmem m5,
                hmem m6, m7⟩
          · simp only [Bool.not_true, Bool.false_eq_true, if_false, if_true, hz, ne_eq,
              not_false_eq_true]
            exact Or.inl trivial
      | false =>
        by_cases hz : rules 0 (digitIndex ch) = 0
        · simp only [Bool.not_true, Bool.false_eq_true, if_false, hz, ne_eq, not_true_eq_false]
          rcases ih rest true false gotS (rules.set 0 (digitIndex ch) 1) with
            h | ⟨b, sl, s, r, e, m1, m2, m3, m4, m5, m6, m7⟩
          · exact Or.inl h
          · exact Or.inr ⟨b, sl, s, r, e, (fun _ => m1 rfl), (fun h => by cases h), m3,
              (fun i j h => m4 i j (rules.set_ne_zero _ _ i j h)), hmem m5, hmem m6, m7⟩
        · simp only [Bool.not_true, Bool.false_eq_true, if_false, hz, ne_eq, not_false_eq_true,
            if_true]
          exact Or.inl trivial

theorem parseRulesLoop_false_of_append {pre rest : List Char} {gotB gotSlash gotS : Bool}
    {rules : RuleTable}
    (h : ∀ (b sl s : Bool) (r : RuleTable), (gotB = true → b = true) →
      (gotSlash = true → sl = true) → (gotS = true → s = true) →
      (∀ i j, rules i j ≠ 0 → r i j ≠ 0) → ('/' ∉ pre → sl = gotSlash) → ('B' ∉ pre → b = gotB) →
      (parseRulesLoop rest b sl s r).1 = false) :
    (parseRulesLoop (pre ++ rest) gotB gotSlash gotS rules).1 = false := by
  rcases parseRulesLoop_append pre rest gotB gotSlash gotS rules with
    hf | ⟨b, sl, s, r, e, m1, m2, m3, m4, m5, m6, _⟩
  · exact hf
  · rw [e]
    exact h b sl s r m1 m2 m3 m4 m5 m6

theorem RuleTable.set_self (rules : RuleTable) (row : Fin 2) (d : Fin 9) :
    rules.set row d 1 row d ≠ 0 := by
  simp [RuleTable.set]

/-- The loop of `parseRules`, started with the three flags clear, returns
false on every malformed string. -/
theorem parseRulesLoop_malformed {l : List Char} (h : Malformed l) (rules : RuleTable) :
    (parseRulesLoop l false false false rules).1 = false := by
  cases h with
  | repeatedDigit pre d mid post hd hmid =>
    apply parseRulesLoop_false_of_append
    intro b sl s r _ _ _ _ _ _
    rw [parseRulesLoop_digit hd]
    cases b with
    | false => rfl
    | true =>
      cases sl with
      | true =>
        cases s with
        | false => rfl
        | true =>
          by_cases hz : r 1 (digitIndex d) = 0
          · simp only [Bool.not_true, Bool.false_eq_true, if_false, if_true, hz, ne_eq,
              not_true_eq_false]
            apply parseRulesLoop_false_of_append
            intro b2 sl2 s2 r2 m1 _ m3 m4 m5 _
            rw [parseRulesLoop_digit hd, m1 rfl, m5 hmid, m3 rfl]
            have := m4 1 (digitIndex d) (r.set_self 1 (digitIndex d))
            simp only [Bool.not_true, Bool.false_eq_true, if_false, if_true, this, ne_eq,
              not_false_eq_true]
          · simp only [Bool.not_true, Bool.false_eq_true, if_false, if_true, hz, ne_eq,
              not_false_eq_true]
      | false =>
        by_cases hz : r 0 (digitIndex d) = 0
        · simp only [Bool.not_true, Bool.false_eq_true, if_false, hz, ne_eq, not_true_eq_false]
          apply parseRulesLoop_false_of_append
          intro b2 sl2 s2 r2 m1 _ _ m4 m5 _
          rw [parseRulesLoop_digit hd, m1 rfl, m5 hmid]
          have := m4 0 (digitIndex d) (r.set_self 0 (digitIndex d))
          simp only [Bool.not_true, Bool.false_eq_true, if_false, if_true, this, ne_eq,
            not_false_eq_true]
        · simp only [Bool.not_true, Bool.false_eq_true, if_false, hz, ne_eq, not_false_eq_true,
            if_true]
  | sBeforeSlash pre mid post =>
    apply parseRulesLoop_false_of_append
    intro b sl s r _ _ _ _ _ _
    rw [parseRulesLoop_S]
    cases b with
    | false => rfl
    | true =>
      cases sl with
      | false => rfl
      | true =>
        cases s with
        | true => rfl
        | false =>
          apply parseRulesLoop_false_of_append
          intro b2 sl2 s2 r2 _ m2 _ _ _ _
          rw [parseRulesLoop_slash, m2 rfl]
          cases b2 <;> rfl
  | sWithoutSlash pre post hpre =>
    apply parseRulesLoop_false_of_append
    intro b sl s r _ _ _ _ m5 _
    rw [parseRulesLoop_S, m5 hpre]
    cases b <;> rfl
  | twice c pre mid post hc =>
    apply parseRulesLoop_false_of_append
    intro b sl s r _ _ _ _ _ _
    rcases hc with rfl | rfl | rfl
    · rw [parseRulesLoop_slash]
      cases b with
      | false => rfl
      | true =>
        cases sl with
        | true => rfl
        | false =>
          apply parseRulesLoop_false_of_append
          intro b2 sl2 s2 r2 _ m2 _ _ _ _
          rw [parseRulesLoop_slash, m2 rfl]
          cases b2 <;> rfl
    · rw [parseRulesLoop_B]
      cases b with
      | true => rfl
      | false =>
        apply parseRulesLoop_false_of_append
        intro b2 sl2 s2 r2 m1 _ _ _ _ _
        rw [parseRulesLoop_B, m1 rfl]
        rfl
    · rw [parseRulesLoop_S]
      cases b with
      | false => rfl
      | true =>
        cases sl with
        | false => rfl
        | true =>
          cases s with
          | true => rfl
          | false =>
            apply parseRulesLoop_false_of_append
            intro b2 sl2 s2 r2 _ _ m3 _ _ _
            rw [parseRulesLoop_S, m3 rfl]
            cases b2 <;> cases sl2 <;> rfl
  | digitBeforeB pre d mid post hd =>
    apply parseRulesLoop_false_of_append
    intro b sl s r _ _ _ _ _ _
    have hB : ∀ (sl1 s1 : Bool) (r1 : RuleTable),
        (parseRulesLoop (mid ++ 'B' :: post) true sl1 s1 r1).1 = false := by
      intro sl1 s1 r1
      apply parseRulesLoop_false_of_append
      intro b2 sl2 s2 r2 m1 _ _ _ _ _
      rw [parseRulesLoop_B, m1 rfl]
      rfl
    rw [parseRulesLoop_digit hd]
    cases b with
    | false => rfl
    | true =>
      simp only [Bool.not_true, Bool.false_eq_true, if_false]
      split_ifs <;> first | rfl | exact hB _ _ _
  | other pre c post h1 h2 h3 hd =>
    apply parseRulesLoop_false_of_append
    intro b sl s r _ _ _ _ _ _
    rw [parseRulesLoop_other h1 h2 h3 hd]

/-- C13: `parseRules` returns false for every string in which a digit is
repeated on the same side (no `/` between the two occurrences), `S` occurs
before `/` (or with no `/` before it), one of `/`, `B`, `S` occurs twice, a
digit precedes `B`, or a character other than `B`, `/`, `S`, `0`..`8`
occurs, whatever the table held before. -/
theorem parseRules_rejects (old : RuleTable) (s : String) (h : Malformed s.data) :
    (parseRulesFrom old s).1 = false :=
  parseRulesLoop_malformed h _

theorem parseRules_rejects_witness :
    ((parseRulesFrom setLifeRules "B33/S23").1 = false
        ∧ (parseRulesFrom setLifeRules "B3S23").1 = false)
      ∧ (parseRulesFrom setLifeRules "B3/S2/3").1 = false
        ∧ (parseRulesFrom setLifeRules "B9/S23").1 = false :=
  ⟨⟨parseRules_rejects setLifeRules "B33/S23"
      (Malformed.repeatedDigit ['B'] '3' [] ['/', 'S', '2', '3'] (by decide) (by decide)),
    parseRules_rejects setLifeRules "B3S23"
      (Malformed.sWithoutSlash ['B', '3'] ['2', '3'] (by decide))⟩,
    parseRules_rejects setLifeRules "B3/S2/3"
      (Malformed.twice '/' ['B', '3'] ['S', '2'] ['3'] (Or.inl rfl)),
    parseRules_rejects setLifeRules "B9/S23"
      (Malformed.other ['B'] '9' ['/', 'S', '2', '3'] (by decide) (by decide) (by decide)
        (by decide))⟩

/-- C14 fails on the code: `parseRules` has no check at the end of the
string, so it returns true for the empty string and for the truncated
strings `B3` and `B3/` (and leaves `birth[3]` as the only entry for the
latter two). -/
theorem parseRules_accepts_truncated :
    (parseRulesFrom setLifeRules "").1 = true
      ∧ (parseRulesFrom setLifeRules "B3").1 = true
      ∧ (parseRulesFrom setLifeRules "B3/").1 = true
      ∧ (∀ i n, (parseRulesFrom setLifeRules "B3").2 i n = if i = 0 ∧ n = 3 then 1 else 0) := by
  decide

/-- One character either makes the loop return false with the table as it
stands, or moves it to a next state, whatever follows. -/
theorem parseRulesLoop_cons (ch : Char) (gotB gotSlash gotS : Bool) (rules : RuleTable) :
    (∀ l, parseRulesLoop (ch :: l) gotB gotSlash gotS rules = (false, rules))
      ∨ ∃ (b sl s : Bool) (r : RuleTable),
        ∀ l, parseRulesLoop (ch :: l) gotB gotSlash gotS rules = parseRulesLoop l b sl s r := by
  by_cases hB : ch = 'B'
  · subst hB
    cases gotB with
    | true => exact Or.inl fun l => by rw [parseRulesLoop_B]; rfl
    | false => exact Or.inr ⟨true, gotSlash, gotS, rules, fun l => by rw [parseRulesLoop_B]; rfl⟩
  by_cases hSl : ch = '/'
  · subst hSl
    by_cases hc : (!gotB || gotSlash) = true
    · exact Or.inl fun l => by rw [parseRulesLoop_slash, if_pos hc]
    · exact Or.inr ⟨gotB, true, gotS, rules, fun l => by rw [parseRulesLoop_slash, if_neg hc]⟩
  by_cases hS : ch = 'S'
  · subst hS
    by_cases hc : (!gotB || !gotSlash || gotS) = true
    · exact Or.inl fun l => by rw [parseRulesLoop_S, if_pos hc]
    · exact Or.inr ⟨gotB, gotSlash, true, rules, fun l => by rw [parseRulesLoop_S, if_neg hc]⟩
  by_cases hd : isRuleDigit ch
  swap
  · exact Or.inl fun l => parseRulesLoop_other hB hSl hS hd l _ _ _ _
  by_cases h1 : (!gotB) = true
  · exact Or.inl fun l => by rw [parseRulesLoop_digit hd, if_pos h1]
  by_cases h2 : gotSlash = true
  · by_cases h3 : (!gotS) = true
    · exact Or.inl fun l => by rw [parseRulesLoop_digit hd, if_neg h1, if_pos h2, if_pos h3]
    · by_cases h4 : rules 1 (digitIndex ch) ≠ 0
      · exact Or.inl fun l => by
          rw [parseRulesLoop_digit hd, if_neg h1, if_pos h2, if_neg h3, if_pos h4]
      · exact Or.inr ⟨gotB, gotSlash, gotS, rules.set 1 (digitIndex ch) 1, fun l => by
          rw [parseRulesLoop_digit hd, if_neg h1, if_pos h2, if_neg h3, if_neg h4]⟩
  · by_cases h4 : rules 0 (digitIndex ch) ≠ 0
    · exact Or.inl fun l => by rw [parseRulesLoop_digit hd, if_neg h1, if_neg h2, if_pos h4]
    · exact Or.inr ⟨gotB, gotSlash, gotS, rules.set 0 (digitIndex ch) 1, fun l => by
        rw [parseRulesLoop_digit hd, if_neg h1, if_neg h2, if_neg h4]⟩

/-- When the loop returns false, the table is the one the characters before
the offending one wrote. -/
theorem parseRulesLoop_failure : ∀ (l : List Char) (gotB gotSlash gotS : Bool)
    (rules : RuleTable), (parseRulesLoop l gotB gotSlash gotS rules).1 = false →
    ∃ (pre : List Char) (c : Char) (post : List Char), l = pre ++ c :: post
      ∧ parseRulesLoop pre gotB gotSlash gotS rules
          = (true, (parseRulesLoop l gotB gotSlash gotS rules).2) := by
  intro l
  induction l with
  | nil => intro _ _ _ _ h; cases h
  | cons ch tl ih =>
    intro gotB gotSlash gotS rules h
    rcases parseRulesLoop_cons ch gotB gotSlash gotS rules with hf | ⟨b, sl, s, r, hc⟩
    · exact ⟨[], ch, tl, rfl, by rw [hf tl]; rfl⟩
    · rw [hc tl] at h
      obtain ⟨pre, c, post, e, hp⟩ := ih b sl s r h
      refine ⟨ch :: pre, c, post, by rw [e]; rfl, ?_⟩
      rw [hc pre, hc tl]
      exact hp

/-- C15 (as amended): when `parseRules` returns false the table is not
reset; it holds what the characters before the offending one wrote into the
cleared table, every entry is 0 or 1, and it does not depend on what the
table held before the call. -/
theorem parseRules_failure_table (old : RuleTable) (s : String)
    (h : (parseRulesFrom old s).1 = false) :
    (∃ (pre : List Char) (c : Char) (post : List Char), s.data = pre ++ c :: post
        ∧ parseRulesFrom old (String.mk pre) = (true, (parseRulesFrom old s).2))
      ∧ (∀ i n, (parseRulesFrom old s).2 i n = 0 ∨ (parseRulesFrom old s).2 i n = 1)
      ∧ ∀ other : RuleTable, parseRulesFrom other s = parseRulesFrom old s :=
  ⟨parseRulesLoop_failure s.data false false false _ h,
    parseRulesLoop_binary s.data false false false _ clearRules_binary, fun _ => rfl⟩

theorem parseRules_failure_table_witness :
    (parseRulesFrom setLifeRules "B33").1 = false
      ∧ (∃ (pre : List Char) (c : Char) (post : List Char), "B33".data = pre ++ c :: post
        ∧ parseRulesFrom setLifeRules (String.mk pre)
            = (true, (parseRulesFrom setLifeRules "B33").2))
      ∧ (∀ i n, (parseRulesFrom setLifeRules "B33").2 i n = 0
          ∨ (parseRulesFrom setLifeRules "B33").2 i n = 1)
      ∧ ∀ other : RuleTable, parseRulesFrom other "B33" = parseRulesFrom setLifeRules "B33" :=
  ⟨by decide, parseRules_failure_table setLifeRules "B33" (by decide)⟩

/-- C15 (as stated) fails: `parseRules("B33")` returns false and leaves
`birth[3]` set. -/
theorem parseRules_failure_keeps_entries :
    (parseRulesFrom clearRules "B33").1 = false ∧ (parseRulesFrom clearRules "B33").2 0 3 ≠ 0 := by
  decide

theorem NodeType.agrees_cellAt (n : NodeType) (w : n.WellFormed) : n.Agrees 0 0 n.cellAt := by
  intro x y h1 h2 h3 h4
  obtain ⟨v, hv⟩ := NodeType.getCellH_isSome n w 0 0 x y h1 h2 h3 h4
  rw [hv, NodeType.cellAt, hv]
  rfl

/-- C16: for every level-1 node (a 4x4 grid of cells at `x, y` in `-2..1`),
`getNextState` returns a leaf whose cell at each `(x, y)` with `x, y` in
`{-1, 0}` is `eval` applied to the grid cell at `(x, y)` as centre and the
eight cells at `(x + dx, y + dy)` as neighbours. -/
theorem getNextState_level_one (rules : RuleTable) (n : NodeType) (w : n.WellFormed)
    (hl : n.level = 1) :
    (∀ x y : Int, -2 ≤ x → x < 2 → -2 ≤ y → y < 2 → getCellH n 0 0 x y = some (n.cellAt x y))
      ∧ ∃ a b c d, n.getNextState rules = some (NodeType.leaf a b c d)
        ∧ ∀ x y : Int, (x = -1 ∨ x = 0) → (y = -1 ∨ y = 0) →
          getCellH (NodeType.leaf a b c d) 0 0 x y
            = some (eval rules (n.cellAt (x - 1) (y - 1)) (n.cellAt (x - 1) y)
                (n.cellAt (x - 1) (y + 1)) (n.cellAt x (y - 1)) (n.cellAt x y)
                (n.cellAt x (y + 1)) (n.cellAt (x + 1) (y - 1)) (n.cellAt (x + 1) y)
                (n.cellAt (x + 1) (y + 1))) := by
  have hag := n.agrees_cellAt w
  refine ⟨fun x y h1 h2 h3 h4 => hag x y (by rw [hl]; omega) (by rw [hl]; omega)
    (by rw [hl]; omega) (by rw [hl]; omega), ?_⟩
  obtain ⟨r, hr, -, hr0, hra⟩ := NodeType.getNextStateFuel_level_one rules w hl 0 0 n.cellAt hag 0
  obtain ⟨a, b, c, d, rfl⟩ := NodeType.eq_leaf_of_level_zero hr0
  refine ⟨a, b, c, d, ?_, fun x y hx hy => ?_⟩
  · rw [NodeType.getNextState, hl]
    exact hr
  · have := hra x y (by rw [NodeType.level_leaf]; omega) (by rw [NodeType.level_leaf]; omega)
      (by rw [NodeType.level_leaf]; omega) (by rw [NodeType.level_leaf]; omega)
    rw [this]
    rfl

theorem getNextState_level_one_witness :
    (∀ x y : Int, -2 ≤ x → x < 2 → -2 ≤ y → y < 2 →
        getCellH ring8.rootNode 0 0 x y = some (ring8.rootNode.cellAt x y))
      ∧ ∃ a b c d, ring8.rootNode.getNextState setLifeRules = some (NodeType.leaf a b c d)
        ∧ ∀ x y : Int, (x = -1 ∨ x = 0) → (y = -1 ∨ y = 0) →
          getCellH (NodeType.leaf a b c d) 0 0 x y
            = some (eval setLifeRules (ring8.rootNode.cellAt (x - 1) (y - 1))
                (ring8.rootNode.cellAt (x - 1) y) (ring8.rootNode.cellAt (x - 1) (y + 1))
                (ring8.rootNode.cellAt x (y - 1)) (ring8.rootNode.cellAt x y)
                (ring8.rootNode.cellAt x (y + 1)) (ring8.rootNode.cellAt (x + 1) (y - 1))
                (ring8.rootNode.cellAt (x + 1) y) (ring8.rootNode.cellAt (x + 1) (y + 1))) :=
  getNextState_level_one setLifeRules ring8.rootNode (by decide) (by decide)

/-- C17: for every well-formed node of level `L + 1`, `getCenter` returns a
well-formed node of level `L` that, both nodes centred at the origin, holds
the cell of `n` at every `(x, y)` with `-2^L <= x, y < 2^L`. -/
theorem getCenter_spec (n : NodeType) (w : n.WellFormed) (L : Nat) (hl : n.level = L + 1) :
    ∃ c, n.getCenter = some c ∧ c.WellFormed ∧ c.level = L
      ∧ ∀ x y : Int, -2 ^ L ≤ x → x < 2 ^ L → -2 ^ L ≤ y → y < 2 ^ L →
        getCellH c 0 0 x y = some (n.cellAt x y) ∧ getCellH n 0 0 x y = some (n.cellAt x y) := by
  have hag := n.agrees_cellAt w
  obtain ⟨c, hc, wc, lc, hca⟩ := NodeType.getCenter_holds L n 0 0 n.cellAt ⟨w, hl, hag⟩
  refine ⟨c, hc, wc, lc, fun x y h1 h2 h3 h4 => ⟨?_, ?_⟩⟩
  · exact hca x y (by rw [lc]; omega) (by rw [lc]; omega) (by rw [lc]; omega) (by rw [lc]; omega)
  · have hp : (2 : Int) ^ (L + 1) = 2 * 2 ^ L := by rw [pow_succ]; ring
    have hpos : (0 : Int) < 2 ^ L := by positivity
    exact hag x y (by rw [hl, hp]; omega) (by rw [hl, hp]; omega) (by rw [hl, hp]; omega)
      (by rw [hl, hp]; omega)

theorem getCenter_spec_witness :
    ∃ c, ring8.rootNode.getCenter = some c ∧ c.WellFormed ∧ c.level = 0
      ∧ ∀ x y : Int, -2 ^ 0 ≤ x → x < 2 ^ 0 → -2 ^ 0 ≤ y → y < 2 ^ 0 →
        getCellH c 0 0 x y = some (ring8.rootNode.cellAt x y)
          ∧ getCellH ring8.rootNode 0 0 x y = some (ring8.rootNode.cellAt x y) :=
  getCenter_spec ring8.rootNode (by decide) 0 (by decide)

namespace GameState

/-- C18: for every universe state with a well-formed root, `expandRoot`
raises the root level by exactly one, keeps `backgroundType` and leaves
`getCell` unchanged at every coordinate, so the cells of the added ring equal
`backgroundType`; for a level-0 root each of the four cells ends in the corner
of its new leaf that is nearest the origin. -/
theorem expandRoot_spec (gs : GameState) (w : gs.rootNode.WellFormed) :
    gs.expandRoot.rootNode.level = gs.rootNode.level + 1
      ∧ gs.expandRoot.rootNode.WellFormed
      ∧ gs.expandRoot.backgroundType = gs.backgroundType
      ∧ (∀ x y : Int, ∃ v, gs.getCell x y = some v ∧ gs.expandRoot.getCell x y = some v)
      ∧ (∀ x y : Int, isInNodeBounds gs.expandRoot.rootNode 0 0 x y = true →
          isInNodeBounds gs.rootNode 0 0 x y = false →
          getCellH gs.expandRoot.rootNode 0 0 x y = some gs.backgroundType)
      ∧ (∀ a b c d, gs.rootNode = NodeType.leaf a b c d →
          gs.expandRoot.rootNode = NodeType.nonleaf
            (NodeType.leaf gs.backgroundType gs.backgroundType gs.backgroundType a)
            (NodeType.leaf gs.backgroundType gs.backgroundType b gs.backgroundType)
            (NodeType.leaf gs.backgroundType c gs.backgroundType gs.backgroundType)
            (NodeType.leaf d gs.backgroundType gs.backgroundType gs.backgroundType)) := by
  have hd := denotes_toGrid gs w
  obtain ⟨⟨w1, h1⟩, hl⟩ := expandRoot_denotes hd
  refine ⟨hl, w1, expandRoot_backgroundType gs, fun x y => ⟨_, hd.2 x y, h1 x y⟩, ?_, ?_⟩
  · intro x y hin hout
    have e1 := h1 x y
    have e0 := hd.2 x y
    rw [getCell, hin] at e1
    rw [getCell, hout] at e0
    simp only [Bool.not_true, Bool.false_eq_true, if_false] at e1
    simp only [Bool.not_false, if_true, Option.some.injEq] at e0
    rw [e1, e0]
  · intro a b c d h
    unfold expandRoot
    rw [h]

theorem expandRoot_spec_witness :
    singleCell.expandRoot.rootNode.level = singleCell.rootNode.level + 1
      ∧ singleCell.expandRoot.rootNode.WellFormed
      ∧ singleCell.expandRoot.backgroundType = singleCell.backgroundType
      ∧ (∀ x y : Int, ∃ v, singleCell.getCell x y = some v
          ∧ singleCell.expandRoot.getCell x y = some v)
      ∧ (∀ x y : Int, isInNodeBounds singleCell.expandRoot.rootNode 0 0 x y = true →
          isInNodeBounds singleCell.rootNode 0 0 x y = false →
          getCellH singleCell.expandRoot.rootNode 0 0 x y = some singleCell.backgroundType)
      ∧ (∀ a b c d, singleCell.rootNode = NodeType.leaf a b c d →
          singleCell.expandRoot.rootNode = NodeType.nonleaf
            (NodeType.leaf singleCell.backgroundType singleCell.backgroundType
              singleCell.backgroundType a)
            (NodeType.leaf singleCell.backgroundType singleCell.backgroundType b
              singleCell.backgroundType)
            (NodeType.leaf singleCell.backgroundType c singleCell.backgroundType
              singleCell.backgroundType)
            (NodeType.leaf d singleCell.backgroundType singleCell.backgroundType
              singleCell.backgroundType)) :=
  expandRoot_spec singleCell trivial

theorem checkForContractRootFuel_contracts : ∀ (fuel : Nat) (gs gs1 : GameState),
    checkForContractRootFuel fuel gs = some gs1 → gs.Contracts gs1 := by
  intro fuel
  induction fuel with
  | zero =>
    intro gs gs1 h
    rw [checkForContractRootFuel] at h
    by_cases h2 : gs.rootNode.level < 2
    · rw [if_pos h2] at h
      cases h
      exact Contracts.stop gs (Or.inl h2)
    · rw [if_neg h2] at h
      cases h
  | succ fuel ih =>
    intro gs gs1 h
    rw [checkForContractRootFuel] at h
    by_cases h2 : gs.rootNode.level < 2
    · rw [if_pos h2] at h
      cases h
      exact Contracts.stop gs (Or.inl h2)
    · rw [if_neg h2] at h
      cases hr : gs.outerRingIsNull with
      | false =>
        rw [hr] at h
        simp only [Bool.not_false, if_true, Option.some.injEq] at h
        subst h
        exact Contracts.stop gs (Or.inr hr)
      | true =>
        rw [hr] at h
        simp only [Bool.not_true, Bool.false_eq_true, if_false] at h
        cases hc : gs.rootNode.getCenter with
        | none => rw [hc] at h; cases h
        | some c =>
          rw [hc] at h
          exact Contracts.step gs c gs1 (by omega) hr hc (ih _ _ h)

/-- C19: for every universe state with a well-formed root,
`checkForContractRoot` returns; it leaves `getCell` unchanged at every
coordinate and `backgroundType` unchanged, and the new root is reached by
replacing the root by its centre only while the level is at least 2 and all
twelve outer grandchildren are the all-background node of level
`level - 2`. -/
theorem checkForContractRoot_keeps (gs : GameState) (w : gs.rootNode.WellFormed) :
    ∃ gs1, gs.checkForContractRoot = some gs1
      ∧ (∀ x y : Int, ∃ v, gs.getCell x y = some v ∧ gs1.getCell x y = some v)
      ∧ gs1.backgroundType = gs.backgroundType ∧ gs.Contracts gs1 := by
  have hd := denotes_toGrid gs w
  obtain ⟨gs1, h1, hd1, hbg, -⟩ := checkForContractRoot_spec hd
  exact ⟨gs1, h1, fun x y => ⟨_, hd.2 x y, hd1.2 x y⟩, hbg,
    checkForContractRootFuel_contracts _ gs gs1 h1⟩

theorem checkForContractRoot_keeps_witness :
    ∃ gs1, singleCell.expandRoot.expandRoot.checkForContractRoot = some gs1
      ∧ (∀ x y : Int, ∃ v, singleCell.expandRoot.expandRoot.getCell x y = some v
          ∧ gs1.getCell x y = some v)
      ∧ gs1.backgroundType = singleCell.expandRoot.expandRoot.backgroundType
      ∧ singleCell.expandRoot.expandRoot.Contracts gs1 :=
  checkForContractRoot_keeps singleCell.expandRoot.expandRoot (by decide)

end GameState

/-! ## The universe, continued: background, exact steps, `onAllocate` -/

/-- C21. `getCell(x, y)` returns `backgroundType` at every coordinate outside
the root's bounds `[-2^level, 2^level)`, and a freshly constructed universe
returns its background value at every coordinate. -/
theorem GameState.getCell_background (gs : GameState) (b : CellType) (x y : Int) :
    (¬ (-2 ^ gs.rootNode.level ≤ x ∧ x < 2 ^ gs.rootNode.level
        ∧ -2 ^ gs.rootNode.level ≤ y ∧ y < 2 ^ gs.rootNode.level) →
      gs.getCell x y = some gs.backgroundType)
    ∧ (GameState.new b).getCell x y = some b := by
  constructor
  · intro h
    have hb : isInNodeBounds gs.rootNode 0 0 x y = false := by
      rw [← Bool.not_eq_true, isInNodeBounds_iff]
      intro hin
      exact h ⟨by omega, by omega, by omega, by omega⟩
    rw [GameState.getCell, hb]
    rfl
  · rw [GameState.getCell]
    by_cases hb : isInNodeBounds (GameState.new b).rootNode 0 0 x y = true
    · rw [hb]
      have h := (isInNodeBounds_iff _ _ _ _ _).1 hb
      have hl : (GameState.new b).rootNode.level = 0 := rfl
      rw [hl] at h
      simp only [pow_zero] at h
      show getCellH (NodeType.leaf b b b b) 0 0 x y = some b
      rw [getCellH]
      split_ifs <;> first | rfl | omega
    · rw [Bool.not_eq_true] at hb
      rw [hb]
      rfl

theorem GameState.getCell_background_witness :
    (¬ (-2 ^ blinker.rootNode.level ≤ (7 : Int) ∧ (7 : Int) < 2 ^ blinker.rootNode.level
        ∧ -2 ^ blinker.rootNode.level ≤ (0 : Int) ∧ (0 : Int) < 2 ^ blinker.rootNode.level))
    ∧ blinker.getCell 7 0 = some blinker.backgroundType
    ∧ (GameState.new 3).getCell 7 0 = some 3 :=
  ⟨by decide, (GameState.getCell_background blinker 3 7 0).1 (by decide),
    (GameState.getCell_background blinker 3 7 0).2⟩

/-- The rule B3/S23 written out. -/
theorem setLifeRules_eq :
    setLifeRules = ((clearRules.set 0 3 1).set 1 2 1).set 1 3 1 := by
  funext i j
  fin_cases i <;> fin_cases j <;> rfl

/-- The blinker under B3/S23: entered cell by cell it is `blinker`, `step(0)`
turns it into the cells `(1,-1), (1,0), (1,1)` and another `step(0)` turns it
back. -/
theorem blinker_steps :
    (GameState.new 0).setCells [(0, 0), (1, 0), (2, 0)] = some blinker
      ∧ (GameState.new 0).setCells [(1, -1), (1, 0), (1, 1)] = some blinkerTurned
      ∧ blinker.step setLifeRules 0 = some blinkerTurned
      ∧ blinkerTurned.step setLifeRules 0 = some blinker := by
  refine ⟨by decide, by decide, ?_, ?_⟩
  · rw [setLifeRules_eq]
    exact @GameState.step_eq_of_stages _ blinker blinker.expandRoot.expandRoot blinkerTurned 0
      (getNullNode 3 0) blinkerTurned.expandRoot.expandRoot.rootNode 0
      (by decide) (by decide) (by decide) (by decide) (by decide)
  · rw [setLifeRules_eq]
    exact @GameState.step_eq_of_stages _ blinkerTurned blinkerTurned.expandRoot.expandRoot
      blinker 0 (getNullNode 2 0) blinker.rootNode 0
      (by decide) (by decide) (by decide) (by decide) (by decide)

/-- The block under B3/S23: `step(0)` leaves it unchanged. -/
theorem block_step :
    (GameState.new 0).setCells [(0, 0), (1, 0), (0, 1), (1, 1)] = some block
      ∧ block.step setLifeRules 0 = some block := by
  refine ⟨by decide, ?_⟩
  rw [setLifeRules_eq]
  exact @GameState.step_eq_of_stages _ block block.expandRoot.expandRoot block 0
    (getNullNode 2 0) block.expandRoot.rootNode 0
    (by decide) (by decide) (by decide) (by decide) (by decide)

namespace Heap

/-- C23. In sequential execution on a store that satisfies the invariant,
`onAllocate` leaves the store as it is when `nodeCount ≤ startGCNodeCount`
and runs one collection otherwise; it stops at the out-of-memory exit exactly
when `nodeCount` is still greater than `maxNodeCount` after that collection;
and whenever it returns, `nodeCount ≤ maxNodeCount`. -/
theorem onAllocate_spec (cfg : Config) (s : NodeGCHashTable) (hinv : Inv cfg s) :
    cfg.startGCNodeCount = 6 * cfg.maxNodeCount / 7
    ∧ (s.nodeCount ≤ cfg.startGCNodeCount → onAllocate cfg s = .ok s)
    ∧ (cfg.startGCNodeCount < s.nodeCount → ∃ s1, gc cfg s = .ok s1
        ∧ (cfg.maxNodeCount < s1.nodeCount → onAllocate cfg s = .error .outOfMemory)
        ∧ (s1.nodeCount ≤ cfg.maxNodeCount → onAllocate cfg s = .ok s1))
    ∧ (onAllocate cfg s = .error .outOfMemory ↔
        cfg.startGCNodeCount < s.nodeCount
          ∧ ∃ s1, gc cfg s = .ok s1 ∧ cfg.maxNodeCount < s1.nodeCount)
    ∧ ∀ s1, onAllocate cfg s = .ok s1 → s1.nodeCount ≤ cfg.maxNodeCount := by
  obtain ⟨g, hg, -, -⟩ := gc_shrinks hinv
  have hstart : cfg.startGCNodeCount ≤ cfg.maxNodeCount := by
    unfold Config.startGCNodeCount
    omega
  refine ⟨rfl, ?_, ?_, ?_, ?_⟩
  · intro h
    unfold onAllocate
    rw [if_neg (by omega)]
  · intro h
    refine ⟨g, hg, ?_, ?_⟩
    · intro h1
      unfold onAllocate
      rw [if_pos h]
      simp only [hg, gt_iff_lt, h1, if_true]
    · intro h1
      unfold onAllocate
      rw [if_pos h]
      simp only [hg, gt_iff_lt, if_neg (show ¬ cfg.maxNodeCount < g.nodeCount by omega)]
  · unfold onAllocate
    by_cases h : s.nodeCount > cfg.startGCNodeCount
    · rw [if_pos h]
      simp only [hg]
      by_cases h1 : g.nodeCount > cfg.maxNodeCount
      · simp only [h1, if_true, true_iff]
        exact ⟨h, g, rfl, h1⟩
      · simp only [h1, if_false]
        constructor
        · intro e
          cases e
        · rintro ⟨-, s1, e, h2⟩
          cases e
          exact absurd h2 h1
    · rw [if_neg h]
      constructor
      · intro e
        cases e
      · rintro ⟨h1, -⟩
        exact absurd h1 h
  · intro s1 e
    unfold onAllocate at e
    by_cases h : s.nodeCount > cfg.startGCNodeCount
    · rw [if_pos h] at e
      simp only [hg] at e
      by_cases h1 : g.nodeCount > cfg.maxNodeCount
      · simp only [h1, if_true] at e
        cases e
      · simp only [h1, if_false, Except.ok.injEq] at e
        subst e
        omega
    · rw [if_neg h] at e
      cases e
      omega

theorem onAllocate_spec_witness :
    Inv exampleConfig exampleStore3
    ∧ exampleConfig.startGCNodeCount = 6 * exampleConfig.maxNodeCount / 7
    ∧ (exampleStore3.nodeCount ≤ exampleConfig.startGCNodeCount →
        onAllocate exampleConfig exampleStore3 = .ok exampleStore3)
    ∧ (exampleConfig.startGCNodeCount < exampleStore3.nodeCount →
        ∃ s1, gc exampleConfig exampleStore3 = .ok s1
        ∧ (exampleConfig.maxNodeCount < s1.nodeCount →
            onAllocate exampleConfig exampleStore3 = .error .outOfMemory)
        ∧ (s1.nodeCount ≤ exampleConfig.maxNodeCount →
            onAllocate exampleConfig exampleStore3 = .ok s1))
    ∧ (onAllocate exampleConfig exampleStore3 = .error .outOfMemory ↔
        exampleConfig.startGCNodeCount < exampleStore3.nodeCount
          ∧ ∃ s1, gc exampleConfig exampleStore3 = .ok s1
            ∧ exampleConfig.maxNodeCount < s1.nodeCount)
    ∧ ∀ s1, onAllocate exampleConfig exampleStore3 = .ok s1 →
        s1.nodeCount ≤ exampleConfig.maxNodeCount :=
  ⟨exampleStore3_reachable.inv exampleConfig_valid,
    onAllocate_spec exampleConfig exampleStore3 (exampleStore3_reachable.inv exampleConfig_valid)⟩

end Heap

/-! ## The fallback `BigFloat` -/

theorem wrapInt_of_range {v : Int} (h1 : -2 ^ 31 ≤ v) (h2 : v < 2 ^ 31) : wrapInt 32 v = v := by
  unfold wrapInt
  norm_num at h1 h2 ⊢
  omega

namespace BigFloat

theorem normalizeLoop_spec : ∀ (k fuel : Nat) (m e : Int), k ≤ fuel → m ≠ 0 → m % 2 = 0 →
    m.natAbs ≤ 2 ^ k → -2 ^ 31 ≤ e → e + k < 2 ^ 31 →
    ∃ (j : Nat) (m1 : Int), 1 ≤ j ∧ j ≤ k ∧ normalizeLoop fuel m e = some (m1, e + j)
      ∧ m1 % 2 = 1 ∧ m = m1 * 2 ^ j := by
  intro k
  induction k with
  | zero =>
    intro fuel m e _ h0 h2 h
    simp only [pow_zero] at h
    omega
  | succ k ih =>
    intro fuel m e hf h0 h2 h he1 he2
    obtain ⟨fuel, rfl⟩ : ∃ f, fuel = f + 1 := ⟨fuel - 1, by omega⟩
    have hw : wrapInt 32 (e + 1) = e + 1 := wrapInt_of_range (by omega) (by push_cast at he2; omega)
    rw [normalizeLoop, hw]
    have hm : m = m / 2 * 2 := by omega
    by_cases hev : (m / 2) % 2 = 0
    · rw [if_pos hev]
      have hk : (m / 2).natAbs ≤ 2 ^ k := by
        have : (2 : Nat) ^ (k + 1) = 2 * 2 ^ k := by rw [pow_succ]; ring
        omega
      obtain ⟨j, m1, hj1, hj2, e1, ho, hm1⟩ := ih fuel (m / 2) (e + 1) (by omega) (by omega) hev hk
        (by omega) (by push_cast at he2 ⊢; omega)
      refine ⟨j + 1, m1, by omega, by omega, ?_, ho, ?_⟩
      · rw [e1]
        congr 2
        push_cast
        ring
      · rw [hm, hm1, pow_succ]
        ring
    · rw [if_neg hev]
      refine ⟨1, m / 2, le_refl _, by omega, ?_, by omega, ?_⟩
      · simp
      · rw [pow_one]
        exact hm

theorem toRat_mk (m e : Int) : toRat ⟨m, e⟩ = m * 2 ^ e := rfl

/-- What the constructor stores, as long as the exponent does not overflow. -/
theorem new_value {m e : Int} (hm1 : -2 ^ 31 ≤ m) (hm2 : m < 2 ^ 31) (he1 : -2 ^ 31 ≤ e)
    (he2 : e ≤ 2 ^ 31 - 32) :
    ∃ x, new m e = some x ∧ x.Normalized ∧ x.toRat = m * 2 ^ e := by
  unfold new normalize
  by_cases h0 : m = 0
  · subst h0
    simp only [ne_eq, not_true_eq_false, false_and, if_false, if_true]
    refine ⟨_, rfl, Or.inr ⟨rfl, rfl⟩, ?_⟩
    simp [toRat]
  by_cases h2 : m % 2 = 0
  · simp only [ne_eq, h0, not_false_eq_true, h2, and_self, if_true]
    have hab : m.natAbs ≤ 2 ^ 31 := by
      have e31 : (2 : Int) ^ 31 = 2147483648 := by norm_num
      have n31 : (2 : Nat) ^ 31 = 2147483648 := by norm_num
      rw [e31] at hm1 hm2
      rw [n31]
      omega
    have hee : e + (31 : Nat) < 2 ^ 31 := by
      have e31 : (2 : Int) ^ 31 = 2147483648 := by norm_num
      rw [e31] at he2 ⊢
      push_cast
      omega
    obtain ⟨j, m1, hj1, hj2, e1, ho, hm⟩ := normalizeLoop_spec 31 32 m e (by decide) h0 h2
      hab he1 hee
    rw [e1]
    refine ⟨_, rfl, Or.inl ho, ?_⟩
    rw [toRat_mk, hm]
    push_cast
    rw [zpow_add₀ (by norm_num : (2 : ℚ) ≠ 0), zpow_natCast]
    ring
  · simp only [ne_eq, h0, not_false_eq_true, h2, and_false, if_false]
    exact ⟨_, rfl, Or.inl (show m % 2 = 1 by omega), rfl⟩

/-- Two normalized representations of one number are the same. -/
theorem toRat_inj {x y : BigFloat} (hx : x.Normalized) (hy : y.Normalized)
    (h : x.toRat = y.toRat) : x = y := by
  have key : ∀ {x y : BigFloat}, x.mantissa % 2 = 1 → y.mantissa % 2 = 1 →
      x.exponent ≤ y.exponent → x.toRat = y.toRat → x = y := by
    intro x y ox oy hle h
    obtain ⟨n, hn⟩ : ∃ n : Nat, y.exponent = x.exponent + n :=
      ⟨(y.exponent - x.exponent).toNat, by omega⟩
    unfold toRat at h
    rw [hn, zpow_add₀ (by norm_num : (2 : ℚ) ≠ 0), zpow_natCast] at h
    have h2 : (2 : ℚ) ^ x.exponent ≠ 0 := zpow_ne_zero _ (by norm_num)
    have h3 : (x.mantissa : ℚ) = y.mantissa * 2 ^ n := by
      have : (x.mantissa : ℚ) * 2 ^ x.exponent = (y.mantissa * 2 ^ n) * 2 ^ x.exponent := by
        rw [h]; ring
      exact mul_right_cancel₀ h2 this
    have h4 : x.mantissa = y.mantissa * 2 ^ n := by exact_mod_cast h3
    have hn0 : n = 0 := by
      by_contra hne
      obtain ⟨k, rfl⟩ : ∃ k, n = k + 1 := ⟨n - 1, by omega⟩
      rw [pow_succ] at h4
      have : x.mantissa = (y.mantissa * 2 ^ k) * 2 := by rw [h4]; ring
      omega
    subst hn0
    simp only [pow_zero, mul_one, Nat.cast_zero, add_zero] at h4 hn
    cases x
    cases y
    simp only at h4 hn
    rw [h4, hn]
  have zero : ∀ {x y : BigFloat}, x.mantissa = 0 → x.toRat = y.toRat → y.mantissa = 0 := by
    intro x y h0 h
    unfold toRat at h
    rw [h0] at h
    simp only [Int.cast_zero, zero_mul] at h
    have h2 : (2 : ℚ) ^ y.exponent ≠ 0 := zpow_ne_zero _ (by norm_num)
    have := (mul_eq_zero.1 h.symm).resolve_right h2
    exact_mod_cast this
  rcases hx with ox | ⟨zx, ex⟩
  · rcases hy with oy | ⟨zy, ey⟩
    · rcases le_total x.exponent y.exponent with hle | hle
      · exact key ox oy hle h
      · exact (key oy ox hle h.symm).symm
    · have := zero zy h.symm
      omega
  · have zy := zero zx h
    rcases hy with oy | ⟨-, ey⟩
    · omega
    · cases x
      cases y
      simp only at zx ex zy ey
      rw [zx, ex, zy, ey]

theorem eq_iff (x y : BigFloat) : eq x y = true ↔ x = y := by
  cases x
  cases y
  simp [eq]

end BigFloat

namespace BigFloat

theorem zpow_neg_ne {a b : Int} (ha : a < 0) (hb : 0 ≤ b) : (1 : ℚ) * 2 ^ a ≠ 2 * 2 ^ b := by
  have h1 : (2 : ℚ) ^ a ≤ 1 := zpow_le_one_of_nonpos₀ (by norm_num) (le_of_lt ha)
  have h2 : (1 : ℚ) ≤ 2 ^ b := one_le_zpow₀ (by norm_num) hb
  intro h
  linarith

/-- C26 (counterexample). The constructor on the mantissa 2 and the exponent
`INT_MAX`: the `exponent++` of `normalize` wraps, and the stored value
`1 * 2 ^ INT_MIN` is not `2 * 2 ^ INT_MAX`. -/
theorem new_exponent_wraps :
    new 2 2147483647 = some ⟨1, -2147483648⟩
      ∧ (⟨1, -2147483648⟩ : BigFloat).toRat ≠ 2 * 2 ^ (2147483647 : ℤ) := by
  refine ⟨by decide, ?_⟩
  rw [toRat_mk]
  exact zpow_neg_ne (by norm_num) (by norm_num)

/-- C26 (amended). For all 32-bit mantissas `m`, `m1` and all exponents `e`,
`e1` of type `int` that are at most `INT_MAX - 31`, the constructor stores
`BigFloat(m, e)` normalized (the mantissa is odd, or it is 0 with exponent 0),
the stored value is `m * 2 ^ e`, and `operator ==` holds for the two
constructed values exactly when `m * 2 ^ e = m1 * 2 ^ e1`. -/
theorem new_spec (m e m1 e1 : Int) (hm : -2 ^ 31 ≤ m ∧ m < 2 ^ 31)
    (he : -2 ^ 31 ≤ e ∧ e ≤ 2 ^ 31 - 32) (hm1 : -2 ^ 31 ≤ m1 ∧ m1 < 2 ^ 31)
    (he1 : -2 ^ 31 ≤ e1 ∧ e1 ≤ 2 ^ 31 - 32) :
    ∃ x y, new m e = some x ∧ new m1 e1 = some y ∧ x.Normalized ∧ x.toRat = m * 2 ^ e
      ∧ (eq x y = true ↔ (m : ℚ) * 2 ^ e = m1 * 2 ^ e1) := by
  obtain ⟨x, ex, nx, vx⟩ := new_value hm.1 hm.2 he.1 he.2
  obtain ⟨y, ey, ny, vy⟩ := new_value hm1.1 hm1.2 he1.1 he1.2
  refine ⟨x, y, ex, ey, nx, vx, ?_⟩
  rw [eq_iff, ← vx, ← vy]
  exact ⟨fun h => by rw [h], toRat_inj nx ny⟩

theorem new_spec_witness :
    ((-2 : Int) ^ 31 ≤ 12 ∧ (12 : Int) < 2 ^ 31) ∧ ((-2 : Int) ^ 31 ≤ 3 ∧ (3 : Int) ≤ 2 ^ 31 - 32)
    ∧ ∃ x y, new 12 3 = some x ∧ new 3 5 = some y ∧ x.Normalized
      ∧ x.toRat = (12 : Int) * 2 ^ (3 : Int)
      ∧ (eq x y = true ↔ ((12 : Int) : ℚ) * 2 ^ (3 : Int) = (3 : Int) * 2 ^ (5 : Int)) :=
  ⟨by decide, by decide, new_spec 12 3 3 5 (by decide) (by decide) (by decide) (by decide)⟩

set_option maxRecDepth 20000 in
/-- C28 (the code at the failing inputs). `BigFloat(9, 0) / BigFloat(3, 0)`:
the quotient 3 is representable, but the division divides by `a.mantissa` and
the result is `1 * 2 ^ 0`; and `BigFloat(0, 0) / BigFloat(1, 0)`, with a
non-zero divisor, divides by zero. -/
theorem div_by_dividend :
    div ⟨9, 0⟩ ⟨3, 0⟩ = some ⟨1, 0⟩
      ∧ (⟨9, 0⟩ : BigFloat).toRat / (⟨3, 0⟩ : BigFloat).toRat = (⟨3, 0⟩ : BigFloat).toRat
      ∧ (⟨1, 0⟩ : BigFloat).toRat ≠ (⟨3, 0⟩ : BigFloat).toRat
      ∧ div ⟨0, 0⟩ ⟨1, 0⟩ = none ∧ (⟨1, 0⟩ : BigFloat).mantissa ≠ 0 := by
  refine ⟨by decide, ?_, ?_, by decide, by decide⟩
  · simp only [toRat_mk]
    norm_num
  · simp only [toRat_mk]
    norm_num

end BigFloat
/-! ## The engine on the store: interning, handles and the next state -/

namespace NodeType

/-- The full step returns on every well-formed node of level `L + 1`, with a
well-formed result of level `L`. -/
theorem getNextState_level (rules : RuleTable) {t : NodeType} (w : t.WellFormed) {L : Nat}
    (hl : t.level = L + 1) :
    ∃ r, t.getNextState rules = some r ∧ r.WellFormed ∧ r.level = L := by
  obtain ⟨r, hr, wr, lr, -⟩ := getNextStateFuel_holds rules L t 0 0 t.cellAt ⟨w, hl, t.agrees_cellAt w⟩
  exact ⟨r, by rw [getNextState, hl]; exact hr, wr, lr⟩

/-- The step of `2 ^ k` generations returns on every well-formed node of level
`L + 1` with `k ≤ L`, with a well-formed result of level `L`. -/
theorem getNextStateStep_level (rules : RuleTable) {t : NodeType} (w : t.WellFormed) {L : Nat}
    (hl : t.level = L + 1) {k : Nat} (hk : k ≤ L) :
    ∃ r, t.getNextStateStep rules k = some r ∧ r.WellFormed ∧ r.level = L := by
  obtain ⟨r, hr, wr, lr, -⟩ :=
    getNextStateStepFuel_holds rules L t 0 0 t.cellAt k ⟨w, hl, t.agrees_cellAt w⟩ hk
  exact ⟨r, by rw [getNextStateStep, hl]; exact hr, wr, lr⟩

/-- The step with `logStepSize = level - 1` is the full step. -/
theorem getNextStateStep_top (rules : RuleTable) {t : NodeType} {k : Nat} (h : t.level = k + 1) :
    t.getNextStateStep rules k = t.getNextState rules := by
  rw [getNextStateStep, h]
  exact getNextStateStepFuel_top rules k h

/-- The full step on a node of level at least 2, from the results of the
thirteen recursive calls. -/
theorem getNextState_of_parts (rules : RuleTable)
    {a0 a1 a2 a3 b0 b1 b2 b3 c0 c1 c2 c3 d0 d1 d2 d3 x1 x2 x3 x4 x5 x6 x7 x8 x9 y1 y2 y3 y4 :
      NodeType} {L : Nat} (la : a0.level = L) (lx : x1.level = L)
    (e1 : (nonleaf a0 a1 a2 a3).getNextState rules = some x1)
    (e2 : (nonleaf b0 b1 b2 b3).getNextState rules = some x2)
    (e3 : (nonleaf c0 c1 c2 c3).getNextState rules = some x3)
    (e4 : (nonleaf d0 d1 d2 d3).getNextState rules = some x4)
    (e5 : (nonleaf a1 b0 a3 b2).getNextState rules = some x5) (l5 : a1.level = L)
    (e6 : (nonleaf c1 d0 c3 d2).getNextState rules = some x6) (l6 : c1.level = L)
    (e7 : (nonleaf a2 a3 c0 c1).getNextState rules = some x7) (l7 : a2.level = L)
    (e8 : (nonleaf b2 b3 d0 d1).getNextState rules = some x8) (l8 : b2.level = L)
    (e9 : (nonleaf a3 b2 c1 d0).getNextState rules = some x9) (l9 : a3.level = L)
    (lb : b0.level = L) (lc : c0.level = L) (ld : d0.level = L)
    (f1 : (nonleaf x1 x5 x7 x9).getNextState rules = some y1)
    (f2 : (nonleaf x5 x2 x9 x8).getNextState rules = some y2) (m5 : x5.level = L)
    (f3 : (nonleaf x7 x9 x3 x6).getNextState rules = some y3) (m7 : x7.level = L)
    (f4 : (nonleaf x9 x8 x6 x4).getNextState rules = some y4) (m9 : x9.level = L) :
    (nonleaf (nonleaf a0 a1 a2 a3) (nonleaf b0 b1 b2 b3) (nonleaf c0 c1 c2 c3)
        (nonleaf d0 d1 d2 d3)).getNextState rules = some (nonleaf y1 y2 y3 y4) := by
  have lv : ∀ (u0 u1 u2 u3 : NodeType), u0.level = L → (nonleaf u0 u1 u2 u3).level = L + 1 := by
    intro u0 u1 u2 u3 h
    rw [level_nonleaf, h, Nat.add_comm]
  have cv : ∀ (u0 u1 u2 u3 v : NodeType), u0.level = L →
      (nonleaf u0 u1 u2 u3).getNextState rules = some v →
      getNextStateFuel rules (L + 1) (nonleaf u0 u1 u2 u3) = some v := by
    intro u0 u1 u2 u3 v h e
    rw [getNextState, lv _ _ _ _ h] at e
    exact e
  have ht : (nonleaf (nonleaf a0 a1 a2 a3) (nonleaf b0 b1 b2 b3) (nonleaf c0 c1 c2 c3)
      (nonleaf d0 d1 d2 d3)).level = (L + 1) + 1 := by rw [level_nonleaf, lv _ _ _ _ la, Nat.add_comm]
  rw [getNextState, ht, getNextStateFuel]
  simp only [cv _ _ _ _ _ la e1, cv _ _ _ _ _ lb e2, cv _ _ _ _ _ lc e3, cv _ _ _ _ _ ld e4,
    cv _ _ _ _ _ l5 e5, cv _ _ _ _ _ l6 e6, cv _ _ _ _ _ l7 e7, cv _ _ _ _ _ l8 e8,
    cv _ _ _ _ _ l9 e9, cv _ _ _ _ _ lx f1, cv _ _ _ _ _ m5 f2, cv _ _ _ _ _ m7 f3,
    cv _ _ _ _ _ m9 f4]

/-- The step of `2 ^ k` generations on a node of level `L + 2` with `k ≤ L`,
from the results of the nine recursive calls and the four centres. -/
theorem getNextStateStep_of_parts (rules : RuleTable)
    {a0 a1 a2 a3 b0 b1 b2 b3 c0 c1 c2 c3 d0 d1 d2 d3 x1 x2 x3 x4 x5 x6 x7 x8 x9 y1 y2 y3 y4 :
      NodeType} {L k : Nat} (hk : k ≤ L) (la : a0.level = L)
    (e1 : (nonleaf a0 a1 a2 a3).getNextStateStep rules k = some x1)
    (e2 : (nonleaf b0 b1 b2 b3).getNextStateStep rules k = some x2)
    (e3 : (nonleaf c0 c1 c2 c3).getNextStateStep rules k = some x3)
    (e4 : (nonleaf d0 d1 d2 d3).getNextStateStep rules k = some x4)
    (e5 : (nonleaf a1 b0 a3 b2).getNextStateStep rules k = some x5) (l5 : a1.level = L)
    (e6 : (nonleaf c1 d0 c3 d2).getNextStateStep rules k = some x6) (l6 : c1.level = L)
    (e7 : (nonleaf a2 a3 c0 c1).getNextStateStep rules k = some x7) (l7 : a2.level = L)
    (e8 : (nonleaf b2 b3 d0 d1).getNextStateStep rules k = some x8) (l8 : b2.level = L)
    (e9 : (nonleaf a3 b2 c1 d0).getNextStateStep rules k = some x9) (l9 : a3.level = L)
    (lb : b0.level = L) (lc : c0.level = L) (ld : d0.level = L)
    (f1 : (nonleaf x1 x5 x7 x9).getCenter = some y1)
    (f2 : (nonleaf x5 x2 x9 x8).getCenter = some y2)
    (f3 : (nonleaf x7 x9 x3 x6).getCenter = some y3)
    (f4 : (nonleaf x9 x8 x6 x4).getCenter = some y4) :
    (nonleaf (nonleaf a0 a1 a2 a3) (nonleaf b0 b1 b2 b3) (nonleaf c0 c1 c2 c3)
        (nonleaf d0 d1 d2 d3)).getNextStateStep rules k = some (nonleaf y1 y2 y3 y4) := by
  have lv : ∀ (u0 u1 u2 u3 : NodeType), u0.level = L → (nonleaf u0 u1 u2 u3).level = L + 1 := by
    intro u0 u1 u2 u3 h
    rw [level_nonleaf, h, Nat.add_comm]
  have cv : ∀ (u0 u1 u2 u3 v : NodeType), u0.level = L →
      (nonleaf u0 u1 u2 u3).getNextStateStep rules k = some v →
      getNextStateStepFuel rules (L + 1) (nonleaf u0 u1 u2 u3) k = some v := by
    intro u0 u1 u2 u3 v h e
    rw [getNextStateStep, lv _ _ _ _ h] at e
    exact e
  have ht : (nonleaf (nonleaf a0 a1 a2 a3) (nonleaf b0 b1 b2 b3) (nonleaf c0 c1 c2 c3)
      (nonleaf d0 d1 d2 d3)).level = (L + 1) + 1 := by
    rw [level_nonleaf, lv _ _ _ _ la, Nat.add_comm]
  rw [getNextStateStep, ht, getNextStateStepFuel, ht, if_neg (by omega), if_neg (by omega)]
  simp only [cv _ _ _ _ _ la e1, cv _ _ _ _ _ lb e2, cv _ _ _ _ _ lc e3, cv _ _ _ _ _ ld e4,
    cv _ _ _ _ _ l5 e5, cv _ _ _ _ _ l6 e6, cv _ _ _ _ _ l7 e7, cv _ _ _ _ _ l8 e8,
    cv _ _ _ _ _ l9 e9, f1, f2, f3, f4]

/-- A well-formed node of level `L + 2` has sixteen grandchildren of level
`L`. -/
theorem wellFormed_split_twice {n : NodeType} {L : Nat} (w : n.WellFormed)
    (h : n.level = L + 2) :
    ∃ a0 a1 a2 a3 b0 b1 b2 b3 c0 c1 c2 c3 d0 d1 d2 d3,
      n = nonleaf (nonleaf a0 a1 a2 a3) (nonleaf b0 b1 b2 b3) (nonleaf c0 c1 c2 c3)
        (nonleaf d0 d1 d2 d3)
      ∧ ∀ u, u ∈ [a0, a1, a2, a3, b0, b1, b2, b3, c0, c1, c2, c3, d0, d1, d2, d3] →
        u.level = L := by
  obtain ⟨ta, tb, tc, td, rfl, wa, wb, wc, wd, la, lb, lc, ld⟩ := wellFormed_split w h
  obtain ⟨a0, a1, a2, a3, rfl, -, -, -, -, ha0, ha1, ha2, ha3⟩ := wellFormed_split wa la
  obtain ⟨b0, b1, b2, b3, rfl, -, -, -, -, hb0, hb1, hb2, hb3⟩ := wellFormed_split wb lb
  obtain ⟨c0, c1, c2, c3, rfl, -, -, -, -, hc0, hc1, hc2, hc3⟩ := wellFormed_split wc lc
  obtain ⟨d0, d1, d2, d3, rfl, -, -, -, -, hd0, hd1, hd2, hd3⟩ := wellFormed_split wd ld
  refine ⟨a0, a1, a2, a3, b0, b1, b2, b3, c0, c1, c2, c3, d0, d1, d2, d3, rfl, ?_⟩
  intro u hu
  simp only [List.mem_cons, List.mem_singleton, List.not_mem_nil, or_false] at hu
  rcases hu with rfl | rfl | rfl | rfl | rfl | rfl | rfl | rfl | rfl | rfl | rfl | rfl | rfl
    | rfl | rfl | rfl <;> assumption

/-- The centre of a well-formed node of level `L + 1` is a node of level
`L`. -/
theorem getCenter_level {n : NodeType} {L : Nat} (w : n.WellFormed) (h : n.level = L + 1) :
    ∃ c, n.getCenter = some c ∧ c.level = L := by
  obtain ⟨ta, tb, tc, td, rfl, wa, wb, wc, wd, la, lb, lc, ld⟩ := wellFormed_split w h
  cases L with
  | zero =>
    obtain ⟨a0, a1, a2, a3, rfl⟩ := eq_leaf_of_level_zero la
    obtain ⟨b0, b1, b2, b3, rfl⟩ := eq_leaf_of_level_zero lb
    obtain ⟨c0, c1, c2, c3, rfl⟩ := eq_leaf_of_level_zero lc
    obtain ⟨d0, d1, d2, d3, rfl⟩ := eq_leaf_of_level_zero ld
    exact ⟨_, rfl, rfl⟩
  | succ L =>
    obtain ⟨a0, a1, a2, a3, rfl, -, -, -, -, ha0, ha1, ha2, ha3⟩ := wellFormed_split wa la
    obtain ⟨b0, b1, b2, b3, rfl, -, -, -, -, hb0, hb1, hb2, hb3⟩ := wellFormed_split wb lb
    obtain ⟨c0, c1, c2, c3, rfl, -, -, -, -, hc0, hc1, hc2, hc3⟩ := wellFormed_split wc lc
    obtain ⟨d0, d1, d2, d3, rfl, -, -, -, -, hd0, hd1, hd2, hd3⟩ := wellFormed_split wd ld
    exact ⟨_, rfl, by rw [level_nonleaf, ha3, Nat.add_comm]⟩

/-- There is a quadtree of every level. -/
theorem exists_level (L : Nat) : ∃ t : NodeType, t.level = L :=
  ⟨getNullNode L 0, getNullNode_level L 0⟩

end NodeType

namespace Heap

/-- The leaf interning call does not stop at a reference count when no leaf
has the largest count. -/
theorem findOrInsertLeaf_no_wrap {cfg : Config} {s : NodeGCHashTable} (hinv : Inv cfg s)
    (c0 c1 c2 c3 : CellType)
    (hsmall : ∀ a n, s.memory a = some n → n.level = 0 → n.refcount + 1 < 256) :
    findOrInsertLeaf cfg c0 c1 c2 c3 s ≠ .error .refcountWrap := by
  unfold findOrInsertLeaf
  rcases onAllocate_ok hinv with ⟨s1, h1, hinv1, hsh⟩ | herr
  swap
  · simp only [herr]
    intro h
    cases h
  simp only [h1]
  cases hf : (s1.table (hashNodeLeaf cfg c0 c1 c2 c3 % cfg.hashPrime)).find?
      (isLeafWith s1.memory c0 c1 c2 c3) with
  | some node =>
    simp only []
    obtain ⟨n, hn, hl, -⟩ := (isLeafWith_iff _ _ _ _ _ _).1 (List.find?_some hf)
    obtain ⟨n0, hn0, hs, hrc, -⟩ := hsh.old node n hn
    have hlt : n.refcount + 1 < 256 := by
      rw [hrc]
      exact hsmall node n0 hn0 (by rw [← hs.1]; exact hl)
    unfold moveToFront incRefCount
    simp only [hn, hlt, if_true]
    intro h
    cases h
  | none =>
    simp only []
    unfold insertNew incRefCount
    simp only [Memory.set_same, Node.leaf, Nat.zero_add, Nat.one_lt_ofNat, if_true]
    intro h
    cases h

/-- The non-leaf interning call does not stop at a reference count when no
node has the largest count. -/
theorem findOrInsertNonleaf_no_wrap {cfg : Config} {s : NodeGCHashTable} (hinv : Inv cfg s)
    (c0 c1 c2 c3 : Addr)
    (hsmall : ∀ a n, s.memory a = some n → 0 < n.level → n.nxny = c0 → n.refcount + 1 < 256) :
    findOrInsertNonleaf cfg c0 c1 c2 c3 s ≠ .error .refcountWrap := by
  unfold findOrInsertNonleaf
  rcases onAllocate_ok hinv with ⟨s1, h1, hinv1, hsh⟩ | herr
  swap
  · simp only [herr]
    intro h
    cases h
  simp only [h1]
  cases hf : (s1.table (hashNodeNonleaf cfg c0 c1 c2 c3 % cfg.hashPrime)).find?
      (isNonleafWith s1.memory c0 c1 c2 c3) with
  | some node =>
    simp only []
    obtain ⟨n, hn, hl, e0, -⟩ := (isNonleafWith_iff _ _ _ _ _ _).1 (List.find?_some hf)
    obtain ⟨n0, hn0, hs, hrc, -⟩ := hsh.old node n hn
    have hlt : n.refcount + 1 < 256 := by
      rw [hrc]
      exact hsmall node n0 hn0 (by rw [← hs.1]; exact hl) (by rw [← hs.2.1]; exact e0)
    unfold moveToFront incRefCount
    simp only [hn, hlt, if_true]
    intro h
    cases h
  | none =>
    simp only []
    cases hc : s1.memory c0 with
    | none =>
      simp only []
      intro h
      cases h
    | some child =>
      simp only []
      unfold insertNew incRefCount
      simp only [Memory.set_same, Node.nonleaf, Nat.zero_add, Nat.one_lt_ofNat, if_true]
      intro h
      cases h

end Heap

section EngineInvariant
open Heap (M ret fail bindM incRef decRef decRefOpt readNode Ok Repr ShapeLe held St Addr Node Memory
  NodeGCHashTable Config Failure Inv Shrinks Interned incRefCount decRefCount)

theorem Heap.Ok.bind {α β : Type} {x : M α} {f : α → M β} {s : NodeGCHashTable}
    {Q : α → NodeGCHashTable → Prop} {R : β → NodeGCHashTable → Prop} (hx : Ok Q (x s))
    (hf : ∀ a s1, Q a s1 → Ok R (f a s1)) : Ok R (bindM x f s) := by
  unfold bindM
  cases h : x s with
  | error e => rw [h] at hx; exact hx
  | ok p =>
    obtain ⟨a, s1⟩ := p
    rw [h] at hx
    exact hf a s1 hx

theorem Heap.Ok.mono {α : Type} {r : Except Failure (α × NodeGCHashTable)}
    {Q R : α → NodeGCHashTable → Prop} (h : Ok Q r) (hqr : ∀ a s, Q a s → R a s) : Ok R r := by
  cases r with
  | error e => exact h
  | ok p => exact hqr p.1 p.2 h

theorem Heap.Ok.ret {α : Type} {a : α} {s : NodeGCHashTable} {Q : α → NodeGCHashTable → Prop}
    (h : Q a s) : Ok Q (ret a s) := h

theorem Heap.Repr.node {m : Memory} {a : Addr} {t : NodeType} (h : Repr m a t) :
    ∃ n, m a = some n ∧ n.level = t.level := by
  cases t with
  | leaf c0 c1 c2 c3 =>
    obtain ⟨n, hn, hl, _⟩ := h
    exact ⟨n, hn, hl⟩
  | nonleaf t0 t1 t2 t3 =>
    obtain ⟨n, hn, hl, _⟩ := h
    exact ⟨n, hn, by rw [hl, NodeType.level]; omega⟩

theorem Heap.Repr.grow {m m1 : Memory} (hle : ShapeLe m m1) : ∀ {t : NodeType} {a : Addr},
    Repr m a t → Repr m1 a t := by
  intro t
  induction t with
  | leaf c0 c1 c2 c3 =>
    intro a h
    obtain ⟨n, hn, hl, e0, e1, e2, e3⟩ := h
    obtain ⟨n1, hn1, f0, f1, f2, f3, f4⟩ := hle a n hn
    exact ⟨n1, hn1, by rw [f0, hl], by rw [f1, e0], by rw [f2, e1], by rw [f3, e2], by rw [f4, e3]⟩
  | nonleaf t0 t1 t2 t3 ih0 ih1 ih2 ih3 =>
    intro a h
    obtain ⟨n, hn, hl, h0, h1, h2, h3⟩ := h
    obtain ⟨n1, hn1, f0, f1, f2, f3, f4⟩ := hle a n hn
    exact ⟨n1, hn1, by rw [f0, hl], by rw [f1]; exact ih0 h0, by rw [f2]; exact ih1 h1,
      by rw [f3]; exact ih2 h2, by rw [f4]; exact ih3 h3⟩

/-- An address holds at most one quadtree. -/
theorem Heap.Repr.unique_tree {m : Memory} : ∀ {t t1 : NodeType} {a : Addr},
    Repr m a t → Repr m a t1 → t = t1 := by
  intro t
  induction t with
  | leaf c0 c1 c2 c3 =>
    intro t1 a h h1
    obtain ⟨n, hn, hl, e0, e1, e2, e3⟩ := h
    cases t1 with
    | leaf d0 d1 d2 d3 =>
      obtain ⟨n1, hn1, _, f0, f1, f2, f3⟩ := h1
      rw [hn] at hn1
      cases hn1
      rw [← e0, ← e1, ← e2, ← e3, f0, f1, f2, f3]
    | nonleaf u0 u1 u2 u3 =>
      obtain ⟨n1, hn1, hl1, _⟩ := h1
      rw [hn] at hn1
      cases hn1
      omega
  | nonleaf t0 t1 t2 t3 ih0 ih1 ih2 ih3 =>
    intro u a h h1
    obtain ⟨n, hn, hl, h0, h1', h2, h3⟩ := h
    cases u with
    | leaf d0 d1 d2 d3 =>
      obtain ⟨n1, hn1, hl1, _⟩ := h1
      rw [hn] at hn1
      cases hn1
      omega
    | nonleaf u0 u1 u2 u3 =>
      obtain ⟨n1, hn1, _, g0, g1, g2, g3⟩ := h1
      rw [hn] at hn1
      cases hn1
      rw [ih0 h0 g0, ih1 h1' g1, ih2 h2 g2, ih3 h3 g3]

/-- Under the structural invariant a quadtree is held at no more than one
address, and a quadtree that is held is well-formed. -/
theorem Heap.Repr.unique_addr {cfg : Config} {s : NodeGCHashTable} (hinv : Inv cfg s) :
    ∀ {t : NodeType} {a b : Addr}, Repr s.memory a t → Repr s.memory b t → a = b := by
  intro t
  induction t with
  | leaf c0 c1 c2 c3 =>
    intro a b ha hb
    obtain ⟨n, hn, hl, e0, e1, e2, e3⟩ := ha
    obtain ⟨n1, hn1, hl1, f0, f1, f2, f3⟩ := hb
    exact hinv.unique a b n n1 hn hn1 (by rw [hl, hl1]) (by rw [e0, f0]) (by rw [e1, f1])
      (by rw [e2, f2]) (by rw [e3, f3])
  | nonleaf t0 t1 t2 t3 ih0 ih1 ih2 ih3 =>
    intro a b ha hb
    obtain ⟨n, hn, hl, h0, h1, h2, h3⟩ := ha
    obtain ⟨n1, hn1, hl1, g0, g1, g2, g3⟩ := hb
    exact hinv.unique a b n n1 hn hn1 (by rw [hl, hl1]) (ih0 h0 g0) (ih1 h1 g1) (ih2 h2 g2)
      (ih3 h3 g3)

theorem Heap.Repr.wellFormed {cfg : Config} {s : NodeGCHashTable} (hinv : Inv cfg s) :
    ∀ {t : NodeType} {a : Addr}, Repr s.memory a t → t.WellFormed := by
  intro t
  induction t with
  | leaf c0 c1 c2 c3 => intro _ _; trivial
  | nonleaf t0 t1 t2 t3 ih0 ih1 ih2 ih3 =>
    intro a h
    obtain ⟨n, hn, hl, h0, h1, h2, h3⟩ := h
    have hk := hinv.kids_live a n hn (by omega)
    have lev : ∀ {k : Addr} {u : NodeType}, k ∈ n.kids → Repr s.memory k u →
        u.level = t0.level := by
      intro k u hk1 hu
      obtain ⟨nk, hnk, hlk⟩ := hk k hk1
      obtain ⟨nk1, hnk1, hl1⟩ := hu.node
      rw [hnk] at hnk1
      cases hnk1
      omega
    exact ⟨ih0 h0, ih1 h1, ih2 h2, ih3 h3, lev (by simp [Node.kids]) h1,
      lev (by simp [Node.kids]) h2, lev (by simp [Node.kids]) h3⟩

/-- Every node of a store that satisfies the invariant holds a quadtree. -/
theorem Heap.Inv.repr_exists {cfg : Config} {s : NodeGCHashTable} (hinv : Inv cfg s) :
    ∀ (L : Nat) (a : Addr) (n : Node), s.memory a = some n → n.level = L →
      ∃ t, Repr s.memory a t := by
  intro L
  induction L with
  | zero =>
    intro a n hn hl
    exact ⟨NodeType.leaf n.nxny n.nxpy n.pxny n.pxpy, n, hn, hl, rfl, rfl, rfl, rfl⟩
  | succ L ih =>
    intro a n hn hl
    have hk := hinv.kids_live a n hn (by omega)
    have kid : ∀ k, k ∈ n.kids → ∃ u, Repr s.memory k u ∧ u.level = L := by
      intro k hk1
      obtain ⟨nk, hnk, hlk⟩ := hk k hk1
      obtain ⟨u, hu⟩ := ih k nk hnk (by omega)
      obtain ⟨nk1, hnk1, hl1⟩ := hu.node
      rw [hnk] at hnk1
      cases hnk1
      exact ⟨u, hu, by omega⟩
    obtain ⟨u0, h0, l0⟩ := kid n.nxny (by simp [Node.kids])
    obtain ⟨u1, h1, _⟩ := kid n.nxpy (by simp [Node.kids])
    obtain ⟨u2, h2, _⟩ := kid n.pxny (by simp [Node.kids])
    obtain ⟨u3, h3, _⟩ := kid n.pxpy (by simp [Node.kids])
    exact ⟨NodeType.nonleaf u0 u1 u2 u3, n, hn, by rw [hl, l0], h0, h1, h2, h3⟩

/-- A node that `onAllocate` left still holds its quadtree. -/
theorem Heap.Repr.survives {cfg : Config} {s s1 : NodeGCHashTable} (hinv1 : Inv cfg s1)
    (hsh : Shrinks s s1) : ∀ {t : NodeType} {a : Addr}, Repr s.memory a t →
      (∃ n1, s1.memory a = some n1) → Repr s1.memory a t := by
  intro t
  induction t with
  | leaf c0 c1 c2 c3 =>
    intro a h hl
    obtain ⟨n, hn, hl0, e0, e1, e2, e3⟩ := h
    obtain ⟨n1, hn1⟩ := hl
    obtain ⟨n0, hn0, ⟨f0, f1, f2, f3, f4⟩, _⟩ := hsh.old a n1 hn1
    rw [hn] at hn0
    cases hn0
    exact ⟨n1, hn1, by rw [f0, hl0], by rw [f1, e0], by rw [f2, e1], by rw [f3, e2],
      by rw [f4, e3]⟩
  | nonleaf t0 t1 t2 t3 ih0 ih1 ih2 ih3 =>
    intro a h hl
    obtain ⟨n, hn, hl0, h0, h1, h2, h3⟩ := h
    obtain ⟨n1, hn1⟩ := hl
    obtain ⟨n0, hn0, ⟨f0, f1, f2, f3, f4⟩, _⟩ := hsh.old a n1 hn1
    rw [hn] at hn0
    cases hn0
    have hk := hinv1.kids_live a n1 hn1 (by omega)
    have kid : ∀ k, k ∈ n1.kids → ∃ nk, s1.memory k = some nk := by
      intro k hk1
      obtain ⟨nk, hnk, _⟩ := hk k hk1
      exact ⟨nk, hnk⟩
    exact ⟨n1, hn1, by rw [f0, hl0], by rw [f1]; exact ih0 h0 (by rw [← f1]; exact kid _ (by simp [Node.kids])),
      by rw [f2]; exact ih1 h1 (by rw [← f2]; exact kid _ (by simp [Node.kids])),
      by rw [f3]; exact ih2 h2 (by rw [← f3]; exact kid _ (by simp [Node.kids])),
      by rw [f4]; exact ih3 h3 (by rw [← f4]; exact kid _ (by simp [Node.kids]))⟩

end EngineInvariant

section EngineState
open Heap (M ret fail bindM incRef decRef decRefOpt readNode Ok Repr ShapeLe held St Addr Node Memory
  NodeGCHashTable Config Failure Inv Shrinks Interned incRefCount decRefCount lc Free Room Ext roomNeed)

variable {cfg : Config} {rules : RuleTable}

theorem Heap.held_cons (s : NodeGCHashTable) (a : Addr) (t : NodeType)
    (H : List (Addr × NodeType)) : held s ((a, t) :: H) = a :: held s H := rfl

theorem Heap.lc_cons_le (l : Nat) (p : Addr × NodeType) (H : List (Addr × NodeType)) :
    lc l (p :: H) ≤ lc l H + 1 := by
  unfold lc
  rw [List.countP_cons]
  split <;> omega

theorem Heap.lc_le_cons (l : Nat) (p : Addr × NodeType) (H : List (Addr × NodeType)) :
    lc l H ≤ lc l (p :: H) := by
  unfold lc
  rw [List.countP_cons]
  omega

theorem Heap.lc_cons_ne {l : Nat} {p : Addr × NodeType} (h : p.2.level ≠ l)
    (H : List (Addr × NodeType)) : lc l (p :: H) = lc l H := by
  unfold lc
  rw [List.countP_cons]
  simp [h]

theorem Heap.lc_append (l : Nat) (H1 H2 : List (Addr × NodeType)) :
    lc l (H1 ++ H2) = lc l H1 + lc l H2 := by
  unfold lc
  exact List.countP_append _ _ _

theorem Heap.lc_le_length (l : Nat) (H : List (Addr × NodeType)) : lc l H ≤ H.length :=
  List.countP_le_length _

theorem Heap.lc_eq_zero {l : Nat} {H : List (Addr × NodeType)}
    (h : ∀ p ∈ H, p.2.level ≠ l) : lc l H = 0 := by
  unfold lc
  rw [List.countP_eq_zero]
  intro p hp
  simpa using h p hp

/-- Every handle that exists points at a node. -/
theorem Heap.St.held_live {s : NodeGCHashTable} {H : List (Addr × NodeType)}
    (hst : St cfg rules s H) {a : Addr} (ha : a ∈ held s H) : ∃ n, s.memory a = some n := by
  rcases List.mem_append.1 ha with h | h
  · obtain ⟨p, hp, rfl⟩ := List.mem_map.1 h
    obtain ⟨n, hn, -⟩ := (hst.trees p hp).node
    exact ⟨n, hn⟩
  · obtain ⟨l, hl, hal⟩ := List.mem_flatten.1 h
    obtain ⟨bg, hbg, rfl⟩ := List.getElem_of_mem hl
    obtain ⟨i, hi, hia⟩ := List.getElem_of_mem hal
    have : (s.nullNodes.getD bg [])[i]? = some a := by
      rw [List.getD_eq_getElem _ _ hbg, List.getElem?_eq_getElem hi, hia]
    obtain ⟨n, hn, -⟩ := (hst.nulls bg i a this).node
    exact ⟨n, hn⟩

theorem Heap.St.handle {s : NodeGCHashTable} {H : List (Addr × NodeType)}
    (hst : St cfg rules s H) {a : Addr} {t : NodeType} (h : (a, t) ∈ H) :
    Repr s.memory a t ∧ ∃ n, s.memory a = some n ∧ 0 < n.refcount ∧ n.level = t.level := by
  have hr := hst.trees (a, t) h
  refine ⟨hr, ?_⟩
  have hmem : a ∈ held s H :=
    List.mem_append_left _ (List.mem_map.2 ⟨(a, t), h, rfl⟩)
  obtain ⟨n, hn, hl⟩ := hr.node
  exact ⟨n, hn, by rw [hst.owns a n hn]; exact List.count_pos_iff.2 hmem, hl⟩

/-- A node has at most one handle more than there are handles of its level in
the list. -/
theorem Heap.St.refcount_le {s : NodeGCHashTable} {H : List (Addr × NodeType)}
    (hst : St cfg rules s H) {a : Addr} {n : Node} (hn : s.memory a = some n) :
    n.refcount ≤ lc n.level H + 1 := by
  rw [hst.owns a n hn]
  unfold held
  rw [List.count_append]
  refine Nat.add_le_add ?_ (hst.nullOnce a)
  unfold lc
  rw [List.count, List.countP_map]
  refine List.countP_mono_left ?_
  intro p hp hpa
  have hpa1 : p.1 = a := by simpa using hpa
  obtain ⟨n1, hn1, hl⟩ := (hst.trees p hp).node
  rw [hpa1, hn] at hn1
  cases hn1
  simpa using hl.symm

theorem Heap.St.perm {s : NodeGCHashTable} {H H1 : List (Addr × NodeType)}
    (hst : St cfg rules s H) (hp : H.Perm H1) : St cfg rules s H1 := by
  have hheld : (held s H).Perm (held s H1) := (hp.map _).append_right _
  refine ⟨hst.valid, hst.inv, hst.small, ?_, ?_, hst.nulls, hst.nullOnce, hst.cache⟩
  · intro a n hn
    rw [← hheld.count_eq]
    exact hst.owns a n hn
  · intro p hp1
    exact hst.trees p (hp.mem_iff.2 hp1)

theorem Heap.lc_perm {H H1 : List (Addr × NodeType)} (hp : H.Perm H1) (l : Nat) :
    lc l H = lc l H1 := by
  unfold lc
  exact hp.countP_eq _

theorem Heap.shapeLe_set_refcount {m : Memory} {a : Addr} {n : Node} (hn : m a = some n)
    (r : Nat) : ShapeLe m (m.set a { n with refcount := r }) := by
  intro x nx hx
  by_cases hxa : x = a
  · rw [hxa, hn] at hx
    cases hx
    exact ⟨{ n with refcount := r }, by rw [hxa]; exact Heap.Memory.set_same _ _ _,
      ⟨rfl, rfl, rfl, rfl, rfl⟩⟩
  · exact ⟨nx, by rw [Heap.Memory.set_other _ _ hxa]; exact hx, ⟨rfl, rfl, rfl, rfl, rfl⟩⟩

theorem Heap.ShapeLe.itself (m : Memory) : ShapeLe m m :=
  fun _ n hn => ⟨n, hn, ⟨rfl, rfl, rfl, rfl, rfl⟩⟩

theorem Heap.ShapeLe.chain {m m1 m2 : Memory} (h1 : ShapeLe m m1) (h2 : ShapeLe m1 m2) :
    ShapeLe m m2 := by
  intro x n hn
  obtain ⟨n1, hn1, hs1⟩ := h1 x n hn
  obtain ⟨n2, hn2, hs2⟩ := h2 x n1 hn1
  exact ⟨n2, hn2, hs1.comp hs2⟩

/-- The state after a reference count was changed to the number of
handles. -/
theorem Heap.St.set_refcount {s : NodeGCHashTable} {H H1 : List (Addr × NodeType)}
    (hst : St cfg rules s H) {a : Addr} {n : Node} (hn : s.memory a = some n) (r : Nat)
    (hr : r < 256) (hcount : r = (held s H1).count a)
    (hother : ∀ x, x ≠ a → (held s H1).count x = (held s H).count x)
    (htrees : ∀ p, p ∈ H1 → Repr s.memory p.1 p.2) :
    St cfg rules { s with memory := s.memory.set a { n with refcount := r } } H1 := by
  have hle : ShapeLe s.memory (s.memory.set a { n with refcount := r }) :=
    Heap.shapeLe_set_refcount hn r
  refine ⟨hst.valid, ?_, ?_, ?_, ?_, ?_, hst.nullOnce, ?_⟩
  · exact hst.inv.set_node hn ⟨rfl, rfl, rfl, rfl, rfl⟩
      (fun t ht => hst.inv.weak_live a n t hn ht)
  · intro x nx hx
    replace hx : (s.memory.set a { n with refcount := r }) x = some nx := hx
    by_cases hxa : x = a
    · rw [hxa, Heap.Memory.set_same] at hx
      cases hx
      exact hr
    · rw [Heap.Memory.set_other _ _ hxa] at hx
      exact hst.small x nx hx
  · intro x nx hx
    replace hx : (s.memory.set a { n with refcount := r }) x = some nx := hx
    show nx.refcount = (held s H1).count x
    by_cases hxa : x = a
    · rw [hxa, Heap.Memory.set_same] at hx
      cases hx
      rw [hxa]
      exact hcount
    · rw [Heap.Memory.set_other _ _ hxa] at hx
      rw [hother x hxa]
      exact hst.owns x nx hx
  · intro p hp
    exact (htrees p hp).grow hle
  · intro bg i x hx
    exact (hst.nulls bg i x hx).grow hle
  · intro x nx t hx ht
    replace hx : (s.memory.set a { n with refcount := r }) x = some nx := hx
    have : ∃ n0, s.memory x = some n0 ∧ n0.nonleaf_nextState = some t
        ∧ n0.nextStateLogStep = nx.nextStateLogStep ∧ n0.level = nx.level := by
      by_cases hxa : x = a
      · rw [hxa, Heap.Memory.set_same] at hx
        cases hx
        exact ⟨n, by rw [hxa]; exact hn, ht, rfl, rfl⟩
      · rw [Heap.Memory.set_other _ _ hxa] at hx
        exact ⟨nx, hx, ht, rfl, rfl⟩
    obtain ⟨n0, hn0, ht0, e1, e2⟩ := this
    obtain ⟨u, ur, h1, h2, h3, h4⟩ := hst.cache x n0 t hn0 ht0
    exact ⟨u, ur, h1.grow hle, by rw [← e1, ← e2]; exact h2, by rw [← e1]; exact h3, h4.grow hle⟩

/-- Construction of a handle to a node that holds a quadtree, when there is
room for one more handle of its level. -/
theorem Heap.incRef_ok {s : NodeGCHashTable} {H : List (Addr × NodeType)}
    (hst : St cfg rules s H) {a : Addr} {t : NodeType} (hr : Repr s.memory a t)
    (hroom : lc t.level H + 1 ≤ 254) :
    Ok (fun _ s1 => St cfg rules s1 ((a, t) :: H) ∧ ShapeLe s.memory s1.memory) (incRef a s) := by
  obtain ⟨n, hn, hl⟩ := hr.node
  have hle := hst.refcount_le hn
  rw [hl] at hle
  have hlt : n.refcount + 1 < 256 := by omega
  unfold incRef incRefCount
  simp only [hn, hlt, if_true]
  refine ⟨hst.set_refcount hn (n.refcount + 1) hlt ?_ ?_ ?_, Heap.shapeLe_set_refcount hn _⟩
  · rw [Heap.held_cons, List.count_cons_self, hst.owns a n hn]
  · intro x hxa
    rw [Heap.held_cons, List.count_cons_of_ne hxa]
  · intro p hp
    rcases List.mem_cons.1 hp with rfl | hp
    · exact hr
    · exact hst.trees p hp

/-- Destruction of a handle. -/
theorem Heap.decRef_ok {s : NodeGCHashTable} {H : List (Addr × NodeType)} {a : Addr}
    {t : NodeType} (hst : St cfg rules s ((a, t) :: H)) :
    Ok (fun _ s1 => St cfg rules s1 H ∧ ShapeLe s.memory s1.memory) (decRef a s) := by
  obtain ⟨-, n, hn, hpos, -⟩ := hst.handle (List.mem_cons_self _ _)
  have hsm := hst.small a n hn
  have hc := hst.owns a n hn
  rw [Heap.held_cons, List.count_cons_self] at hc
  unfold decRef decRefCount
  simp only [hn]
  have e : (n.refcount + 255) % 256 = n.refcount - 1 := by omega
  rw [e]
  refine ⟨hst.set_refcount hn (n.refcount - 1) (by omega) (by omega) ?_ ?_,
    Heap.shapeLe_set_refcount hn _⟩
  · intro x hxa
    rw [Heap.held_cons, List.count_cons_of_ne hxa]
  · intro p hp
    exact hst.trees p (List.mem_cons_of_mem _ hp)

/-- A read through a pointer to a node that holds a quadtree. -/
theorem Heap.readNode_ok {s : NodeGCHashTable} {a : Addr} {t : NodeType}
    (hr : Repr s.memory a t) {Q : Node → NodeGCHashTable → Prop}
    (h : ∀ n, s.memory a = some n → Q n s) : Ok Q (readNode a s) := by
  obtain ⟨n, hn, _⟩ := hr.node
  unfold readNode
  simp only [hn]
  exact h n hn

theorem Heap.lc_append_le (l : Nat) (hs H : List (Addr × NodeType)) :
    lc l (hs ++ H) ≤ hs.length + lc l H := by
  rw [Heap.lc_append]
  exact Nat.add_le_add_right (Heap.lc_le_length l hs) _

theorem Heap.Free.less {k k1 L L1 : Nat} {H : List (Addr × NodeType)} (h : Free k L H)
    (hk : k1 ≤ k) (hl : L1 ≤ L) : Free k1 L1 H := by
  intro l hl1
  have := h l (le_trans hl1 hl)
  omega

/-- Room that is left after the handles `hs` were constructed. -/
theorem Heap.Free.push {k L : Nat} {H : List (Addr × NodeType)} (hs : List (Addr × NodeType))
    {j : Nat} (h : Free k L H) (hj : hs.length + j ≤ k) : Free j L (hs ++ H) := by
  intro l hl
  have h1 := h l hl
  have h2 := Heap.lc_append_le l hs H
  omega

theorem Heap.Free.one {k L : Nat} {H : List (Addr × NodeType)} (h : Free k L H) {l : Nat}
    (hl : l ≤ L) (hk : 1 ≤ k) : lc l H + 1 ≤ 254 := by
  have := h l hl
  omega

/-- Room for the handles of the running call itself. -/
theorem Heap.Room.free {F L : Nat} {H : List (Addr × NodeType)} (hs : List (Addr × NodeType))
    {k : Nat} (h : Room F L H) (hk : hs.length + k ≤ F) : Free k L (hs ++ H) := by
  intro l hl
  have h1 := h l hl
  have h2 := Heap.lc_append_le l hs H
  have h3 : F ≤ roomNeed F L l := by
    unfold roomNeed
    split_ifs <;> omega
  omega

/-- Room for the handles of the running call at the levels below its own. -/
theorem Heap.Room.free_low {F L : Nat} {H : List (Addr × NodeType)}
    (hs : List (Addr × NodeType)) {k : Nat} (h : Room F (L + 1) H)
    (hk : hs.length + k ≤ 2 * F) : Free k L (hs ++ H) := by
  intro l hl
  have h1 := h l (by omega)
  have h2 := Heap.lc_append_le l hs H
  have h3 : 2 * F ≤ roomNeed F (L + 1) l := by
    unfold roomNeed
    split_ifs <;> omega
  omega

/-- Room for a recursive call one level down, after the handles `hs` of the
running call were constructed. -/
theorem Heap.Room.down {F L : Nat} {H : List (Addr × NodeType)} (hs : List (Addr × NodeType))
    (h : Room F (L + 1) H) (hlen : hs.length ≤ F) (hlev : ∀ p ∈ hs, L ≤ p.2.level + 1) :
    Room F L (hs ++ H) := by
  intro l hl
  have h1 := h l (by omega)
  by_cases hlow : l + 1 < L
  · have h0 : lc l hs = 0 := Heap.lc_eq_zero (fun p hp => by have := hlev p hp; omega)
    rw [Heap.lc_append, h0]
    unfold roomNeed at h1 ⊢
    split_ifs at h1 ⊢ <;> omega
  · have h2 := Heap.lc_append_le l hs H
    unfold roomNeed at h1 ⊢
    split_ifs at h1 ⊢ <;> omega

theorem Heap.Free.room {F L : Nat} {H : List (Addr × NodeType)} (h : Free (3 * F) L H) :
    Room F L H := by
  intro l hl
  have h1 := h l hl
  unfold roomNeed
  split_ifs <;> omega

/-- A call that holds fewer handles needs less room. -/
theorem Heap.Room.weaken {F F1 L : Nat} {H : List (Addr × NodeType)} (h : Room F L H)
    (hF : F1 ≤ F) : Room F1 L H := by
  intro l hl
  have h1 := h l hl
  unfold roomNeed at h1 ⊢
  split_ifs at h1 ⊢ <;> omega

/-- Room for a call on a node of the same level, after one more handle was
constructed. -/
theorem Heap.Room.cons_same {F L : Nat} {H : List (Addr × NodeType)} (h : Room (F + 1) L H)
    (p : Addr × NodeType) : Room F L (p :: H) := by
  intro l hl
  have h1 := h l hl
  have h2 := Heap.lc_cons_le l p H
  unfold roomNeed at h1 ⊢
  split_ifs at h1 ⊢ <;> omega

theorem Heap.Ext.zero (L : Nat) (H : List (Addr × NodeType)) : Ext L 0 H H :=
  ⟨[], rfl, le_refl _, fun _ h => absurd h (List.not_mem_nil _)⟩

theorem Heap.Ext.cons {L n : Nat} {H H1 : List (Addr × NodeType)} (h : Ext L n H H1)
    {a : Addr} {t : NodeType} (hl : L ≤ t.level) : Ext L (n + 1) H ((a, t) :: H1) := by
  obtain ⟨hs, rfl, hlen, hlev⟩ := h
  refine ⟨(a, t) :: hs, rfl, by simpa using hlen, ?_⟩
  intro p hp
  rcases List.mem_cons.1 hp with rfl | hp
  · exact hl
  · exact hlev p hp

theorem Heap.Ext.more {L n n1 : Nat} {H H1 : List (Addr × NodeType)} (h : Ext L n H H1)
    (hn : n ≤ n1) : Ext L n1 H H1 := by
  obtain ⟨hs, rfl, hlen, hlev⟩ := h
  exact ⟨hs, rfl, le_trans hlen hn, hlev⟩

theorem Heap.Ext.lower {L L1 n : Nat} {H H1 : List (Addr × NodeType)} (h : Ext L n H H1)
    (hl : L1 ≤ L) : Ext L1 n H H1 := by
  obtain ⟨hs, rfl, hlen, hlev⟩ := h
  exact ⟨hs, rfl, hlen, fun p hp => le_trans hl (hlev p hp)⟩

theorem Heap.Ext.join {L n m : Nat} {H H1 H2 : List (Addr × NodeType)} (h : Ext L n H H1)
    (h1 : Ext L m H1 H2) : Ext L (n + m) H H2 := by
  obtain ⟨hs, rfl, hlen, hlev⟩ := h
  obtain ⟨hs1, rfl, hlen1, hlev1⟩ := h1
  refine ⟨hs1 ++ hs, by simp, by simp; omega, ?_⟩
  intro p hp
  rcases List.mem_append.1 hp with hp | hp
  · exact hlev1 p hp
  · exact hlev p hp

theorem Heap.Ext.mem {L n : Nat} {H H1 : List (Addr × NodeType)} (h : Ext L n H H1)
    {p : Addr × NodeType} (hp : p ∈ H) : p ∈ H1 := by
  obtain ⟨hs, rfl, -, -⟩ := h
  exact List.mem_append_right _ hp

/-- Room that is left after a list was extended. -/
theorem Heap.Free.after {k L1 L n j : Nat} {H H1 : List (Addr × NodeType)} (h : Free k L1 H)
    (he : Ext L n H H1) (hj : n + j ≤ k) : Free j L1 H1 := by
  obtain ⟨hs, rfl, hlen, -⟩ := he
  exact h.push hs (by omega)

/-- Room for the handles of the running call itself, after the list was
extended. -/
theorem Heap.Room.ext_free {F L L1 n k : Nat} {H H1 : List (Addr × NodeType)} (h : Room F L H)
    (he : Ext L1 n H H1) (hk : n + k ≤ F) : Free k L H1 := by
  obtain ⟨hs, rfl, hlen, -⟩ := he
  exact h.free hs (by omega)

/-- Room for the handles of the running call at the levels below its own,
after the list was extended. -/
theorem Heap.Room.ext_low {F L L1 n k : Nat} {H H1 : List (Addr × NodeType)}
    (h : Room F (L + 1) H) (he : Ext L1 n H H1) (hk : n + k ≤ 2 * F) : Free k L H1 := by
  obtain ⟨hs, rfl, hlen, -⟩ := he
  exact h.free_low hs (by omega)

/-- Room for a recursive call one level down, after the list was extended by
handles of the running call. -/
theorem Heap.Room.ext {F L L1 n : Nat} {H H1 : List (Addr × NodeType)} (h : Room F (L + 1) H)
    (he : Ext L1 n H H1) (hn : n ≤ F) (hl : L ≤ L1 + 1) : Room F L H1 := by
  obtain ⟨hs, rfl, hlen, hlev⟩ := he
  exact h.down hs (by omega) (fun p hp => by have := hlev p hp; omega)

end EngineState

section EngineIntern
open Heap (M ret fail bindM incRef decRef decRefOpt readNode Ok Repr ShapeLe held St Addr Node Memory
  NodeGCHashTable Config Failure Inv Shrinks Interned incRefCount decRefCount findOrInsertLeaf
  findOrInsertNonleaf lc)

variable {cfg : Config} {rules : RuleTable}

/-- The invariant of the engine survives a call of `onAllocate`. -/
theorem Heap.St.shrinks {s s1 : NodeGCHashTable} {H : List (Addr × NodeType)}
    (hst : St cfg rules s H) (hinv1 : Inv cfg s1) (hsh : Shrinks s s1) : St cfg rules s1 H := by
  have hheld : held s1 H = held s H := by unfold held; rw [hsh.nullNodes]
  have hlive : ∀ a, a ∈ held s H → ∃ n n1, s.memory a = some n ∧ s1.memory a = some n1
      ∧ n1.refcount = n.refcount := by
    intro a ha
    obtain ⟨n, hn⟩ := hst.held_live ha
    obtain ⟨n1, hn1, _, hrc⟩ := hsh.keeps_root hn
      (by rw [hst.owns a n hn]; exact List.count_pos_iff.2 ha)
    exact ⟨n, n1, hn, hn1, hrc⟩
  refine ⟨hst.valid, hinv1, ?_, ?_, ?_, ?_, ?_, ?_⟩
  · intro a n1 hn1
    obtain ⟨n, hn, _, hrc, _⟩ := hsh.old a n1 hn1
    rw [hrc]
    exact hst.small a n hn
  · intro a n1 hn1
    obtain ⟨n, hn, _, hrc, _⟩ := hsh.old a n1 hn1
    rw [hheld, hrc]
    exact hst.owns a n hn
  · intro p hp
    obtain ⟨n, n1, _, hn1, _⟩ := hlive p.1
      (List.mem_append_left _ (List.mem_map.2 ⟨p, hp, rfl⟩))
    exact (hst.trees p hp).survives hinv1 hsh ⟨n1, hn1⟩
  · intro bg i a ha
    rw [hsh.nullNodes] at ha
    have hmem : a ∈ held s H := by
      apply List.mem_append_right
      refine List.mem_flatten.2 ⟨s.nullNodes.getD bg [], ?_, List.getElem?_mem ha⟩
      by_cases hb : bg < s.nullNodes.length
      · rw [List.getD_eq_getElem _ _ hb]
        exact List.getElem_mem _
      · rw [List.getD_eq_default _ _ (by omega)] at ha
        simp at ha
    obtain ⟨n, n1, _, hn1, _⟩ := hlive a hmem
    exact (hst.nulls bg i a ha).survives hinv1 hsh ⟨n1, hn1⟩
  · rw [hsh.nullNodes]
    exact hst.nullOnce
  · intro a n1 r hn1 hr
    obtain ⟨n, hn, hsame, _, hls, hnext⟩ := hsh.old a n1 hn1
    obtain ⟨t, tr, h1, h2, h3, h4⟩ := hst.cache a n r hn (hnext r hr)
    refine ⟨t, tr, h1.survives hinv1 hsh ⟨n1, hn1⟩, ?_, by rw [hls]; exact h3,
      h4.survives hinv1 hsh (hinv1.weak_live a n1 r hn1 hr)⟩
    rw [hls, hsame.1]
    exact h2

/-- The invariant of the engine after the search loop of an interning call
returned the node `r`, which holds the quadtree `t`. -/
theorem Heap.St.interned {s1 s2 : NodeGCHashTable} {H : List (Addr × NodeType)}
    (hst : St cfg rules s1 H) (hinv2 : Inv cfg s2) {r : Addr} {n2 : Node}
    (hint : Interned s1 r n2 s2) {t : NodeType} (hr : Repr s2.memory r t) :
    St cfg rules s2 ((r, t) :: H) := by
  have hle : ShapeLe s1.memory s2.memory := by
    intro a n hn
    obtain ⟨n1, hn1, hs, _⟩ := hint.keeps_node hn
    exact ⟨n1, hn1, hs⟩
  have hheld : held s2 ((r, t) :: H) = r :: held s1 H := by
    unfold held
    rw [hint.nullNodes]
    rfl
  refine ⟨hst.valid, hinv2, ?_, ?_, ?_, ?_, ?_, ?_⟩
  · intro a n hn
    by_cases har : a = r
    · rw [har, hint.self] at hn
      cases hn
      exact hint.small
    · rw [hint.other a har] at hn
      exact hst.small a n hn
  · intro a n hn
    rw [hheld]
    by_cases har : a = r
    · rw [har, hint.self] at hn
      cases hn
      rw [har, List.count_cons_self]
      rcases hint.cases with ⟨n, hn, e⟩ | ⟨hnone, e, _⟩
      · rw [e]
        show n.refcount + 1 = _
        rw [hst.owns r n hn]
      · have : r ∉ held s1 H := by
          intro hmem
          obtain ⟨n, hn⟩ := hst.held_live hmem
          rw [hnone] at hn
          cases hn
        rw [List.count_eq_zero_of_not_mem this, e]
    · rw [hint.other a har] at hn
      rw [List.count_cons_of_ne har]
      exact hst.owns a n hn
  · intro p hp
    rcases List.mem_cons.1 hp with rfl | hp
    · exact hr
    · exact (hst.trees p hp).grow hle
  · intro bg i a ha
    rw [hint.nullNodes] at ha
    exact (hst.nulls bg i a ha).grow hle
  · rw [hint.nullNodes]
    exact hst.nullOnce
  · intro a n x hn hx
    have : ∃ n0, s1.memory a = some n0 ∧ n0.nonleaf_nextState = some x
        ∧ n0.nextStateLogStep = n.nextStateLogStep ∧ n0.level = n.level := by
      by_cases har : a = r
      · rw [har, hint.self] at hn
        cases hn
        rcases hint.cases with ⟨n0, hn0, e⟩ | ⟨_, _, e⟩
        · rw [e] at hx
          exact ⟨n0, by rw [har]; exact hn0, hx, by rw [e], by rw [e]⟩
        · rw [e] at hx
          cases hx
      · rw [hint.other a har] at hn
        exact ⟨n, hn, hx, rfl, rfl⟩
    obtain ⟨n0, hn0, hx0, e1, e2⟩ := this
    obtain ⟨u, ur, h1, h2, h3, h4⟩ := hst.cache a n0 x hn0 hx0
    exact ⟨u, ur, h1.grow hle, by rw [← e1, ← e2]; exact h2, by rw [← e1]; exact h3, h4.grow hle⟩

/-- Function `findOrInsertLeaf` in the engine: the handle returned holds the
leaf. -/
theorem Heap.internLeaf_ok {s : NodeGCHashTable} {H : List (Addr × NodeType)}
    (hst : St cfg rules s H) (c0 c1 c2 c3 : CellType) (hroom : lc 0 H + 1 ≤ 254) :
    Ok (fun r s2 => St cfg rules s2 ((r, NodeType.leaf c0 c1 c2 c3) :: H))
      (findOrInsertLeaf cfg c0 c1 c2 c3 s) := by
  have hnw := Heap.findOrInsertLeaf_no_wrap hst.inv c0 c1 c2 c3 (by
    intro a n hn hl
    have := hst.refcount_le hn
    rw [hl] at this
    omega)
  rcases Heap.findOrInsertLeaf_ok hst.valid hst.inv c0 c1 c2 c3 with
    ⟨r, s1, s2, n2, h2, hinv1, hsh, hinv2, hint, hl, e0, e1, e2, e3⟩ | herr | herr
  · rw [h2]
    exact (hst.shrinks hinv1 hsh).interned hinv2 hint ⟨n2, hint.self, hl, e0, e1, e2, e3⟩
  · rw [herr]; exact rfl
  · exact absurd herr hnw

/-- Function `findOrInsertNonleaf` in the engine, called with four handles to
quadtrees of one level: the handle returned holds the quadtree with these four
children. -/
theorem Heap.internNonleaf_ok {s : NodeGCHashTable} {H : List (Addr × NodeType)}
    (hst : St cfg rules s H) {c0 c1 c2 c3 : Addr} {t0 t1 t2 t3 : NodeType}
    (h0 : (c0, t0) ∈ H) (h1 : (c1, t1) ∈ H) (h2 : (c2, t2) ∈ H) (h3 : (c3, t3) ∈ H)
    (l1 : t1.level = t0.level) (l2 : t2.level = t0.level) (l3 : t3.level = t0.level)
    (hroom : lc (t0.level + 1) H + 1 ≤ 254) :
    Ok (fun r s2 => St cfg rules s2 ((r, NodeType.nonleaf t0 t1 t2 t3) :: H))
      (findOrInsertNonleaf cfg c0 c1 c2 c3 s) := by
  obtain ⟨r0, n0, hn0, p0, e0⟩ := hst.handle h0
  obtain ⟨r1, n1, hn1, p1, e1⟩ := hst.handle h1
  obtain ⟨r2, n2, hn2, p2, e2⟩ := hst.handle h2
  obtain ⟨r3, n3, hn3, p3, e3⟩ := hst.handle h3
  have hnw := Heap.findOrInsertNonleaf_no_wrap hst.inv c0 c1 c2 c3 (by
    intro a n hn hl hk
    obtain ⟨nk, hnk, hlk⟩ := hst.inv.kids_live a n hn hl n.nxny (by simp [Heap.Node.kids])
    rw [hk, hn0] at hnk
    cases hnk
    have := hst.refcount_le hn
    rw [← hlk, e0] at this
    omega)
  rcases Heap.findOrInsertNonleaf_ok hst.valid hst.inv c0 c1 c2 c3 t0.level (by
      intro k hk
      simp only [List.mem_cons, List.mem_singleton, List.not_mem_nil, or_false] at hk
      rcases hk with rfl | rfl | rfl | rfl
      · exact ⟨n0, hn0, p0, e0⟩
      · exact ⟨n1, hn1, p1, by rw [e1, l1]⟩
      · exact ⟨n2, hn2, p2, by rw [e2, l2]⟩
      · exact ⟨n3, hn3, p3, by rw [e3, l3]⟩) with
    ⟨r, s1, s2, m2, hcall, hinv1, hsh, hinv2, hint, hl, f0, f1, f2, f3⟩ | herr | herr
  · rw [hcall]
    have hst1 := hst.shrinks hinv1 hsh
    have hle : ShapeLe s1.memory s2.memory := by
      intro a n hn
      obtain ⟨n', hn', hs, _⟩ := hint.keeps_node hn
      exact ⟨n', hn', hs⟩
    refine hst1.interned hinv2 hint ⟨m2, hint.self, hl, ?_, ?_, ?_, ?_⟩
    · rw [f0]; exact (hst1.trees _ h0).grow hle
    · rw [f1]; exact (hst1.trees _ h1).grow hle
    · rw [f2]; exact (hst1.trees _ h2).grow hle
    · rw [f3]; exact (hst1.trees _ h3).grow hle
  · rw [herr]; exact rfl
  · exact absurd herr hnw

end EngineIntern

section EngineCalls
open Heap (M ret fail bindM incRef decRef decRefOpt readNode Ok Repr ShapeLe held St Addr Node Memory
  NodeGCHashTable Config Failure Inv Shrinks Interned incRefCount decRefCount findOrInsertLeaf
  findOrInsertNonleaf callNonleaf withNonleaf weakGet writeNextState setNextState lc Free Room)

variable {cfg : Config} {rules : RuleTable}

/-- Destruction of the handle that is second in the list. -/
theorem Heap.decRef_second {s : NodeGCHashTable} {H : List (Addr × NodeType)} {a : Addr}
    {t : NodeType} {p : Addr × NodeType} (hst : St cfg rules s (p :: (a, t) :: H)) :
    Ok (fun _ s1 => St cfg rules s1 (p :: H) ∧ ShapeLe s.memory s1.memory) (decRef a s) :=
  Heap.decRef_ok (hst.perm (List.Perm.swap _ _ _))

/-- Destruction of a handle at any place of the list. -/
theorem Heap.decRef_at {s : NodeGCHashTable} (H1 : List (Addr × NodeType))
    {H2 : List (Addr × NodeType)} {a : Addr} {t : NodeType}
    (hst : St cfg rules s (H1 ++ (a, t) :: H2)) :
    Ok (fun _ s1 => St cfg rules s1 (H1 ++ H2) ∧ ShapeLe s.memory s1.memory) (decRef a s) :=
  Heap.decRef_ok (hst.perm List.perm_middle)

/-- A call of `findOrInsertNonleaf` on four pointers to nodes that hold
quadtrees of one level. -/
theorem Heap.callNonleaf_ok {s : NodeGCHashTable} {H : List (Addr × NodeType)}
    (hst : St cfg rules s H) {a b c d : Addr} {t0 t1 t2 t3 : NodeType}
    (ha : Repr s.memory a t0) (hb : Repr s.memory b t1) (hc : Repr s.memory c t2)
    (hd : Repr s.memory d t3) (l1 : t1.level = t0.level) (l2 : t2.level = t0.level)
    (l3 : t3.level = t0.level) (hfree : Free 5 (t0.level + 1) H) :
    Ok (fun r s1 => St cfg rules s1 ((r, NodeType.nonleaf t0 t1 t2 t3) :: H))
      (callNonleaf cfg a b c d s) := by
  have f1 : Free 4 (t0.level + 1) ((a, t0) :: H) := hfree.push [(a, t0)] (by simp)
  have f2 : Free 3 (t0.level + 1) ((b, t1) :: (a, t0) :: H) :=
    hfree.push [(b, t1), (a, t0)] (by simp)
  have f3 : Free 2 (t0.level + 1) ((c, t2) :: (b, t1) :: (a, t0) :: H) :=
    hfree.push [(c, t2), (b, t1), (a, t0)] (by simp)
  have f4 : Free 1 (t0.level + 1) ((d, t3) :: (c, t2) :: (b, t1) :: (a, t0) :: H) :=
    hfree.push [(d, t3), (c, t2), (b, t1), (a, t0)] (by simp)
  unfold callNonleaf
  refine Heap.Ok.bind (Heap.incRef_ok hst ha (hfree.one (by omega) (by decide)))
    fun _ s1 ⟨h1, le1⟩ => ?_
  refine Heap.Ok.bind (Heap.incRef_ok h1 (hb.grow le1) (f1.one (by omega) (by decide)))
    fun _ s2 ⟨h2, le2⟩ => ?_
  refine Heap.Ok.bind (Heap.incRef_ok h2 ((hc.grow le1).grow le2)
    (f2.one (by omega) (by decide))) fun _ s3 ⟨h3, le3⟩ => ?_
  refine Heap.Ok.bind (Heap.incRef_ok h3 (((hd.grow le1).grow le2).grow le3)
    (f3.one (by omega) (by decide))) fun _ s4 ⟨h4, _⟩ => ?_
  refine Heap.Ok.bind (@Heap.internNonleaf_ok cfg rules _ _ h4 a b c d t0 t1 t2 t3
    (by simp) (by simp) (by simp) (by simp) l1 l2 l3 (f4.one (le_refl _) (le_refl _)))
    fun r s5 h5 => ?_
  refine Heap.Ok.bind (Heap.decRef_second h5) fun _ s6 ⟨h6, _⟩ => ?_
  refine Heap.Ok.bind (Heap.decRef_second h6) fun _ s7 ⟨h7, _⟩ => ?_
  refine Heap.Ok.bind (Heap.decRef_second h7) fun _ s8 ⟨h8, _⟩ => ?_
  refine Heap.Ok.bind (Heap.decRef_second h8) fun _ s9 ⟨h9, _⟩ => ?_
  exact h9

/-- An expression `gc->findOrInsertNonleaf(a, b, c, d)->f(...)`: when `f`
returns a handle to the quadtree `P` asks for, so does the expression. -/
theorem Heap.withNonleaf_ok {s : NodeGCHashTable} {H : List (Addr × NodeType)}
    (hst : St cfg rules s H) {a b c d : Addr} {t0 t1 t2 t3 : NodeType}
    (ha : Repr s.memory a t0) (hb : Repr s.memory b t1) (hc : Repr s.memory c t2)
    (hd : Repr s.memory d t3) (l1 : t1.level = t0.level) (l2 : t2.level = t0.level)
    (l3 : t3.level = t0.level) (hfree : Free 5 (t0.level + 1) H)
    {f : Addr → M Addr} {P : NodeType → Prop}
    (hf : ∀ (tmp : Addr) (s1 : NodeGCHashTable),
      St cfg rules s1 ((tmp, NodeType.nonleaf t0 t1 t2 t3) :: (d, t3) :: (c, t2) :: (b, t1)
        :: (a, t0) :: H) →
      Ok (fun r s2 => ∃ tr, P tr ∧ St cfg rules s2 ((r, tr)
        :: (tmp, NodeType.nonleaf t0 t1 t2 t3) :: (d, t3) :: (c, t2) :: (b, t1) :: (a, t0) :: H))
        (f tmp s1)) :
    Ok (fun r s1 => ∃ tr, P tr ∧ St cfg rules s1 ((r, tr) :: H)) (withNonleaf cfg a b c d f s) := by
  have f1 : Free 4 (t0.level + 1) ((a, t0) :: H) := hfree.push [(a, t0)] (by simp)
  have f2 : Free 3 (t0.level + 1) ((b, t1) :: (a, t0) :: H) :=
    hfree.push [(b, t1), (a, t0)] (by simp)
  have f3 : Free 2 (t0.level + 1) ((c, t2) :: (b, t1) :: (a, t0) :: H) :=
    hfree.push [(c, t2), (b, t1), (a, t0)] (by simp)
  have f4 : Free 1 (t0.level + 1) ((d, t3) :: (c, t2) :: (b, t1) :: (a, t0) :: H) :=
    hfree.push [(d, t3), (c, t2), (b, t1), (a, t0)] (by simp)
  unfold withNonleaf
  refine Heap.Ok.bind (Heap.incRef_ok hst ha (hfree.one (by omega) (by decide)))
    fun _ s1 ⟨h1, le1⟩ => ?_
  refine Heap.Ok.bind (Heap.incRef_ok h1 (hb.grow le1) (f1.one (by omega) (by decide)))
    fun _ s2 ⟨h2, le2⟩ => ?_
  refine Heap.Ok.bind (Heap.incRef_ok h2 ((hc.grow le1).grow le2)
    (f2.one (by omega) (by decide))) fun _ s3 ⟨h3, le3⟩ => ?_
  refine Heap.Ok.bind (Heap.incRef_ok h3 (((hd.grow le1).grow le2).grow le3)
    (f3.one (by omega) (by decide))) fun _ s4 ⟨h4, _⟩ => ?_
  refine Heap.Ok.bind (@Heap.internNonleaf_ok cfg rules _ _ h4 a b c d t0 t1 t2 t3
    (by simp) (by simp) (by simp) (by simp) l1 l2 l3 (f4.one (le_refl _) (le_refl _)))
    fun tmp s5 h5 => ?_
  refine Heap.Ok.bind (hf tmp s5 h5) fun r s6 ⟨tr, hP, h6⟩ => ?_
  refine Heap.Ok.bind (Heap.decRef_second h6) fun _ s7 ⟨h7, _⟩ => ?_
  refine Heap.Ok.bind (Heap.decRef_second h7) fun _ s8 ⟨h8, _⟩ => ?_
  refine Heap.Ok.bind (Heap.decRef_second h8) fun _ s9 ⟨h9, _⟩ => ?_
  refine Heap.Ok.bind (Heap.decRef_second h9) fun _ s10 ⟨h10, _⟩ => ?_
  refine Heap.Ok.bind (Heap.decRef_second h10) fun _ s11 ⟨h11, _⟩ => ?_
  exact ⟨tr, hP, h11⟩

end EngineCalls

section EngineCenter
open Heap (M ret fail bindM incRef decRef decRefOpt readNode Ok Repr ShapeLe held St Addr Node Memory
  NodeGCHashTable Config Failure Inv Shrinks Interned incRefCount decRefCount findOrInsertLeaf
  findOrInsertNonleaf callNonleaf withNonleaf weakGet writeNextState setNextState lc Free Room)

variable {cfg : Config} {rules : RuleTable}

theorem Heap.Repr.kids {m : Memory} {a : Addr} {t0 t1 t2 t3 : NodeType} {n : Node}
    (h : Repr m a (NodeType.nonleaf t0 t1 t2 t3)) (hn : m a = some n) :
    n.level = t0.level + 1 ∧ Repr m n.nxny t0 ∧ Repr m n.nxpy t1 ∧ Repr m n.pxny t2
      ∧ Repr m n.pxpy t3 := by
  obtain ⟨n1, hn1, h1⟩ := h
  rw [hn] at hn1
  cases hn1
  exact h1

theorem Heap.Repr.cells {m : Memory} {a : Addr} {c0 c1 c2 c3 : CellType} {n : Node}
    (h : Repr m a (NodeType.leaf c0 c1 c2 c3)) (hn : m a = some n) :
    n.level = 0 ∧ n.nxny = c0 ∧ n.nxpy = c1 ∧ n.pxny = c2 ∧ n.pxpy = c3 := by
  obtain ⟨n1, hn1, h1⟩ := h
  rw [hn] at hn1
  cases hn1
  exact h1

theorem Heap.Repr.level_eq {m : Memory} {a : Addr} {t : NodeType} {n : Node}
    (h : Repr m a t) (hn : m a = some n) : n.level = t.level := by
  obtain ⟨n1, hn1, hl⟩ := h.node
  rw [hn] at hn1
  cases hn1
  exact hl

/-- Function `getCenter` on the store returns a handle to the centre of the
quadtree its node holds. -/
theorem Heap.getCenter_ok {s : NodeGCHashTable} {H : List (Addr × NodeType)}
    (hst : St cfg rules s H) {this : Addr} {t : NodeType} (hr : Repr s.memory this t)
    (hl : 1 ≤ t.level) (hfree : Free 6 t.level H) :
    Ok (fun r s1 => ∃ c, t.getCenter = some c ∧ St cfg rules s1 ((r, c) :: H))
      (Heap.getCenter cfg this s) := by
  have hw := hr.wellFormed hst.inv
  have hf5 : Free 5 t.level ((this, t) :: H) := hfree.push [(this, t)] (by simp)
  unfold Heap.getCenter
  refine Heap.Ok.bind (Heap.incRef_ok hst hr (hfree.one (le_refl _) (by decide)))
    fun _ s1 ⟨h1, le1⟩ => ?_
  have hr1 := hr.grow le1
  refine Heap.Ok.bind (Heap.readNode_ok hr1 fun n hn => ?_) fun n s2 (hx : s2 = s1 ∧ s1.memory this = some n) => ?_
  · exact ⟨rfl, hn⟩
  obtain ⟨rfl, hn⟩ := hx
  have hnl := hr1.level_eq hn
  rw [if_neg (by omega)]
  obtain ⟨L, hL⟩ : ∃ L, t.level = L + 1 := ⟨t.level - 1, by omega⟩
  obtain ⟨ta, tb, tc, td, rfl, wa, wb, wc, wd, la, lb, lc, ld⟩ :=
    NodeType.wellFormed_split hw hL
  rw [hL] at hnl
  obtain ⟨-, ka, kb, kc, kd⟩ := hr1.kids hn
  refine Heap.Ok.bind (Heap.readNode_ok ka fun a ha => ?_) fun a s3 (hx : s3 = s2 ∧ s2.memory n.nxny = some a) => ?_
  · exact ⟨rfl, ha⟩
  obtain ⟨rfl, ha⟩ := hx
  refine Heap.Ok.bind (Heap.readNode_ok kb fun b hb => ?_) fun b s4 (hx : s4 = s3 ∧ s3.memory n.nxpy = some b) => ?_
  · exact ⟨rfl, hb⟩
  obtain ⟨rfl, hb⟩ := hx
  refine Heap.Ok.bind (Heap.readNode_ok kc fun c hc => ?_) fun c s5 (hx : s5 = s4 ∧ s4.memory n.pxny = some c) => ?_
  · exact ⟨rfl, hc⟩
  obtain ⟨rfl, hc⟩ := hx
  refine Heap.Ok.bind (Heap.readNode_ok kd fun d hd => ?_) fun d s6 (hx : s6 = s5 ∧ s5.memory n.pxpy = some d) => ?_
  · exact ⟨rfl, hd⟩
  obtain ⟨rfl, hd⟩ := hx
  by_cases h1l : n.level = 1
  · rw [if_pos h1l]
    have l0 : L = 0 := by omega
    rw [l0] at la lb lc ld
    obtain ⟨a0, a1, a2, a3, rfl⟩ := NodeType.eq_leaf_of_level_zero la
    obtain ⟨b0, b1, b2, b3, rfl⟩ := NodeType.eq_leaf_of_level_zero lb
    obtain ⟨c0, c1, c2, c3, rfl⟩ := NodeType.eq_leaf_of_level_zero lc
    obtain ⟨d0, d1, d2, d3, rfl⟩ := NodeType.eq_leaf_of_level_zero ld
    obtain ⟨-, -, -, -, ea⟩ := ka.cells ha
    obtain ⟨-, -, -, eb, -⟩ := kb.cells hb
    obtain ⟨-, -, ec, -, -⟩ := kc.cells hc
    obtain ⟨-, ed, -, -, -⟩ := kd.cells hd
    rw [ea, eb, ec, ed]
    refine Heap.Ok.bind (Heap.internLeaf_ok h1 a3 b2 c1 d0 (hf5.one (Nat.zero_le _) (by decide)))
      fun r s7 h7 => ?_
    refine Heap.Ok.bind (Heap.decRef_second h7) fun _ s8 ⟨h8, _⟩ => ?_
    exact ⟨_, rfl, h8⟩
  · rw [if_neg h1l]
    have l0 : L = (L - 1) + 1 := by omega
    rw [l0] at la lb lc ld
    obtain ⟨a0, a1, a2, a3, rfl, -⟩ := NodeType.eq_nonleaf_of_level_succ la
    obtain ⟨b0, b1, b2, b3, rfl, -⟩ := NodeType.eq_nonleaf_of_level_succ lb
    obtain ⟨c0, c1, c2, c3, rfl, -⟩ := NodeType.eq_nonleaf_of_level_succ lc
    obtain ⟨d0, d1, d2, d3, rfl, -⟩ := NodeType.eq_nonleaf_of_level_succ ld
    obtain ⟨-, -, -, -, ea⟩ := ka.kids ha
    obtain ⟨-, -, -, eb, -⟩ := kb.kids hb
    obtain ⟨-, -, ec, -, -⟩ := kc.kids hc
    obtain ⟨-, ed, -, -, -⟩ := kd.kids hd
    obtain ⟨-, -, -, -, -, -, wa3⟩ := wa
    obtain ⟨-, -, -, -, -, wb2, -⟩ := wb
    obtain ⟨-, -, -, -, wc1, -, -⟩ := wc
    simp only [NodeType.level_nonleaf] at la lb lc ld
    refine Heap.Ok.bind (Heap.callNonleaf_ok h1 ea eb ec ed (by omega) (by omega) (by omega)
      (hf5.less (le_refl _) (by omega)))
      fun r s7 h7 => ?_
    refine Heap.Ok.bind (Heap.decRef_second h7) fun _ s8 ⟨h8, _⟩ => ?_
    exact ⟨_, rfl, h8⟩

end EngineCenter

section EngineCache
open Heap (M ret fail bindM incRef decRef decRefOpt readNode Ok Repr ShapeLe held St Addr Node Memory
  NodeGCHashTable Config Failure Inv Shrinks Interned incRefCount decRefCount findOrInsertLeaf
  findOrInsertNonleaf callNonleaf withNonleaf weakGet writeNextState setNextState nextStateLeaf
  lc Free Room)

variable {cfg : Config} {rules : RuleTable}

/-- Construction of a handle changes a reference count and nothing else. -/
theorem Heap.incRef_fields {s s1 : NodeGCHashTable} {a : Addr} (h : incRef a s = .ok ((), s1))
    (x : Addr) (n1 : Node) (hn1 : s1.memory x = some n1) :
    ∃ n0, s.memory x = some n0 ∧ n1.nextStateLogStep = n0.nextStateLogStep
      ∧ n1.nonleaf_nextState = n0.nonleaf_nextState ∧ n1.level = n0.level := by
  unfold incRef incRefCount at h
  cases hn : s.memory a with
  | none => rw [hn] at h; cases h
  | some n =>
    rw [hn] at h
    by_cases hlt : n.refcount + 1 < 256
    · simp only [hlt, if_true, Except.ok.injEq, Prod.mk.injEq, true_and] at h
      subst h
      replace hn1 : (s.memory.set a { n with refcount := n.refcount + 1 }) x = some n1 := hn1
      by_cases hxa : x = a
      · rw [hxa, Heap.Memory.set_same] at hn1
        cases hn1
        exact ⟨n, by rw [hxa]; exact hn, rfl, rfl, rfl⟩
      · rw [Heap.Memory.set_other _ _ hxa] at hn1
        exact ⟨n1, hn1, rfl, rfl, rfl⟩
    · simp only [hlt, if_false] at h
      cases h

/-- The invariant of the engine after the cache of a node was written with a
handle to its next state for the recorded step. -/
theorem Heap.St.set_cache {s : NodeGCHashTable} {H : List (Addr × NodeType)}
    (hst : St cfg rules s H) {this r : Addr} {n : Node} {t tr : NodeType} {k : Nat}
    (hn : s.memory this = some n) (ht : Repr s.memory this t) (hr : Repr s.memory r tr)
    (hk : k + 1 ≤ n.level) (hpure : t.getNextStateStep rules k = some tr) :
    St cfg rules { s with
      memory := s.memory.set this { n with nonleaf_nextState := some r, nextStateLogStep := k } }
      H := by
  have hle : ShapeLe s.memory
      (s.memory.set this { n with nonleaf_nextState := some r, nextStateLogStep := k }) := by
    intro x nx hx
    by_cases hxa : x = this
    · rw [hxa, hn] at hx
      cases hx
      exact ⟨{ n with nonleaf_nextState := some r, nextStateLogStep := k },
        by rw [hxa]; exact Heap.Memory.set_same _ _ _, ⟨rfl, rfl, rfl, rfl, rfl⟩⟩
    · exact ⟨nx, by rw [Heap.Memory.set_other _ _ hxa]; exact hx, ⟨rfl, rfl, rfl, rfl, rfl⟩⟩
  obtain ⟨nr, hnr, -⟩ := hr.node
  refine ⟨hst.valid, ?_, ?_, ?_, ?_, ?_, hst.nullOnce, ?_⟩
  · exact hst.inv.set_node hn ⟨rfl, rfl, rfl, rfl, rfl⟩ (fun x hx => by
      simp only [Option.some.injEq] at hx
      subst hx
      exact ⟨nr, hnr⟩)
  · intro x nx hx
    replace hx : (s.memory.set this
      { n with nonleaf_nextState := some r, nextStateLogStep := k }) x = some nx := hx
    by_cases hxa : x = this
    · rw [hxa, Heap.Memory.set_same] at hx
      cases hx
      exact hst.small this n hn
    · rw [Heap.Memory.set_other _ _ hxa] at hx
      exact hst.small x nx hx
  · intro x nx hx
    replace hx : (s.memory.set this
      { n with nonleaf_nextState := some r, nextStateLogStep := k }) x = some nx := hx
    show nx.refcount = (held s H).count x
    by_cases hxa : x = this
    · rw [hxa, Heap.Memory.set_same] at hx
      cases hx
      rw [hxa]
      exact hst.owns this n hn
    · rw [Heap.Memory.set_other _ _ hxa] at hx
      exact hst.owns x nx hx
  · intro p hp
    exact (hst.trees p hp).grow hle
  · intro bg i x hx
    exact (hst.nulls bg i x hx).grow hle
  · intro x nx y hx hy
    replace hx : (s.memory.set this
      { n with nonleaf_nextState := some r, nextStateLogStep := k }) x = some nx := hx
    by_cases hxa : x = this
    · rw [hxa, Heap.Memory.set_same] at hx
      cases hx
      simp only [Option.some.injEq] at hy
      subst hy
      rw [hxa]
      exact ⟨t, tr, ht.grow hle, hk, hpure, hr.grow hle⟩
    · rw [Heap.Memory.set_other _ _ hxa] at hx
      obtain ⟨u, ur, h1, h2, h3, h4⟩ := hst.cache x nx y hx hy
      exact ⟨u, ur, h1.grow hle, h2, h3, h4.grow hle⟩

/-- The statements that write the cache, for a result that is held. -/
theorem Heap.setNextState_ok {s : NodeGCHashTable} {H : List (Addr × NodeType)}
    (hst : St cfg rules s H) {this r : Addr} {t tr : NodeType} {k : Nat}
    (ht : (this, t) ∈ H) (hr : (r, tr) ∈ H) (hk : k + 1 ≤ t.level)
    (hpure : t.getNextStateStep rules k = some tr) (hroom : lc tr.level H + 1 ≤ 254) :
    Ok (fun _ s1 => St cfg rules s1 H) (setNextState this r k s) := by
  unfold setNextState
  refine Heap.Ok.bind (Heap.incRef_ok hst (hst.handle hr).1 hroom) fun _ s1 ⟨h1, _⟩ => ?_
  obtain ⟨ht1, n, hn, -, hl⟩ := h1.handle (List.mem_cons_of_mem _ ht)
  obtain ⟨hr1, -⟩ := h1.handle (List.mem_cons_of_mem _ hr)
  refine Heap.Ok.bind (Q := fun _ s2 => St cfg rules s2 ((r, tr) :: H)) ?_ fun _ s2 h2 => ?_
  · unfold writeNextState
    simp only [hn]
    exact h1.set_cache hn ht1 hr1 (by rw [hl]; exact hk) hpure
  · exact (Heap.decRef_ok h2).mono fun _ _ h => h.1

/-- Function `NodeWeakReference::get` on the cache of a node that holds the
quadtree `t`: null, or a handle to the next state of `t` for the recorded
step. -/
theorem Heap.weakGet_ok {s : NodeGCHashTable} {H : List (Addr × NodeType)}
    (hst : St cfg rules s H) {this : Addr} {t : NodeType} (hr : Repr s.memory this t)
    (hfree : Free 1 t.level H) :
    Ok (fun o s1 =>
        (o = none ∧ s1 = s)
        ∨ ∃ r tr k0, o = some r ∧ St cfg rules s1 ((r, tr) :: H) ∧ ShapeLe s.memory s1.memory
            ∧ (∀ n1, s1.memory this = some n1 → n1.nextStateLogStep = k0)
            ∧ k0 + 1 ≤ t.level ∧ t.getNextStateStep rules k0 = some tr ∧ tr.level + 1 = t.level)
      (weakGet this s) := by
  unfold weakGet
  refine Heap.Ok.bind (Heap.readNode_ok hr fun n hn => ?_)
    fun n s2 (hx : s2 = s ∧ s.memory this = some n) => ?_
  · exact ⟨rfl, hn⟩
  obtain ⟨rfl, hn⟩ := hx
  cases hc : n.nonleaf_nextState with
  | none => exact Or.inl ⟨rfl, rfl⟩
  | some r =>
    obtain ⟨u, tr, hu, hk, hp, hrr⟩ := hst.cache this n r hn hc
    have hut : u = t := hu.unique_tree hr
    subst hut
    simp only []
    have hkt : n.nextStateLogStep + 1 ≤ u.level := by
      rw [← hu.level_eq hn]
      exact hk
    have htl : tr.level + 1 = u.level := by
      obtain ⟨r1, hr1, -, hl1⟩ := NodeType.getNextStateStep_level rules (hr.wellFormed hst.inv)
        (show u.level = (u.level - 1) + 1 by omega) (show n.nextStateLogStep ≤ u.level - 1 by omega)
      rw [hp] at hr1
      cases hr1
      omega
    have hinc := Heap.incRef_ok hst hrr (hfree.one (by omega) (le_refl _))
    cases hi : incRef r s2 with
    | error e =>
      rw [hi] at hinc
      unfold bindM
      rw [hi]
      exact hinc
    | ok p =>
      obtain ⟨⟨⟩, s3⟩ := p
      rw [hi] at hinc
      unfold bindM
      rw [hi]
      refine Or.inr ⟨r, tr, n.nextStateLogStep, rfl, hinc.1, hinc.2, ?_, hkt, hp, htl⟩
      intro n1 hn1
      obtain ⟨n0, hn0, e, -⟩ := Heap.incRef_fields hi this n1 hn1
      rw [hn] at hn0
      cases hn0
      exact e

/-- The `level == 1` branch of `getNextState(gc)`. -/
theorem Heap.nextStateLeaf_ok {s : NodeGCHashTable} {H : List (Addr × NodeType)}
    (hst : St cfg rules s H) {this : Addr} {n : Node} {t : NodeType}
    (hn : s.memory this = some n) (hr : Repr s.memory this t) (hl : t.level = 1)
    (hroom : lc 0 H + 1 ≤ 254) :
    Ok (fun r s1 => ∃ tr, t.getNextState rules = some tr ∧ St cfg rules s1 ((r, tr) :: H))
      (nextStateLeaf cfg rules n s) := by
  have hw := hr.wellFormed hst.inv
  obtain ⟨ta, tb, tc, td, rfl, -, -, -, -, la, lb, lc, ld⟩ := NodeType.wellFormed_split hw hl
  obtain ⟨a0, a1, a2, a3, rfl⟩ := NodeType.eq_leaf_of_level_zero la
  obtain ⟨b0, b1, b2, b3, rfl⟩ := NodeType.eq_leaf_of_level_zero lb
  obtain ⟨c0, c1, c2, c3, rfl⟩ := NodeType.eq_leaf_of_level_zero lc
  obtain ⟨d0, d1, d2, d3, rfl⟩ := NodeType.eq_leaf_of_level_zero ld
  obtain ⟨-, ka, kb, kc, kd⟩ := hr.kids hn
  unfold nextStateLeaf
  refine Heap.Ok.bind (Heap.readNode_ok ka fun a ha => ?_)
    fun a s3 (hx : s3 = s ∧ s.memory n.nxny = some a) => ?_
  · exact ⟨rfl, ha⟩
  obtain ⟨rfl, ha⟩ := hx
  refine Heap.Ok.bind (Heap.readNode_ok kb fun b hb => ?_)
    fun b s4 (hx : s4 = s3 ∧ s3.memory n.nxpy = some b) => ?_
  · exact ⟨rfl, hb⟩
  obtain ⟨rfl, hb⟩ := hx
  refine Heap.Ok.bind (Heap.readNode_ok kc fun c hc => ?_)
    fun c s5 (hx : s5 = s4 ∧ s4.memory n.pxny = some c) => ?_
  · exact ⟨rfl, hc⟩
  obtain ⟨rfl, hc⟩ := hx
  refine Heap.Ok.bind (Heap.readNode_ok kd fun d hd => ?_)
    fun d s6 (hx : s6 = s5 ∧ s5.memory n.pxpy = some d) => ?_
  · exact ⟨rfl, hd⟩
  obtain ⟨rfl, hd⟩ := hx
  obtain ⟨-, ea0, ea1, ea2, ea3⟩ := ka.cells ha
  obtain ⟨-, eb0, eb1, eb2, eb3⟩ := kb.cells hb
  obtain ⟨-, ec0, ec1, ec2, ec3⟩ := kc.cells hc
  obtain ⟨-, ed0, ed1, ed2, ed3⟩ := kd.cells hd
  rw [ea0, ea1, ea2, ea3, eb0, eb1, eb2, eb3, ec0, ec1, ec2, ec3, ed0, ed1, ed2, ed3]
  exact (Heap.internLeaf_ok hst _ _ _ _ hroom).mono fun r s1 h => ⟨_, rfl, h⟩

end EngineCache

section EngineRounds
open Heap (M ret fail bindM incRef decRef decRefOpt readNode Ok Repr ShapeLe held St Addr Node Memory
  NodeGCHashTable Config Failure Inv Shrinks Interned incRefCount decRefCount findOrInsertLeaf
  findOrInsertNonleaf callNonleaf withNonleaf weakGet writeNextState setNextState nextStateLeaf
  firstRound secondRound dropLocals lc Free Room Ext)

variable {cfg : Config} {rules : RuleTable}

/-- A read through a pointer to a non-leaf node, followed by `k`. -/
theorem Heap.bind_readNode {β : Type} {s : NodeGCHashTable} {x : Addr}
    {u0 u1 u2 u3 : NodeType} (hr : Repr s.memory x (NodeType.nonleaf u0 u1 u2 u3))
    {k : Node → M β} {Q : β → NodeGCHashTable → Prop}
    (h : ∀ n, s.memory x = some n → Repr s.memory n.nxny u0 → Repr s.memory n.nxpy u1 →
      Repr s.memory n.pxny u2 → Repr s.memory n.pxpy u3 → Ok Q (k n s)) :
    Ok Q (bindM (readNode x) k s) := by
  obtain ⟨n, hn, -⟩ := hr.node
  obtain ⟨-, k0, k1, k2, k3⟩ := hr.kids hn
  unfold bindM readNode
  simp only [hn]
  exact h n hn k0 k1 k2 k3

/-- The nine first-round calls: when the recursive call `f` returns handles to
what `F` computes on quadtrees of level `L + 1`, the nine results are handles
to the nine first-round quadtrees. -/
theorem Heap.firstRound_ok {s : NodeGCHashTable} {H : List (Addr × NodeType)}
    (hst : St cfg rules s H) {this : Addr}
    {a0 a1 a2 a3 b0 b1 b2 b3 c0 c1 c2 c3 d0 d1 d2 d3 : NodeType}
    (hm : (this, NodeType.nonleaf (NodeType.nonleaf a0 a1 a2 a3) (NodeType.nonleaf b0 b1 b2 b3)
      (NodeType.nonleaf c0 c1 c2 c3) (NodeType.nonleaf d0 d1 d2 d3)) ∈ H)
    {L : Nat}
    (hlev : ∀ u, u ∈ [a0, a1, a2, a3, b0, b1, b2, b3, c0, c1, c2, c3, d0, d1, d2, d3] → u.level = L)
    (hfree : Free 13 (L + 1) H)
    {f : Addr → M Addr} {F : NodeType → Option NodeType}
    {R : List (Addr × NodeType) → Prop} (hR : ∀ H1, Ext L 13 H H1 → R H1)
    (hf : ∀ (x : Addr) (u : NodeType) (s1 : NodeGCHashTable) (H1 : List (Addr × NodeType)),
      St cfg rules s1 H1 → R H1 → Repr s1.memory x u → u.level = L + 1 →
      Ok (fun r s2 => ∃ ur, (F u = some ur ∧ ur.level = L) ∧ St cfg rules s2 ((r, ur) :: H1))
        (f x s1)) :
    Ok (fun p s1 => ∃ x1 x2 x3 x4 x5 x6 x7 x8 x9,
        ((F (NodeType.nonleaf a0 a1 a2 a3) = some x1 ∧ x1.level = L)
          ∧ (F (NodeType.nonleaf b0 b1 b2 b3) = some x2 ∧ x2.level = L)
          ∧ (F (NodeType.nonleaf c0 c1 c2 c3) = some x3 ∧ x3.level = L)
          ∧ (F (NodeType.nonleaf d0 d1 d2 d3) = some x4 ∧ x4.level = L)
          ∧ (F (NodeType.nonleaf a1 b0 a3 b2) = some x5 ∧ x5.level = L)
          ∧ (F (NodeType.nonleaf c1 d0 c3 d2) = some x6 ∧ x6.level = L)
          ∧ (F (NodeType.nonleaf a2 a3 c0 c1) = some x7 ∧ x7.level = L)
          ∧ (F (NodeType.nonleaf b2 b3 d0 d1) = some x8 ∧ x8.level = L)
          ∧ (F (NodeType.nonleaf a3 b2 c1 d0) = some x9 ∧ x9.level = L))
        ∧ St cfg rules s1 ((p.2.2.2.2.2.2.2.2, x9) :: (p.2.2.2.2.2.2.2.1, x8)
            :: (p.2.2.2.2.2.2.1, x7) :: (p.2.2.2.2.2.1, x6) :: (p.2.2.2.2.1, x5)
            :: (p.2.2.2.1, x4) :: (p.2.2.1, x3) :: (p.2.1, x2) :: (p.1, x1) :: H))
      (firstRound cfg this f s) := by
  have lv : ∀ (u0 u1 u2 u3 : NodeType), u0.level = L → (NodeType.nonleaf u0 u1 u2 u3).level = L + 1 := by
    intro u0 u1 u2 u3 h
    rw [NodeType.level_nonleaf, h, Nat.add_comm]
  have lt : ∀ (u0 u1 u2 u3 : NodeType), u0.level = L → L ≤ (NodeType.nonleaf u0 u1 u2 u3).level := by
    intro u0 u1 u2 u3 h
    rw [lv _ _ _ _ h]
    exact Nat.le_succ _
  have la0 := hlev a0 (by simp)
  have la1 := hlev a1 (by simp)
  have la2 := hlev a2 (by simp)
  have la3 := hlev a3 (by simp)
  have lb0 := hlev b0 (by simp)
  have lb2 := hlev b2 (by simp)
  have lb3 := hlev b3 (by simp)
  have lc0 := hlev c0 (by simp)
  have lc1 := hlev c1 (by simp)
  have lc3 := hlev c3 (by simp)
  have ld0 := hlev d0 (by simp)
  have ld1 := hlev d1 (by simp)
  have ld2 := hlev d2 (by simp)
  have x0 := Heap.Ext.zero L H
  unfold firstRound
  refine Heap.bind_readNode (hst.handle hm).1 fun n _ ka _ _ _ => ?_
  refine Heap.Ok.bind (hf _ _ _ _ hst (hR _ (x0.more (by decide))) ka (lv _ _ _ _ la0))
    fun r1 s1 ⟨x1, e1, h1⟩ => ?_
  have y1 : Ext L 1 H ((r1, x1) :: H) := x0.cons (ge_of_eq e1.2)
  refine Heap.bind_readNode (h1.handle (List.mem_cons_of_mem _ hm)).1 fun n _ _ kb _ _ => ?_
  refine Heap.Ok.bind (hf _ _ _ _ h1 (hR _ (y1.more (by decide))) kb (lv _ _ _ _ lb0))
    fun r2 s2 ⟨x2, e2, h2⟩ => ?_
  have y2 : Ext L 2 H ((r2, x2) :: (r1, x1) :: H) := y1.cons (ge_of_eq e2.2)
  have m2 := List.mem_cons_of_mem (r2, x2) (List.mem_cons_of_mem (r1, x1) hm)
  refine Heap.bind_readNode (h2.handle m2).1 fun n _ _ _ kc _ => ?_
  refine Heap.Ok.bind (hf _ _ _ _ h2 (hR _ (y2.more (by decide))) kc (lv _ _ _ _ lc0))
    fun r3 s3 ⟨x3, e3, h3⟩ => ?_
  have y3 : Ext L 3 H ((r3, x3) :: (r2, x2) :: (r1, x1) :: H) := y2.cons (ge_of_eq e3.2)
  have m3 := List.mem_cons_of_mem (r3, x3) m2
  refine Heap.bind_readNode (h3.handle m3).1 fun n _ _ _ _ kd => ?_
  refine Heap.Ok.bind (hf _ _ _ _ h3 (hR _ (y3.more (by decide))) kd (lv _ _ _ _ ld0))
    fun r4 s4 ⟨x4, e4, h4⟩ => ?_
  have y4 : Ext L 4 H ((r4, x4) :: (r3, x3) :: (r2, x2) :: (r1, x1) :: H) :=
    y3.cons (ge_of_eq e4.2)
  have m4 := List.mem_cons_of_mem (r4, x4) m3
  -- step1_nxcy
  refine Heap.bind_readNode (h4.handle m4).1 fun n _ ka kb _ _ => ?_
  refine Heap.bind_readNode ka fun a _ _ ka1 _ ka3 => ?_
  refine Heap.bind_readNode kb fun b _ kb0 _ kb2 _ => ?_
  refine Heap.Ok.bind (Heap.withNonleaf_ok h4 ka1 kb0 ka3 kb2 (by rw [lb0, la1]) (by rw [la3, la1])
    (by rw [lb2, la1]) (by rw [la1]; exact hfree.after y4 (by decide))
    (P := fun tr => F (NodeType.nonleaf a1 b0 a3 b2) = some tr ∧ tr.level = L)
    (fun tmp s' hs' => hf tmp _ s' _ hs' (hR _ ((((((y4.cons (ge_of_eq la1)).cons
      (ge_of_eq lb0)).cons (ge_of_eq la3)).cons (ge_of_eq lb2)).cons
      (lt a1 b0 a3 b2 la1)).more (by decide)))
      (hs'.trees _ (List.mem_cons_self _ _)) (lv _ _ _ _ la1)))
    fun r5 s5 ⟨x5, e5, h5⟩ => ?_
  have y5 : Ext L 5 H ((r5, x5) :: (r4, x4) :: (r3, x3) :: (r2, x2) :: (r1, x1) :: H) :=
    y4.cons (ge_of_eq e5.2)
  have m5 := List.mem_cons_of_mem (r5, x5) m4
  -- step1_pxcy
  refine Heap.bind_readNode (h5.handle m5).1 fun n _ _ _ kc kd => ?_
  refine Heap.bind_readNode kc fun c _ _ kc1 _ kc3 => ?_
  refine Heap.bind_readNode kd fun d _ kd0 _ kd2 _ => ?_
  refine Heap.Ok.bind (Heap.withNonleaf_ok h5 kc1 kd0 kc3 kd2 (by rw [ld0, lc1]) (by rw [lc3, lc1])
    (by rw [ld2, lc1]) (by rw [lc1]; exact hfree.after y5 (by decide))
    (P := fun tr => F (NodeType.nonleaf c1 d0 c3 d2) = some tr ∧ tr.level = L)
    (fun tmp s' hs' => hf tmp _ s' _ hs' (hR _ ((((((y5.cons (ge_of_eq lc1)).cons
      (ge_of_eq ld0)).cons (ge_of_eq lc3)).cons (ge_of_eq ld2)).cons
      (lt c1 d0 c3 d2 lc1)).more (by decide)))
      (hs'.trees _ (List.mem_cons_self _ _)) (lv _ _ _ _ lc1)))
    fun r6 s6 ⟨x6, e6, h6⟩ => ?_
  have y6 : Ext L 6 H ((r6, x6) :: (r5, x5) :: (r4, x4) :: (r3, x3) :: (r2, x2) :: (r1, x1)
      :: H) := y5.cons (ge_of_eq e6.2)
  have m6 := List.mem_cons_of_mem (r6, x6) m5
  -- step1_cxny
  refine Heap.bind_readNode (h6.handle m6).1 fun n _ ka _ kc _ => ?_
  refine Heap.bind_readNode ka fun a _ _ _ ka2 ka3 => ?_
  refine Heap.bind_readNode kc fun c _ kc0 kc1 _ _ => ?_
  refine Heap.Ok.bind (Heap.withNonleaf_ok h6 ka2 ka3 kc0 kc1 (by rw [la3, la2]) (by rw [lc0, la2])
    (by rw [lc1, la2]) (by rw [la2]; exact hfree.after y6 (by decide))
    (P := fun tr => F (NodeType.nonleaf a2 a3 c0 c1) = some tr ∧ tr.level = L)
    (fun tmp s' hs' => hf tmp _ s' _ hs' (hR _ ((((((y6.cons (ge_of_eq la2)).cons
      (ge_of_eq la3)).cons (ge_of_eq lc0)).cons (ge_of_eq lc1)).cons
      (lt a2 a3 c0 c1 la2)).more (by decide)))
      (hs'.trees _ (List.mem_cons_self _ _)) (lv _ _ _ _ la2)))
    fun r7 s7 ⟨x7, e7, h7⟩ => ?_
  have y7 : Ext L 7 H ((r7, x7) :: (r6, x6) :: (r5, x5) :: (r4, x4) :: (r3, x3) :: (r2, x2)
      :: (r1, x1) :: H) := y6.cons (ge_of_eq e7.2)
  have m7 := List.mem_cons_of_mem (r7, x7) m6
  -- step1_cxpy
  refine Heap.bind_readNode (h7.handle m7).1 fun n _ _ kb _ kd => ?_
  refine Heap.bind_readNode kb fun b _ _ _ kb2 kb3 => ?_
  refine Heap.bind_readNode kd fun d _ kd0 kd1 _ _ => ?_
  refine Heap.Ok.bind (Heap.withNonleaf_ok h7 kb2 kb3 kd0 kd1 (by rw [lb3, lb2]) (by rw [ld0, lb2])
    (by rw [ld1, lb2]) (by rw [lb2]; exact hfree.after y7 (by decide))
    (P := fun tr => F (NodeType.nonleaf b2 b3 d0 d1) = some tr ∧ tr.level = L)
    (fun tmp s' hs' => hf tmp _ s' _ hs' (hR _ ((((((y7.cons (ge_of_eq lb2)).cons
      (ge_of_eq lb3)).cons (ge_of_eq ld0)).cons (ge_of_eq ld1)).cons
      (lt b2 b3 d0 d1 lb2)).more (by decide)))
      (hs'.trees _ (List.mem_cons_self _ _)) (lv _ _ _ _ lb2)))
    fun r8 s8 ⟨x8, e8, h8⟩ => ?_
  have y8 : Ext L 8 H ((r8, x8) :: (r7, x7) :: (r6, x6) :: (r5, x5) :: (r4, x4) :: (r3, x3)
      :: (r2, x2) :: (r1, x1) :: H) := y7.cons (ge_of_eq e8.2)
  have m8 := List.mem_cons_of_mem (r8, x8) m7
  -- step1_cxcy
  refine Heap.bind_readNode (h8.handle m8).1 fun n _ ka kb kc kd => ?_
  refine Heap.bind_readNode ka fun a _ _ _ _ ka3 => ?_
  refine Heap.bind_readNode kb fun b _ _ _ kb2 _ => ?_
  refine Heap.bind_readNode kc fun c _ _ kc1 _ _ => ?_
  refine Heap.bind_readNode kd fun d _ kd0 _ _ _ => ?_
  refine Heap.Ok.bind (Heap.withNonleaf_ok h8 ka3 kb2 kc1 kd0 (by rw [lb2, la3]) (by rw [lc1, la3])
    (by rw [ld0, la3]) (by rw [la3]; exact hfree.after y8 (by decide))
    (P := fun tr => F (NodeType.nonleaf a3 b2 c1 d0) = some tr ∧ tr.level = L)
    (fun tmp s' hs' => hf tmp _ s' _ hs' (hR _ ((((((y8.cons (ge_of_eq la3)).cons
      (ge_of_eq lb2)).cons (ge_of_eq lc1)).cons (ge_of_eq ld0)).cons
      (lt a3 b2 c1 d0 la3)).more (by decide)))
      (hs'.trees _ (List.mem_cons_self _ _)) (lv _ _ _ _ la3)))
    fun r9 s9 ⟨x9, e9, h9⟩ => ?_
  exact ⟨x1, x2, x3, x4, x5, x6, x7, x8, x9, ⟨e1, e2, e3, e4, e5, e6, e7, e8, e9⟩, h9⟩

end EngineRounds

section EngineSecond
open Heap (M ret fail bindM incRef decRef decRefOpt readNode Ok Repr ShapeLe held St Addr Node Memory
  NodeGCHashTable Config Failure Inv Shrinks Interned incRefCount decRefCount findOrInsertLeaf
  findOrInsertNonleaf callNonleaf withNonleaf weakGet writeNextState setNextState nextStateLeaf
  firstRound secondRound dropLocals lc Free Room Ext)

variable {cfg : Config} {rules : RuleTable}

/-- The four second-round calls and the interning call of the result: when
`g` returns handles to what `G` computes on quadtrees of level `L + 1`, the
result is a handle to the quadtree of the four second-round results. -/
theorem Heap.secondRound_ok {s : NodeGCHashTable} {H : List (Addr × NodeType)}
    {p : Addr × Addr × Addr × Addr × Addr × Addr × Addr × Addr × Addr}
    {x1 x2 x3 x4 x5 x6 x7 x8 x9 : NodeType} {L : Nat}
    (hst : St cfg rules s ((p.2.2.2.2.2.2.2.2, x9) :: (p.2.2.2.2.2.2.2.1, x8)
      :: (p.2.2.2.2.2.2.1, x7) :: (p.2.2.2.2.2.1, x6) :: (p.2.2.2.2.1, x5)
      :: (p.2.2.2.1, x4) :: (p.2.2.1, x3) :: (p.2.1, x2) :: (p.1, x1) :: H))
    (hlev : ∀ u, u ∈ [x1, x2, x3, x4, x5, x6, x7, x8, x9] → u.level = L)
    (hfree : Free 9 (L + 1) ((p.2.2.2.2.2.2.2.2, x9) :: (p.2.2.2.2.2.2.2.1, x8)
      :: (p.2.2.2.2.2.2.1, x7) :: (p.2.2.2.2.2.1, x6) :: (p.2.2.2.2.1, x5)
      :: (p.2.2.2.1, x4) :: (p.2.2.1, x3) :: (p.2.1, x2) :: (p.1, x1) :: H))
    {g : Addr → M Addr} {G : NodeType → Option NodeType}
    {R : List (Addr × NodeType) → Prop}
    (hR : ∀ H1, Ext L 8 ((p.2.2.2.2.2.2.2.2, x9) :: (p.2.2.2.2.2.2.2.1, x8)
      :: (p.2.2.2.2.2.2.1, x7) :: (p.2.2.2.2.2.1, x6) :: (p.2.2.2.2.1, x5)
      :: (p.2.2.2.1, x4) :: (p.2.2.1, x3) :: (p.2.1, x2) :: (p.1, x1) :: H) H1 → R H1)
    (hg : ∀ (x : Addr) (u : NodeType) (s1 : NodeGCHashTable) (H1 : List (Addr × NodeType)),
      St cfg rules s1 H1 → R H1 → Repr s1.memory x u → u.level = L + 1 →
      Ok (fun r s2 => ∃ ur, (G u = some ur ∧ ur.level = L) ∧ St cfg rules s2 ((r, ur) :: H1))
        (g x s1)) :
    Ok (fun q s1 => ∃ y1 y2 y3 y4,
        (G (NodeType.nonleaf x1 x5 x7 x9) = some y1 ∧ G (NodeType.nonleaf x5 x2 x9 x8) = some y2
          ∧ G (NodeType.nonleaf x7 x9 x3 x6) = some y3 ∧ G (NodeType.nonleaf x9 x8 x6 x4) = some y4
          ∧ y1.level = L)
        ∧ St cfg rules s1 ((q.1, NodeType.nonleaf y1 y2 y3 y4) :: (q.2.2.2.2, y4) :: (q.2.2.2.1, y3)
            :: (q.2.2.1, y2) :: (q.2.1, y1) :: (p.2.2.2.2.2.2.2.2, x9) :: (p.2.2.2.2.2.2.2.1, x8)
            :: (p.2.2.2.2.2.2.1, x7) :: (p.2.2.2.2.2.1, x6) :: (p.2.2.2.2.1, x5)
            :: (p.2.2.2.1, x4) :: (p.2.2.1, x3) :: (p.2.1, x2) :: (p.1, x1) :: H))
      (secondRound cfg p g s) := by
  obtain ⟨p1, p2, p3, p4, p5, p6, p7, p8, p9⟩ := p
  simp only at hst hfree hR ⊢
  have lv : ∀ (u0 u1 u2 u3 : NodeType), u0.level = L → (NodeType.nonleaf u0 u1 u2 u3).level = L + 1 := by
    intro u0 u1 u2 u3 h
    rw [NodeType.level_nonleaf, h, Nat.add_comm]
  have lt : ∀ (u0 u1 u2 u3 : NodeType), u0.level = L → L ≤ (NodeType.nonleaf u0 u1 u2 u3).level := by
    intro u0 u1 u2 u3 h
    rw [lv _ _ _ _ h]
    exact Nat.le_succ _
  have l1 := hlev x1 (by simp)
  have l2 := hlev x2 (by simp)
  have l3 := hlev x3 (by simp)
  have l4 := hlev x4 (by simp)
  have l5 := hlev x5 (by simp)
  have l6 := hlev x6 (by simp)
  have l7 := hlev x7 (by simp)
  have l8 := hlev x8 (by simp)
  have l9 := hlev x9 (by simp)
  have z0 := Heap.Ext.zero L ((p9, x9) :: (p8, x8) :: (p7, x7) :: (p6, x6) :: (p5, x5) :: (p4, x4) :: (p3, x3) :: (p2, x2) :: (p1, x1) :: H)
  unfold secondRound
  simp only []
  have r : ∀ {s' : NodeGCHashTable} {H' : List (Addr × NodeType)} (h : St cfg rules s' H')
      {a : Addr} {u : NodeType}, (a, u) ∈ H' → Repr s'.memory a u := fun h _ _ hm => (h.handle hm).1
  refine Heap.Ok.bind (Heap.withNonleaf_ok hst (r hst (by simp : (p1, x1) ∈ _))
    (r hst (by simp : (p5, x5) ∈ _)) (r hst (by simp : (p7, x7) ∈ _))
    (r hst (by simp : (p9, x9) ∈ _)) (by rw [l5, l1]) (by rw [l7, l1]) (by rw [l9, l1])
    (by rw [l1]; exact hfree.after z0 (by decide))
    (P := fun tr => G (NodeType.nonleaf x1 x5 x7 x9) = some tr ∧ tr.level = L)
    (fun tmp s' hs' => hg tmp _ s' _ hs' (hR _ ((((((z0.cons (ge_of_eq l1)).cons
      (ge_of_eq l5)).cons (ge_of_eq l7)).cons (ge_of_eq l9)).cons
      (lt x1 x5 x7 x9 l1)).more (by decide)))
      (hs'.trees _ (List.mem_cons_self _ _)) (lv _ _ _ _ l1)))
    fun f1 s1 ⟨y1, e1, h1⟩ => ?_
  have z1 : Ext L 1 ((p9, x9) :: (p8, x8) :: (p7, x7) :: (p6, x6) :: (p5, x5) :: (p4, x4) :: (p3, x3) :: (p2, x2) :: (p1, x1) :: H) ((f1, y1) :: ((p9, x9) :: (p8, x8) :: (p7, x7) :: (p6, x6) :: (p5, x5) :: (p4, x4) :: (p3, x3) :: (p2, x2) :: (p1, x1) :: H)) := z0.cons (ge_of_eq e1.2)
  refine Heap.Ok.bind (Heap.withNonleaf_ok h1 (r h1 (by simp : (p5, x5) ∈ _))
    (r h1 (by simp : (p2, x2) ∈ _)) (r h1 (by simp : (p9, x9) ∈ _))
    (r h1 (by simp : (p8, x8) ∈ _)) (by rw [l2, l5]) (by rw [l9, l5]) (by rw [l8, l5])
    (by rw [l5]; exact hfree.after z1 (by decide))
    (P := fun tr => G (NodeType.nonleaf x5 x2 x9 x8) = some tr ∧ tr.level = L)
    (fun tmp s' hs' => hg tmp _ s' _ hs' (hR _ ((((((z1.cons (ge_of_eq l5)).cons
      (ge_of_eq l2)).cons (ge_of_eq l9)).cons (ge_of_eq l8)).cons
      (lt x5 x2 x9 x8 l5)).more (by decide)))
      (hs'.trees _ (List.mem_cons_self _ _)) (lv _ _ _ _ l5)))
    fun f2 s2 ⟨y2, e2, h2⟩ => ?_
  have z2 : Ext L 2 ((p9, x9) :: (p8, x8) :: (p7, x7) :: (p6, x6) :: (p5, x5) :: (p4, x4) :: (p3, x3) :: (p2, x2) :: (p1, x1) :: H) ((f2, y2) :: (f1, y1) :: ((p9, x9) :: (p8, x8) :: (p7, x7) :: (p6, x6) :: (p5, x5) :: (p4, x4) :: (p3, x3) :: (p2, x2) :: (p1, x1) :: H)) := z1.cons (ge_of_eq e2.2)
  refine Heap.Ok.bind (Heap.withNonleaf_ok h2 (r h2 (by simp : (p7, x7) ∈ _))
    (r h2 (by simp : (p9, x9) ∈ _)) (r h2 (by simp : (p3, x3) ∈ _))
    (r h2 (by simp : (p6, x6) ∈ _)) (by rw [l9, l7]) (by rw [l3, l7]) (by rw [l6, l7])
    (by rw [l7]; exact hfree.after z2 (by decide))
    (P := fun tr => G (NodeType.nonleaf x7 x9 x3 x6) = some tr ∧ tr.level = L)
    (fun tmp s' hs' => hg tmp _ s' _ hs' (hR _ ((((((z2.cons (ge_of_eq l7)).cons
      (ge_of_eq l9)).cons (ge_of_eq l3)).cons (ge_of_eq l6)).cons
      (lt x7 x9 x3 x6 l7)).more (by decide)))
      (hs'.trees _ (List.mem_cons_self _ _)) (lv _ _ _ _ l7)))
    fun f3 s3 ⟨y3, e3, h3⟩ => ?_
  have z3 : Ext L 3 ((p9, x9) :: (p8, x8) :: (p7, x7) :: (p6, x6) :: (p5, x5) :: (p4, x4) :: (p3, x3) :: (p2, x2) :: (p1, x1) :: H) ((f3, y3) :: (f2, y2) :: (f1, y1) :: ((p9, x9) :: (p8, x8) :: (p7, x7) :: (p6, x6) :: (p5, x5) :: (p4, x4) :: (p3, x3) :: (p2, x2) :: (p1, x1) :: H)) := z2.cons (ge_of_eq e3.2)
  refine Heap.Ok.bind (Heap.withNonleaf_ok h3 (r h3 (by simp : (p9, x9) ∈ _))
    (r h3 (by simp : (p8, x8) ∈ _)) (r h3 (by simp : (p6, x6) ∈ _))
    (r h3 (by simp : (p4, x4) ∈ _)) (by rw [l8, l9]) (by rw [l6, l9]) (by rw [l4, l9])
    (by rw [l9]; exact hfree.after z3 (by decide))
    (P := fun tr => G (NodeType.nonleaf x9 x8 x6 x4) = some tr ∧ tr.level = L)
    (fun tmp s' hs' => hg tmp _ s' _ hs' (hR _ ((((((z3.cons (ge_of_eq l9)).cons
      (ge_of_eq l8)).cons (ge_of_eq l6)).cons (ge_of_eq l4)).cons
      (lt x9 x8 x6 x4 l9)).more (by decide)))
      (hs'.trees _ (List.mem_cons_self _ _)) (lv _ _ _ _ l9)))
    fun f4 s4 ⟨y4, e4, h4⟩ => ?_
  have z4 : Ext L 4 ((p9, x9) :: (p8, x8) :: (p7, x7) :: (p6, x6) :: (p5, x5) :: (p4, x4) :: (p3, x3) :: (p2, x2) :: (p1, x1) :: H) ((f4, y4) :: (f3, y3) :: (f2, y2) :: (f1, y1) :: ((p9, x9) :: (p8, x8) :: (p7, x7) :: (p6, x6) :: (p5, x5) :: (p4, x4) :: (p3, x3) :: (p2, x2) :: (p1, x1) :: H)) :=
    z3.cons (ge_of_eq e4.2)
  refine Heap.Ok.bind (Heap.callNonleaf_ok h4 (r h4 (by simp : (f1, y1) ∈ _))
    (r h4 (by simp : (f2, y2) ∈ _)) (r h4 (by simp : (f3, y3) ∈ _))
    (r h4 (by simp : (f4, y4) ∈ _)) (by rw [e2.2, e1.2]) (by rw [e3.2, e1.2]) (by rw [e4.2, e1.2])
    (by rw [e1.2]; exact hfree.after z4 (by decide)))
    fun q s5 h5 => ?_
  exact ⟨y1, y2, y3, y4, ⟨e1.1, e2.1, e3.1, e4.1, e1.2⟩, h5⟩

/-- Destruction of the thirteen local handles. -/
theorem Heap.dropLocals_ok {s : NodeGCHashTable} {H : List (Addr × NodeType)}
    {p : Addr × Addr × Addr × Addr × Addr × Addr × Addr × Addr × Addr}
    {q : Addr × Addr × Addr × Addr × Addr}
    {x1 x2 x3 x4 x5 x6 x7 x8 x9 y1 y2 y3 y4 : NodeType} {top : Addr × NodeType}
    (hst : St cfg rules s (top :: (q.2.2.2.2, y4) :: (q.2.2.2.1, y3)
      :: (q.2.2.1, y2) :: (q.2.1, y1) :: (p.2.2.2.2.2.2.2.2, x9) :: (p.2.2.2.2.2.2.2.1, x8)
      :: (p.2.2.2.2.2.2.1, x7) :: (p.2.2.2.2.2.1, x6) :: (p.2.2.2.2.1, x5)
      :: (p.2.2.2.1, x4) :: (p.2.2.1, x3) :: (p.2.1, x2) :: (p.1, x1) :: H)) :
    Ok (fun _ s1 => St cfg rules s1 (top :: H)) (dropLocals p q s) := by
  obtain ⟨p1, p2, p3, p4, p5, p6, p7, p8, p9⟩ := p
  obtain ⟨q0, q1, q2, q3, q4⟩ := q
  simp only at hst
  unfold dropLocals
  simp only []
  refine Heap.Ok.bind (Heap.decRef_second hst) fun _ s1 ⟨h1, _⟩ => ?_
  refine Heap.Ok.bind (Heap.decRef_second h1) fun _ s2 ⟨h2, _⟩ => ?_
  refine Heap.Ok.bind (Heap.decRef_second h2) fun _ s3 ⟨h3, _⟩ => ?_
  refine Heap.Ok.bind (Heap.decRef_second h3) fun _ s4 ⟨h4, _⟩ => ?_
  refine Heap.Ok.bind (Heap.decRef_second h4) fun _ s5 ⟨h5, _⟩ => ?_
  refine Heap.Ok.bind (Heap.decRef_second h5) fun _ s6 ⟨h6, _⟩ => ?_
  refine Heap.Ok.bind (Heap.decRef_second h6) fun _ s7 ⟨h7, _⟩ => ?_
  refine Heap.Ok.bind (Heap.decRef_second h7) fun _ s8 ⟨h8, _⟩ => ?_
  refine Heap.Ok.bind (Heap.decRef_second h8) fun _ s9 ⟨h9, _⟩ => ?_
  refine Heap.Ok.bind (Heap.decRef_second h9) fun _ s10 ⟨h10, _⟩ => ?_
  refine Heap.Ok.bind (Heap.decRef_second h10) fun _ s11 ⟨h11, _⟩ => ?_
  refine Heap.Ok.bind (Heap.decRef_second h11) fun _ s12 ⟨h12, _⟩ => ?_
  exact (Heap.decRef_second h12).mono fun _ _ h => h.1

end EngineSecond

section EngineBoth
open Heap (M ret fail bindM incRef decRef decRefOpt readNode Ok Repr ShapeLe held St Addr Node Memory
  NodeGCHashTable Config Failure Inv Shrinks Interned incRefCount decRefCount findOrInsertLeaf
  findOrInsertNonleaf callNonleaf withNonleaf weakGet writeNextState setNextState nextStateLeaf
  firstRound secondRound dropLocals lc Free Room Ext)

variable {cfg : Config} {rules : RuleTable}

/-- The two rounds of calls of both `getNextState` overloads, followed by
`k`: the thirteen results are handles to what `F` computes on the nine
first-round quadtrees and `G` on the four quadtrees made of these. -/
theorem Heap.rounds_ok {s : NodeGCHashTable} {H : List (Addr × NodeType)}
    (hst : St cfg rules s H) {this : Addr}
    {a0 a1 a2 a3 b0 b1 b2 b3 c0 c1 c2 c3 d0 d1 d2 d3 : NodeType}
    (hm : (this, NodeType.nonleaf (NodeType.nonleaf a0 a1 a2 a3) (NodeType.nonleaf b0 b1 b2 b3)
      (NodeType.nonleaf c0 c1 c2 c3) (NodeType.nonleaf d0 d1 d2 d3)) ∈ H)
    {L : Nat}
    (hlev : ∀ u, u ∈ [a0, a1, a2, a3, b0, b1, b2, b3, c0, c1, c2, c3, d0, d1, d2, d3] → u.level = L)
    (hfree : Free 18 (L + 1) H)
    {f g : Addr → M Addr} {F G : NodeType → Option NodeType}
    {R Rg : List (Addr × NodeType) → Prop} (hR : ∀ H1, Ext L 13 H H1 → R H1)
    (hRg : ∀ H1, Ext L 17 H H1 → Rg H1)
    (hf : ∀ (x : Addr) (u : NodeType) (s1 : NodeGCHashTable) (H1 : List (Addr × NodeType)),
      St cfg rules s1 H1 → R H1 → Repr s1.memory x u → u.level = L + 1 →
      Ok (fun r s2 => ∃ ur, (F u = some ur ∧ ur.level = L) ∧ St cfg rules s2 ((r, ur) :: H1))
        (f x s1))
    (hg : ∀ (x : Addr) (u : NodeType) (s1 : NodeGCHashTable) (H1 : List (Addr × NodeType)),
      St cfg rules s1 H1 → Rg H1 → Repr s1.memory x u → u.level = L + 1 →
      Ok (fun r s2 => ∃ ur, (G u = some ur ∧ ur.level = L) ∧ St cfg rules s2 ((r, ur) :: H1))
        (g x s1))
    {β : Type} {k : Addr × Addr × Addr × Addr × Addr × Addr × Addr × Addr × Addr →
      Addr × Addr × Addr × Addr × Addr → M β} {Q : β → NodeGCHashTable → Prop}
    (hk : ∀ (p : Addr × Addr × Addr × Addr × Addr × Addr × Addr × Addr × Addr)
      (q : Addr × Addr × Addr × Addr × Addr) (s1 : NodeGCHashTable)
      (x1 x2 x3 x4 x5 x6 x7 x8 x9 y1 y2 y3 y4 : NodeType),
      ((F (NodeType.nonleaf a0 a1 a2 a3) = some x1 ∧ x1.level = L)
          ∧ (F (NodeType.nonleaf b0 b1 b2 b3) = some x2 ∧ x2.level = L)
          ∧ (F (NodeType.nonleaf c0 c1 c2 c3) = some x3 ∧ x3.level = L)
          ∧ (F (NodeType.nonleaf d0 d1 d2 d3) = some x4 ∧ x4.level = L)
          ∧ (F (NodeType.nonleaf a1 b0 a3 b2) = some x5 ∧ x5.level = L)
          ∧ (F (NodeType.nonleaf c1 d0 c3 d2) = some x6 ∧ x6.level = L)
          ∧ (F (NodeType.nonleaf a2 a3 c0 c1) = some x7 ∧ x7.level = L)
          ∧ (F (NodeType.nonleaf b2 b3 d0 d1) = some x8 ∧ x8.level = L)
          ∧ (F (NodeType.nonleaf a3 b2 c1 d0) = some x9 ∧ x9.level = L)) →
      (G (NodeType.nonleaf x1 x5 x7 x9) = some y1 ∧ G (NodeType.nonleaf x5 x2 x9 x8) = some y2
          ∧ G (NodeType.nonleaf x7 x9 x3 x6) = some y3 ∧ G (NodeType.nonleaf x9 x8 x6 x4) = some y4
          ∧ y1.level = L) →
      St cfg rules s1 ((q.1, NodeType.nonleaf y1 y2 y3 y4) :: (q.2.2.2.2, y4) :: (q.2.2.2.1, y3)
            :: (q.2.2.1, y2) :: (q.2.1, y1) :: (p.2.2.2.2.2.2.2.2, x9) :: (p.2.2.2.2.2.2.2.1, x8)
            :: (p.2.2.2.2.2.2.1, x7) :: (p.2.2.2.2.2.1, x6) :: (p.2.2.2.2.1, x5)
            :: (p.2.2.2.1, x4) :: (p.2.2.1, x3) :: (p.2.1, x2) :: (p.1, x1) :: H) →
      Ok Q (k p q s1)) :
    Ok Q (bindM (firstRound cfg this f) (fun p => bindM (secondRound cfg p g) (fun q => k p q)) s) := by
  refine Heap.Ok.bind (Heap.firstRound_ok hst hm hlev (hfree.less (by decide) (le_refl _)) hR hf)
    fun p s1 ⟨x1, x2, x3, x4, x5, x6, x7, x8, x9, e, h1⟩ => ?_
  obtain ⟨e1, e2, e3, e4, e5, e6, e7, e8, e9⟩ := e
  have z9 : Ext L 9 H ((p.2.2.2.2.2.2.2.2, x9) :: (p.2.2.2.2.2.2.2.1, x8)
      :: (p.2.2.2.2.2.2.1, x7) :: (p.2.2.2.2.2.1, x6) :: (p.2.2.2.2.1, x5)
      :: (p.2.2.2.1, x4) :: (p.2.2.1, x3) :: (p.2.1, x2) :: (p.1, x1) :: H) :=
    (((((((((Heap.Ext.zero L H).cons (ge_of_eq e1.2)).cons (ge_of_eq e2.2)).cons
      (ge_of_eq e3.2)).cons (ge_of_eq e4.2)).cons (ge_of_eq e5.2)).cons (ge_of_eq e6.2)).cons
      (ge_of_eq e7.2)).cons (ge_of_eq e8.2)).cons (ge_of_eq e9.2)
  refine Heap.Ok.bind (Heap.secondRound_ok h1 (L := L) (by
      intro u hu
      simp only [List.mem_cons, List.mem_singleton, List.not_mem_nil, or_false] at hu
      rcases hu with rfl | rfl | rfl | rfl | rfl | rfl | rfl | rfl | rfl
      · exact e1.2
      · exact e2.2
      · exact e3.2
      · exact e4.2
      · exact e5.2
      · exact e6.2
      · exact e7.2
      · exact e8.2
      · exact e9.2) (hfree.after z9 (by decide)) (fun H1 h => hRg H1 (z9.join h)) hg)
    fun q s2 ⟨y1, y2, y3, y4, e', h2⟩ => ?_
  exact hk p q s2 x1 x2 x3 x4 x5 x6 x7 x8 x9 y1 y2 y3 y4 ⟨e1, e2, e3, e4, e5, e6, e7, e8, e9⟩ e' h2

end EngineBoth

section EngineNext
open Heap (M ret fail bindM incRef decRef decRefOpt readNode Ok Repr ShapeLe held St Addr Node Memory
  NodeGCHashTable Config Failure Inv Shrinks Interned incRefCount decRefCount findOrInsertLeaf
  findOrInsertNonleaf callNonleaf withNonleaf weakGet writeNextState setNextState nextStateLeaf
  firstRound secondRound dropLocals lc Free Room Ext optHandle nextStateCompute
  nextStateStepCompute)

variable {cfg : Config} {rules : RuleTable}

/-- Destruction of a handle that may be null, at any place of the list. -/
theorem Heap.decRefOpt_at {s : NodeGCHashTable} (H1 : List (Addr × NodeType))
    {H2 : List (Addr × NodeType)} {old : Option Addr} {t : NodeType}
    (hst : St cfg rules s (H1 ++ (optHandle old t ++ H2))) :
    Ok (fun _ s1 => St cfg rules s1 (H1 ++ H2)) (decRefOpt old s) := by
  cases old with
  | none => exact hst
  | some r => exact (Heap.decRef_at H1 hst).mono fun _ _ h => h.1

/-- Destruction of a handle that may be null, below fourteen local handles. -/
theorem Heap.decRefOpt_locals {s : NodeGCHashTable} {H2 : List (Addr × NodeType)}
    {old : Option Addr} {t : NodeType}
    {p1 p2 p3 p4 p5 p6 p7 p8 p9 p10 p11 p12 p13 p14 : Addr × NodeType}
    (hst : St cfg rules s (p1 :: p2 :: p3 :: p4 :: p5 :: p6 :: p7 :: p8 :: p9 :: p10 :: p11
      :: p12 :: p13 :: p14 :: (optHandle old t ++ H2))) :
    Ok (fun _ s1 => St cfg rules s1 (p1 :: p2 :: p3 :: p4 :: p5 :: p6 :: p7 :: p8 :: p9 :: p10
      :: p11 :: p12 :: p13 :: p14 :: H2)) (decRefOpt old s) :=
  Heap.decRefOpt_at [p1, p2, p3, p4, p5, p6, p7, p8, p9, p10, p11, p12, p13, p14] hst

theorem Heap.Ext.opt {L n : Nat} {H H1 : List (Addr × NodeType)} (h : Ext L n H H1)
    (old : Option Addr) {t : NodeType} (hl : L ≤ t.level) :
    Ext L (n + 1) H (optHandle old t ++ H1) := by
  cases old with
  | none => exact h.more (Nat.le_succ _)
  | some r => exact h.cons hl

/-- The `level == 1` branch of `getNextState(gc)` after the test of the
cache. -/
theorem Heap.nextStateCompute_one {s : NodeGCHashTable} {H : List (Addr × NodeType)}
    {this : Addr} {t told : NodeType} {old : Option Addr} {n : Node} {f : Addr → M Addr}
    (hst : St cfg rules s (optHandle old told ++ (this, t) :: H))
    (hn : s.memory this = some n) (hl : t.level = 1) (hroom : Room 20 t.level H) :
    Ok (fun r s1 => ∃ tr, (t.getNextState rules = some tr ∧ tr.level + 1 = t.level)
      ∧ St cfg rules s1 ((r, tr) :: H)) (nextStateCompute cfg rules f this n old s) := by
  have hm : (this, t) ∈ optHandle old told ++ (this, t) :: H :=
    List.mem_append_right _ (List.mem_cons_self _ _)
  obtain ⟨hr, -⟩ := hst.handle hm
  have hw := hr.wellFormed hst.inv
  have hnl := hr.level_eq hn
  have x1 : Ext 0 2 H (optHandle old told ++ (this, t) :: H) :=
    ((Heap.Ext.zero 0 H).cons (Nat.zero_le _)).opt old (Nat.zero_le _)
  obtain ⟨tr0, e0, -, l0⟩ := NodeType.getNextState_level rules hw (show t.level = 0 + 1 from hl)
  unfold nextStateCompute
  rw [if_neg (by omega), if_pos (by omega)]
  refine Heap.Ok.bind (Heap.nextStateLeaf_ok hst hn hr hl
    ((hroom.ext_free x1 (k := 18) (by decide)).one (Nat.zero_le _) (by decide)))
    fun new s3 ⟨trn, e, h3⟩ => ?_
  rw [e0] at e
  cases e
  refine Heap.Ok.bind (Heap.decRefOpt_at [(new, tr0)] h3) fun _ s4 h4 => ?_
  have h4' : St cfg rules s4 ((new, tr0) :: (this, t) :: H) := h4
  have x2 : Ext 0 2 H ((new, tr0) :: (this, t) :: H) :=
    ((Heap.Ext.zero 0 H).cons (Nat.zero_le _)).cons (Nat.zero_le _)
  refine Heap.Ok.bind (Heap.setNextState_ok h4' (List.mem_cons_of_mem _ (List.mem_cons_self _ _))
    (List.mem_cons_self _ _) (by omega)
    (by rw [NodeType.getNextStateStep_top rules (show t.level = (n.level - 1) + 1 by omega)]
        exact e0)
    ((hroom.ext_free x2 (k := 18) (by decide)).one (by omega) (by decide)))
    fun _ s5 h5 => ?_
  refine Heap.Ok.bind (Heap.decRef_second h5) fun _ s6 ⟨h6, _⟩ => ?_
  exact ⟨tr0, ⟨e0, by omega⟩, h6⟩

/-- The `else` branch (level at least 2) of `getNextState(gc)` after the test
of the cache, with `f` for the recursive call. -/
theorem Heap.nextStateCompute_two {s : NodeGCHashTable} {H : List (Addr × NodeType)}
    {this : Addr} {told : NodeType} {old : Option Addr} {n : Node} {f : Addr → M Addr}
    {a0 a1 a2 a3 b0 b1 b2 b3 c0 c1 c2 c3 d0 d1 d2 d3 : NodeType} {L : Nat}
    (hst : St cfg rules s (optHandle old told ++ (this, NodeType.nonleaf
      (NodeType.nonleaf a0 a1 a2 a3) (NodeType.nonleaf b0 b1 b2 b3)
      (NodeType.nonleaf c0 c1 c2 c3) (NodeType.nonleaf d0 d1 d2 d3)) :: H))
    (hn : s.memory this = some n)
    (hlev : ∀ u, u ∈ [a0, a1, a2, a3, b0, b1, b2, b3, c0, c1, c2, c3, d0, d1, d2, d3] → u.level = L)
    (hold : told.level = L + 1) (hroom : Room 20 (L + 2) H)
    (hf : ∀ (x : Addr) (u : NodeType) (s1 : NodeGCHashTable) (H1 : List (Addr × NodeType)),
      St cfg rules s1 H1 → Room 20 (L + 1) H1 → Repr s1.memory x u → u.level = L + 1 →
      Ok (fun r s2 => ∃ ur, (u.getNextState rules = some ur ∧ ur.level = L)
        ∧ St cfg rules s2 ((r, ur) :: H1)) (f x s1)) :
    Ok (fun r s1 => ∃ tr, ((NodeType.nonleaf
      (NodeType.nonleaf a0 a1 a2 a3) (NodeType.nonleaf b0 b1 b2 b3)
      (NodeType.nonleaf c0 c1 c2 c3) (NodeType.nonleaf d0 d1 d2 d3)).getNextState rules = some tr
        ∧ tr.level = L + 1)
      ∧ St cfg rules s1 ((r, tr) :: H)) (nextStateCompute cfg rules f this n old s) := by
  have hm : (this, NodeType.nonleaf
      (NodeType.nonleaf a0 a1 a2 a3) (NodeType.nonleaf b0 b1 b2 b3)
      (NodeType.nonleaf c0 c1 c2 c3) (NodeType.nonleaf d0 d1 d2 d3)) ∈ optHandle old told
        ++ (this, NodeType.nonleaf
      (NodeType.nonleaf a0 a1 a2 a3) (NodeType.nonleaf b0 b1 b2 b3)
      (NodeType.nonleaf c0 c1 c2 c3) (NodeType.nonleaf d0 d1 d2 d3)) :: H :=
    List.mem_append_right _ (List.mem_cons_self _ _)
  obtain ⟨hr, -⟩ := hst.handle hm
  have hnl := hr.level_eq hn
  have la0 := hlev a0 (by simp)
  have ht : (NodeType.nonleaf
      (NodeType.nonleaf a0 a1 a2 a3) (NodeType.nonleaf b0 b1 b2 b3)
      (NodeType.nonleaf c0 c1 c2 c3) (NodeType.nonleaf d0 d1 d2 d3)).level = L + 2 := by
    simp only [NodeType.level_nonleaf, la0]
    omega
  rw [ht] at hnl
  have xb : Ext L 2 H (optHandle old told ++ (this, NodeType.nonleaf
      (NodeType.nonleaf a0 a1 a2 a3) (NodeType.nonleaf b0 b1 b2 b3)
      (NodeType.nonleaf c0 c1 c2 c3) (NodeType.nonleaf d0 d1 d2 d3)) :: H) :=
    ((Heap.Ext.zero L H).cons (by omega)).opt old (by omega)
  have hA : L ≤ (NodeType.nonleaf
      (NodeType.nonleaf a0 a1 a2 a3) (NodeType.nonleaf b0 b1 b2 b3)
      (NodeType.nonleaf c0 c1 c2 c3) (NodeType.nonleaf d0 d1 d2 d3)).level := by omega
  have hB : n.level - 1 + 1 ≤ (NodeType.nonleaf
      (NodeType.nonleaf a0 a1 a2 a3) (NodeType.nonleaf b0 b1 b2 b3)
      (NodeType.nonleaf c0 c1 c2 c3) (NodeType.nonleaf d0 d1 d2 d3)).level := by omega
  have hC : (NodeType.nonleaf
      (NodeType.nonleaf a0 a1 a2 a3) (NodeType.nonleaf b0 b1 b2 b3)
      (NodeType.nonleaf c0 c1 c2 c3) (NodeType.nonleaf d0 d1 d2 d3)).level
        = (n.level - 1) + 1 := by omega
  unfold nextStateCompute
  rw [if_neg (by omega), if_neg (by omega)]
  refine Heap.rounds_ok hst hm hlev
    ((hroom.ext_free xb (k := 18) (by decide)).less (le_refl _) (by omega))
    (fun H1 h => hroom.ext (xb.join h) (by decide) (le_refl _))
    (fun H1 h => hroom.ext (xb.join h) (by decide) (le_refl _)) hf hf
    (fun p q s3 x1 x2 x3 x4 x5 x6 x7 x8 x9 y1 y2 y3 y4 e e' h3 => ?_)
  obtain ⟨e1, e2, e3, e4, e5, e6, e7, e8, e9⟩ := e
  obtain ⟨f1, f2, f3, f4, ly⟩ := e'
  have hpure := NodeType.getNextState_of_parts rules la0 e1.2 e1.1 e2.1 e3.1
    e4.1 e5.1 (hlev a1 (by simp)) e6.1 (hlev c1 (by simp)) e7.1 (hlev a2 (by simp)) e8.1
    (hlev b2 (by simp)) e9.1 (hlev a3 (by simp)) (hlev b0 (by simp)) (hlev c0 (by simp))
    (hlev d0 (by simp)) f1 f2 e5.2 f3 e7.2 f4 e9.2
  have ltop : (NodeType.nonleaf y1 y2 y3 y4).level = L + 1 := by
    rw [NodeType.level_nonleaf, ly, Nat.add_comm]
  refine Heap.Ok.bind (Heap.decRefOpt_locals h3) fun _ s4 h4 => ?_
  refine Heap.Ok.bind (Heap.dropLocals_ok h4) fun _ s5 h5 => ?_
  have x2 : Ext L 2 H ((q.1, NodeType.nonleaf y1 y2 y3 y4) :: (this, NodeType.nonleaf
      (NodeType.nonleaf a0 a1 a2 a3) (NodeType.nonleaf b0 b1 b2 b3)
      (NodeType.nonleaf c0 c1 c2 c3) (NodeType.nonleaf d0 d1 d2 d3)) :: H) :=
    ((Heap.Ext.zero L H).cons hA).cons (by rw [ltop]; exact Nat.le_succ _)
  refine Heap.Ok.bind (Heap.setNextState_ok h5
    (List.mem_cons_of_mem _ (List.mem_cons_self _ _)) (List.mem_cons_self _ _) hB
    (by rw [NodeType.getNextStateStep_top rules hC]
        exact hpure)
    ((hroom.ext_free x2 (k := 18) (by decide)).one (by rw [ltop]; exact Nat.le_succ _)
      (by decide)))
    fun _ s6 h6 => ?_
  refine Heap.Ok.bind (Heap.decRef_second h6) fun _ s7 ⟨h7, _⟩ => ?_
  exact ⟨_, ⟨hpure, ltop⟩, h7⟩

end EngineNext

section EngineNextState
open Heap (M ret fail bindM incRef decRef decRefOpt readNode Ok Repr ShapeLe held St Addr Node Memory
  NodeGCHashTable Config Failure Inv Shrinks Interned incRefCount decRefCount findOrInsertLeaf
  findOrInsertNonleaf callNonleaf withNonleaf weakGet writeNextState setNextState nextStateLeaf
  firstRound secondRound dropLocals lc Free Room Ext optHandle nextStateCompute
  nextStateStepCompute)

variable {cfg : Config} {rules : RuleTable}

/-- The part of `getNextState(gc)` after the test of the cache returns a
handle to the next state, when the recursive call `f` does so one level
down. -/
theorem Heap.nextStateCompute_ok {s : NodeGCHashTable} {H : List (Addr × NodeType)}
    {this : Addr} {t told : NodeType} {old : Option Addr} {n : Node} {f : Addr → M Addr}
    (hst : St cfg rules s (optHandle old told ++ (this, t) :: H))
    (hn : s.memory this = some n) (hl : 1 ≤ t.level) (hold : told.level + 1 = t.level)
    (hroom : Room 20 t.level H)
    (hf : ∀ (x : Addr) (u : NodeType) (s1 : NodeGCHashTable) (H1 : List (Addr × NodeType)),
      St cfg rules s1 H1 → Room 20 u.level H1 → Repr s1.memory x u → 1 ≤ u.level →
      u.level + 1 = t.level →
      Ok (fun r s2 => ∃ ur, (u.getNextState rules = some ur ∧ ur.level + 1 = u.level)
        ∧ St cfg rules s2 ((r, ur) :: H1)) (f x s1)) :
    Ok (fun r s1 => ∃ tr, (t.getNextState rules = some tr ∧ tr.level + 1 = t.level)
      ∧ St cfg rules s1 ((r, tr) :: H)) (nextStateCompute cfg rules f this n old s) := by
  by_cases h1 : t.level = 1
  · exact Heap.nextStateCompute_one hst hn h1 hroom
  · obtain ⟨L, hL⟩ : ∃ L, t.level = L + 2 := ⟨t.level - 2, by omega⟩
    have hw := (hst.trees (this, t)
      (List.mem_append_right _ (List.mem_cons_self _ _))).wellFormed hst.inv
    rw [hL] at hroom
    obtain ⟨a0, a1, a2, a3, b0, b1, b2, b3, c0, c1, c2, c3, d0, d1, d2, d3, rfl, hlev⟩ :=
      NodeType.wellFormed_split_twice hw hL
    refine (Heap.nextStateCompute_two hst hn hlev (by omega) hroom ?_).mono ?_
    · intro x u s1 H1 hs1 hR1 hx hu
      refine (hf x u s1 H1 hs1 (by rw [hu]; exact hR1) hx (by omega) (by omega)).mono ?_
      rintro r s2 ⟨ur, ⟨e, l⟩, h⟩
      exact ⟨ur, ⟨e, by omega⟩, h⟩
    · rintro r s1 ⟨tr, ⟨e, l⟩, h⟩
      exact ⟨tr, ⟨e, by omega⟩, h⟩

/-- Function `getNextState(gc)` on the store: on a node that holds a quadtree
of level at least 1, with a budget of at least that level, the call returns a
handle to the next state of the quadtree, whatever the caches hold. -/
theorem Heap.getNextStateFuel_ok : ∀ (fuel : Nat) (this : Addr) (t : NodeType)
    (s : NodeGCHashTable) (H : List (Addr × NodeType)),
    St cfg rules s H → Room 20 t.level H → Repr s.memory this t → 1 ≤ t.level → t.level ≤ fuel →
    Ok (fun r s1 => ∃ tr, (t.getNextState rules = some tr ∧ tr.level + 1 = t.level)
      ∧ St cfg rules s1 ((r, tr) :: H)) (Heap.getNextStateFuel cfg rules fuel this s) := by
  intro fuel
  induction fuel with
  | zero =>
    intro this t s H _ _ _ h1 h2
    omega
  | succ fuel ih =>
    intro this t s H hst hroom hr hl1 hfuel
    have x0 := Heap.Ext.zero 0 H
    have x1 : Ext 0 1 H ((this, t) :: H) := x0.cons (Nat.zero_le _)
    have hf : ∀ (x : Addr) (u : NodeType) (s1 : NodeGCHashTable) (H1 : List (Addr × NodeType)),
        St cfg rules s1 H1 → Room 20 u.level H1 → Repr s1.memory x u → 1 ≤ u.level →
        u.level + 1 = t.level →
        Ok (fun r s2 => ∃ ur, (u.getNextState rules = some ur ∧ ur.level + 1 = u.level)
          ∧ St cfg rules s2 ((r, ur) :: H1)) (Heap.getNextStateFuel cfg rules fuel x s1) :=
      fun x u s1 H1 hs1 hR1 hx hu1 hu => ih x u s1 H1 hs1 hR1 hx hu1 (by omega)
    rw [Heap.getNextStateFuel]
    refine Heap.Ok.bind (Heap.incRef_ok hst hr
      ((hroom.ext_free x0 (k := 20) (by decide)).one (le_refl _) (by decide)))
      fun _ s1 ⟨h1, le1⟩ => ?_
    have hr1 := hr.grow le1
    refine Heap.Ok.bind (Heap.weakGet_ok h1 hr1 (hroom.ext_free x1 (by decide))) fun o s2 ho => ?_
    rcases ho with ⟨rfl, rfl⟩ | ⟨r, tr, k0, rfl, h2, le2, hk0, hk0l, hp0, htr⟩
    · refine Heap.Ok.bind (Heap.readNode_ok hr1 fun n hn => ?_)
        fun n s3 (hx : s3 = s2 ∧ s2.memory this = some n) => ?_
      · exact ⟨rfl, hn⟩
      obtain ⟨rfl, hn⟩ := hx
      obtain ⟨told, htold⟩ := NodeType.exists_level (t.level - 1)
      exact @Heap.nextStateCompute_ok cfg rules s3 H this t told none n
        _ h1 hn hl1 (by rw [htold]; omega) hroom hf
    · have hr2 := hr1.grow le2
      refine Heap.Ok.bind (Heap.readNode_ok hr2 fun n hn => ?_)
        fun n s3 (hx : s3 = s2 ∧ s2.memory this = some n) => ?_
      · exact ⟨rfl, hn⟩
      obtain ⟨rfl, hn⟩ := hx
      have hnl := hr2.level_eq hn
      have hk := hk0 n hn
      simp only []
      by_cases hit : n.nextStateLogStep + 1 = n.level
      · rw [if_pos hit]
        refine Heap.Ok.bind (Heap.decRef_second h2) fun _ s4 ⟨h4, _⟩ => ?_
        refine ⟨tr, ⟨?_, htr⟩, h4⟩
        rw [← NodeType.getNextStateStep_top rules (show t.level = k0 + 1 by omega)]
        exact hp0
      · rw [if_neg hit]
        exact @Heap.nextStateCompute_ok cfg rules s3 H this t tr (some r) n _ h2 hn hl1 htr hroom
          hf

end EngineNextState

section EngineStep
open Heap (M ret fail bindM incRef decRef decRefOpt readNode Ok Repr ShapeLe held St Addr Node Memory
  NodeGCHashTable Config Failure Inv Shrinks Interned incRefCount decRefCount findOrInsertLeaf
  findOrInsertNonleaf callNonleaf withNonleaf weakGet writeNextState setNextState nextStateLeaf
  firstRound secondRound dropLocals lc Free Room Ext optHandle nextStateCompute nextStateStepCompute)


variable {cfg : Config} {rules : RuleTable}

/-- Function `getNextState(gc)` on the store returns a handle to the next
state of the quadtree its node holds, whatever the caches hold. -/
theorem Heap.getNextState_ok {s : NodeGCHashTable} {H : List (Addr × NodeType)}
    (hst : St cfg rules s H) {this : Addr} {t : NodeType} (hr : Repr s.memory this t)
    (hl : 1 ≤ t.level) (hroom : Room 20 t.level H) :
    Ok (fun r s1 => ∃ tr, (t.getNextState rules = some tr ∧ tr.level + 1 = t.level)
      ∧ St cfg rules s1 ((r, tr) :: H)) (Heap.getNextState cfg rules this s) := by
  unfold Heap.getNextState
  refine Heap.Ok.bind (Heap.readNode_ok hr fun n hn => ?_)
    fun n s3 (hx : s3 = s ∧ s.memory this = some n) => ?_
  · exact ⟨rfl, hn⟩
  obtain ⟨rfl, hn⟩ := hx
  exact Heap.getNextStateFuel_ok n.level this t s3 H hst hroom hr hl (le_of_eq (hr.level_eq hn).symm)

/-- Function `getCenter` on the store, with the level of the result. -/
theorem Heap.getCenter_level_ok {s : NodeGCHashTable} {H : List (Addr × NodeType)}
    (hst : St cfg rules s H) {this : Addr} {t : NodeType} (hr : Repr s.memory this t) {L : Nat}
    (hl : t.level = L + 1) (hfree : Free 6 (L + 1) H) :
    Ok (fun r s1 => ∃ c, (t.getCenter = some c ∧ c.level = L) ∧ St cfg rules s1 ((r, c) :: H))
      (Heap.getCenter cfg this s) := by
  obtain ⟨c1, e1, l1⟩ := NodeType.getCenter_level (hr.wellFormed hst.inv) hl
  refine (Heap.getCenter_ok hst hr (by omega) (by rw [hl]; exact hfree)).mono ?_
  rintro r s1 ⟨c, e, h⟩
  have : c = c1 := Option.some.inj (e.symm.trans e1)
  subst this
  exact ⟨c, ⟨e, l1⟩, h⟩

/-- The part of `getNextState(gc, logStepSize)` after the test of the cache
returns a handle to the state after `2 ^ logStepSize` generations, when the
recursive call `f` does so one level down. -/
theorem Heap.nextStateStepCompute_two {s : NodeGCHashTable} {H : List (Addr × NodeType)}
    {this : Addr} {told : NodeType} {old : Option Addr} {f : Addr → M Addr}
    {a0 a1 a2 a3 b0 b1 b2 b3 c0 c1 c2 c3 d0 d1 d2 d3 : NodeType} {L k : Nat}
    (hst : St cfg rules s (optHandle old told ++ (this, NodeType.nonleaf
      (NodeType.nonleaf a0 a1 a2 a3) (NodeType.nonleaf b0 b1 b2 b3)
      (NodeType.nonleaf c0 c1 c2 c3) (NodeType.nonleaf d0 d1 d2 d3)) :: H))
    (hlev : ∀ u, u ∈ [a0, a1, a2, a3, b0, b1, b2, b3, c0, c1, c2, c3, d0, d1, d2, d3] → u.level = L)
    (hold : told.level = L + 1) (hk : k ≤ L) (hroom : Room 21 (L + 2) H)
    (hf : ∀ (x : Addr) (u : NodeType) (s1 : NodeGCHashTable) (H1 : List (Addr × NodeType)),
      St cfg rules s1 H1 → Room 21 (L + 1) H1 → Repr s1.memory x u → u.level = L + 1 →
      Ok (fun r s2 => ∃ ur, (u.getNextStateStep rules k = some ur ∧ ur.level = L)
        ∧ St cfg rules s2 ((r, ur) :: H1)) (f x s1)) :
    Ok (fun r s1 => ∃ tr, ((NodeType.nonleaf
      (NodeType.nonleaf a0 a1 a2 a3) (NodeType.nonleaf b0 b1 b2 b3)
      (NodeType.nonleaf c0 c1 c2 c3) (NodeType.nonleaf d0 d1 d2 d3)).getNextStateStep rules k
        = some tr ∧ tr.level = L + 1)
      ∧ St cfg rules s1 ((r, tr) :: H)) (nextStateStepCompute cfg f this k old s) := by
  have hm : (this, NodeType.nonleaf
      (NodeType.nonleaf a0 a1 a2 a3) (NodeType.nonleaf b0 b1 b2 b3)
      (NodeType.nonleaf c0 c1 c2 c3) (NodeType.nonleaf d0 d1 d2 d3)) ∈ optHandle old told
        ++ (this, NodeType.nonleaf
      (NodeType.nonleaf a0 a1 a2 a3) (NodeType.nonleaf b0 b1 b2 b3)
      (NodeType.nonleaf c0 c1 c2 c3) (NodeType.nonleaf d0 d1 d2 d3)) :: H :=
    List.mem_append_right _ (List.mem_cons_self _ _)
  have la0 := hlev a0 (by simp)
  have ht : (NodeType.nonleaf
      (NodeType.nonleaf a0 a1 a2 a3) (NodeType.nonleaf b0 b1 b2 b3)
      (NodeType.nonleaf c0 c1 c2 c3) (NodeType.nonleaf d0 d1 d2 d3)).level = L + 2 := by
    simp only [NodeType.level_nonleaf, la0]
    omega
  have xb : Ext L 2 H (optHandle old told ++ (this, NodeType.nonleaf
      (NodeType.nonleaf a0 a1 a2 a3) (NodeType.nonleaf b0 b1 b2 b3)
      (NodeType.nonleaf c0 c1 c2 c3) (NodeType.nonleaf d0 d1 d2 d3)) :: H) :=
    ((Heap.Ext.zero L H).cons (by omega)).opt old (by omega)
  have hA : L ≤ (NodeType.nonleaf
      (NodeType.nonleaf a0 a1 a2 a3) (NodeType.nonleaf b0 b1 b2 b3)
      (NodeType.nonleaf c0 c1 c2 c3) (NodeType.nonleaf d0 d1 d2 d3)).level := by omega
  have hB : k + 1 ≤ (NodeType.nonleaf
      (NodeType.nonleaf a0 a1 a2 a3) (NodeType.nonleaf b0 b1 b2 b3)
      (NodeType.nonleaf c0 c1 c2 c3) (NodeType.nonleaf d0 d1 d2 d3)).level := by omega
  have hg : ∀ (x : Addr) (u : NodeType) (s1 : NodeGCHashTable) (H1 : List (Addr × NodeType)),
      St cfg rules s1 H1 → Free 6 (L + 1) H1 → Repr s1.memory x u → u.level = L + 1 →
      Ok (fun r s2 => ∃ ur, (u.getCenter = some ur ∧ ur.level = L)
        ∧ St cfg rules s2 ((r, ur) :: H1)) (Heap.getCenter cfg x s1) :=
    fun x u s1 H1 h1 hfr hx hu => Heap.getCenter_level_ok h1 hx hu hfr
  unfold nextStateStepCompute
  refine Heap.rounds_ok hst hm hlev
    ((hroom.ext_free xb (k := 18) (by decide)).less (le_refl _) (by omega))
    (fun H1 h => hroom.ext (xb.join h) (by decide) (le_refl _))
    (fun H1 h => Heap.Room.ext_low hroom (xb.join h) (by decide)) hf hg
    (fun p q s3 x1 x2 x3 x4 x5 x6 x7 x8 x9 y1 y2 y3 y4 e e' h3 => ?_)
  obtain ⟨e1, e2, e3, e4, e5, e6, e7, e8, e9⟩ := e
  obtain ⟨f1, f2, f3, f4, ly⟩ := e'
  have hpure := NodeType.getNextStateStep_of_parts rules hk la0 e1.1 e2.1 e3.1
    e4.1 e5.1 (hlev a1 (by simp)) e6.1 (hlev c1 (by simp)) e7.1 (hlev a2 (by simp)) e8.1
    (hlev b2 (by simp)) e9.1 (hlev a3 (by simp)) (hlev b0 (by simp)) (hlev c0 (by simp))
    (hlev d0 (by simp)) f1 f2 f3 f4
  have ltop : (NodeType.nonleaf y1 y2 y3 y4).level = L + 1 := by
    rw [NodeType.level_nonleaf, ly, Nat.add_comm]
  refine Heap.Ok.bind (Heap.decRefOpt_locals h3) fun _ s4 h4 => ?_
  have x15 : Ext L 15 H ((q.1, NodeType.nonleaf y1 y2 y3 y4) :: (q.2.2.2.2, y4)
      :: (q.2.2.2.1, y3) :: (q.2.2.1, y2) :: (q.2.1, y1) :: (p.2.2.2.2.2.2.2.2, x9)
      :: (p.2.2.2.2.2.2.2.1, x8) :: (p.2.2.2.2.2.2.1, x7) :: (p.2.2.2.2.2.1, x6)
      :: (p.2.2.2.2.1, x5) :: (p.2.2.2.1, x4) :: (p.2.2.1, x3) :: (p.2.1, x2) :: (p.1, x1)
      :: (this, NodeType.nonleaf
      (NodeType.nonleaf a0 a1 a2 a3) (NodeType.nonleaf b0 b1 b2 b3)
      (NodeType.nonleaf c0 c1 c2 c3) (NodeType.nonleaf d0 d1 d2 d3)) :: H) := by
    refine ⟨[_, _, _, _, _, _, _, _, _, _, _, _, _, _, _], rfl, le_refl _, ?_⟩
    intro u hu
    simp only [List.mem_cons, List.mem_singleton, List.not_mem_nil, or_false] at hu
    have w3 := (h4.trees _ (List.mem_cons_self _ _)).wellFormed h4.inv
    obtain ⟨-, -, -, -, -, m1, m2, m3⟩ : True ∧ y1.WellFormed ∧ y2.WellFormed ∧ y3.WellFormed
        ∧ y4.WellFormed ∧ y2.level = y1.level ∧ y3.level = y1.level ∧ y4.level = y1.level := by
      simp only [NodeType.WellFormed] at w3
      exact ⟨trivial, w3.1, w3.2.1, w3.2.2.1, w3.2.2.2.1, w3.2.2.2.2.1, w3.2.2.2.2.2.1,
        w3.2.2.2.2.2.2⟩
    rcases hu with rfl | rfl | rfl | rfl | rfl | rfl | rfl | rfl | rfl | rfl | rfl | rfl | rfl
      | rfl | rfl
    · exact le_of_lt (by rw [ltop]; exact Nat.lt_succ_self _)
    · exact le_of_eq (by rw [m3, ly])
    · exact le_of_eq (by rw [m2, ly])
    · exact le_of_eq (by rw [m1, ly])
    · exact le_of_eq ly.symm
    · exact le_of_eq e9.2.symm
    · exact le_of_eq e8.2.symm
    · exact le_of_eq e7.2.symm
    · exact le_of_eq e6.2.symm
    · exact le_of_eq e5.2.symm
    · exact le_of_eq e4.2.symm
    · exact le_of_eq e3.2.symm
    · exact le_of_eq e2.2.symm
    · exact le_of_eq e1.2.symm
    · exact hA
  refine Heap.Ok.bind (Heap.setNextState_ok h4
    (by simp) (List.mem_cons_self _ _) hB hpure
    ((hroom.ext_free x15 (k := 1) (by decide)).one (by rw [ltop]; exact Nat.le_succ _)
      (le_refl _)))
    fun _ s5 h5 => ?_
  refine Heap.Ok.bind (Heap.dropLocals_ok h5) fun _ s6 h6 => ?_
  refine Heap.Ok.bind (Heap.decRef_second h6) fun _ s7 ⟨h7, _⟩ => ?_
  exact ⟨_, ⟨hpure, ltop⟩, h7⟩

/-- The part of `getNextState(gc, logStepSize)` after the test of the cache,
on a node that holds any quadtree of level at least `logStepSize + 2`. -/
theorem Heap.nextStateStepCompute_ok {s : NodeGCHashTable} {H : List (Addr × NodeType)}
    {this : Addr} {t told : NodeType} {old : Option Addr} {f : Addr → M Addr} {k : Nat}
    (hst : St cfg rules s (optHandle old told ++ (this, t) :: H))
    (hl : k + 2 ≤ t.level) (hold : told.level + 1 = t.level)
    (hroom : Room 21 t.level H)
    (hf : ∀ (x : Addr) (u : NodeType) (s1 : NodeGCHashTable) (H1 : List (Addr × NodeType)),
      St cfg rules s1 H1 → Room 21 u.level H1 → Repr s1.memory x u → k + 1 ≤ u.level →
      u.level + 1 = t.level →
      Ok (fun r s2 => ∃ ur, (u.getNextStateStep rules k = some ur ∧ ur.level + 1 = u.level)
        ∧ St cfg rules s2 ((r, ur) :: H1)) (f x s1)) :
    Ok (fun r s1 => ∃ tr, (t.getNextStateStep rules k = some tr ∧ tr.level + 1 = t.level)
      ∧ St cfg rules s1 ((r, tr) :: H)) (nextStateStepCompute cfg f this k old s) := by
  obtain ⟨L, hL⟩ : ∃ L, t.level = L + 2 := ⟨t.level - 2, by omega⟩
  have hw := (hst.trees (this, t)
    (List.mem_append_right _ (List.mem_cons_self _ _))).wellFormed hst.inv
  rw [hL] at hroom
  obtain ⟨a0, a1, a2, a3, b0, b1, b2, b3, c0, c1, c2, c3, d0, d1, d2, d3, rfl, hlev⟩ :=
    NodeType.wellFormed_split_twice hw hL
  refine (Heap.nextStateStepCompute_two hst hlev (by omega) (by omega) hroom ?_).mono ?_
  · intro x u s1 H1 hs1 hR1 hx hu
    refine (hf x u s1 H1 hs1 (by rw [hu]; exact hR1) hx (by omega) (by omega)).mono ?_
    rintro r s2 ⟨ur, ⟨e, l⟩, h⟩
    exact ⟨ur, ⟨e, by omega⟩, h⟩
  · rintro r s1 ⟨tr, ⟨e, l⟩, h⟩
    exact ⟨tr, ⟨e, by omega⟩, h⟩

/-- Function `getNextState(gc, logStepSize)` on the store: on a node that
holds a quadtree of level at least `logStepSize + 1`, with a budget of at
least that level, the call returns a handle to the state of the quadtree
after `2 ^ logStepSize` generations, whatever the caches hold. -/
theorem Heap.getNextStateStepFuel_ok : ∀ (fuel : Nat) (this : Addr) (t : NodeType) (k : Nat)
    (s : NodeGCHashTable) (H : List (Addr × NodeType)),
    St cfg rules s H → Room 21 t.level H → Repr s.memory this t → k + 1 ≤ t.level →
    t.level ≤ fuel →
    Ok (fun r s1 => ∃ tr, (t.getNextStateStep rules k = some tr ∧ tr.level + 1 = t.level)
      ∧ St cfg rules s1 ((r, tr) :: H)) (Heap.getNextStateStepFuel cfg rules fuel this k s) := by
  intro fuel
  induction fuel with
  | zero =>
    intro this t k s H _ _ _ h1 h2
    omega
  | succ fuel ih =>
    intro this t k s H hst hroom hr hl1 hfuel
    have x0 := Heap.Ext.zero 0 H
    have x1 : Ext 0 1 H ((this, t) :: H) := x0.cons (Nat.zero_le _)
    rw [Heap.getNextStateStepFuel]
    refine Heap.Ok.bind (Heap.incRef_ok hst hr
      ((hroom.ext_free x0 (k := 21) (by decide)).one (le_refl _) (by decide)))
      fun _ s1 ⟨h1, le1⟩ => ?_
    have hr1 := hr.grow le1
    refine Heap.Ok.bind (Heap.readNode_ok hr1 fun n hn => ?_)
      fun n s2 (hx : s2 = s1 ∧ s1.memory this = some n) => ?_
    · exact ⟨rfl, hn⟩
    obtain ⟨rfl, hn⟩ := hx
    have hnl := hr1.level_eq hn
    rw [if_neg (by omega)]
    by_cases htop : k = n.level - 1
    · rw [if_pos htop]
      refine Heap.Ok.bind (Heap.getNextState_ok h1 hr1 (by omega) (hroom.cons_same _))
        fun r s3 ⟨tr, ⟨e, l⟩, h3⟩ => ?_
      refine Heap.Ok.bind (Heap.decRef_second h3) fun _ s4 ⟨h4, _⟩ => ?_
      refine ⟨tr, ⟨?_, l⟩, h4⟩
      rw [NodeType.getNextStateStep_top rules (show t.level = k + 1 by omega)]
      exact e
    · rw [if_neg htop]
      have hf : ∀ (x : Addr) (u : NodeType) (s1 : NodeGCHashTable)
          (H1 : List (Addr × NodeType)),
          St cfg rules s1 H1 → Room 21 u.level H1 → Repr s1.memory x u → k + 1 ≤ u.level →
          u.level + 1 = t.level →
          Ok (fun r s2 => ∃ ur, (u.getNextStateStep rules k = some ur ∧ ur.level + 1 = u.level)
            ∧ St cfg rules s2 ((r, ur) :: H1))
            (Heap.getNextStateStepFuel cfg rules fuel x k s1) :=
        fun x u s1 H1 hs1 hR1 hx hu1 hu => ih x u k s1 H1 hs1 hR1 hx hu1 (by omega)
      have hl2 : k + 2 ≤ t.level := by omega
      refine Heap.Ok.bind (Heap.weakGet_ok h1 hr1 (hroom.ext_free x1 (by decide)))
        fun o s3 ho => ?_
      rcases ho with ⟨rfl, rfl⟩ | ⟨r, tr, k0, rfl, h2, le2, hk0, hk0l, hp0, htr⟩
      · refine Heap.Ok.bind (Heap.readNode_ok hr1 fun n1 hn1 => ?_)
          fun n1 s4 (hx : s4 = s3 ∧ s3.memory this = some n1) => ?_
        · exact ⟨rfl, hn1⟩
        obtain ⟨rfl, hn1⟩ := hx
        obtain ⟨told, htold⟩ := NodeType.exists_level (t.level - 1)
        exact @Heap.nextStateStepCompute_ok cfg rules s4 H this t told
          none _ k h1 hl2 (by rw [htold]; omega) hroom hf
      · have hr2 := hr1.grow le2
        refine Heap.Ok.bind (Heap.readNode_ok hr2 fun n1 hn1 => ?_)
          fun n1 s4 (hx : s4 = s3 ∧ s3.memory this = some n1) => ?_
        · exact ⟨rfl, hn1⟩
        obtain ⟨rfl, hn1⟩ := hx
        have hk := hk0 n1 hn1
        simp only []
        by_cases hit : n1.nextStateLogStep = k
        · rw [if_pos hit]
          refine Heap.Ok.bind (Heap.decRef_second h2) fun _ s5 ⟨h5, _⟩ => ?_
          refine ⟨tr, ⟨?_, htr⟩, h5⟩
          rw [← hit, hk]
          exact hp0
        · rw [if_neg hit]
          exact @Heap.nextStateStepCompute_ok cfg rules s4 H this t tr (some r) _ k h2 hl2 htr
            hroom hf

/-- Function `getNextState(gc, logStepSize)` on the store returns a handle to
the state of the quadtree its node holds after `2 ^ logStepSize` generations,
whatever the caches hold. -/
theorem Heap.getNextStateStep_ok {s : NodeGCHashTable} {H : List (Addr × NodeType)}
    (hst : St cfg rules s H) {this : Addr} {t : NodeType} (hr : Repr s.memory this t) {k : Nat}
    (hl : k + 1 ≤ t.level) (hroom : Room 21 t.level H) :
    Ok (fun r s1 => ∃ tr, (t.getNextStateStep rules k = some tr ∧ tr.level + 1 = t.level)
      ∧ St cfg rules s1 ((r, tr) :: H)) (Heap.getNextStateStep cfg rules this k s) := by
  unfold Heap.getNextStateStep
  refine Heap.Ok.bind (Heap.readNode_ok hr fun n hn => ?_)
    fun n s3 (hx : s3 = s ∧ s.memory this = some n) => ?_
  · exact ⟨rfl, hn⟩
  obtain ⟨rfl, hn⟩ := hx
  exact Heap.getNextStateStepFuel_ok n.level this t k s3 H hst hroom hr hl
    (le_of_eq (hr.level_eq hn).symm)

end EngineStep

/-! ## The engine on the store: null nodes, cells and the universe -/

/-- The null nodes of two levels or two backgrounds differ. -/
theorem getNullNode_inj : ∀ {i j : Nat} {b c : CellType},
    getNullNode i b = getNullNode j c → i = j ∧ b = c := by
  intro i
  induction i with
  | zero =>
    intro j b c h
    cases j with
    | zero =>
      simp only [getNullNode, NodeType.leaf.injEq] at h
      exact ⟨rfl, h.1⟩
    | succ j => simp [getNullNode] at h
  | succ i ih =>
    intro j b c h
    cases j with
    | zero => simp [getNullNode] at h
    | succ j =>
      simp only [getNullNode, NodeType.nonleaf.injEq] at h
      obtain ⟨e, rfl⟩ := ih h.1
      exact ⟨by rw [e], rfl⟩

section EngineNull
open Heap (M ret fail bindM incRef decRef decRefOpt readNode Ok Repr ShapeLe held St Addr Node Memory
  NodeGCHashTable Config Failure Inv Shrinks Interned incRefCount decRefCount findOrInsertLeaf
  findOrInsertNonleaf callNonleaf withNonleaf lc Free Room Ext optHandle resizeNullNodes
  readNullNode pushNullNode nullNodeStep getNullNodeLoop)

variable {cfg : Config} {rules : RuleTable}

/-- A postcondition that follows from the result alone. -/
theorem Heap.Ok.also {α : Type} {r : Except Failure (α × NodeGCHashTable)}
    {Q R : α → NodeGCHashTable → Prop} (h : Ok Q r)
    (hR : ∀ a s1, r = .ok (a, s1) → R a s1) : Ok (fun a s1 => Q a s1 ∧ R a s1) r := by
  cases r with
  | error e => exact h
  | ok p => exact ⟨h, hR p.1 p.2 rfl⟩

theorem Heap.incRef_keeps {a : Addr} {s s1 : NodeGCHashTable} {u : Unit}
    (h : incRef a s = .ok (u, s1)) : s1.nullNodes = s.nullNodes := by
  unfold incRef incRefCount at h
  cases hm : s.memory a with
  | none => simp [hm] at h
  | some n =>
    simp only [hm] at h
    by_cases hc : n.refcount + 1 < 256
    · simp only [if_pos hc, Except.ok.injEq, Prod.mk.injEq] at h
      rw [← h.2]
    · simp [if_neg hc] at h

theorem Heap.decRef_keeps {a : Addr} {s s1 : NodeGCHashTable} {u : Unit}
    (h : decRef a s = .ok (u, s1)) : s1.nullNodes = s.nullNodes := by
  unfold decRef decRefCount at h
  cases hm : s.memory a with
  | none => simp [hm] at h
  | some n =>
    simp only [hm, Except.ok.injEq, Prod.mk.injEq] at h
    rw [← h.2]

theorem Heap.decRefOpt_keeps {o : Option Addr} {s s1 : NodeGCHashTable} {u : Unit}
    (h : decRefOpt o s = .ok (u, s1)) : s1.nullNodes = s.nullNodes := by
  cases o with
  | none =>
    simp only [decRefOpt, ret, Except.ok.injEq, Prod.mk.injEq] at h
    rw [← h.2]
  | some a => exact Heap.decRef_keeps h

theorem Heap.internLeaf_keeps {s s1 : NodeGCHashTable} (hv : cfg.Valid) (hinv : Inv cfg s)
    {c0 c1 c2 c3 : CellType} {r : Addr} (h : findOrInsertLeaf cfg c0 c1 c2 c3 s = .ok (r, s1)) :
    s1.nullNodes = s.nullNodes := by
  rcases Heap.findOrInsertLeaf_ok hv hinv c0 c1 c2 c3 with
    ⟨r1, t1, t2, n2, e, -, hsh, -, hint, -⟩ | e | e
  · rw [h] at e
    simp only [Except.ok.injEq, Prod.mk.injEq] at e
    rw [e.2, hint.nullNodes, hsh.nullNodes]
  · rw [h] at e
    simp at e
  · rw [h] at e
    simp at e

theorem Heap.internNonleaf_keeps {s s1 : NodeGCHashTable} {H : List (Addr × NodeType)}
    (hst : St cfg rules s H) {c0 c1 c2 c3 : Addr} {t0 t1 t2 t3 : NodeType}
    (h0 : (c0, t0) ∈ H) (h1 : (c1, t1) ∈ H) (h2 : (c2, t2) ∈ H) (h3 : (c3, t3) ∈ H)
    (l1 : t1.level = t0.level) (l2 : t2.level = t0.level) (l3 : t3.level = t0.level)
    {r : Addr} (h : findOrInsertNonleaf cfg c0 c1 c2 c3 s = .ok (r, s1)) :
    s1.nullNodes = s.nullNodes := by
  obtain ⟨-, n0, hn0, p0, e0⟩ := hst.handle h0
  obtain ⟨-, n1, hn1, p1, e1⟩ := hst.handle h1
  obtain ⟨-, n2, hn2, p2, e2⟩ := hst.handle h2
  obtain ⟨-, n3, hn3, p3, e3⟩ := hst.handle h3
  rcases Heap.findOrInsertNonleaf_ok hst.valid hst.inv c0 c1 c2 c3 t0.level (by
      intro k hk
      simp only [List.mem_cons, List.mem_singleton, List.not_mem_nil, or_false] at hk
      rcases hk with rfl | rfl | rfl | rfl
      · exact ⟨n0, hn0, p0, e0⟩
      · exact ⟨n1, hn1, p1, by rw [e1, l1]⟩
      · exact ⟨n2, hn2, p2, by rw [e2, l2]⟩
      · exact ⟨n3, hn3, p3, by rw [e3, l3]⟩) with
    ⟨r1, u1, u2, m2, e, -, hsh, -, hint, -⟩ | e | e
  · rw [h] at e
    simp only [Except.ok.injEq, Prod.mk.injEq] at e
    rw [e.2, hint.nullNodes, hsh.nullNodes]
  · rw [h] at e
    simp at e
  · rw [h] at e
    simp at e

/-- The invariant of the engine after a change of the `nullNodes` vectors that
moves handles between the running code and the vectors. -/
theorem Engine.set_nullNodes {s : NodeGCHashTable} {H : List (Addr × NodeType)}
    (hst : St cfg rules s H) (nn : List (List Addr)) (H1 : List (Addr × NodeType))
    (hperm : (H1.map Prod.fst ++ nn.flatten).Perm (H.map Prod.fst ++ s.nullNodes.flatten))
    (htrees : ∀ p, p ∈ H1 → p ∈ H)
    (hnulls : ∀ (bg i : Nat) (a : Addr), (nn.getD bg [])[i]? = some a →
      Repr s.memory a (getNullNode i bg))
    (honce : ∀ a, nn.flatten.count a ≤ 1) :
    St cfg rules { s with nullNodes := nn } H1 := by
  refine ⟨hst.valid, ⟨hst.inv.mem_table, hst.inv.in_table, hst.inv.nodup, hst.inv.unique,
    hst.inv.kids_live, hst.inv.count, hst.inv.weak_live⟩, hst.small, ?_, ?_, hnulls, honce,
    hst.cache⟩
  · intro a n hn
    rw [hst.owns a n hn]
    exact (hperm.count_eq a).symm
  · intro p hp
    exact hst.trees p (htrees p hp)

theorem Heap.getD_append_replicate (l : List (List Addr)) (k b : Nat) :
    (l ++ List.replicate k []).getD b [] = l.getD b [] := by
  rw [List.getD_eq_getElem?_getD, List.getD_eq_getElem?_getD]
  by_cases h : b < l.length
  · rw [List.getElem?_append_left h]
  · rw [List.getElem?_append_right (not_lt.1 h), List.getElem?_eq_none (not_lt.1 h)]
    by_cases h2 : b - l.length < k
    · rw [List.getElem?_replicate_of_lt h2]
      rfl
    · rw [List.getElem?_eq_none (by simp only [List.length_replicate]; omega)]

/-- The statement that resizes `nullNodes` keeps the invariant and the
vectors; afterwards there is a vector for the background. -/
theorem Heap.resizeNullNodes_ok {s : NodeGCHashTable} {H : List (Addr × NodeType)}
    (hst : St cfg rules s H) (bg : Nat) :
    Ok (fun _ s1 => St cfg rules s1 H ∧ s1.memory = s.memory ∧ bg < s1.nullNodes.length
        ∧ ∀ b, s1.nullNodes.getD b [] = s.nullNodes.getD b [])
      (resizeNullNodes bg s) := by
  unfold resizeNullNodes
  by_cases h : bg ≥ s.nullNodes.length
  · rw [if_pos h]
    refine ⟨Engine.set_nullNodes hst _ H ?_ (fun p hp => hp) ?_ ?_, rfl, ?_, ?_⟩
    · simp only [List.flatten_append, List.flatten_replicate_nil, List.append_nil]
      exact List.Perm.refl _
    · intro b i a ha
      rw [Heap.getD_append_replicate] at ha
      exact hst.nulls b i a ha
    · intro a
      simp only [List.flatten_append, List.flatten_replicate_nil, List.append_nil]
      exact hst.nullOnce a
    · simp only [List.length_append, List.length_replicate]
      omega
    · intro b
      exact Heap.getD_append_replicate _ _ _
  · rw [if_neg h]
    exact ⟨hst, rfl, by omega, fun _ => rfl⟩

theorem Heap.flatten_set_perm : ∀ (L : List (List Addr)) (b : Nat) (a : Addr), b < L.length →
    ((L.set b (L.getD b [] ++ [a])).flatten).Perm (a :: L.flatten) := by
  intro L
  induction L with
  | nil => intro b a h; simp at h
  | cons l rest ih =>
    intro b a h
    cases b with
    | zero =>
      simp only [List.set_cons_zero, List.getD_cons_zero, List.flatten_cons, List.append_assoc,
        List.singleton_append]
      exact List.perm_middle
    | succ b =>
      simp only [List.set_cons_succ, List.getD_cons_succ, List.flatten_cons]
      have h1 := ih b a (by simpa using h)
      exact (h1.append_left l).trans List.perm_middle

theorem Heap.getD_set_self (L : List (List Addr)) (b : Nat) (v : List Addr) (h : b < L.length) :
    (L.set b v).getD b [] = v := by
  rw [List.getD_eq_getElem?_getD, List.getElem?_set_self (by simpa using h)]
  rfl

theorem Heap.getD_set_other (L : List (List Addr)) {b c : Nat} (v : List Addr) (h : b ≠ c) :
    (L.set b v).getD c [] = L.getD c [] := by
  rw [List.getD_eq_getElem?_getD, List.getD_eq_getElem?_getD, List.getElem?_set_ne h]

/-- A node that holds a null node for which the vector has no entry yet is not
in the `nullNodes` vectors. -/
theorem Engine.nulls_fresh {s : NodeGCHashTable} {H : List (Addr × NodeType)}
    (hst : St cfg rules s H) {a : Addr} {i bg : Nat}
    (hr : Repr s.memory a (getNullNode i bg)) (hlen : (s.nullNodes.getD bg []).length ≤ i) :
    a ∉ s.nullNodes.flatten := by
  intro hmem
  obtain ⟨l, hl, hal⟩ := List.mem_flatten.1 hmem
  obtain ⟨b, hb, rfl⟩ := List.getElem_of_mem hl
  obtain ⟨j, hj, hja⟩ := List.getElem_of_mem hal
  have hget : s.nullNodes.getD b [] = s.nullNodes[b] := by
    rw [List.getD_eq_getElem?_getD, List.getElem?_eq_getElem hb]
    rfl
  have h1 : (s.nullNodes.getD b [])[j]? = some a := by
    rw [hget, List.getElem?_eq_getElem hj, hja]
  obtain ⟨e1, e2⟩ := getNullNode_inj (Heap.Repr.unique_tree hr (hst.nulls b j a h1))
  subst e1 e2
  rw [hget] at hlen
  omega

/-- A read of an entry of the `nullNodes` vectors. -/
theorem Heap.readNullNode_ok {s : NodeGCHashTable} {bg i : Nat}
    (h : i < (s.nullNodes.getD bg []).length) :
    Ok (fun r s1 => s1 = s ∧ (s.nullNodes.getD bg [])[i]? = some r) (readNullNode bg i s) := by
  unfold readNullNode
  rw [List.getElem?_eq_getElem h]
  exact ⟨rfl, rfl⟩

/-- The statement `nullNodes[backgroundType].push_back(retval)` for the null
node of the level that is the size of the vector. -/
theorem Engine.pushNullNode_ok {s : NodeGCHashTable} {H : List (Addr × NodeType)} {a : Addr}
    {i bg : Nat} (hst : St cfg rules s ((a, getNullNode i bg) :: H))
    (hbg : bg < s.nullNodes.length) (hlen : (s.nullNodes.getD bg []).length = i)
    (hroom : lc i ((a, getNullNode i bg) :: H) + 1 ≤ 254) :
    Ok (fun _ s1 => St cfg rules s1 ((a, getNullNode i bg) :: H)
        ∧ bg < s1.nullNodes.length
        ∧ s1.nullNodes.getD bg [] = s.nullNodes.getD bg [] ++ [a]
        ∧ ∀ b, b ≠ bg → s1.nullNodes.getD b [] = s.nullNodes.getD b [])
      (pushNullNode bg a s) := by
  unfold pushNullNode
  have hr := (hst.handle (List.mem_cons_self _ _)).1
  refine Heap.Ok.bind ((Heap.incRef_ok hst hr (by rw [getNullNode_level]; exact hroom)).also
    (R := fun _ s1 => s1.nullNodes = s.nullNodes) (fun _ _ h => Heap.incRef_keeps h))
    fun _ s1 ⟨⟨h1, le1⟩, hk⟩ => ?_
  have hr1 := hr.grow le1
  have hfresh : a ∉ s1.nullNodes.flatten :=
    Engine.nulls_fresh h1 hr1 (by rw [hk, hlen])
  have hp := Heap.flatten_set_perm s1.nullNodes bg a (by rw [hk]; exact hbg)
  refine ⟨Engine.set_nullNodes h1 _ _ ?_ ?_ ?_ ?_, ?_, ?_, ?_⟩
  · simp only [List.map_cons]
    refine List.Perm.cons a ?_
    exact (List.Perm.append_left _ hp).trans List.perm_middle
  · intro p hp1
    exact List.mem_cons_of_mem _ hp1
  · intro b j x hx
    by_cases hb : b = bg
    · subst hb
      rw [Heap.getD_set_self _ _ _ (by rw [hk]; exact hbg)] at hx
      by_cases hj : j < (s1.nullNodes.getD b []).length
      · rw [List.getElem?_append_left hj] at hx
        exact h1.nulls b j x hx
      · rw [List.getElem?_append_right (not_lt.1 hj)] at hx
        have hj0 : j - (s1.nullNodes.getD b []).length = 0 := by
          by_contra hne
          rw [List.getElem?_eq_none (by simp only [List.length_singleton]; omega)] at hx
          simp at hx
        rw [hj0] at hx
        simp only [List.getElem?_cons_zero, Option.some.injEq] at hx
        subst hx
        have : j = i := by
          rw [hk, hlen] at hj hj0
          omega
        rw [this]
        exact hr1
    · rw [Heap.getD_set_other _ _ (Ne.symm hb)] at hx
      exact h1.nulls b j x hx
  · intro x
    rw [hp.count_eq, List.count_cons]
    by_cases hx : a = x
    · subst hx
      rw [List.count_eq_zero_of_not_mem hfresh]
      simp
    · have := h1.nullOnce x
      simp only [beq_iff_eq, hx, if_false]
      omega
  · simp only [List.length_set]
    rw [hk]
    exact hbg
  · show (s1.nullNodes.set bg _).getD bg [] = _
    rw [Heap.getD_set_self _ _ _ (by rw [hk]; exact hbg), hk]
  · intro b hb
    show (s1.nullNodes.set bg _).getD b [] = _
    rw [Heap.getD_set_other _ _ (Ne.symm hb), hk]

/-- The body of the loop of `getNullNode` for the level `i` returns a handle
to the null node of that level and leaves the vectors as they are. -/
theorem Engine.nullNodeStep_ok {s : NodeGCHashTable} {H : List (Addr × NodeType)}
    {old : Option Addr} {told : NodeType} (hst : St cfg rules s (optHandle old told ++ H))
    (i bg : Nat) (hprev : 0 < i → i - 1 < (s.nullNodes.getD bg []).length)
    (hfree : Free 6 i (optHandle old told ++ H)) :
    Ok (fun r s1 => St cfg rules s1 ((r, getNullNode i bg) :: H) ∧ s1.nullNodes = s.nullNodes)
      (nullNodeStep cfg bg i old s) := by
  unfold nullNodeStep
  by_cases h0 : i = 0
  · subst h0
    rw [if_pos rfl]
    refine Heap.Ok.bind ((Heap.internLeaf_ok hst bg bg bg bg
      (hfree.one (le_refl _) (by decide))).also (R := fun _ s1 => s1.nullNodes = s.nullNodes)
      (fun _ _ h => Heap.internLeaf_keeps hst.valid hst.inv h)) fun r s1 ⟨h1, k1⟩ => ?_
    refine Heap.Ok.bind ((Heap.decRefOpt_at [(r, NodeType.leaf bg bg bg bg)] h1).also
      (R := fun _ s2 => s2.nullNodes = s1.nullNodes) (fun _ _ h => Heap.decRefOpt_keeps h))
      fun _ s2 ⟨h2, k2⟩ => ?_
    exact ⟨h2, by rw [k2, k1]⟩
  · obtain ⟨j, rfl⟩ := Nat.exists_eq_succ_of_ne_zero h0
    rw [if_neg h0]
    have hp := hprev (Nat.succ_pos _)
    simp only [Nat.succ_sub_one] at hp ⊢
    refine Heap.Ok.bind (Heap.readNullNode_ok hp) fun prev s0 ⟨e0, hent⟩ => ?_
    subst e0
    have hr := hst.nulls bg j prev hent
    have hl : (getNullNode j bg).level = j := getNullNode_level j bg
    have f1 : Free 5 (j + 1) ((prev, getNullNode j bg) :: (optHandle old told ++ H)) :=
      hfree.push [(prev, getNullNode j bg)] (by simp)
    have f2 : Free 4 (j + 1) ((prev, getNullNode j bg) :: (prev, getNullNode j bg)
        :: (optHandle old told ++ H)) :=
      hfree.push [(prev, getNullNode j bg), (prev, getNullNode j bg)] (by simp)
    have f3 : Free 3 (j + 1) ((prev, getNullNode j bg) :: (prev, getNullNode j bg)
        :: (prev, getNullNode j bg) :: (optHandle old told ++ H)) :=
      hfree.push [(prev, getNullNode j bg), (prev, getNullNode j bg), (prev, getNullNode j bg)]
        (by simp)
    have f4 : Free 2 (j + 1) ((prev, getNullNode j bg) :: (prev, getNullNode j bg)
        :: (prev, getNullNode j bg) :: (prev, getNullNode j bg)
        :: (optHandle old told ++ H)) :=
      hfree.push [(prev, getNullNode j bg), (prev, getNullNode j bg), (prev, getNullNode j bg),
        (prev, getNullNode j bg)] (by simp)
    have f5 : Free 1 (j + 1) ((prev, getNullNode j bg) :: (prev, getNullNode j bg)
        :: (prev, getNullNode j bg) :: (prev, getNullNode j bg) :: (prev, getNullNode j bg)
        :: (optHandle old told ++ H)) :=
      hfree.push [(prev, getNullNode j bg), (prev, getNullNode j bg), (prev, getNullNode j bg),
        (prev, getNullNode j bg), (prev, getNullNode j bg)] (by simp)
    refine Heap.Ok.bind ((Heap.incRef_ok hst hr (hfree.one (by omega) (by decide))).also
      (R := fun _ s1 => s1.nullNodes = s0.nullNodes) (fun _ _ h => Heap.incRef_keeps h))
      fun _ s1 ⟨⟨h1, le1⟩, k1⟩ => ?_
    have hr1 := hr.grow le1
    refine Heap.Ok.bind ((Heap.incRef_ok h1 hr1 (f1.one (by omega) (by decide))).also
      (R := fun _ s2 => s2.nullNodes = s1.nullNodes) (fun _ _ h => Heap.incRef_keeps h))
      fun _ s2 ⟨⟨h2, le2⟩, k2⟩ => ?_
    have hr2 := hr1.grow le2
    refine Heap.Ok.bind ((Heap.incRef_ok h2 hr2 (f2.one (by omega) (by decide))).also
      (R := fun _ s3 => s3.nullNodes = s2.nullNodes) (fun _ _ h => Heap.incRef_keeps h))
      fun _ s3 ⟨⟨h3, le3⟩, k3⟩ => ?_
    have hr3 := hr2.grow le3
    refine Heap.Ok.bind ((Heap.incRef_ok h3 hr3 (f3.one (by omega) (by decide))).also
      (R := fun _ s4 => s4.nullNodes = s3.nullNodes) (fun _ _ h => Heap.incRef_keeps h))
      fun _ s4 ⟨⟨h4, le4⟩, k4⟩ => ?_
    have hr4 := hr3.grow le4
    refine Heap.Ok.bind ((Heap.incRef_ok h4 hr4 (f4.one (by omega) (by decide))).also
      (R := fun _ s5 => s5.nullNodes = s4.nullNodes) (fun _ _ h => Heap.incRef_keeps h))
      fun _ s5 ⟨⟨h5, le5⟩, k5⟩ => ?_
    have hm : (prev, getNullNode j bg) ∈ (prev, getNullNode j bg) :: (prev, getNullNode j bg)
        :: (prev, getNullNode j bg) :: (prev, getNullNode j bg) :: (prev, getNullNode j bg)
        :: (optHandle old told ++ H) := List.mem_cons_self _ _
    refine Heap.Ok.bind ((Heap.internNonleaf_ok h5 hm hm hm hm rfl rfl rfl
      (f5.one (by omega) (le_refl _))).also
      (R := fun _ s6 => s6.nullNodes = s5.nullNodes)
      (fun _ _ h => Heap.internNonleaf_keeps h5 hm hm hm hm rfl rfl rfl h))
      fun r s6 ⟨h6, k6⟩ => ?_
    refine Heap.Ok.bind ((Heap.decRefOpt_at [(r, NodeType.nonleaf (getNullNode j bg)
        (getNullNode j bg) (getNullNode j bg) (getNullNode j bg)), (prev, getNullNode j bg),
        (prev, getNullNode j bg), (prev, getNullNode j bg), (prev, getNullNode j bg),
        (prev, getNullNode j bg)] h6).also
      (R := fun _ s7 => s7.nullNodes = s6.nullNodes) (fun _ _ h => Heap.decRefOpt_keeps h))
      fun _ s7 ⟨h7, k7⟩ => ?_
    refine Heap.Ok.bind ((Heap.decRef_second h7).also
      (R := fun _ s8 => s8.nullNodes = s7.nullNodes) (fun _ _ h => Heap.decRef_keeps h))
      fun _ s8 ⟨⟨h8, _⟩, k8⟩ => ?_
    refine Heap.Ok.bind ((Heap.decRef_second h8).also
      (R := fun _ s9 => s9.nullNodes = s8.nullNodes) (fun _ _ h => Heap.decRef_keeps h))
      fun _ s9 ⟨⟨h9, _⟩, k9⟩ => ?_
    refine Heap.Ok.bind ((Heap.decRef_second h9).also
      (R := fun _ s10 => s10.nullNodes = s9.nullNodes) (fun _ _ h => Heap.decRef_keeps h))
      fun _ s10 ⟨⟨h10, _⟩, k10⟩ => ?_
    refine Heap.Ok.bind ((Heap.decRef_second h10).also
      (R := fun _ s11 => s11.nullNodes = s10.nullNodes) (fun _ _ h => Heap.decRef_keeps h))
      fun _ s11 ⟨⟨h11, _⟩, k11⟩ => ?_
    refine Heap.Ok.bind ((Heap.decRef_second h11).also
      (R := fun _ s12 => s12.nullNodes = s11.nullNodes) (fun _ _ h => Heap.decRef_keeps h))
      fun _ s12 ⟨⟨h12, _⟩, k12⟩ => ?_
    exact ⟨h12, by rw [k12, k11, k10, k9, k8, k7, k6, k5, k4, k3, k2, k1]⟩

/-- The loop of `getNullNode`: after `count + 1` iterations from the level `i`
on, the variable `retval` holds the null node of the level `i + count`, which
is entry `i + count` of the vector; the entries there were are kept. -/
theorem Engine.getNullNodeLoop_ok {H : List (Addr × NodeType)} (bg : Nat) :
    ∀ (count i : Nat) (old : Option Addr) (told : NodeType) (s : NodeGCHashTable),
    St cfg rules s (optHandle old told ++ H) → bg < s.nullNodes.length →
    (s.nullNodes.getD bg []).length = i → Free 7 (i + count) H →
    Ok (fun o s1 => ∃ r, o = some r ∧ St cfg rules s1 ((r, getNullNode (i + count) bg) :: H)
        ∧ (s1.nullNodes.getD bg [])[i + count]? = some r
        ∧ ∀ (b j : Nat) (x : Addr), (s.nullNodes.getD b [])[j]? = some x → (s1.nullNodes.getD b [])[j]? = some x)
      (getNullNodeLoop cfg bg (count + 1) i old s) := by
  intro count
  induction count with
  | zero =>
    intro i old told s hst hbg hlen hfree
    rw [getNullNodeLoop]
    have hf6 : Free 6 i (optHandle old told ++ H) :=
      hfree.push (optHandle old told) (j := 6) (by cases old <;> simp [optHandle])
    refine Heap.Ok.bind (Engine.nullNodeStep_ok hst i bg (fun _ => by omega) hf6)
      fun r s1 ⟨h1, k1⟩ => ?_
    refine Heap.Ok.bind (Engine.pushNullNode_ok h1 (by rw [k1]; exact hbg) (by rw [k1, hlen])
      ((hfree.push [(r, getNullNode i bg)] (j := 6) (by simp)).one (le_refl _) (by decide)))
      fun _ s2 ⟨h2, hbg2, e2, o2⟩ => ?_
    rw [getNullNodeLoop]
    refine ⟨r, rfl, h2, ?_, ?_⟩
    · rw [e2, k1, List.getElem?_append_right (by omega), hlen]
      simp
    · intro b j x hx
      by_cases hb : b = bg
      · subst hb
        rw [e2, k1, List.getElem?_append_left (by
          by_contra hc
          rw [List.getElem?_eq_none (not_lt.1 hc)] at hx
          simp at hx)]
        exact hx
      · rw [o2 b hb, k1]
        exact hx
  | succ count ih =>
    intro i old told s hst hbg hlen hfree
    rw [getNullNodeLoop]
    have hf6 : Free 6 i (optHandle old told ++ H) :=
      (hfree.push (optHandle old told) (j := 6) (by cases old <;> simp [optHandle])).less
        (le_refl _) (by omega)
    refine Heap.Ok.bind (Engine.nullNodeStep_ok hst i bg (fun _ => by omega) hf6)
      fun r s1 ⟨h1, k1⟩ => ?_
    refine Heap.Ok.bind (Engine.pushNullNode_ok h1 (by rw [k1]; exact hbg) (by rw [k1, hlen])
      ((hfree.push [(r, getNullNode i bg)] (j := 6) (by simp)).one (by omega) (by decide)))
      fun _ s2 ⟨h2, hbg2, e2, o2⟩ => ?_
    have hlen2 : (s2.nullNodes.getD bg []).length = i + 1 := by
      rw [e2, List.length_append, k1, hlen]
      rfl
    refine (ih (i + 1) (some r) (getNullNode i bg) s2 h2 hbg2 hlen2
      (by rw [show i + 1 + count = i + (count + 1) by omega]; exact hfree)).mono ?_
    rintro o s3 ⟨r3, rfl, h3, e3, m3⟩
    rw [show i + 1 + count = i + (count + 1) by omega] at h3 e3
    refine ⟨r3, rfl, h3, e3, ?_⟩
    intro b j x hx
    apply m3
    by_cases hb : b = bg
    · subst hb
      rw [e2, k1, List.getElem?_append_left (by
        by_contra hc
        rw [List.getElem?_eq_none (not_lt.1 hc)] at hx
        simp at hx)]
      exact hx
    · rw [o2 b hb, k1]
      exact hx

/-- Function `getNullNode` on the store returns a handle to the null node of
the level and background asked for; the node is entry `level` of the vector
of the background, and the entries there were are kept. -/
theorem Engine.getNullNode_ok {s : NodeGCHashTable} {H : List (Addr × NodeType)}
    (hst : St cfg rules s H) (level bg : Nat) (hfree : Free 7 level H) :
    Ok (fun r s1 => St cfg rules s1 ((r, getNullNode level bg) :: H)
        ∧ (s1.nullNodes.getD bg [])[level]? = some r
        ∧ ∀ (b j : Nat) (x : Addr), (s.nullNodes.getD b [])[j]? = some x → (s1.nullNodes.getD b [])[j]? = some x)
      (Heap.getNullNode cfg level bg s) := by
  unfold Heap.getNullNode
  refine Heap.Ok.bind (Heap.resizeNullNodes_ok hst bg) fun _ s1 ⟨h1, _, hbg, hsame⟩ => ?_
  show Ok _ (if level < (s1.nullNodes.getD bg []).length then _ else _)
  by_cases hl : level < (s1.nullNodes.getD bg []).length
  · rw [if_pos hl]
    refine Heap.Ok.bind (Heap.readNullNode_ok hl) fun r s2 ⟨e2, hent⟩ => ?_
    subst e2
    refine Heap.Ok.bind ((Heap.incRef_ok h1 (h1.nulls bg level r hent)
      (by rw [getNullNode_level]; exact hfree.one (le_refl _) (by decide))).also
      (R := fun _ s3 => s3.nullNodes = s2.nullNodes) (fun _ _ h => Heap.incRef_keeps h))
      fun _ s3 ⟨⟨h3, _⟩, k3⟩ => ?_
    refine ⟨h3, by rw [k3]; exact hent, ?_⟩
    intro b j x hx
    rw [k3, hsame b]
    exact hx
  · rw [if_neg hl]
    obtain ⟨c, hc⟩ : ∃ c, level + 1 - (s1.nullNodes.getD bg []).length = c + 1 :=
      ⟨level - (s1.nullNodes.getD bg []).length, by omega⟩
    have hlc : (s1.nullNodes.getD bg []).length + c = level := by omega
    rw [hc]
    refine Heap.Ok.bind (Engine.getNullNodeLoop_ok bg c _ none (getNullNode 0 0) s1 h1 hbg rfl
      (by rw [hlc]; exact hfree)) fun o s2 ⟨r, e, h2, hent, m2⟩ => ?_
    subst e
    rw [hlc] at h2 hent
    refine ⟨h2, hent, ?_⟩
    intro b j x hx
    apply m2
    rw [hsame b]
    exact hx

end EngineNull

section EngineCells
open Heap (M ret fail bindM incRef decRef decRefOpt readNode Ok Repr ShapeLe held St Addr Node Memory
  NodeGCHashTable Config Failure Inv Shrinks Interned incRefCount decRefCount findOrInsertLeaf
  findOrInsertNonleaf callNonleaf withNonleaf lc Free Room Ext optHandle outOfBounds
  getCellHChild getCellHFuel setCellHLocals setCellHChild setCellHReturn setCellHFuel)

variable {cfg : Config} {rules : RuleTable}

theorem Heap.outOfBounds_eq_false {L : Nat} {cx cy x y : Int} (hx1 : cx - 2 ^ L ≤ x)
    (hx2 : x < cx + 2 ^ L) (hy1 : cy - 2 ^ L ≤ y) (hy2 : y < cy + 2 ^ L) :
    outOfBounds L cx cy x y = false := by
  unfold outOfBounds
  simp only [Bool.or_eq_false_iff, decide_eq_false_iff_not, not_lt, ge_iff_le, not_le]
  exact ⟨⟨⟨hx1, hx2⟩, hy1⟩, hy2⟩

/-- Function `isInNodeBounds` on the store is the test of the value level. -/
theorem Engine.isInNodeBounds_ok {s : NodeGCHashTable} {node : Addr} {t : NodeType}
    (hr : Repr s.memory node t) (cx cy x y : Int) :
    Ok (fun b s1 => s1 = s ∧ b = isInNodeBounds t cx cy x y)
      (Heap.isInNodeBounds node cx cy x y s) := by
  unfold Heap.isInNodeBounds
  refine Heap.Ok.bind (Heap.readNode_ok hr fun n hn => ?_)
    fun n s1 (hx : s1 = s ∧ s.memory node = some n) => ?_
  · exact ⟨rfl, hn⟩
  obtain ⟨rfl, hn⟩ := hx
  refine ⟨rfl, ?_⟩
  rw [hr.level_eq hn]
  rfl

/-- The two handles around a recursive call of `getCellH`. -/
theorem Heap.getCellHChild_ok {s : NodeGCHashTable} {H : List (Addr × NodeType)}
    (hst : St cfg rules s H) {child : Addr} {tc : NodeType} (hr : Repr s.memory child tc)
    (hfree : Free 2 tc.level H) {f : Addr → M CellType} {P : CellType → Prop}
    (hf : ∀ s1, St cfg rules s1 ((child, tc) :: (child, tc) :: H) →
      Ok (fun r s2 => P r ∧ St cfg rules s2 ((child, tc) :: (child, tc) :: H)) (f child s1)) :
    Ok (fun r s1 => P r ∧ St cfg rules s1 H) (getCellHChild child f s) := by
  unfold getCellHChild
  refine Heap.Ok.bind (Heap.incRef_ok hst hr (hfree.one (le_refl _) (by decide)))
    fun _ s1 ⟨h1, le1⟩ => ?_
  refine Heap.Ok.bind (Heap.incRef_ok h1 (hr.grow le1)
    ((hfree.push [(child, tc)] (j := 1) (by simp)).one (le_refl _) (le_refl _)))
    fun _ s2 ⟨h2, le2⟩ => ?_
  refine Heap.Ok.bind (hf s2 h2) fun r s3 ⟨hp, h3⟩ => ?_
  refine Heap.Ok.bind (Heap.decRef_ok h3) fun _ s4 ⟨h4, _⟩ => ?_
  refine Heap.Ok.bind (Heap.decRef_ok h4) fun _ s5 ⟨h5, _⟩ => ?_
  exact ⟨hp, h5⟩

/-- Function `getCellH` on the store, on a leaf. -/
theorem Engine.getCellHFuel_leaf {s : NodeGCHashTable} {H : List (Addr × NodeType)}
    (hst : St cfg rules s H) {node : Addr} {c0 c1 c2 c3 : CellType}
    (hr : Repr s.memory node (NodeType.leaf c0 c1 c2 c3)) (fuel : Nat) {cx cy x y : Int}
    (hx1 : cx - 1 ≤ x) (hx2 : x < cx + 1) (hy1 : cy - 1 ≤ y) (hy2 : y < cy + 1) :
    Ok (fun r s1 => getCellH (NodeType.leaf c0 c1 c2 c3) cx cy x y = some r
        ∧ St cfg rules s1 H) (getCellHFuel fuel node cx cy x y s) := by
  unfold getCellHFuel
  refine Heap.Ok.bind (Heap.readNode_ok hr fun n hn => ?_)
    fun n s1 (hx : s1 = s ∧ s.memory node = some n) => ?_
  · exact ⟨rfl, hn⟩
  obtain ⟨rfl, hn⟩ := hx
  obtain ⟨l0, rfl, rfl, rfl, rfl⟩ := hr.cells hn
  rw [l0, Heap.outOfBounds_eq_false (by simpa using hx1) (by simpa using hx2)
    (by simpa using hy1) (by simpa using hy2)]
  simp only [Bool.false_eq_true, if_false, if_true]
  have hx : x = cx - 1 ∨ x = cx := by omega
  have hy : y = cy - 1 ∨ y = cy := by omega
  have e1 : ¬ (cx = cx - 1) := by omega
  have e2 : ¬ (cy = cy - 1) := by omega
  rcases hx with hx | hx <;> rcases hy with hy | hy <;> subst hx <;> subst hy <;>
    simp only [getCellH, and_self, if_true, e1, e2, and_false, false_and, if_false, true_and,
      and_true] <;> exact ⟨rfl, hst⟩

/-- Function `getCellH` on the store returns the cell the value-level function
returns, at every coordinate of the node's square. -/
theorem Engine.getCellHFuel_ok : ∀ (fuel : Nat) (node : Addr) (t : NodeType) (cx cy x y : Int)
    (s : NodeGCHashTable) (H : List (Addr × NodeType)),
    St cfg rules s H → Repr s.memory node t → t.level ≤ fuel → Room 2 t.level H →
    cx - 2 ^ t.level ≤ x → x < cx + 2 ^ t.level → cy - 2 ^ t.level ≤ y → y < cy + 2 ^ t.level →
    Ok (fun r s1 => getCellH t cx cy x y = some r ∧ St cfg rules s1 H)
      (getCellHFuel fuel node cx cy x y s) := by
  intro fuel
  induction fuel with
  | zero =>
    intro node t cx cy x y s H hst hr hfuel hroom hx1 hx2 hy1 hy2
    obtain ⟨c0, c1, c2, c3, rfl⟩ := NodeType.eq_leaf_of_level_zero (Nat.le_zero.1 hfuel)
    simp only [NodeType.level_leaf, pow_zero] at hx1 hx2 hy1 hy2
    exact Engine.getCellHFuel_leaf hst hr 0 hx1 hx2 hy1 hy2
  | succ fuel ih =>
    intro node t cx cy x y s H hst hr hfuel hroom hx1 hx2 hy1 hy2
    cases t with
    | leaf c0 c1 c2 c3 =>
      simp only [NodeType.level_leaf, pow_zero] at hx1 hx2 hy1 hy2
      exact Engine.getCellHFuel_leaf hst hr _ hx1 hx2 hy1 hy2
    | nonleaf a b c d =>
      obtain ⟨wa, wb, wc, wd, lb, lc, ld⟩ := hr.wellFormed hst.inv
      have hp : (2 : Int) ^ (1 + a.level) = 2 * 2 ^ a.level := by rw [pow_add, pow_one]
      have hpos : (0 : Int) < 2 ^ a.level := by positivity
      have hroom1 : Room 2 (a.level + 1) H := by
        rw [Nat.add_comm]
        exact hroom
      have hfr : Free 2 a.level H := Heap.Room.free_low [] hroom1 (by decide)
      have hrm : ∀ (p : Addr × NodeType), p.2.level = a.level →
          Room 2 a.level (p :: p :: H) := fun p hp1 =>
        Heap.Room.down [p, p] hroom1 (le_refl _) (by
          intro q hq
          simp only [List.mem_cons, List.mem_singleton, List.not_mem_nil, or_false,
            or_self] at hq
          subst hq
          omega)
      unfold getCellHFuel
      refine Heap.Ok.bind (Heap.readNode_ok hr fun n hn => ?_)
        fun n s1 (hx : s1 = s ∧ s.memory node = some n) => ?_
      · exact ⟨rfl, hn⟩
      obtain ⟨rfl, hn⟩ := hx
      obtain ⟨hl, ka, kb, kc, kd⟩ := hr.kids hn
      have hh : (2 : Int) ^ n.level / 2 = 2 ^ a.level := by
        rw [hl, pow_succ, Int.mul_ediv_cancel _ (by norm_num)]
      rw [Heap.outOfBounds_eq_false (by rw [hl, Nat.add_comm]; exact hx1)
        (by rw [hl, Nat.add_comm]; exact hx2) (by rw [hl, Nat.add_comm]; exact hy1)
        (by rw [hl, Nat.add_comm]; exact hy2)]
      simp only [Bool.false_eq_true, if_false, hh]
      rw [if_neg (by omega)]
      rw [NodeType.level_nonleaf, hp] at hx1 hx2 hy1 hy2
      rw [NodeType.getCellH_nonleaf _ _ _ _ _ _ _ _ hx1 hx2 hy1 hy2]
      rw [NodeType.level_nonleaf] at hfuel
      by_cases hx : x < cx <;> by_cases hy : y < cy
      · rw [if_pos hx, if_pos hy, if_pos hx, if_pos hy]
        exact Heap.getCellHChild_ok hst ka hfr fun s1 h1 =>
          ih _ a _ _ x y s1 _ h1 (h1.handle (List.mem_cons_self _ _)).1 (by omega)
            (hrm (n.nxny, a) rfl) (by omega) (by omega) (by omega) (by omega)
      · rw [if_pos hx, if_neg hy, if_pos hx, if_neg hy]
        exact Heap.getCellHChild_ok hst kb (by rw [lb]; exact hfr) fun s1 h1 =>
          ih _ b _ _ x y s1 _ h1 (h1.handle (List.mem_cons_self _ _)).1 (by omega)
            (by rw [lb]; exact hrm (n.nxpy, b) lb) (by rw [lb]; omega) (by rw [lb]; omega)
            (by rw [lb]; omega) (by rw [lb]; omega)
      · rw [if_neg hx, if_pos hy, if_neg hx, if_pos hy]
        exact Heap.getCellHChild_ok hst kc (by rw [lc]; exact hfr) fun s1 h1 =>
          ih _ c _ _ x y s1 _ h1 (h1.handle (List.mem_cons_self _ _)).1 (by omega)
            (by rw [lc]; exact hrm (n.pxny, c) lc) (by rw [lc]; omega) (by rw [lc]; omega)
            (by rw [lc]; omega) (by rw [lc]; omega)
      · rw [if_neg hx, if_neg hy, if_neg hx, if_neg hy]
        exact Heap.getCellHChild_ok hst kd (by rw [ld]; exact hfr) fun s1 h1 =>
          ih _ d _ _ x y s1 _ h1 (h1.handle (List.mem_cons_self _ _)).1 (by omega)
            (by rw [ld]; exact hrm (n.pxpy, d) ld) (by rw [ld]; omega) (by rw [ld]; omega)
            (by rw [ld]; omega) (by rw [ld]; omega)

/-- Function `getCellH` on the store, with the node's level for the budget. -/
theorem Engine.getCellH_ok {s : NodeGCHashTable} {H : List (Addr × NodeType)}
    (hst : St cfg rules s H) {node : Addr} {t : NodeType} (hr : Repr s.memory node t)
    (hroom : Room 2 t.level H) {cx cy x y : Int}
    (hx1 : cx - 2 ^ t.level ≤ x) (hx2 : x < cx + 2 ^ t.level) (hy1 : cy - 2 ^ t.level ≤ y)
    (hy2 : y < cy + 2 ^ t.level) :
    Ok (fun r s1 => getCellH t cx cy x y = some r ∧ St cfg rules s1 H)
      (Heap.getCellH node cx cy x y s) := by
  unfold Heap.getCellH
  refine Heap.Ok.bind (Heap.readNode_ok hr fun n hn => ?_)
    fun n s1 (hx : s1 = s ∧ s.memory node = some n) => ?_
  · exact ⟨rfl, hn⟩
  obtain ⟨rfl, hn⟩ := hx
  exact Engine.getCellHFuel_ok n.level node t cx cy x y s1 H hst hr
    (le_of_eq (hr.level_eq hn).symm) hroom hx1 hx2 hy1 hy2

/-- The four local handles of `setCellH`. -/
theorem Heap.setCellHLocals_ok {s : NodeGCHashTable} {H : List (Addr × NodeType)}
    (hst : St cfg rules s H) {node : Addr} {a b c d : NodeType} {n : Node}
    (hr : Repr s.memory node (NodeType.nonleaf a b c d)) (hn : s.memory node = some n)
    (hfree : Free 4 a.level H) :
    Ok (fun _ s1 => St cfg rules s1 ((n.pxpy, d) :: (n.pxny, c) :: (n.nxpy, b) :: (n.nxny, a) :: H))
      (setCellHLocals n s) := by
  obtain ⟨-, -, -, -, lb, lc, ld⟩ := hr.wellFormed hst.inv
  obtain ⟨hl, ka, kb, kc, kd⟩ := hr.kids hn
  unfold setCellHLocals
  refine Heap.Ok.bind (Heap.incRef_ok hst ka (hfree.one (le_refl _) (by decide)))
    fun _ s1 ⟨h1, le1⟩ => ?_
  refine Heap.Ok.bind (Heap.incRef_ok h1 (kb.grow le1)
    ((hfree.push [(n.nxny, a)] (j := 3) (by simp)).one (le_of_eq lb) (by decide)))
    fun _ s2 ⟨h2, le2⟩ => ?_
  refine Heap.Ok.bind (Heap.incRef_ok h2 ((kc.grow le1).grow le2)
    ((hfree.push [(n.nxpy, b), (n.nxny, a)] (j := 2) (by simp)).one (le_of_eq lc) (by decide)))
    fun _ s3 ⟨h3, le3⟩ => ?_
  exact (Heap.incRef_ok h3 (((kd.grow le1).grow le2).grow le3)
    ((hfree.push [(n.pxny, c), (n.nxpy, b), (n.nxny, a)] (j := 1) (by simp)).one
      (le_of_eq ld) (by decide))).mono fun _ _ h => h.1

/-- A statement `child = setCellH(child, ...);` of `setCellH`: the result
replaces the local handle. -/
theorem Heap.setCellHChild_ok {s : NodeGCHashTable} {A B : List (Addr × NodeType)}
    {child : Addr} {tc : NodeType} (hst : St cfg rules s (A ++ (child, tc) :: B))
    (hroom : lc tc.level (A ++ (child, tc) :: B) + 1 ≤ 254) {f : Addr → M Addr}
    {P : NodeType → Prop}
    (hf : ∀ s1, St cfg rules s1 ((child, tc) :: (A ++ (child, tc) :: B)) →
      Ok (fun r s2 => ∃ tr, P tr
        ∧ St cfg rules s2 ((r, tr) :: (child, tc) :: (A ++ (child, tc) :: B))) (f child s1)) :
    Ok (fun r s1 => ∃ tr, P tr ∧ St cfg rules s1 ((r, tr) :: (A ++ B)))
      (setCellHChild child f s) := by
  unfold setCellHChild
  have hm : (child, tc) ∈ A ++ (child, tc) :: B :=
    List.mem_append_right _ (List.mem_cons_self _ _)
  refine Heap.Ok.bind (Heap.incRef_ok hst (hst.handle hm).1 hroom) fun _ s1 ⟨h1, _⟩ => ?_
  refine Heap.Ok.bind (hf s1 h1) fun r s2 ⟨tr, hp, h2⟩ => ?_
  refine Heap.Ok.bind (Heap.decRef_second h2) fun _ s3 ⟨h3, _⟩ => ?_
  refine Heap.Ok.bind (Heap.decRef_at ((r, tr) :: A) h3) fun _ s4 ⟨h4, _⟩ => ?_
  exact ⟨tr, hp, h4⟩

/-- The statement `return gc->findOrInsertNonleaf(nxny, nxpy, pxny, pxpy);` of
`setCellH` and the destruction of the four local handles. -/
theorem Heap.setCellHReturn_ok {s : NodeGCHashTable} {H4 : List (Addr × NodeType)}
    (H : List (Addr × NodeType)) (a b c d : Addr) (ta tb tc td : NodeType)
    (hst : St cfg rules s H4)
    (hperm : H4.Perm ((a, ta) :: (b, tb) :: (c, tc) :: (d, td) :: H))
    (l1 : tb.level = ta.level) (l2 : tc.level = ta.level) (l3 : td.level = ta.level)
    (hfree : Free 5 (ta.level + 1) H4) :
    Ok (fun r s1 => St cfg rules s1 ((r, NodeType.nonleaf ta tb tc td) :: H))
      (setCellHReturn cfg a b c d s) := by
  have h0 := hst.perm hperm
  have hf0 : Free 5 (ta.level + 1) ((a, ta) :: (b, tb) :: (c, tc) :: (d, td) :: H) := by
    intro l hl
    rw [← Heap.lc_perm hperm l]
    exact hfree l hl
  unfold setCellHReturn
  refine Heap.Ok.bind (Heap.callNonleaf_ok h0 (h0.handle (List.mem_cons_self _ _)).1
    (h0.handle (List.mem_cons_of_mem _ (List.mem_cons_self _ _))).1
    (h0.handle (List.mem_cons_of_mem _ (List.mem_cons_of_mem _ (List.mem_cons_self _ _)))).1
    (h0.handle (List.mem_cons_of_mem _ (List.mem_cons_of_mem _ (List.mem_cons_of_mem _
      (List.mem_cons_self _ _))))).1 l1 l2 l3 hf0) fun r s1 h1 => ?_
  refine Heap.Ok.bind (Heap.decRef_at [(r, NodeType.nonleaf ta tb tc td), (a, ta), (b, tb),
    (c, tc)] h1) fun _ s2 ⟨h2, _⟩ => ?_
  refine Heap.Ok.bind (Heap.decRef_at [(r, NodeType.nonleaf ta tb tc td), (a, ta), (b, tb)] h2)
    fun _ s3 ⟨h3, _⟩ => ?_
  refine Heap.Ok.bind (Heap.decRef_at [(r, NodeType.nonleaf ta tb tc td), (a, ta)] h3)
    fun _ s4 ⟨h4, _⟩ => ?_
  refine Heap.Ok.bind (Heap.decRef_second h4) fun _ s5 ⟨h5, _⟩ => ?_
  exact h5

/-- Function `setCellH` on the store, on a leaf. -/
theorem Engine.setCellHFuel_leaf {s : NodeGCHashTable} {H : List (Addr × NodeType)}
    (hst : St cfg rules s H) {node : Addr} {c0 c1 c2 c3 : CellType}
    (hr : Repr s.memory node (NodeType.leaf c0 c1 c2 c3)) (fuel : Nat) {cx cy x y : Int}
    (v : CellType)
    (hx1 : cx - 1 ≤ x) (hx2 : x < cx + 1) (hy1 : cy - 1 ≤ y) (hy2 : y < cy + 1)
    (hroom : lc 0 H + 1 ≤ 254) :
    Ok (fun r s1 => ∃ tr, (setCellH (NodeType.leaf c0 c1 c2 c3) cx cy x y v = some tr
        ∧ tr.level = 0) ∧ St cfg rules s1 ((r, tr) :: H))
      (setCellHFuel cfg fuel node cx cy x y v s) := by
  unfold setCellHFuel
  refine Heap.Ok.bind (Heap.readNode_ok hr fun n hn => ?_)
    fun n s1 (hx : s1 = s ∧ s.memory node = some n) => ?_
  · exact ⟨rfl, hn⟩
  obtain ⟨rfl, hn⟩ := hx
  obtain ⟨l0, rfl, rfl, rfl, rfl⟩ := hr.cells hn
  rw [l0, Heap.outOfBounds_eq_false (by simpa using hx1) (by simpa using hx2)
    (by simpa using hy1) (by simpa using hy2)]
  simp only [Bool.false_eq_true, if_false, if_true]
  have hx : x = cx - 1 ∨ x = cx := by omega
  have hy : y = cy - 1 ∨ y = cy := by omega
  have e1 : ¬ (cx = cx - 1) := by omega
  have e2 : ¬ (cy = cy - 1) := by omega
  rcases hx with hx | hx <;> rcases hy with hy | hy <;> subst hx <;> subst hy <;>
    simp only [setCellH, and_self, if_true, e1, e2, and_false, false_and, if_false, true_and,
      and_true]
  · exact (Heap.internLeaf_ok hst _ _ _ _ hroom).mono fun r s1 h => ⟨_, ⟨rfl, rfl⟩, h⟩
  · exact (Heap.internLeaf_ok hst _ _ _ _ hroom).mono fun r s1 h => ⟨_, ⟨rfl, rfl⟩, h⟩
  · exact (Heap.internLeaf_ok hst _ _ _ _ hroom).mono fun r s1 h => ⟨_, ⟨rfl, rfl⟩, h⟩
  · exact (Heap.internLeaf_ok hst _ _ _ _ hroom).mono fun r s1 h => ⟨_, ⟨rfl, rfl⟩, h⟩

theorem Heap.perm_swap13 {α : Type} (r d c b : α) (H : List α) :
    (r :: d :: c :: b :: H).Perm (r :: b :: c :: d :: H) :=
  List.Perm.cons r (((List.Perm.swap c d _).trans
    (List.Perm.cons c (List.Perm.swap b d _))).trans (List.Perm.swap b c _))

/-- Function `setCellH` on the store returns a handle to the quadtree the
value-level function returns, at every coordinate of the node's square. -/
theorem Engine.setCellHFuel_ok : ∀ (fuel : Nat) (node : Addr) (t : NodeType) (cx cy x y : Int)
    (v : CellType) (s : NodeGCHashTable) (H : List (Addr × NodeType)),
    St cfg rules s H → Repr s.memory node t → t.level ≤ fuel → Room 10 t.level H →
    cx - 2 ^ t.level ≤ x → x < cx + 2 ^ t.level → cy - 2 ^ t.level ≤ y → y < cy + 2 ^ t.level →
    Ok (fun r s1 => ∃ tr, (setCellH t cx cy x y v = some tr ∧ tr.level = t.level)
        ∧ St cfg rules s1 ((r, tr) :: H))
      (setCellHFuel cfg fuel node cx cy x y v s) := by
  intro fuel
  induction fuel with
  | zero =>
    intro node t cx cy x y v s H hst hr hfuel hroom hx1 hx2 hy1 hy2
    obtain ⟨c0, c1, c2, c3, rfl⟩ := NodeType.eq_leaf_of_level_zero (Nat.le_zero.1 hfuel)
    simp only [NodeType.level_leaf, pow_zero] at hx1 hx2 hy1 hy2
    exact Engine.setCellHFuel_leaf hst hr 0 v hx1 hx2 hy1 hy2
      ((Heap.Room.free [] hroom (k := 1) (by decide)).one (Nat.zero_le _) (le_refl _))
  | succ fuel ih =>
    intro node t cx cy x y v s H hst hr hfuel hroom hx1 hx2 hy1 hy2
    cases t with
    | leaf c0 c1 c2 c3 =>
      simp only [NodeType.level_leaf, pow_zero] at hx1 hx2 hy1 hy2
      exact Engine.setCellHFuel_leaf hst hr _ v hx1 hx2 hy1 hy2
        ((Heap.Room.free [] hroom (k := 1) (by decide)).one (Nat.zero_le _) (le_refl _))
    | nonleaf a b c d =>
      obtain ⟨wa, wb, wc, wd, lb, lc, ld⟩ := hr.wellFormed hst.inv
      have hp : (2 : Int) ^ (1 + a.level) = 2 * 2 ^ a.level := by rw [pow_add, pow_one]
      have hpos : (0 : Int) < 2 ^ a.level := by positivity
      have hroom1 : Room 10 (a.level + 1) H := by
        rw [Nat.add_comm]
        exact hroom
      unfold setCellHFuel
      refine Heap.Ok.bind (Heap.readNode_ok hr fun n hn => ?_)
        fun n s1 (hx : s1 = s ∧ s.memory node = some n) => ?_
      · exact ⟨rfl, hn⟩
      obtain ⟨rfl, hn⟩ := hx
      obtain ⟨hl, ka, kb, kc, kd⟩ := hr.kids hn
      have hh : (2 : Int) ^ n.level / 2 = 2 ^ a.level := by
        rw [hl, pow_succ, Int.mul_ediv_cancel _ (by norm_num)]
      rw [Heap.outOfBounds_eq_false (by rw [hl, Nat.add_comm]; exact hx1)
        (by rw [hl, Nat.add_comm]; exact hx2) (by rw [hl, Nat.add_comm]; exact hy1)
        (by rw [hl, Nat.add_comm]; exact hy2)]
      simp only [Bool.false_eq_true, if_false, hh]
      rw [if_neg (by omega)]
      rw [NodeType.level_nonleaf, hp] at hx1 hx2 hy1 hy2
      rw [NodeType.setCellH_nonleaf _ _ _ _ _ _ _ _ _ hx1 hx2 hy1 hy2]
      rw [NodeType.level_nonleaf] at hfuel
      refine Heap.Ok.bind (Heap.setCellHLocals_ok hst hr hn
        (Heap.Room.free_low [] hroom1 (by decide))) fun _ s1 h1 => ?_
      have hrm : ∀ (p : Addr × NodeType), p.2.level = a.level →
          Room 10 a.level (p :: (n.pxpy, d) :: (n.pxny, c) :: (n.nxpy, b) :: (n.nxny, a) :: H) :=
        fun p hp1 =>
        Heap.Room.down [p, (n.pxpy, d), (n.pxny, c), (n.nxpy, b), (n.nxny, a)] hroom1
          (by simp) (by
          intro q hq
          simp only [List.mem_cons, List.mem_singleton, List.not_mem_nil, or_false] at hq
          rcases hq with rfl | rfl | rfl | rfl | rfl
          · exact le_of_eq_of_le hp1.symm (Nat.le_succ _)
          · exact le_of_eq_of_le ld.symm (Nat.le_succ _)
          · exact le_of_eq_of_le lc.symm (Nat.le_succ _)
          · exact le_of_eq_of_le lb.symm (Nat.le_succ _)
          · exact Nat.le_succ _)
      have hone : ∀ (l : Nat), l ≤ a.level →
          Heap.lc l ((n.pxpy, d) :: (n.pxny, c) :: (n.nxpy, b) :: (n.nxny, a) :: H) + 1 ≤ 254 :=
        fun l hl1 =>
        (Heap.Room.free_low [(n.pxpy, d), (n.pxny, c), (n.nxpy, b), (n.nxny, a)] hroom1
          (k := 1) (by simp)).one hl1 (le_refl _)
      have hf5 : ∀ (q : Addr × NodeType) (p1 p2 p3 : Addr × NodeType),
          Free 5 (a.level + 1) (q :: p1 :: p2 :: p3 :: H) := fun q p1 p2 p3 =>
        Heap.Room.free [q, p1, p2, p3] hroom1 (by simp)
      by_cases hx : x < cx <;> by_cases hy : y < cy
      · rw [if_pos hx, if_pos hy, if_pos hx, if_pos hy]
        refine Heap.Ok.bind (Heap.setCellHChild_ok
          (A := [(n.pxpy, d), (n.pxny, c), (n.nxpy, b)]) (B := H)
          (P := fun tr => setCellH a (cx - 2 ^ a.level) (cy - 2 ^ a.level) x y v = some tr
            ∧ tr.level = a.level) h1 (hone _ (le_refl _)) fun s2 h2 =>
          ih _ a _ _ x y v s2 _ h2 (h2.handle (List.mem_cons_self _ _)).1 (by omega)
            (hrm (n.nxny, a) rfl) (by omega) (by omega) (by omega) (by omega))
          fun r s3 ⟨tr, ⟨e, ltr⟩, h3⟩ => ?_
        refine (Heap.setCellHReturn_ok _ _ _ _ _ _ _ _ _ h3 (Heap.perm_swap13 _ _ _ _ _) (by rw [lb, ltr])
          (by rw [lc, ltr]) (by rw [ld, ltr]) (by rw [ltr]; exact hf5 _ _ _ _)).mono
          fun res s4 h4 => ⟨_, ⟨by rw [e]; rfl, by
            rw [NodeType.level_nonleaf, NodeType.level_nonleaf, ltr]⟩, h4⟩
      · rw [if_pos hx, if_neg hy, if_pos hx, if_neg hy]
        refine Heap.Ok.bind (Heap.setCellHChild_ok
          (A := [(n.pxpy, d), (n.pxny, c)]) (B := (n.nxny, a) :: H)
          (P := fun tr => setCellH b (cx - 2 ^ a.level) (cy + 2 ^ a.level) x y v = some tr
            ∧ tr.level = b.level) h1 (hone _ (le_of_eq lb)) fun s2 h2 =>
          ih _ b _ _ x y v s2 _ h2 (h2.handle (List.mem_cons_self _ _)).1 (by omega)
            (by rw [lb]; exact hrm (n.nxpy, b) lb) (by rw [lb]; omega) (by rw [lb]; omega)
            (by rw [lb]; omega) (by rw [lb]; omega))
          fun r s3 ⟨tr, ⟨e, ltr⟩, h3⟩ => ?_
        refine (Heap.setCellHReturn_ok H n.nxny r n.pxny n.pxpy a tr c d h3
          (by
            refine (List.perm_iff_count.2 fun z => ?_)
            simp only [List.cons_append, List.nil_append, List.count_cons]
            omega) (by rw [ltr, lb])
          lc ld (hf5 _ _ _ _)).mono
          fun res s4 h4 => ⟨_, ⟨by rw [e]; rfl, by
            rw [NodeType.level_nonleaf, NodeType.level_nonleaf]⟩, h4⟩
      · rw [if_neg hx, if_pos hy, if_neg hx, if_pos hy]
        refine Heap.Ok.bind (Heap.setCellHChild_ok
          (A := [(n.pxpy, d)]) (B := (n.nxpy, b) :: (n.nxny, a) :: H)
          (P := fun tr => setCellH c (cx + 2 ^ a.level) (cy - 2 ^ a.level) x y v = some tr
            ∧ tr.level = c.level) h1 (hone _ (le_of_eq lc)) fun s2 h2 =>
          ih _ c _ _ x y v s2 _ h2 (h2.handle (List.mem_cons_self _ _)).1 (by omega)
            (by rw [lc]; exact hrm (n.pxny, c) lc) (by rw [lc]; omega) (by rw [lc]; omega)
            (by rw [lc]; omega) (by rw [lc]; omega))
          fun r s3 ⟨tr, ⟨e, ltr⟩, h3⟩ => ?_
        refine (Heap.setCellHReturn_ok H n.nxny n.nxpy r n.pxpy a b tr d h3
          (by
            refine (List.perm_iff_count.2 fun z => ?_)
            simp only [List.cons_append, List.nil_append, List.count_cons]
            omega) lb (by rw [ltr, lc])
          ld (hf5 _ _ _ _)).mono
          fun res s4 h4 => ⟨_, ⟨by rw [e]; rfl, by
            rw [NodeType.level_nonleaf, NodeType.level_nonleaf]⟩, h4⟩
      · rw [if_neg hx, if_neg hy, if_neg hx, if_neg hy]
        refine Heap.Ok.bind (Heap.setCellHChild_ok
          (A := []) (B := (n.pxny, c) :: (n.nxpy, b) :: (n.nxny, a) :: H)
          (P := fun tr => setCellH d (cx + 2 ^ a.level) (cy + 2 ^ a.level) x y v = some tr
            ∧ tr.level = d.level) h1 (hone _ (le_of_eq ld)) fun s2 h2 =>
          ih _ d _ _ x y v s2 _ h2 (h2.handle (List.mem_cons_self _ _)).1 (by omega)
            (by rw [ld]; exact hrm (n.pxpy, d) ld) (by rw [ld]; omega) (by rw [ld]; omega)
            (by rw [ld]; omega) (by rw [ld]; omega))
          fun r s3 ⟨tr, ⟨e, ltr⟩, h3⟩ => ?_
        refine (Heap.setCellHReturn_ok H n.nxny n.nxpy n.pxny r a b c tr h3
          (by
            refine (List.perm_iff_count.2 fun z => ?_)
            simp only [List.cons_append, List.nil_append, List.count_cons]
            omega) lb lc (by rw [ltr, ld])
          (hf5 _ _ _ _)).mono
          fun res s4 h4 => ⟨_, ⟨by rw [e]; rfl, by
            rw [NodeType.level_nonleaf, NodeType.level_nonleaf]⟩, h4⟩

/-- Function `setCellH` on the store, with the node's level for the budget. -/
theorem Engine.setCellH_ok {s : NodeGCHashTable} {H : List (Addr × NodeType)}
    (hst : St cfg rules s H) {node : Addr} {t : NodeType} (hr : Repr s.memory node t)
    (hroom : Room 10 t.level H) {cx cy x y : Int} (v : CellType)
    (hx1 : cx - 2 ^ t.level ≤ x) (hx2 : x < cx + 2 ^ t.level) (hy1 : cy - 2 ^ t.level ≤ y)
    (hy2 : y < cy + 2 ^ t.level) :
    Ok (fun r s1 => ∃ tr, (setCellH t cx cy x y v = some tr ∧ tr.level = t.level)
        ∧ St cfg rules s1 ((r, tr) :: H))
      (Heap.setCellH cfg node cx cy x y v s) := by
  unfold Heap.setCellH
  refine Heap.Ok.bind (Heap.readNode_ok hr fun n hn => ?_)
    fun n s1 (hx : s1 = s ∧ s.memory node = some n) => ?_
  · exact ⟨rfl, hn⟩
  obtain ⟨rfl, hn⟩ := hx
  exact Engine.setCellHFuel_ok n.level node t cx cy x y v s1 H hst hr
    (le_of_eq (hr.level_eq hn).symm) hroom hx1 hx2 hy1 hy2

end EngineCells

section EngineUniverse
open Heap (M ret fail bindM incRef decRef decRefOpt readNode Ok Repr ShapeLe held St Addr Node Memory
  NodeGCHashTable Config Failure Inv Shrinks Interned incRefCount decRefCount findOrInsertLeaf
  findOrInsertNonleaf callNonleaf withNonleaf lc Free Room Ext optHandle)

variable {cfg : Config} {rules : RuleTable}

/-- A read through a pointer to a leaf, followed by `k`. -/
theorem Heap.bind_readLeaf {β : Type} {s : NodeGCHashTable} {x : Addr}
    {c0 c1 c2 c3 : CellType} (hr : Repr s.memory x (NodeType.leaf c0 c1 c2 c3))
    {k : Node → M β} {Q : β → NodeGCHashTable → Prop}
    (h : ∀ n, s.memory x = some n → n.level = 0 → n.nxny = c0 → n.nxpy = c1 → n.pxny = c2 →
      n.pxpy = c3 → Ok Q (k n s)) :
    Ok Q (bindM (readNode x) k s) := by
  obtain ⟨n, hn, -⟩ := hr.node
  obtain ⟨l0, k0, k1, k2, k3⟩ := hr.cells hn
  unfold bindM readNode
  simp only [hn]
  exact h n hn l0 k0 k1 k2 k3

/-- A read of the level through a pointer, followed by `k`. -/
theorem Heap.bind_readLevel {β : Type} {s : NodeGCHashTable} {x : Addr} {t : NodeType}
    (hr : Repr s.memory x t) {k : Node → M β} {Q : β → NodeGCHashTable → Prop}
    (h : ∀ n, s.memory x = some n → n.level = t.level → Ok Q (k n s)) :
    Ok Q (bindM (readNode x) k s) := by
  obtain ⟨n, hn, hl⟩ := hr.node
  unfold bindM readNode
  simp only [hn]
  exact h n hn hl

/-- Constructor `GameState(gc, nullptr, backgroundType)` on the store. -/
theorem Engine.new_ok {s : NodeGCHashTable} {H : List (Addr × NodeType)}
    (hst : St cfg rules s H) (bg : Nat) (hfree : Free 7 0 H) :
    Ok (fun g s1 => Engine.Refines cfg rules s1 H g (GameState.new bg))
      (Heap.GameState.new cfg bg s) := by
  unfold Heap.GameState.new
  refine Heap.Ok.bind (Engine.getNullNode_ok hst 0 bg hfree) fun r s1 ⟨h1, _, _⟩ => ?_
  exact ⟨h1, rfl⟩

/-- A call `isInNodeBounds(rootNode, 0, 0, x, y)` on the store. -/
theorem Engine.rootInBounds_ok {s : NodeGCHashTable} {H : List (Addr × NodeType)}
    {g : Heap.GameState} {gs : GameState} (h : Engine.Refines cfg rules s H g gs) (x y : Int)
    (hfree : Free 2 gs.rootNode.level H) :
    Ok (fun b s1 => b = isInNodeBounds gs.rootNode 0 0 x y ∧ Engine.Refines cfg rules s1 H g gs)
      (Heap.GameState.rootInBounds g x y s) := by
  obtain ⟨hst, hbg⟩ := h
  have hr := (hst.handle (List.mem_cons_self _ _)).1
  unfold Heap.GameState.rootInBounds
  refine Heap.Ok.bind (Heap.incRef_ok hst hr
    ((hfree.push [(g.rootNode, gs.rootNode)] (j := 1) (by simp)).one (le_refl _) (le_refl _)))
    fun _ s1 ⟨h1, le1⟩ => ?_
  refine Heap.Ok.bind (Engine.isInNodeBounds_ok (hr.grow le1) 0 0 x y) fun b s2 ⟨e2, hb⟩ => ?_
  subst e2
  refine Heap.Ok.bind (Heap.decRef_ok h1) fun _ s3 ⟨h3, _⟩ => ?_
  exact ⟨hb, h3, hbg⟩

/-- The `level == 0` branch of `expandRoot` on the store. -/
theorem Engine.expandRootLeaf_ok {s : NodeGCHashTable} {H : List (Addr × NodeType)}
    {g : Heap.GameState} {gs : GameState} (h : Engine.Refines cfg rules s H g gs)
    (hl : gs.rootNode.level = 0) (hfree : Free 7 1 H) :
    Ok (fun g1 s1 => Engine.Refines cfg rules s1 H g1 gs.expandRoot)
      (Heap.GameState.expandRootLeaf cfg g s) := by
  obtain ⟨hst, hbg⟩ := h
  obtain ⟨root, b⟩ := gs
  obtain ⟨c0, c1, c2, c3, rfl⟩ := NodeType.eq_leaf_of_level_zero hl
  simp only at hst hbg
  subst hbg
  have hm0 : (g.rootNode, NodeType.leaf c0 c1 c2 c3) ∈ (g.rootNode, NodeType.leaf c0 c1 c2 c3)
      :: H := List.mem_cons_self _ _
  unfold Heap.GameState.expandRootLeaf
  refine Heap.bind_readLeaf (hst.handle hm0).1 fun n _ _ e0 _ _ _ => ?_
  subst e0
  refine Heap.Ok.bind (Heap.internLeaf_ok hst _ _ _ _
    ((hfree.push [(g.rootNode, NodeType.leaf n.nxny c1 c2 c3)] (j := 6) (by simp)).one
      (Nat.zero_le _) (by decide))) fun a s1 h1 => ?_
  refine Heap.bind_readLeaf (h1.handle (List.mem_cons_of_mem _ hm0)).1 fun n1 _ _ _ e1 _ _ => ?_
  subst e1
  refine Heap.Ok.bind (Heap.internLeaf_ok h1 _ _ _ _
    ((hfree.push [_, (g.rootNode, NodeType.leaf n.nxny n1.nxpy c2 c3)] (j := 5) (by simp)).one
      (Nat.zero_le _) (by decide))) fun b s2 h2 => ?_
  refine Heap.bind_readLeaf (h2.handle (List.mem_cons_of_mem _ (List.mem_cons_of_mem _ hm0))).1
    fun n2 _ _ _ _ e2 _ => ?_
  subst e2
  refine Heap.Ok.bind (Heap.internLeaf_ok h2 _ _ _ _
    ((hfree.push [_, _, (g.rootNode, NodeType.leaf n.nxny n1.nxpy n2.pxny c3)] (j := 4)
      (by simp)).one (Nat.zero_le _) (by decide))) fun c s3 h3 => ?_
  refine Heap.bind_readLeaf (h3.handle (List.mem_cons_of_mem _ (List.mem_cons_of_mem _
    (List.mem_cons_of_mem _ hm0)))).1 fun n3 _ _ _ _ _ e3 => ?_
  subst e3
  refine Heap.Ok.bind (Heap.internLeaf_ok h3 _ _ _ _
    ((hfree.push [_, _, _, (g.rootNode, NodeType.leaf n.nxny n1.nxpy n2.pxny n3.pxpy)] (j := 3)
      (by simp)).one (Nat.zero_le _) (by decide))) fun d s4 h4 => ?_
  refine Heap.Ok.bind (Heap.internNonleaf_ok h4
    (List.mem_cons_of_mem _ (List.mem_cons_of_mem _ (List.mem_cons_of_mem _
      (List.mem_cons_self _ _))))
    (List.mem_cons_of_mem _ (List.mem_cons_of_mem _ (List.mem_cons_self _ _)))
    (List.mem_cons_of_mem _ (List.mem_cons_self _ _)) (List.mem_cons_self _ _) rfl rfl rfl
    ((hfree.push [_, _, _, _, (g.rootNode, NodeType.leaf n.nxny n1.nxpy n2.pxny n3.pxpy)]
      (j := 2) (by simp)).one (le_refl _) (by decide))) fun r s5 h5 => ?_
  refine Heap.Ok.bind (Heap.decRef_at [_, _, _, _, _] h5) fun _ s6 ⟨h6, _⟩ => ?_
  refine Heap.Ok.bind (Heap.decRef_second h6) fun _ s7 ⟨h7, _⟩ => ?_
  refine Heap.Ok.bind (Heap.decRef_second h7) fun _ s8 ⟨h8, _⟩ => ?_
  refine Heap.Ok.bind (Heap.decRef_second h8) fun _ s9 ⟨h9, _⟩ => ?_
  refine Heap.Ok.bind (Heap.decRef_second h9) fun _ s10 ⟨h10, _⟩ => ?_
  exact ⟨h10, rfl⟩

/-- An argument `gc->findOrInsertNonleaf(a, b, c, d)` of the outer call of
`expandRoot`: the result and the four parameters are held. -/
theorem Heap.expandRootArg_ok {s : NodeGCHashTable} {H : List (Addr × NodeType)}
    (hst : St cfg rules s H) {a b c d : Addr} {t0 t1 t2 t3 : NodeType}
    (ha : Repr s.memory a t0) (hb : Repr s.memory b t1) (hc : Repr s.memory c t2)
    (hd : Repr s.memory d t3) (l1 : t1.level = t0.level) (l2 : t2.level = t0.level)
    (l3 : t3.level = t0.level) (hfree : Free 5 (t0.level + 1) H) :
    Ok (fun r s1 => St cfg rules s1 ((r, NodeType.nonleaf t0 t1 t2 t3) :: (d, t3) :: (c, t2)
        :: (b, t1) :: (a, t0) :: H))
      (Heap.GameState.expandRootArg cfg a b c d s) := by
  have f1 : Free 4 (t0.level + 1) ((a, t0) :: H) := hfree.push [(a, t0)] (by simp)
  have f2 : Free 3 (t0.level + 1) ((b, t1) :: (a, t0) :: H) :=
    hfree.push [(b, t1), (a, t0)] (by simp)
  have f3 : Free 2 (t0.level + 1) ((c, t2) :: (b, t1) :: (a, t0) :: H) :=
    hfree.push [(c, t2), (b, t1), (a, t0)] (by simp)
  have f4 : Free 1 (t0.level + 1) ((d, t3) :: (c, t2) :: (b, t1) :: (a, t0) :: H) :=
    hfree.push [(d, t3), (c, t2), (b, t1), (a, t0)] (by simp)
  unfold Heap.GameState.expandRootArg
  refine Heap.Ok.bind (Heap.incRef_ok hst ha (hfree.one (by omega) (by decide)))
    fun _ s1 ⟨h1, le1⟩ => ?_
  refine Heap.Ok.bind (Heap.incRef_ok h1 (hb.grow le1) (f1.one (by omega) (by decide)))
    fun _ s2 ⟨h2, le2⟩ => ?_
  refine Heap.Ok.bind (Heap.incRef_ok h2 ((hc.grow le1).grow le2)
    (f2.one (by omega) (by decide))) fun _ s3 ⟨h3, le3⟩ => ?_
  refine Heap.Ok.bind (Heap.incRef_ok h3 (((hd.grow le1).grow le2).grow le3)
    (f3.one (by omega) (by decide))) fun _ s4 ⟨h4, _⟩ => ?_
  exact @Heap.internNonleaf_ok cfg rules _ _ h4 a b c d t0 t1 t2 t3
    (by simp) (by simp) (by simp) (by simp) l1 l2 l3 (f4.one (le_refl _) (le_refl _))

/-- Destruction of an argument of the outer call of `expandRoot` and of its
four parameters. -/
theorem Heap.dropRootArg_ok {s : NodeGCHashTable} (A : List (Addr × NodeType))
    {B : List (Addr × NodeType)} {r a b c d : Addr} {tr t0 t1 t2 t3 : NodeType}
    (hst : St cfg rules s (A ++ (r, tr) :: (d, t3) :: (c, t2) :: (b, t1) :: (a, t0) :: B)) :
    Ok (fun _ s1 => St cfg rules s1 (A ++ B)) (Heap.GameState.dropRootArg r a b c d s) := by
  unfold Heap.GameState.dropRootArg
  refine Heap.Ok.bind (Heap.decRef_at A hst) fun _ s1 ⟨h1, _⟩ => ?_
  refine Heap.Ok.bind (Heap.decRef_at A h1) fun _ s2 ⟨h2, _⟩ => ?_
  refine Heap.Ok.bind (Heap.decRef_at A h2) fun _ s3 ⟨h3, _⟩ => ?_
  refine Heap.Ok.bind (Heap.decRef_at A h3) fun _ s4 ⟨h4, _⟩ => ?_
  exact (Heap.decRef_at A h4).mono fun _ _ h => h.1

/-- The `else` branch of `expandRoot` on the store. -/
theorem Engine.expandRootNonleaf_ok {s : NodeGCHashTable} {H : List (Addr × NodeType)}
    {g : Heap.GameState} {gs : GameState} (h : Engine.Refines cfg rules s H g gs)
    (hl : 0 < gs.rootNode.level) (hfree : Free 30 (gs.rootNode.level + 1) H) :
    Ok (fun g1 s1 => Engine.Refines cfg rules s1 H g1 gs.expandRoot)
      (Heap.GameState.expandRootNonleaf cfg g s) := by
  obtain ⟨hst, hbg⟩ := h
  obtain ⟨root, bg⟩ := gs
  obtain ⟨ta, tb, tc, td, rfl, -⟩ := NodeType.eq_nonleaf_of_level_succ
    (show root.level = (root.level - 1) + 1 by simp only at hl; omega)
  simp only at hst hbg hfree
  subst hbg
  obtain ⟨wa, wb, wc, wd, lb, lc, ld⟩ := Heap.Repr.wellFormed hst.inv (hst.handle (List.mem_cons_self _ _)).1
  have hlev : (NodeType.nonleaf ta tb tc td).level = ta.level + 1 := by
    rw [NodeType.level_nonleaf, Nat.add_comm]
  rw [hlev] at hfree
  have hfree1 : Free 30 (ta.level + 1) H := hfree.less (le_refl _) (Nat.le_succ _)
  have hN : (getNullNode ta.level g.backgroundType).level = ta.level := getNullNode_level _ _
  have hm0 : (g.rootNode, NodeType.nonleaf ta tb tc td) ∈ (g.rootNode, NodeType.nonleaf ta tb tc td)
      :: H := List.mem_cons_self _ _
  unfold Heap.GameState.expandRootNonleaf
  refine Heap.bind_readLevel (hst.handle hm0).1 fun n _ hnl => ?_
  rw [hlev] at hnl
  rw [hnl, Nat.add_sub_cancel]
  refine Heap.Ok.bind (Engine.getNullNode_ok hst ta.level g.backgroundType
    ((hfree1.push [(g.rootNode, NodeType.nonleaf ta tb tc td)] (j := 7) (by simp)).less
      (le_refl _) (Nat.le_succ _))) fun nullNode s1 ⟨h1, _, _⟩ => ?_
  have hn1 := (h1.handle (List.mem_cons_self _ _)).1
  refine Heap.bind_readNode (h1.handle (List.mem_cons_of_mem _ hm0)).1 fun n1 _ ka _ _ _ => ?_
  refine Heap.Ok.bind (Heap.expandRootArg_ok h1 hn1 hn1 hn1 ka rfl rfl (by rw [hN])
    (by rw [hN]; exact hfree1.push [_, _] (j := 5) (by simp))) fun a s2 h2 => ?_
  have hn2 : Repr s2.memory nullNode (getNullNode ta.level g.backgroundType) :=
    (h2.handle (show (nullNode, getNullNode ta.level g.backgroundType) ∈ _ by simp)).1
  have hr2 : Repr s2.memory g.rootNode (NodeType.nonleaf ta tb tc td) :=
    (h2.handle (show (g.rootNode, NodeType.nonleaf ta tb tc td) ∈ _ by simp)).1
  refine Heap.bind_readNode hr2 fun n2 _ _ kb _ _ => ?_
  refine Heap.Ok.bind (Heap.expandRootArg_ok h2 hn2 hn2 kb hn2 rfl (by rw [hN, lb]) rfl
    (by rw [hN]; exact hfree1.push [_, _, _, _, _, _, _] (j := 5) (by simp))) fun b s3 h3 => ?_
  have hn3 : Repr s3.memory nullNode (getNullNode ta.level g.backgroundType) :=
    (h3.handle (show (nullNode, getNullNode ta.level g.backgroundType) ∈ _ by simp)).1
  have hr3 : Repr s3.memory g.rootNode (NodeType.nonleaf ta tb tc td) :=
    (h3.handle (show (g.rootNode, NodeType.nonleaf ta tb tc td) ∈ _ by simp)).1
  refine Heap.bind_readNode hr3 fun n3 _ _ _ kc _ => ?_
  refine Heap.Ok.bind (Heap.expandRootArg_ok h3 hn3 kc hn3 hn3 (by rw [hN, lc]) rfl rfl
    (by
      rw [hN]
      exact hfree1.push [_, _, _, _, _, _, _, _, _, _, _, _] (j := 5) (by simp)))
    fun c s4 h4 => ?_
  have hn4 : Repr s4.memory nullNode (getNullNode ta.level g.backgroundType) :=
    (h4.handle (show (nullNode, getNullNode ta.level g.backgroundType) ∈ _ by simp)).1
  have hr4 : Repr s4.memory g.rootNode (NodeType.nonleaf ta tb tc td) :=
    (h4.handle (show (g.rootNode, NodeType.nonleaf ta tb tc td) ∈ _ by simp)).1
  refine Heap.bind_readNode hr4 fun n4 _ _ _ _ kd => ?_
  refine Heap.Ok.bind (Heap.expandRootArg_ok h4 kd hn4 hn4 hn4 (by rw [hN, ld])
    (by rw [hN, ld]) (by rw [hN, ld])
    (by
      rw [ld]
      exact hfree1.push [_, _, _, _, _, _, _, _, _, _, _, _, _, _, _, _, _] (j := 5) (by simp)))
    fun d s5 h5 => ?_
  refine Heap.Ok.bind (Heap.internNonleaf_ok h5
    (show (a, NodeType.nonleaf (getNullNode ta.level g.backgroundType)
      (getNullNode ta.level g.backgroundType) (getNullNode ta.level g.backgroundType) ta) ∈ _
      by simp)
    (show (b, NodeType.nonleaf (getNullNode ta.level g.backgroundType)
      (getNullNode ta.level g.backgroundType) tb (getNullNode ta.level g.backgroundType)) ∈ _
      by simp)
    (show (c, NodeType.nonleaf (getNullNode ta.level g.backgroundType) tc
      (getNullNode ta.level g.backgroundType) (getNullNode ta.level g.backgroundType)) ∈ _
      by simp)
    (show (d, NodeType.nonleaf td (getNullNode ta.level g.backgroundType)
      (getNullNode ta.level g.backgroundType) (getNullNode ta.level g.backgroundType)) ∈ _
      by simp) rfl rfl (by rw [NodeType.level_nonleaf, NodeType.level_nonleaf, hN, ld])
    ((hfree.push [_, _, _, _, _, _, _, _, _, _, _, _, _, _, _, _, _, _, _, _, _, _] (j := 1)
      (by simp)).one (by rw [NodeType.level_nonleaf, hN]; omega) (le_refl _)))
    fun r s6 h6 => ?_
  refine Heap.Ok.bind (Heap.decRef_at [_, _, _, _, _, _, _, _, _, _, _, _, _, _, _, _, _, _, _,
    _, _, _] h6) fun _ s7 ⟨h7, _⟩ => ?_
  refine Heap.Ok.bind (Heap.dropRootArg_ok [_] h7) fun _ s8 h8 => ?_
  refine Heap.Ok.bind (Heap.dropRootArg_ok [_] h8) fun _ s9 h9 => ?_
  refine Heap.Ok.bind (Heap.dropRootArg_ok [_] h9) fun _ s10 h10 => ?_
  refine Heap.Ok.bind (Heap.dropRootArg_ok [_] h10) fun _ s11 h11 => ?_
  refine Heap.Ok.bind (Heap.decRef_second h11) fun _ s12 ⟨h12, _⟩ => ?_
  refine ⟨?_, rfl⟩
  have e : (GameState.expandRoot ⟨NodeType.nonleaf ta tb tc td, g.backgroundType⟩).rootNode
      = NodeType.nonleaf
        (NodeType.nonleaf (getNullNode ta.level g.backgroundType)
          (getNullNode ta.level g.backgroundType) (getNullNode ta.level g.backgroundType) ta)
        (NodeType.nonleaf (getNullNode ta.level g.backgroundType)
          (getNullNode ta.level g.backgroundType) tb (getNullNode ta.level g.backgroundType))
        (NodeType.nonleaf (getNullNode ta.level g.backgroundType) tc
          (getNullNode ta.level g.backgroundType) (getNullNode ta.level g.backgroundType))
        (NodeType.nonleaf td (getNullNode ta.level g.backgroundType)
          (getNullNode ta.level g.backgroundType) (getNullNode ta.level g.backgroundType)) := by
    simp only [GameState.expandRoot, NodeType.level_nonleaf, Nat.add_sub_cancel_left]
  rw [e]
  exact h12

/-- Function `expandRoot` on the store. -/
theorem Engine.expandRoot_ok {s : NodeGCHashTable} {H : List (Addr × NodeType)}
    {g : Heap.GameState} {gs : GameState} (h : Engine.Refines cfg rules s H g gs)
    (hfree : Free 30 (gs.rootNode.level + 1) H) :
    Ok (fun g1 s1 => Engine.Refines cfg rules s1 H g1 gs.expandRoot)
      (Heap.GameState.expandRoot cfg g s) := by
  unfold Heap.GameState.expandRoot
  refine Heap.bind_readLevel (h.1.handle (List.mem_cons_self _ _)).1 fun n _ hnl => ?_
  by_cases h0 : n.level = 0
  · rw [if_pos h0]
    rw [h0] at hnl
    exact Engine.expandRootLeaf_ok h hnl.symm (by
      rw [← hnl] at hfree
      exact hfree.less (by decide) (le_refl _))
  · rw [if_neg h0]
    exact Engine.expandRootNonleaf_ok h (by omega) hfree

end EngineUniverse

section EngineOps
open Heap (M ret fail bindM incRef decRef decRefOpt readNode Ok Repr ShapeLe held St Addr Node Memory
  NodeGCHashTable Config Failure Inv Shrinks Interned incRefCount decRefCount findOrInsertLeaf
  findOrInsertNonleaf callNonleaf withNonleaf lc Free Room Ext optHandle)

variable {cfg : Config} {rules : RuleTable}

/-- The expansion loop of `setCell` on the store follows the loop of the value
level. -/
theorem Engine.expandToBounds_ok {H : List (Addr × NodeType)} (hfree : ∀ L, Free 70 L H)
    (x y : Int) : ∀ (fuel : Nat) (g : Heap.GameState) (gs gs1 : GameState)
    (s : NodeGCHashTable), Engine.Refines cfg rules s H g gs →
    GameState.expandToBounds fuel gs x y = some gs1 →
    Ok (fun g1 s1 => Engine.Refines cfg rules s1 H g1 gs1)
      (Heap.GameState.expandToBounds cfg fuel g x y s) := by
  intro fuel
  induction fuel with
  | zero =>
    intro g gs gs1 s h e
    rw [Heap.GameState.expandToBounds]
    refine Heap.Ok.bind (Engine.rootInBounds_ok h x y ((hfree _).less (by decide) (le_refl _)))
      fun b s1 ⟨hb, h1⟩ => ?_
    rw [GameState.expandToBounds] at e
    by_cases hin : isInNodeBounds gs.rootNode 0 0 x y = true
    · rw [if_pos hin] at e
      cases e
      rw [hb, if_pos hin]
      exact h1
    · rw [if_neg hin] at e
      cases e
  | succ fuel ih =>
    intro g gs gs1 s h e
    rw [Heap.GameState.expandToBounds]
    refine Heap.Ok.bind (Engine.rootInBounds_ok h x y ((hfree _).less (by decide) (le_refl _)))
      fun b s1 ⟨hb, h1⟩ => ?_
    rw [GameState.expandToBounds] at e
    by_cases hin : isInNodeBounds gs.rootNode 0 0 x y = true
    · rw [if_pos hin] at e
      cases e
      rw [hb, if_pos hin]
      exact h1
    · rw [if_neg hin] at e
      rw [hb, if_neg hin]
      refine Heap.Ok.bind (Engine.expandRoot_ok h1 ((hfree _).less (by decide) (le_refl _)))
        fun g1 s2 h2 => ?_
      exact ih g1 gs.expandRoot gs1 s2 h2 e

/-- Function `GameState::setCell` on the store follows the function of the
value level. -/
theorem Engine.setCell_ok {s : NodeGCHashTable} {H : List (Addr × NodeType)}
    {g : Heap.GameState} {gs : GameState} (h : Engine.Refines cfg rules s H g gs)
    (hfree : ∀ L, Free 70 L H) (x y : Int) (v : CellType) :
    Ok (fun g1 s1 => ∃ gs1, gs.setCell x y v = some gs1 ∧ Engine.Refines cfg rules s1 H g1 gs1)
      (Heap.GameState.setCell cfg g x y v s) := by
  have w := Heap.Repr.wellFormed h.1.inv (h.1.handle (List.mem_cons_self _ _)).1
  have hpow : x.natAbs + y.natAbs + 1
      < 2 ^ (gs.rootNode.level + (x.natAbs + y.natAbs + 1)) :=
    lt_of_lt_of_le (Nat.lt_two_pow _) (Nat.pow_le_pow_right (by norm_num) (by omega))
  obtain ⟨gsb, e, -, hin, -, -⟩ := GameState.expandToBounds_spec (x.natAbs + y.natAbs + 1) gs
    gs.toGrid x y (GameState.denotes_toGrid gs w) (by omega) (by omega)
  obtain ⟨b1, b2, b3, b4⟩ := (isInNodeBounds_iff _ 0 0 x y).1 hin
  unfold Heap.GameState.setCell
  refine Heap.Ok.bind (Engine.expandToBounds_ok hfree x y _ g gs gsb s h e) fun g1 s1 h1 => ?_
  obtain ⟨hst1, hbg1⟩ := h1
  have hr1 := (hst1.handle (List.mem_cons_self _ _)).1
  refine Heap.Ok.bind (Heap.incRef_ok hst1 hr1
    (((hfree _).push [(g1.rootNode, gsb.rootNode)] (j := 1) (by simp)).one (le_refl _)
      (le_refl _))) fun _ s2 ⟨h2, le2⟩ => ?_
  refine Heap.Ok.bind (Engine.setCellH_ok h2 (hr1.grow le2)
    (Heap.Free.room ((hfree _).push [(g1.rootNode, gsb.rootNode), (g1.rootNode, gsb.rootNode)]
      (j := 30) (by simp))) v b1 b2 b3 b4) fun r s3 ⟨tr, ⟨er, _⟩, h3⟩ => ?_
  refine Heap.Ok.bind (Heap.decRef_second h3) fun _ s4 ⟨h4, _⟩ => ?_
  refine Heap.Ok.bind (Heap.decRef_second h4) fun _ s5 ⟨h5, _⟩ => ?_
  refine ⟨{ gsb with rootNode := tr }, ?_, h5, hbg1⟩
  rw [GameState.setCell, e]
  simp only [er]

/-- Function `GameState::getCell` on the store returns the cell the function
of the value level returns. -/
theorem Engine.getCell_ok {s : NodeGCHashTable} {H : List (Addr × NodeType)}
    {g : Heap.GameState} {gs : GameState} (h : Engine.Refines cfg rules s H g gs)
    (hfree : ∀ L, Free 70 L H) (x y : Int) :
    Ok (fun c s1 => gs.getCell x y = some c ∧ Engine.Refines cfg rules s1 H g gs)
      (Heap.GameState.getCell g x y s) := by
  unfold Heap.GameState.getCell
  refine Heap.Ok.bind (Engine.rootInBounds_ok h x y ((hfree _).less (by decide) (le_refl _)))
    fun b s1 ⟨hb, h1⟩ => ?_
  obtain ⟨hst1, hbg1⟩ := h1
  by_cases hin : isInNodeBounds gs.rootNode 0 0 x y = true
  · rw [hb, hin]
    simp only [Bool.not_true, Bool.false_eq_true, if_false]
    obtain ⟨b1, b2, b3, b4⟩ := (isInNodeBounds_iff _ 0 0 x y).1 hin
    have hr1 := (hst1.handle (List.mem_cons_self _ _)).1
    refine Heap.Ok.bind (Heap.incRef_ok hst1 hr1
      (((hfree _).push [(g.rootNode, gs.rootNode)] (j := 1) (by simp)).one (le_refl _)
        (le_refl _))) fun _ s2 ⟨h2, le2⟩ => ?_
    refine Heap.Ok.bind (Engine.getCellH_ok h2 (hr1.grow le2)
      (Heap.Free.room ((hfree _).push [(g.rootNode, gs.rootNode), (g.rootNode, gs.rootNode)]
        (j := 6) (by simp))) b1 b2 b3 b4) fun c s3 ⟨ec, h3⟩ => ?_
    refine Heap.Ok.bind (Heap.decRef_ok h3) fun _ s4 ⟨h4, _⟩ => ?_
    refine ⟨?_, h4, hbg1⟩
    rw [GameState.getCell, hin]
    exact ec
  · rw [Bool.not_eq_true] at hin
    rw [hb, hin]
    simp only [Bool.not_false, if_true]
    refine ⟨?_, hst1, hbg1⟩
    rw [GameState.getCell, hin, hbg1]
    rfl

/-- A read of a grandchild of the root. -/
theorem Heap.grandchild_ok {s : NodeGCHashTable} {root : Addr} {ta tb tc td : NodeType}
    (hr : Repr s.memory root (NodeType.nonleaf ta tb tc td)) (outer inner : Node → Addr)
    {tk u0 u1 u2 u3 tg : NodeType} (hk : tk = NodeType.nonleaf u0 u1 u2 u3)
    (ho : ∀ n, s.memory root = some n → Repr s.memory n.nxny ta → Repr s.memory n.nxpy tb →
      Repr s.memory n.pxny tc → Repr s.memory n.pxpy td → Repr s.memory (outer n) tk)
    (hi : ∀ n, Repr s.memory n.nxny u0 → Repr s.memory n.nxpy u1 →
      Repr s.memory n.pxny u2 → Repr s.memory n.pxpy u3 → Repr s.memory (inner n) tg) :
    Ok (fun r s1 => s1 = s ∧ Repr s.memory r tg)
      (Heap.GameState.grandchild root outer inner s) := by
  subst hk
  unfold Heap.GameState.grandchild
  refine Heap.bind_readNode hr fun n hn k0 k1 k2 k3 => ?_
  refine Heap.bind_readNode (ho n hn k0 k1 k2 k3) fun k _ g0 g1 g2 g3 => ?_
  exact ⟨rfl, hi k g0 g1 g2 g3⟩

/-- One test `if(rootNode->... != nullNode) return;` of
`checkForContractRoot`. -/
theorem Heap.ringTest_ok {s : NodeGCHashTable} (hinv : Inv cfg s) {nullNode : Addr}
    {N tg : NodeType} (hN : Repr s.memory nullNode N) {gc : M Addr} {rest : M Bool}
    {pureRest : Bool} (hg : Ok (fun r s1 => s1 = s ∧ Repr s.memory r tg) (gc s))
    (hrest : Ok (fun b s1 => s1 = s ∧ b = pureRest) (rest s)) :
    Ok (fun b s1 => s1 = s ∧ b = ((tg == N) && pureRest))
      (bindM gc (fun g => if g ≠ nullNode then ret false else rest) s) := by
  refine Heap.Ok.bind hg fun g s1 ⟨e, hr⟩ => ?_
  subst e
  by_cases hgn : g = nullNode
  · subst hgn
    have : tg = N := Heap.Repr.unique_tree hr hN
    subst this
    rw [if_neg (by simp)]
    simpa using hrest
  · rw [if_pos hgn]
    have : ¬ tg = N := by
      intro e
      subst e
      exact hgn (Heap.Repr.unique_addr hinv hr hN)
    refine ⟨rfl, ?_⟩
    simp [this]

/-- The twelve tests of `checkForContractRoot` on the store are the test of
the value level. -/
theorem Engine.outerRingIsNull_ok {s : NodeGCHashTable} (hinv : Inv cfg s) {root nullNode : Addr}
    {a0 a1 a2 a3 b0 b1 b2 b3 c0 c1 c2 c3 d0 d1 d2 d3 N : NodeType}
    (hr : Repr s.memory root (NodeType.nonleaf (NodeType.nonleaf a0 a1 a2 a3)
      (NodeType.nonleaf b0 b1 b2 b3) (NodeType.nonleaf c0 c1 c2 c3)
      (NodeType.nonleaf d0 d1 d2 d3)))
    (hN : Repr s.memory nullNode N) :
    Ok (fun b s1 => s1 = s ∧ b = ((a0 == N) && ((a1 == N) && ((a2 == N) && ((b0 == N)
        && ((b1 == N) && ((b3 == N) && ((c0 == N) && ((c2 == N) && ((c3 == N) && ((d1 == N)
        && ((d2 == N) && ((d3 == N) && true)))))))))))))
      (Heap.GameState.outerRingIsNull root nullNode s) := by
  unfold Heap.GameState.outerRingIsNull
  refine Heap.ringTest_ok hinv hN (Heap.grandchild_ok hr _ _ rfl
    (fun _ _ k0 _ _ _ => k0) (fun _ g0 _ _ _ => g0)) ?_
  refine Heap.ringTest_ok hinv hN (Heap.grandchild_ok hr _ _ rfl
    (fun _ _ k0 _ _ _ => k0) (fun _ _ g1 _ _ => g1)) ?_
  refine Heap.ringTest_ok hinv hN (Heap.grandchild_ok hr _ _ rfl
    (fun _ _ k0 _ _ _ => k0) (fun _ _ _ g2 _ => g2)) ?_
  refine Heap.ringTest_ok hinv hN (Heap.grandchild_ok hr _ _ rfl
    (fun _ _ _ k1 _ _ => k1) (fun _ g0 _ _ _ => g0)) ?_
  refine Heap.ringTest_ok hinv hN (Heap.grandchild_ok hr _ _ rfl
    (fun _ _ _ k1 _ _ => k1) (fun _ _ g1 _ _ => g1)) ?_
  refine Heap.ringTest_ok hinv hN (Heap.grandchild_ok hr _ _ rfl
    (fun _ _ _ k1 _ _ => k1) (fun _ _ _ _ g3 => g3)) ?_
  refine Heap.ringTest_ok hinv hN (Heap.grandchild_ok hr _ _ rfl
    (fun _ _ _ _ k2 _ => k2) (fun _ g0 _ _ _ => g0)) ?_
  refine Heap.ringTest_ok hinv hN (Heap.grandchild_ok hr _ _ rfl
    (fun _ _ _ _ k2 _ => k2) (fun _ _ _ g2 _ => g2)) ?_
  refine Heap.ringTest_ok hinv hN (Heap.grandchild_ok hr _ _ rfl
    (fun _ _ _ _ k2 _ => k2) (fun _ _ _ _ g3 => g3)) ?_
  refine Heap.ringTest_ok hinv hN (Heap.grandchild_ok hr _ _ rfl
    (fun _ _ _ _ _ k3 => k3) (fun _ _ g1 _ _ => g1)) ?_
  refine Heap.ringTest_ok hinv hN (Heap.grandchild_ok hr _ _ rfl
    (fun _ _ _ _ _ k3 => k3) (fun _ _ _ g2 _ => g2)) ?_
  refine Heap.ringTest_ok hinv hN (Heap.grandchild_ok hr _ _ rfl
    (fun _ _ _ _ _ k3 => k3) (fun _ _ _ _ g3 => g3)) ?_
  exact ⟨rfl, rfl⟩

/-- The test of the value level on a root of level at least 2, as the chain of
twelve comparisons. -/
theorem Engine.outerRingIsNull_eq
    {a0 a1 a2 a3 b0 b1 b2 b3 c0 c1 c2 c3 d0 d1 d2 d3 : NodeType} (bg : CellType) :
    GameState.outerRingIsNull ⟨NodeType.nonleaf (NodeType.nonleaf a0 a1 a2 a3)
      (NodeType.nonleaf b0 b1 b2 b3) (NodeType.nonleaf c0 c1 c2 c3)
      (NodeType.nonleaf d0 d1 d2 d3), bg⟩
    = ((a0 == getNullNode a0.level bg) && ((a1 == getNullNode a0.level bg)
        && ((a2 == getNullNode a0.level bg) && ((b0 == getNullNode a0.level bg)
        && ((b1 == getNullNode a0.level bg) && ((b3 == getNullNode a0.level bg)
        && ((c0 == getNullNode a0.level bg) && ((c2 == getNullNode a0.level bg)
        && ((c3 == getNullNode a0.level bg) && ((d1 == getNullNode a0.level bg)
        && ((d2 == getNullNode a0.level bg) && ((d3 == getNullNode a0.level bg)
        && true)))))))))))) := by
  have e : (NodeType.nonleaf (NodeType.nonleaf a0 a1 a2 a3) (NodeType.nonleaf b0 b1 b2 b3)
      (NodeType.nonleaf c0 c1 c2 c3) (NodeType.nonleaf d0 d1 d2 d3)).level - 2 = a0.level := by
    simp only [NodeType.level_nonleaf]
    omega
  simp only [GameState.outerRingIsNull, e, Bool.and_true, Bool.and_assoc]

/-- The contraction loop on the store follows the loop of the value level. -/
theorem Engine.checkForContractRootFuel_ok {H : List (Addr × NodeType)}
    (hfree : ∀ L, Free 70 L H) : ∀ (fuel : Nat) (g : Heap.GameState) (gs gs1 : GameState)
    (s : NodeGCHashTable), Engine.Refines cfg rules s H g gs →
    GameState.checkForContractRootFuel fuel gs = some gs1 →
    Ok (fun g1 s1 => Engine.Refines cfg rules s1 H g1 gs1)
      (Heap.GameState.checkForContractRootFuel cfg fuel g s) := by
  intro fuel
  induction fuel with
  | zero =>
    intro g gs gs1 s h e
    rw [Heap.GameState.checkForContractRootFuel]
    refine Heap.bind_readLevel (h.1.handle (List.mem_cons_self _ _)).1 fun n _ hnl => ?_
    rw [GameState.checkForContractRootFuel] at e
    by_cases h2 : gs.rootNode.level < 2
    · rw [if_pos h2] at e
      cases e
      rw [hnl, if_pos h2]
      exact h
    · rw [if_neg h2] at e
      cases e
  | succ fuel ih =>
    intro g gs gs1 s h e
    rw [Heap.GameState.checkForContractRootFuel]
    refine Heap.bind_readLevel (h.1.handle (List.mem_cons_self _ _)).1 fun n _ hnl => ?_
    rw [GameState.checkForContractRootFuel] at e
    by_cases h2 : gs.rootNode.level < 2
    · rw [if_pos h2] at e
      cases e
      rw [hnl, if_pos h2]
      exact h
    · rw [if_neg h2] at e
      rw [hnl, if_neg h2]
      obtain ⟨hst, hbg⟩ := h
      obtain ⟨root, bg⟩ := gs
      simp only at hst hbg h2 e ⊢
      subst hbg
      have hw := Heap.Repr.wellFormed hst.inv (hst.handle (List.mem_cons_self _ _)).1
      obtain ⟨a0, a1, a2, a3, b0, b1, b2, b3, c0, c1, c2, c3, d0, d1, d2, d3, rfl, hlev⟩ :=
        NodeType.wellFormed_split_twice hw (show root.level = (root.level - 2) + 2 by omega)
      have hl2 : (NodeType.nonleaf (NodeType.nonleaf a0 a1 a2 a3) (NodeType.nonleaf b0 b1 b2 b3)
          (NodeType.nonleaf c0 c1 c2 c3) (NodeType.nonleaf d0 d1 d2 d3)).level - 2
          = a0.level := by
        simp only [NodeType.level_nonleaf]
        omega
      rw [hl2]
      refine Heap.Ok.bind (Engine.getNullNode_ok hst a0.level g.backgroundType
        (((hfree _).push [_] (j := 7) (by simp)))) fun nullNode s1 ⟨h1, _, _⟩ => ?_
      have hN := (h1.handle (List.mem_cons_self _ _)).1
      have hr1 := (h1.handle (List.mem_cons_of_mem _ (List.mem_cons_self _ _))).1
      refine Heap.Ok.bind (Engine.outerRingIsNull_ok h1.inv hr1 hN) fun b s2 ⟨e2, hb⟩ => ?_
      subst e2
      rw [Engine.outerRingIsNull_eq] at e
      rw [← hb] at e
      cases b with
      | false =>
        simp only [Bool.not_false, if_true] at e ⊢
        cases e
        refine Heap.Ok.bind (Heap.decRef_ok h1) fun _ s3 ⟨h3, _⟩ => ?_
        exact ⟨h3, rfl⟩
      | true =>
        simp only [Bool.not_true, Bool.false_eq_true, if_false] at e ⊢
        refine Heap.Ok.bind (Heap.getCenter_ok h1 hr1 (by omega)
          ((hfree _).push [_, _] (j := 6) (by simp))) fun c s3 ⟨tc, ec, h3⟩ => ?_
        rw [ec] at e
        simp only at e
        refine Heap.Ok.bind (Heap.decRef_at [_, _] h3) fun _ s4 ⟨h4, _⟩ => ?_
        refine Heap.Ok.bind (Heap.decRef_second h4) fun _ s5 ⟨h5, _⟩ => ?_
        exact ih _ ⟨tc, g.backgroundType⟩ gs1 s5 ⟨h5, rfl⟩ e

/-- Function `checkForContractRoot` on the store follows the function of the
value level. -/
theorem Engine.checkForContractRoot_ok {s : NodeGCHashTable} {H : List (Addr × NodeType)}
    {g : Heap.GameState} {gs : GameState} (h : Engine.Refines cfg rules s H g gs)
    (hfree : ∀ L, Free 70 L H) :
    Ok (fun g1 s1 => ∃ gs1, gs.checkForContractRoot = some gs1
        ∧ Engine.Refines cfg rules s1 H g1 gs1)
      (Heap.GameState.checkForContractRoot cfg g s) := by
  have w := Heap.Repr.wellFormed h.1.inv (h.1.handle (List.mem_cons_self _ _)).1
  obtain ⟨gs1, e, -⟩ := GameState.checkForContractRoot_spec (GameState.denotes_toGrid gs w)
  unfold Heap.GameState.checkForContractRoot
  refine Heap.bind_readLevel (h.1.handle (List.mem_cons_self _ _)).1 fun n _ hnl => ?_
  rw [hnl]
  exact (Engine.checkForContractRootFuel_ok hfree _ g gs gs1 s h e).mono
    fun g1 s1 h1 => ⟨gs1, e, h1⟩

/-- The expansion loop of `step` on the store follows the loop of the value
level. -/
theorem Engine.expandToLevel_ok {H : List (Addr × NodeType)} (hfree : ∀ L, Free 70 L H)
    (k : Nat) : ∀ (fuel : Nat) (g : Heap.GameState) (gs gs1 : GameState)
    (s : NodeGCHashTable), Engine.Refines cfg rules s H g gs →
    GameState.expandToLevel fuel gs k = some gs1 →
    Ok (fun g1 s1 => Engine.Refines cfg rules s1 H g1 gs1)
      (Heap.GameState.expandToLevel cfg fuel g k s) := by
  intro fuel
  induction fuel with
  | zero =>
    intro g gs gs1 s h e
    rw [Heap.GameState.expandToLevel]
    refine Heap.bind_readLevel (h.1.handle (List.mem_cons_self _ _)).1 fun n _ hnl => ?_
    rw [GameState.expandToLevel] at e
    by_cases h2 : gs.rootNode.level < k + 1
    · rw [if_pos h2] at e
      cases e
    · rw [if_neg h2] at e
      cases e
      rw [hnl, if_neg h2]
      exact h
  | succ fuel ih =>
    intro g gs gs1 s h e
    rw [Heap.GameState.expandToLevel]
    refine Heap.bind_readLevel (h.1.handle (List.mem_cons_self _ _)).1 fun n _ hnl => ?_
    rw [GameState.expandToLevel] at e
    by_cases h2 : gs.rootNode.level < k + 1
    · rw [if_pos h2] at e
      rw [hnl, if_pos h2]
      refine Heap.Ok.bind (Engine.expandRoot_ok h ((hfree _).less (by decide) (le_refl _)))
        fun g1 s2 h2 => ?_
      exact ih g1 gs.expandRoot gs1 s2 h2 e
    · rw [if_neg h2] at e
      cases e
      rw [hnl, if_neg h2]
      exact h

/-- The statement of `step` that computes the new background value, on the
store. -/
theorem Engine.nextBackground_ok {s : NodeGCHashTable} {H : List (Addr × NodeType)}
    {g : Heap.GameState} {gs : GameState} (h : Engine.Refines cfg rules s H g gs)
    (hfree : ∀ L, Free 70 L H) {k : Nat} (hk : k + 1 ≤ gs.rootNode.level) :
    Ok (fun c s1 => (∃ nn, (getNullNode gs.rootNode.level gs.backgroundType).getNextStateStep
          rules k = some nn ∧ getCellH nn 0 0 0 0 = some c)
        ∧ Engine.Refines cfg rules s1 H g gs)
      (Heap.GameState.nextBackground cfg rules g k s) := by
  obtain ⟨hst, hbg⟩ := h
  unfold Heap.GameState.nextBackground
  refine Heap.bind_readLevel (hst.handle (List.mem_cons_self _ _)).1 fun n _ hnl => ?_
  rw [hnl, hbg]
  refine Heap.Ok.bind (Engine.getNullNode_ok hst gs.rootNode.level gs.backgroundType
    (((hfree _).push [_] (j := 7) (by simp)))) fun nullNode s1 ⟨h1, _, _⟩ => ?_
  have hN := (h1.handle (List.mem_cons_self _ _)).1
  have hNl : (getNullNode gs.rootNode.level gs.backgroundType).level = gs.rootNode.level :=
    getNullNode_level _ _
  refine Heap.Ok.bind (Heap.getNextStateStep_ok h1 hN (by rw [hNl]; exact hk)
    (Heap.Free.room ((hfree _).push [_, _] (j := 63) (by simp))))
    fun r s2 ⟨tr, ⟨e2, l2⟩, h2⟩ => ?_
  have hpos : (0 : Int) < 2 ^ tr.level := by positivity
  refine Heap.Ok.bind (Engine.getCellH_ok h2 (h2.handle (List.mem_cons_self _ _)).1
    (Heap.Free.room ((hfree _).push [_, _, _] (j := 6) (by simp)))
    (by omega) (by omega) (by omega) (by omega)) fun c s3 ⟨ec, h3⟩ => ?_
  refine Heap.Ok.bind (Heap.decRef_ok h3) fun _ s4 ⟨h4, _⟩ => ?_
  refine Heap.Ok.bind (Heap.decRef_ok h4) fun _ s5 ⟨h5, _⟩ => ?_
  exact ⟨⟨tr, e2, ec⟩, h5, hbg⟩

/-- Function `GameState::step` on the store follows the function of the value
level. -/
theorem Engine.step_ok {s : NodeGCHashTable} {H : List (Addr × NodeType)}
    {g : Heap.GameState} {gs : GameState} (h : Engine.Refines cfg rules s H g gs)
    (hfree : ∀ L, Free 70 L H) (k : Nat) :
    Ok (fun g1 s1 => ∃ gs1, gs.step rules k = some gs1 ∧ Engine.Refines cfg rules s1 H g1 gs1)
      (Heap.GameState.step cfg rules g k s) := by
  have w := Heap.Repr.wellFormed h.1.inv (h.1.handle (List.mem_cons_self _ _)).1
  obtain ⟨d1, l1⟩ := GameState.expandRoot_denotes (GameState.denotes_toGrid gs w)
  obtain ⟨d2, l2⟩ := GameState.expandRoot_denotes d1
  obtain ⟨gs3, e3, -, -, l3⟩ := GameState.expandToLevel_spec (k + 1) gs.expandRoot.expandRoot
    gs.toGrid k d2 (by omega)
  unfold Heap.GameState.step
  refine Heap.Ok.bind (Engine.expandRoot_ok h ((hfree _).less (by decide) (le_refl _)))
    fun g1 s1 h1 => ?_
  refine Heap.Ok.bind (Engine.expandRoot_ok h1 ((hfree _).less (by decide) (le_refl _)))
    fun g2 s2 h2 => ?_
  refine Heap.Ok.bind (Engine.expandToLevel_ok hfree k _ g2 _ gs3 s2 h2 e3) fun g3 s3 h3 => ?_
  have hk3 : k + 1 ≤ gs3.rootNode.level := by rw [l3]; exact le_max_right _ _
  refine Heap.Ok.bind (Engine.nextBackground_ok h3 hfree hk3)
    fun nb s4 ⟨⟨nn, enn, enb⟩, h4⟩ => ?_
  obtain ⟨hst4, hbg4⟩ := h4
  refine Heap.Ok.bind (Heap.getNextStateStep_ok hst4 (hst4.handle (List.mem_cons_self _ _)).1 hk3
    (Heap.Free.room ((hfree _).push [_] (j := 63) (by simp))))
    fun r s5 ⟨tr, ⟨e5, _⟩, h5⟩ => ?_
  refine Heap.Ok.bind (Heap.decRef_second h5) fun _ s6 ⟨h6, _⟩ => ?_
  refine (@Engine.checkForContractRoot_ok cfg rules _ _ ⟨r, nb⟩ ⟨tr, nb⟩ ⟨h6, rfl⟩ hfree).mono ?_
  rintro g7 s7 ⟨gs7, e7, h7⟩
  refine ⟨gs7, ?_, h7⟩
  rw [GameState.step, e3]
  simp only [enn, enb, e5]
  exact e7

end EngineOps

/-! ## Claims about the engine on the store -/

section EngineClaims
open Heap (M ret fail bindM incRef decRef decRefOpt readNode Ok Repr ShapeLe held St Addr Node Memory
  NodeGCHashTable Config Failure Inv Shrinks Interned incRefCount decRefCount findOrInsertLeaf
  findOrInsertNonleaf callNonleaf withNonleaf lc Free Room Ext optHandle LevelsOk)

variable {cfg : Config} {rules : RuleTable}

/-- The empty store satisfies the invariant of the engine. -/
theorem Engine.St_empty (hv : cfg.Valid) : St cfg rules NodeGCHashTable.empty [] := by
  refine ⟨hv, Heap.Reachable.inv hv Heap.Reachable.empty, ?_, ?_, ?_, ?_, ?_, ?_⟩
  · intro a n h
    simp [NodeGCHashTable.empty] at h
  · intro a n h
    simp [NodeGCHashTable.empty] at h
  · intro p hp
    simp at hp
  · intro bg i a h
    simp [NodeGCHashTable.empty] at h
  · intro a
    simp [NodeGCHashTable.empty]
  · intro a n r h
    simp [NodeGCHashTable.empty] at h

/-- There is room for every call when the running code holds no handle. -/
theorem Heap.free_nil (k L : Nat) (hk : k ≤ 254) : Free k L [] := by
  intro l _
  simp only [Heap.lc, List.countP_nil]
  omega

/-- A sequence of calls of `getNullNode`: every pointer returned is the entry
of the `nullNodes` vectors for its level and background, and the entries there
were are kept. -/
theorem Engine.getNullNodes_ok {H : List (Addr × NodeType)} (hfree : ∀ L, Free 70 L H) :
    ∀ (qs : List (Nat × CellType)) (s : NodeGCHashTable), St cfg rules s H →
    Ok (fun rs s1 => St cfg rules s1 H
        ∧ (∀ (b j : Nat) (x : Addr), (s.nullNodes.getD b [])[j]? = some x →
            (s1.nullNodes.getD b [])[j]? = some x)
        ∧ List.Forall₂ (fun q r => (s1.nullNodes.getD q.2 [])[q.1]? = some r) qs rs)
      (Heap.getNullNodes cfg qs s) := by
  intro qs
  induction qs with
  | nil =>
    intro s hst
    exact ⟨hst, fun _ _ _ h => h, List.Forall₂.nil⟩
  | cons q qs ih =>
    intro s hst
    rw [Heap.getNullNodes]
    refine Heap.Ok.bind (Engine.getNullNode_ok hst q.1 q.2 ((hfree _).less (by decide)
      (le_refl _))) fun r s1 ⟨h1, e1, m1⟩ => ?_
    refine Heap.Ok.bind ((Heap.decRef_ok h1).also (R := fun _ s2 => s2.nullNodes = s1.nullNodes)
      (fun _ _ h => Heap.decRef_keeps h)) fun _ s2 ⟨⟨h2, _⟩, k2⟩ => ?_
    refine Heap.Ok.bind (ih s2 h2) fun rs s3 ⟨h3, m3, f3⟩ => ?_
    refine ⟨h3, ?_, List.Forall₂.cons ?_ f3⟩
    · intro b j x hx
      apply m3
      rw [k2]
      exact m1 b j x hx
    · apply m3
      rw [k2]
      exact e1

end EngineClaims

section EngineClaims2
open Heap (M ret fail bindM incRef decRef decRefOpt readNode Ok Repr ShapeLe held St Addr Node Memory
  NodeGCHashTable Config Failure Inv Shrinks Interned incRefCount decRefCount findOrInsertLeaf
  findOrInsertNonleaf callNonleaf withNonleaf lc Free Room Ext optHandle LevelsOk)

variable {cfg : Config} {rules : RuleTable}

/-- The example store with one leaf and one handle to it satisfies the
invariant of the engine. -/
theorem Engine.exampleStore1_st (rules : RuleTable) :
    St Heap.exampleConfig rules Heap.exampleStore1 [(1, NodeType.leaf 0 0 0 1)] := by
  have h := @Heap.internLeaf_ok Heap.exampleConfig rules _ _
    (Engine.St_empty Heap.exampleConfig_valid) 0 0 0 1
    ((Heap.free_nil 1 0 (by decide)).one (le_refl _) (le_refl _))
  have e : findOrInsertLeaf Heap.exampleConfig 0 0 0 1 NodeGCHashTable.empty
      = .ok (1, Heap.exampleStore1) := rfl
  rw [e] at h
  exact h

/-- In a state of the engine every non-leaf node has four children in the
store, each one level below the node. -/
theorem Engine.levelsOk_of_st {s : NodeGCHashTable} {H : List (Addr × NodeType)}
    (hst : St cfg rules s H) : LevelsOk s :=
  hst.inv.kids_live

/-- C30. Level well-formedness, on the store.  From every state of the engine
in which the universe `g` holds a well-formed universe (the states that the
constructor and the operations below reach), each of `getNullNode`,
`getCenter`, `getNextState` (both overloads), `setCell`, `expandRoot`, `step`
and `checkForContractRoot` returns or stops at the out-of-memory exit, and
when it returns every non-leaf node of the store, those the operation
created among them, has four children in the store (none is null), all of one
level, and its own level is that level + 1; the state is again a state of the
engine, so this holds after every sequence of these operations. -/
theorem Engine.level_wellFormed {s : NodeGCHashTable} {H : List (Addr × NodeType)}
    {g : Heap.GameState} {gs : GameState} (h : Engine.Refines cfg rules s H g gs)
    (hfree : ∀ L, Free 70 L H) :
    (∀ (L : Nat) (b : CellType), Ok (fun r s1 => LevelsOk s1
        ∧ St cfg rules s1 ((r, getNullNode L b) :: (g.rootNode, gs.rootNode) :: H))
        (Heap.getNullNode cfg L b s))
    ∧ (∀ (a : Addr) (t : NodeType), Repr s.memory a t → 1 ≤ t.level →
        Ok (fun r s1 => LevelsOk s1
          ∧ ∃ c, St cfg rules s1 ((r, c) :: (g.rootNode, gs.rootNode) :: H))
          (Heap.getCenter cfg a s))
    ∧ (∀ (a : Addr) (t : NodeType), Repr s.memory a t → 1 ≤ t.level →
        Ok (fun r s1 => LevelsOk s1
          ∧ ∃ c, St cfg rules s1 ((r, c) :: (g.rootNode, gs.rootNode) :: H))
          (Heap.getNextState cfg rules a s))
    ∧ (∀ (a : Addr) (t : NodeType) (k : Nat), Repr s.memory a t → k + 1 ≤ t.level →
        Ok (fun r s1 => LevelsOk s1
          ∧ ∃ c, St cfg rules s1 ((r, c) :: (g.rootNode, gs.rootNode) :: H))
          (Heap.getNextStateStep cfg rules a k s))
    ∧ (∀ (x y : Int) (v : CellType), Ok (fun g1 s1 => LevelsOk s1
        ∧ ∃ gs1, Engine.Refines cfg rules s1 H g1 gs1) (Heap.GameState.setCell cfg g x y v s))
    ∧ Ok (fun g1 s1 => LevelsOk s1 ∧ ∃ gs1, Engine.Refines cfg rules s1 H g1 gs1)
        (Heap.GameState.expandRoot cfg g s)
    ∧ (∀ k : Nat, Ok (fun g1 s1 => LevelsOk s1 ∧ ∃ gs1, Engine.Refines cfg rules s1 H g1 gs1)
        (Heap.GameState.step cfg rules g k s))
    ∧ Ok (fun g1 s1 => LevelsOk s1 ∧ ∃ gs1, Engine.Refines cfg rules s1 H g1 gs1)
        (Heap.GameState.checkForContractRoot cfg g s) := by
  have hf1 : ∀ L, Free 69 L ((g.rootNode, gs.rootNode) :: H) := fun L =>
    (hfree L).push [(g.rootNode, gs.rootNode)] (by simp)
  refine ⟨fun L b => ?_, fun a t hr hl => ?_, fun a t hr hl => ?_, fun a t k hr hk => ?_,
    fun x y v => ?_, ?_, fun k => ?_, ?_⟩
  · exact (Engine.getNullNode_ok h.1 L b ((hf1 _).less (by decide) (le_refl _))).mono
      fun r s1 h1 => ⟨Engine.levelsOk_of_st h1.1, h1.1⟩
  · exact (Heap.getCenter_ok h.1 hr hl ((hf1 _).less (by decide) (le_refl _))).mono
      fun r s1 ⟨c, _, h1⟩ => ⟨Engine.levelsOk_of_st h1, c, h1⟩
  · exact (Heap.getNextState_ok h.1 hr hl
      (Heap.Free.room ((hf1 _).less (by decide) (le_refl _)))).mono
      fun r s1 ⟨c, _, h1⟩ => ⟨Engine.levelsOk_of_st h1, c, h1⟩
  · exact (Heap.getNextStateStep_ok h.1 hr hk
      (Heap.Free.room ((hf1 _).less (by decide) (le_refl _)))).mono
      fun r s1 ⟨c, _, h1⟩ => ⟨Engine.levelsOk_of_st h1, c, h1⟩
  · exact (Engine.setCell_ok h hfree x y v).mono
      fun g1 s1 ⟨gs1, _, h1⟩ => ⟨Engine.levelsOk_of_st h1.1, gs1, h1⟩
  · exact (Engine.expandRoot_ok h ((hfree _).less (by decide) (le_refl _))).mono
      fun g1 s1 h1 => ⟨Engine.levelsOk_of_st h1.1, _, h1⟩
  · exact (Engine.step_ok h hfree k).mono
      fun g1 s1 ⟨gs1, _, h1⟩ => ⟨Engine.levelsOk_of_st h1.1, gs1, h1⟩
  · exact (Engine.checkForContractRoot_ok h hfree).mono
      fun g1 s1 ⟨gs1, _, h1⟩ => ⟨Engine.levelsOk_of_st h1.1, gs1, h1⟩

attribute [local irreducible] Heap.Ok

theorem Engine.level_wellFormed_witness :
    Engine.Refines Heap.exampleConfig setLifeRules Heap.exampleStore1 [] ⟨1, 0⟩
      ⟨NodeType.leaf 0 0 0 1, 0⟩
    ∧ (∀ L, Free 70 L [])
    ∧ Ok (fun g1 s1 => LevelsOk s1
        ∧ ∃ gs1, Engine.Refines Heap.exampleConfig setLifeRules s1 [] g1 gs1)
        (Heap.GameState.step Heap.exampleConfig setLifeRules ⟨1, 0⟩ 0 Heap.exampleStore1) :=
  ⟨⟨Engine.exampleStore1_st setLifeRules, rfl⟩, fun L => Heap.free_nil 70 L (by decide),
    (@Engine.level_wellFormed Heap.exampleConfig setLifeRules Heap.exampleStore1 [] ⟨1, 0⟩
      ⟨NodeType.leaf 0 0 0 1, 0⟩ ⟨Engine.exampleStore1_st setLifeRules, rfl⟩
      (fun L => Heap.free_nil 70 L (by decide))).2.2.2.2.2.2.1 0⟩

end EngineClaims2

/-! ## Later claims: cache, safety, termination, frames, counts, tokens -/

section EngineClaims3
open Heap (M ret fail bindM incRef decRef decRefOpt readNode Ok Repr ShapeLe held St Addr Node Memory
  NodeGCHashTable Config Failure Inv Shrinks Interned incRefCount decRefCount findOrInsertLeaf
  findOrInsertNonleaf callNonleaf withNonleaf lc Free Room Ext optHandle LevelsOk CacheOk)

variable {cfg : Config} {rules : RuleTable}

/-- The invariant of the engine gives the invariant of the next-state cache. -/
theorem Engine.cacheOk_of_st {s : NodeGCHashTable} {H : List (Addr × NodeType)}
    (hst : St cfg rules s H) : CacheOk rules s := by
  intro a n r hn hr
  obtain ⟨t, tr, hrep, hlog, hstep, hrr⟩ := hst.cache a n r hn hr
  have hl := hrep.level_eq hn
  have hw := Heap.Repr.wellFormed hst.inv hrep
  obtain ⟨L, hL⟩ : ∃ L, t.level = L + 1 := ⟨t.level - 1, by omega⟩
  obtain ⟨tr1, h1, -, hl1⟩ := NodeType.getNextStateStep_level rules hw hL
    (show n.nextStateLogStep ≤ L by omega)
  rw [hstep] at h1
  cases h1
  obtain ⟨nr, hnr, hlr⟩ := hrr.node
  exact ⟨hlog, ⟨nr, hnr, by omega⟩, t, tr, hrep, hstep, hrr⟩

end EngineClaims3

namespace Heap

/-- Claim C38: in every store state reachable from the empty store through
`findOrInsertLeaf`, `findOrInsertNonleaf`, `gc` and the construction and
destruction of handles, `nodeCount` is the total number of nodes linked in the
bucket chains. -/
theorem nodeCount_chains (cfg : Config) (hv : cfg.Valid) (s : NodeGCHashTable)
    (hr : Reachable cfg s) :
    s.nodeCount = ((List.range cfg.hashPrime).map (fun i => (s.table i).length)).sum := by
  rw [(hr.inv hv).count, NodeGCHashTable.allNodes, List.length_flatMap]
  rfl

theorem nodeCount_chains_witness :
    exampleConfig.Valid ∧ Reachable exampleConfig exampleStore3
    ∧ exampleStore3.nodeCount
      = ((List.range exampleConfig.hashPrime).map (fun i => (exampleStore3.table i).length)).sum :=
  ⟨exampleConfig_valid, exampleStore3_reachable,
    nodeCount_chains exampleConfig exampleConfig_valid exampleStore3 exampleStore3_reachable⟩

end Heap

/-- Two nodes of one level that hold the same grid on the same square are
equal. -/
theorem NodeType.holds_unique : ∀ (L : Nat) (t t1 : NodeType) (cx cy : Int) (g : Grid),
    t.Holds L cx cy g → t1.Holds L cx cy g → t = t1 := by
  intro L
  induction L with
  | zero =>
    intro t t1 cx cy g h h1
    obtain ⟨a, b, c, d, rfl⟩ := NodeType.eq_leaf_of_level_zero h.2.1
    obtain ⟨a1, b1, c1, d1, rfl⟩ := NodeType.eq_leaf_of_level_zero h1.2.1
    obtain ⟨e1, e2, e3, e4⟩ := (NodeType.agrees_leaf a b c d cx cy g).1 h.2.2
    obtain ⟨f1, f2, f3, f4⟩ := (NodeType.agrees_leaf a1 b1 c1 d1 cx cy g).1 h1.2.2
    rw [← e1, ← e2, ← e3, ← e4, ← f1, ← f2, ← f3, ← f4]
  | succ L ih =>
    intro t t1 cx cy g h h1
    obtain ⟨p, q, r, s, rfl, hp, hq, hr, hs⟩ := NodeType.holds_split h
    obtain ⟨p1, q1, r1, s1, rfl, hp1, hq1, hr1, hs1⟩ := NodeType.holds_split h1
    rw [ih p p1 _ _ g hp hp1, ih q q1 _ _ g hq hq1, ih r r1 _ _ g hr hr1, ih s s1 _ _ g hs hs1]

/-- A node that holds a grid which is `b` on the node's square is the null
node of its level. -/
theorem NodeType.eq_getNullNode {L : Nat} {t : NodeType} {cx cy : Int} {g : Grid} {b : CellType}
    (h : t.Holds L cx cy g)
    (hb : ∀ x y : Int, cx - 2 ^ L ≤ x → x < cx + 2 ^ L → cy - 2 ^ L ≤ y → y < cy + 2 ^ L →
      g x y = b) : t = getNullNode L b :=
  NodeType.holds_unique L t _ cx cy g h (getNullNode_holds b L cx cy g hb)

namespace GameState

/-- The test of the contraction loop, on a well-formed root of level at least
2: the twelve outer grandchildren are the null node exactly when every cell of
the outer ring is the background value. -/
theorem outerRingIsNull_iff (gs : GameState) (w : gs.rootNode.WellFormed)
    (hl : 2 ≤ gs.rootNode.level) :
    gs.outerRingIsNull = true
      ↔ ∀ x y : Int, gs.InOuterRing x y → gs.getCell x y = some gs.backgroundType := by
  obtain ⟨L, hL⟩ : ∃ L, gs.rootNode.level = L + 2 := ⟨gs.rootNode.level - 2, by omega⟩
  have hL1 : gs.rootNode.level - 1 = L + 1 := by omega
  have hd := denotes_toGrid gs w
  obtain ⟨hh, -⟩ := (denotes_iff gs gs.toGrid).1 hd
  rw [hL] at hh
  have hP : (2 : Int) ^ (L + 2) = 4 * 2 ^ L := by rw [pow_add]; ring
  have hP1 : (2 : Int) ^ (L + 1) = 2 * 2 ^ L := by rw [pow_succ]; ring
  have hpos : (0 : Int) < 2 ^ L := by positivity
  obtain ⟨a0, a1, a2, a3, b0, b1, b2, b3, c0, c1, c2, c3, d0, d1, d2, d3, heq,
    ha0, ha1, ha2, ha3, hb0, hb1, hb2, hb3, hc0, hc1, hc2, hc3, hd0, hd1, hd2, hd3⟩ :=
    NodeType.holds_split_two hh
  constructor
  · intro hr x y hring
    obtain ⟨p3, q2, r1, s0, hshape⟩ := outerRingIsNull_eq_true hr
    rw [hL, Nat.add_sub_cancel] at hshape
    rw [hshape] at heq
    injection heq with e1 e2 e3 e4
    injection e1 with e10 e11 e12 e13
    injection e2 with e20 e21 e22 e23
    injection e3 with e30 e31 e32 e33
    injection e4 with e40 e41 e42 e43
    subst e10 e11 e12 e13 e20 e21 e22 e23 e30 e31 e32 e33 e40 e41 e42 e43
    rw [hd.2 x y]
    congr 1
    obtain ⟨hin, hout⟩ := hring
    rw [hL, hP] at hin
    rw [hL1, hP1] at hout
    have k := fun {cx cy : Int} (hN : (getNullNode L gs.backgroundType).Holds L cx cy gs.toGrid) =>
      getNullNode_agrees_eq hN.2.2 x y
    by_cases hx1 : x < -2 * 2 ^ L <;> by_cases hx2 : x < 0 <;> by_cases hx3 : x < 2 * 2 ^ L <;>
      by_cases hy1 : y < -2 * 2 ^ L <;> by_cases hy2 : y < 0 <;>
      by_cases hy3 : y < 2 * 2 ^ L <;>
      first
        | (exfalso; omega)
        | exact k ha0 (by omega) (by omega) (by omega) (by omega)
        | exact k ha1 (by omega) (by omega) (by omega) (by omega)
        | exact k ha2 (by omega) (by omega) (by omega) (by omega)
        | exact k hb0 (by omega) (by omega) (by omega) (by omega)
        | exact k hb1 (by omega) (by omega) (by omega) (by omega)
        | exact k hb3 (by omega) (by omega) (by omega) (by omega)
        | exact k hc0 (by omega) (by omega) (by omega) (by omega)
        | exact k hc2 (by omega) (by omega) (by omega) (by omega)
        | exact k hc3 (by omega) (by omega) (by omega) (by omega)
        | exact k hd1 (by omega) (by omega) (by omega) (by omega)
        | exact k hd2 (by omega) (by omega) (by omega) (by omega)
        | exact k hd3 (by omega) (by omega) (by omega) (by omega)
  · intro hall
    have hcell : ∀ x y : Int, gs.InOuterRing x y → gs.toGrid x y = gs.backgroundType := by
      intro x y hring
      have h1 := hall x y hring
      rw [hd.2 x y] at h1
      exact Option.some.inj h1
    have key : ∀ {t : NodeType} {cx cy : Int}, t.Holds L cx cy gs.toGrid →
        (∀ x y : Int, cx - 2 ^ L ≤ x → x < cx + 2 ^ L → cy - 2 ^ L ≤ y → y < cy + 2 ^ L →
          gs.InOuterRing x y) → t = getNullNode L gs.backgroundType := by
      intro t cx cy ht hin
      exact NodeType.eq_getNullNode ht fun x y h1 h2 h3 h4 => hcell x y (hin x y h1 h2 h3 h4)
    have ring : ∀ x y : Int, (-(4 * 2 ^ L) ≤ x ∧ x < 4 * 2 ^ L ∧ -(4 * 2 ^ L) ≤ y ∧ y < 4 * 2 ^ L)
        → ¬ (-(2 * 2 ^ L) ≤ x ∧ x < 2 * 2 ^ L ∧ -(2 * 2 ^ L) ≤ y ∧ y < 2 * 2 ^ L)
        → gs.InOuterRing x y := by
      intro x y h1 h2
      unfold InOuterRing
      rw [hL1, hL, hP, hP1]
      exact ⟨h1, h2⟩
    have n0 := key ha0 fun x y h1 h2 h3 h4 => ring x y (by omega) (by omega)
    have n1 := key ha1 fun x y h1 h2 h3 h4 => ring x y (by omega) (by omega)
    have n2 := key ha2 fun x y h1 h2 h3 h4 => ring x y (by omega) (by omega)
    have n3 := key hb0 fun x y h1 h2 h3 h4 => ring x y (by omega) (by omega)
    have n4 := key hb1 fun x y h1 h2 h3 h4 => ring x y (by omega) (by omega)
    have n5 := key hb3 fun x y h1 h2 h3 h4 => ring x y (by omega) (by omega)
    have n6 := key hc0 fun x y h1 h2 h3 h4 => ring x y (by omega) (by omega)
    have n7 := key hc2 fun x y h1 h2 h3 h4 => ring x y (by omega) (by omega)
    have n8 := key hc3 fun x y h1 h2 h3 h4 => ring x y (by omega) (by omega)
    have n9 := key hd1 fun x y h1 h2 h3 h4 => ring x y (by omega) (by omega)
    have n10 := key hd2 fun x y h1 h2 h3 h4 => ring x y (by omega) (by omega)
    have n11 := key hd3 fun x y h1 h2 h3 h4 => ring x y (by omega) (by omega)
    have hlev : gs.rootNode.level - 2 = L := by omega
    unfold outerRingIsNull
    rw [hlev, heq]
    simp only [n0, n1, n2, n3, n4, n5, n6, n7, n8, n9, n10, n11, beq_self_eq_true, Bool.and_self]

/-- The state the contraction loop ends in fails the test of the loop. -/
theorem Contracts.final {gs gs1 : GameState} (h : gs.Contracts gs1) :
    gs1.rootNode.level < 2 ∨ gs1.outerRingIsNull = false := by
  induction h with
  | stop gs h => exact h
  | step gs c gs1 _ _ _ _ ih => exact ih

/-- Claim C34: on every universe with a well-formed root
`checkForContractRoot` returns; it leaves the universe unchanged whenever the
root level is below 2 or some cell of the outer ring differs from
`backgroundType`; and the universe it returns has a root of level below 2 or
a cell of the outer ring that differs from `backgroundType`. -/
theorem checkForContractRoot_ring (gs : GameState) (w : gs.rootNode.WellFormed) :
    ∃ gs1, gs.checkForContractRoot = some gs1
      ∧ ((gs.rootNode.level < 2
            ∨ ∃ x y : Int, gs.InOuterRing x y ∧ gs.getCell x y ≠ some gs.backgroundType) →
          gs1 = gs)
      ∧ (gs1.rootNode.level < 2
          ∨ ∃ x y : Int, gs1.InOuterRing x y ∧ gs1.getCell x y ≠ some gs1.backgroundType) := by
  have hd := denotes_toGrid gs w
  obtain ⟨gs1, h1, hd1, -, -⟩ := checkForContractRoot_spec hd
  have hc := checkForContractRootFuel_contracts _ gs gs1 h1
  refine ⟨gs1, h1, ?_, ?_⟩
  · intro hstop
    have hfalse : gs.rootNode.level < 2 ∨ gs.outerRingIsNull = false := by
      rcases hstop with h2 | ⟨x, y, hring, hne⟩
      · exact Or.inl h2
      · by_cases h2 : gs.rootNode.level < 2
        · exact Or.inl h2
        · right
          rw [← Bool.not_eq_true]
          intro ht
          exact hne ((outerRingIsNull_iff gs w (by omega)).1 ht x y hring)
    cases hc with
    | stop _ _ => rfl
    | step _ c _ hl ht _ _ =>
      rcases hfalse with h2 | h2
      · omega
      · rw [ht] at h2; cases h2
  · rcases hc.final with h2 | h2
    · exact Or.inl h2
    · by_cases h3 : gs1.rootNode.level < 2
      · exact Or.inl h3
      · right
        by_contra hno
        have hall : ∀ x y : Int, gs1.InOuterRing x y →
            gs1.getCell x y = some gs1.backgroundType := by
          intro x y hring
          by_contra hne
          exact hno ⟨x, y, hring, hne⟩
        rw [(outerRingIsNull_iff gs1 hd1.1 (by omega)).2 hall] at h2
        cases h2

theorem checkForContractRoot_ring_witness :
    singleCell.expandRoot.expandRoot.rootNode.WellFormed
    ∧ ∃ gs1, singleCell.expandRoot.expandRoot.checkForContractRoot = some gs1
      ∧ ((singleCell.expandRoot.expandRoot.rootNode.level < 2
            ∨ ∃ x y : Int, singleCell.expandRoot.expandRoot.InOuterRing x y
              ∧ singleCell.expandRoot.expandRoot.getCell x y
                ≠ some singleCell.expandRoot.expandRoot.backgroundType) →
          gs1 = singleCell.expandRoot.expandRoot)
      ∧ (gs1.rootNode.level < 2
          ∨ ∃ x y : Int, gs1.InOuterRing x y ∧ gs1.getCell x y ≠ some gs1.backgroundType) :=
  ⟨by decide, checkForContractRoot_ring singleCell.expandRoot.expandRoot (by decide)⟩

end GameState

section EngineClaims4
open Heap (M ret fail bindM incRef decRef decRefOpt readNode Ok Repr ShapeLe held St Addr Node Memory
  NodeGCHashTable Config Failure Inv Shrinks Interned incRefCount decRefCount findOrInsertLeaf
  findOrInsertNonleaf callNonleaf withNonleaf lc Free Room Ext optHandle LevelsOk CacheOk)

variable {cfg : Config} {rules : RuleTable}

/-- A run that ends well returned a value, or left through the `exit(1)` of
`onAllocate`. -/
theorem Heap.Ok.outcome {α : Type} {Q : α → NodeGCHashTable → Prop}
    {r : Except Failure (α × NodeGCHashTable)} (h : Ok Q r) :
    (∃ a s1, r = .ok (a, s1) ∧ Q a s1) ∨ r = .error Failure.outOfMemory := by
  cases r with
  | ok p => exact Or.inl ⟨p.1, p.2, rfl, h⟩
  | error e =>
    have he : e = Failure.outOfMemory := h
    exact Or.inr (by rw [he])

/-- A run that ends well did not stop at an assertion. -/
theorem Heap.Ok.no_assertion {α : Type} {Q : α → NodeGCHashTable → Prop}
    {r : Except Failure (α × NodeGCHashTable)} (h : Ok Q r) : r ≠ .error Failure.assertion := by
  rcases h.outcome with ⟨a, s1, e, -⟩ | e <;> rw [e] <;> simp

/-- A run that ends well did not exhaust its budget. -/
theorem Heap.Ok.no_budget {α : Type} {Q : α → NodeGCHashTable → Prop}
    {r : Except Failure (α × NodeGCHashTable)} (h : Ok Q r) : r ≠ .error Failure.budget := by
  rcases h.outcome with ⟨a, s1, e, -⟩ | e <;> rw [e] <;> simp

/-- Claim C33, termination.  Value level: on a well-formed node of level
`L + 1` the recursion of `getNextState(gc)` and of `getNextState(gc, k)` with
`k ≤ L` returns within the budget `L + 1`, which every recursive call lowers
by one as it goes one level down; the expansion loops of `setCell` and `step`
and the contraction loop return within their budgets.  Store level: the runs
of these functions on a universe that holds a value-level universe never stop
on the budget of the model. -/
theorem Engine.terminates {s : NodeGCHashTable} {H : List (Addr × NodeType)}
    {g : Heap.GameState} {gs : GameState} (h : Engine.Refines cfg rules s H g gs)
    (hfree : ∀ L, Free 70 L H) :
    (∀ (t : NodeType) (L : Nat), t.WellFormed → t.level = L + 1 →
        (∃ r, NodeType.getNextStateFuel rules (L + 1) t = some r)
        ∧ ∀ k, k ≤ L → ∃ r, NodeType.getNextStateStepFuel rules (L + 1) t k = some r)
    ∧ (∀ x y : Int, ∃ gs1, GameState.expandToBounds (x.natAbs + y.natAbs + 1) gs x y = some gs1)
    ∧ (∀ k : Nat, ∃ gs1, GameState.expandToLevel (k + 1) gs.expandRoot.expandRoot k = some gs1)
    ∧ (∃ gs1, GameState.checkForContractRootFuel gs.rootNode.level gs = some gs1)
    ∧ (∀ (a : Addr) (t : NodeType), Repr s.memory a t → 1 ≤ t.level →
        Heap.getNextState cfg rules a s ≠ .error Failure.budget)
    ∧ (∀ (a : Addr) (t : NodeType) (k : Nat), Repr s.memory a t → k + 1 ≤ t.level →
        Heap.getNextStateStep cfg rules a k s ≠ .error Failure.budget)
    ∧ (∀ (x y : Int) (v : CellType),
        Heap.GameState.setCell cfg g x y v s ≠ .error Failure.budget)
    ∧ (∀ k : Nat, Heap.GameState.step cfg rules g k s ≠ .error Failure.budget)
    ∧ Heap.GameState.checkForContractRoot cfg g s ≠ .error Failure.budget := by
  have hf1 : ∀ L, Free 69 L ((g.rootNode, gs.rootNode) :: H) := fun L =>
    (hfree L).push [(g.rootNode, gs.rootNode)] (by simp)
  have w : gs.rootNode.WellFormed :=
    Heap.Repr.wellFormed h.1.inv (h.1.trees (g.rootNode, gs.rootNode) (List.mem_cons_self _ _))
  have hd := GameState.denotes_toGrid gs w
  refine ⟨fun t L wt hl => ⟨?_, fun k hk => ?_⟩, fun x y => ?_, fun k => ?_, ?_,
    fun a t hr hl => ?_, fun a t k hr hk => ?_, fun x y v => ?_, fun k => ?_, ?_⟩
  · obtain ⟨r, hr, -⟩ := NodeType.getNextState_level rules wt hl
    rw [NodeType.getNextState, hl] at hr
    exact ⟨r, hr⟩
  · obtain ⟨r, hr, -⟩ := NodeType.getNextStateStep_level rules wt hl hk
    rw [NodeType.getNextStateStep, hl] at hr
    exact ⟨r, hr⟩
  · have hpow : x.natAbs + y.natAbs + 1
        < 2 ^ (gs.rootNode.level + (x.natAbs + y.natAbs + 1)) :=
      lt_of_lt_of_le (Nat.lt_two_pow _) (Nat.pow_le_pow_right (by norm_num) (by omega))
    obtain ⟨gs1, e, -⟩ := GameState.expandToBounds_spec (x.natAbs + y.natAbs + 1) gs _ x y hd
      (by omega) (by omega)
    exact ⟨gs1, e⟩
  · obtain ⟨h1, l1⟩ := GameState.expandRoot_denotes hd
    obtain ⟨h2, l2⟩ := GameState.expandRoot_denotes h1
    obtain ⟨gs1, e, -⟩ := GameState.expandToLevel_spec (k + 1) gs.expandRoot.expandRoot _ k h2
      (by omega)
    exact ⟨gs1, e⟩
  · obtain ⟨gs1, e, -⟩ := GameState.checkForContractRootFuel_spec gs.rootNode.level gs _ hd
      (by omega)
    exact ⟨gs1, e⟩
  · exact (Heap.getNextState_ok h.1 hr hl
      (Heap.Free.room ((hf1 _).less (by decide) (le_refl _)))).no_budget
  · exact (Heap.getNextStateStep_ok h.1 hr hk
      (Heap.Free.room ((hf1 _).less (by decide) (le_refl _)))).no_budget
  · exact (Engine.setCell_ok h hfree x y v).no_budget
  · exact (Engine.step_ok h hfree k).no_budget
  · exact (Engine.checkForContractRoot_ok h hfree).no_budget

theorem Engine.terminates_witness :
    Engine.Refines Heap.exampleConfig setLifeRules Heap.exampleStore1 [] ⟨1, 0⟩
      ⟨NodeType.leaf 0 0 0 1, 0⟩
    ∧ (∀ L, Free 70 L [])
    ∧ (∀ k : Nat, ∃ gs1, GameState.expandToLevel (k + 1)
        (GameState.mk (NodeType.leaf 0 0 0 1) 0).expandRoot.expandRoot k = some gs1)
    ∧ ∀ k : Nat, Heap.GameState.step Heap.exampleConfig setLifeRules ⟨1, 0⟩ k Heap.exampleStore1
        ≠ .error Failure.budget :=
  ⟨⟨Engine.exampleStore1_st setLifeRules, rfl⟩, fun L => Heap.free_nil 70 L (by decide),
    (@Engine.terminates Heap.exampleConfig setLifeRules Heap.exampleStore1 [] ⟨1, 0⟩
      ⟨NodeType.leaf 0 0 0 1, 0⟩ ⟨Engine.exampleStore1_st setLifeRules, rfl⟩
      (fun L => Heap.free_nil 70 L (by decide))).2.2.1,
    (@Engine.terminates Heap.exampleConfig setLifeRules Heap.exampleStore1 [] ⟨1, 0⟩
      ⟨NodeType.leaf 0 0 0 1, 0⟩ ⟨Engine.exampleStore1_st setLifeRules, rfl⟩
      (fun L => Heap.free_nil 70 L (by decide))).2.2.2.2.2.2.2.1⟩

end EngineClaims4

namespace Heap

theorem incRefCount_table {a : Addr} {s s1 : NodeGCHashTable} (h : incRefCount a s = .ok s1) :
    s1.table = s.table := by
  unfold incRefCount at h
  cases hn : s.memory a with
  | none => rw [hn] at h; cases h
  | some n =>
    rw [hn] at h
    by_cases hlt : n.refcount + 1 < 256
    · simp only [hlt, if_true, Except.ok.injEq] at h
      subst h
      rfl
    · simp only [hlt, if_false] at h
      cases h

theorem moveToFront_frame {hash : Nat} {node r : Addr} {s1 s2 : NodeGCHashTable}
    (hmem : node ∈ s1.table hash) (hlive : ∃ n, s1.memory node = some n)
    (h : moveToFront hash node s1 = .ok (r, s2)) : FrameOk hash s1 r s2 := by
  unfold moveToFront at h
  cases hi : incRefCount node
      { s1 with table := fun j => if j = hash then node :: (s1.table hash).erase node
          else s1.table j } with
  | error e => rw [hi] at h; cases h
  | ok s3 =>
    rw [hi] at h
    simp only [Except.ok.injEq, Prod.mk.injEq] at h
    obtain ⟨rfl, rfl⟩ := h
    have ht := incRefCount_table hi
    refine ⟨fun j hj => ?_, Or.inl ⟨hmem, hlive, ?_, ?_⟩⟩
    · rw [ht]; simp only [hj, if_false]
    · rw [ht]; simp only [if_true]
    · rw [ht]; simp only [if_true]
      exact (List.perm_cons_erase hmem).symm

theorem insertNew_frame {cfg : Config} {hash : Nat} {n : Node} {r : Addr}
    {s1 s2 : NodeGCHashTable} (hv : cfg.Valid) (hinv : Inv cfg s1)
    (h : insertNew cfg hash n s1 = .ok (r, s2)) : FrameOk hash s1 r s2 := by
  unfold insertNew at h
  cases hi : incRefCount (cfg.alloc s1)
      { s1 with
        nodeCount := s1.nodeCount + 1
        memory := s1.memory.set (cfg.alloc s1) n
        table := fun j => if j = hash then cfg.alloc s1 :: s1.table hash else s1.table j } with
  | error e => rw [hi] at h; cases h
  | ok s3 =>
    rw [hi] at h
    simp only [Except.ok.injEq, Prod.mk.injEq] at h
    obtain ⟨rfl, rfl⟩ := h
    have ht := incRefCount_table hi
    have hfresh := hv.alloc_fresh s1 hinv
    refine ⟨fun j hj => ?_, Or.inr ⟨?_, hfresh, ?_⟩⟩
    · rw [ht]; simp only [hj, if_false]
    · intro hmem
      obtain ⟨_, m, hm, _⟩ := hinv.mem_table hash _ hmem
      rw [hfresh] at hm
      cases hm
    · rw [ht]; simp only [if_true]

theorem onAllocate_idle {cfg : Config} {s s1 : NodeGCHashTable}
    (h : onAllocate cfg s = .ok s1) (hn : s.nodeCount ≤ cfg.startGCNodeCount) : s1 = s := by
  unfold onAllocate at h
  rw [if_neg (by omega)] at h
  cases h
  rfl

/-- Claim C35, as it holds on the code: a call of `findOrInsertLeaf` or
`findOrInsertNonleaf` that returns the node `r` first runs `onAllocate`, which
leaves the store unchanged as long as `nodeCount <= startGCNodeCount` (and
otherwise runs the collector, which unlinks the unreachable nodes of every
bucket); relative to the store `onAllocate` leaves, a hit moves the found node
to the head of its chain, which holds the same nodes as before, a miss links
the new node in front of the unchanged chain, and every other bucket is
unchanged. -/
theorem findOrInsert_frame (cfg : Config) (hv : cfg.Valid) (s : NodeGCHashTable)
    (hinv : Inv cfg s) :
    (∀ (c0 c1 c2 c3 : CellType) (r : Addr) (s2 : NodeGCHashTable),
        findOrInsertLeaf cfg c0 c1 c2 c3 s = .ok (r, s2) →
        ∃ s1, onAllocate cfg s = .ok s1 ∧ (s.nodeCount ≤ cfg.startGCNodeCount → s1 = s)
          ∧ FrameOk (hashNodeLeaf cfg c0 c1 c2 c3 % cfg.hashPrime) s1 r s2)
    ∧ (∀ (c0 c1 c2 c3 r : Addr) (s2 : NodeGCHashTable),
        findOrInsertNonleaf cfg c0 c1 c2 c3 s = .ok (r, s2) →
        ∃ s1, onAllocate cfg s = .ok s1 ∧ (s.nodeCount ≤ cfg.startGCNodeCount → s1 = s)
          ∧ FrameOk (hashNodeNonleaf cfg c0 c1 c2 c3 % cfg.hashPrime) s1 r s2) := by
  constructor
  · intro c0 c1 c2 c3 r s2 hcall
    unfold findOrInsertLeaf at hcall
    rcases onAllocate_ok hinv with ⟨s1, h1, hinv1, -⟩ | herr
    swap
    · rw [herr] at hcall; cases hcall
    simp only [h1] at hcall
    refine ⟨s1, h1, onAllocate_idle h1, ?_⟩
    cases hf : (s1.table (hashNodeLeaf cfg c0 c1 c2 c3 % cfg.hashPrime)).find?
        (isLeafWith s1.memory c0 c1 c2 c3) with
    | some node =>
      rw [hf] at hcall
      obtain ⟨n, hn, -⟩ := (isLeafWith_iff _ _ _ _ _ _).1 (List.find?_some hf)
      exact moveToFront_frame (List.mem_of_find?_eq_some hf) ⟨n, hn⟩ hcall
    | none =>
      rw [hf] at hcall
      exact insertNew_frame hv hinv1 hcall
  · intro c0 c1 c2 c3 r s2 hcall
    unfold findOrInsertNonleaf at hcall
    rcases onAllocate_ok hinv with ⟨s1, h1, hinv1, -⟩ | herr
    swap
    · rw [herr] at hcall; cases hcall
    simp only [h1] at hcall
    refine ⟨s1, h1, onAllocate_idle h1, ?_⟩
    cases hf : (s1.table (hashNodeNonleaf cfg c0 c1 c2 c3 % cfg.hashPrime)).find?
        (isNonleafWith s1.memory c0 c1 c2 c3) with
    | some node =>
      rw [hf] at hcall
      obtain ⟨n, hn, -⟩ := (isNonleafWith_iff _ _ _ _ _ _).1 (List.find?_some hf)
      exact moveToFront_frame (List.mem_of_find?_eq_some hf) ⟨n, hn⟩ hcall
    | none =>
      rw [hf] at hcall
      cases hc : s1.memory c0 with
      | none => rw [hc] at hcall; cases hcall
      | some child =>
        rw [hc] at hcall
        exact insertNew_frame hv hinv1 hcall

theorem smallConfig_valid : smallConfig.Valid :=
  allocAbove_valid smallConfig (by decide) rfl

theorem exampleStore3_small : Reachable smallConfig exampleStore3 :=
  Reachable.step (Reachable.step (Reachable.step Reachable.empty (Step.leaf 0 0 0 1 1 rfl))
    (Step.leaf 0 0 1 0 2 rfl)) (Step.release 1 ⟨_, rfl, by decide⟩ rfl)

theorem findOrInsert_frame_witness :
    exampleConfig.Valid ∧ Inv exampleConfig exampleStore3
    ∧ (∀ (c0 c1 c2 c3 : CellType) (r : Addr) (s2 : NodeGCHashTable),
        findOrInsertLeaf exampleConfig c0 c1 c2 c3 exampleStore3 = .ok (r, s2) →
        ∃ s1, onAllocate exampleConfig exampleStore3 = .ok s1
          ∧ (exampleStore3.nodeCount ≤ exampleConfig.startGCNodeCount → s1 = exampleStore3)
          ∧ FrameOk (hashNodeLeaf exampleConfig c0 c1 c2 c3 % exampleConfig.hashPrime) s1 r s2) :=
  ⟨exampleConfig_valid, exampleStore3_reachable.inv exampleConfig_valid,
    (findOrInsert_frame exampleConfig exampleConfig_valid exampleStore3
      (exampleStore3_reachable.inv exampleConfig_valid)).1⟩

/-- The claim C35 fails when `onAllocate` runs the collector: in the store of
the two leaves at the addresses 1 (unreferenced, bucket 2) and 2 (referenced,
bucket 4), reached on a platform with `maxNodeCount = 2`, the call
`findOrInsertLeaf(0, 0, 1, 0)` is a hit on the node 2 in bucket 4, and the
other bucket 2 loses the node 1. -/
theorem findOrInsertLeaf_sweeps :
    Reachable smallConfig exampleStore3
    ∧ (List.range 5).map exampleStore3.table = [[], [], [1], [], [2]]
    ∧ observeCall (findOrInsertLeaf smallConfig 0 0 1 0 exampleStore3)
        = some (2, [[], [], [], [], [2]]) :=
  ⟨exampleStore3_small, by decide, by decide⟩

end Heap

namespace NodeReference

theorem accounted_init : State.init.Accounted := by
  intro a
  simp [State.init, State.live]

theorem live_cons (s : State) (h : Option Heap.Addr) (hs : List (Option Heap.Addr))
    (a : Heap.Addr) :
    State.live { s with handles := h :: hs } a = hs.count (some a) + if h = some a then 1 else 0 := by
  unfold State.live
  simp only [List.count_cons, beq_iff_eq]

theorem count_erase_add (hs : List (Option Heap.Addr)) (h : Option Heap.Addr) (hm : h ∈ hs)
    (a : Heap.Addr) :
    (hs.erase h).count (some a) + (if h = some a then 1 else 0) = hs.count (some a) := by
  by_cases e : h = some a
  · subst e
    rw [if_pos rfl, List.count_erase_self]
    have := List.count_pos_iff.2 hm
    omega
  · rw [if_neg e, List.count_erase_of_ne (fun h1 => e h1.symm)]
    rfl

/-- What the eight operations keep: the accounting modulo 256. -/
theorem Op.apply_accounted (op : Op) (s s1 : State) (h : op.apply s = some s1)
    (hacc : s.Accounted) : s1.Accounted := by
  intro a
  have ha := hacc a
  unfold State.live at ha
  cases op with
  | new node =>
    simp only [Op.apply, Option.some.injEq] at h
    subst h
    cases node with
    | none =>
      simp only [NodeReference.new, incIfSet, State.live, List.count_cons, beq_iff_eq]
      simp only [reduceCtorEq, if_false, Nat.add_zero]
      exact ha
    | some p =>
      simp only [NodeReference.new, incIfSet, incRefCount, State.live, List.count_cons,
        beq_iff_eq, Option.some.injEq]
      by_cases e : a = p
      · subst e
        simp only [if_true]
        push_cast
        omega
      · have e1 : ¬ p = a := fun h1 => e h1.symm
        simp only [e, e1, if_false, Nat.add_zero]
        exact ha
  | copy rt =>
    simp only [Op.apply, NodeReference.copy] at h
    split at h
    · simp only [Option.some.injEq] at h
      subst h
      cases rt with
      | none =>
        simp only [NodeReference.new, incIfSet, State.live, List.count_cons, beq_iff_eq]
        simp only [reduceCtorEq, if_false, Nat.add_zero]
        exact ha
      | some p =>
        simp only [NodeReference.new, incIfSet, incRefCount, State.live, List.count_cons,
          beq_iff_eq, Option.some.injEq]
        by_cases e : a = p
        · subst e
          simp only [if_true]
          push_cast
          omega
        · have e1 : ¬ p = a := fun h1 => e h1.symm
          simp only [e, e1, if_false, Nat.add_zero]
          exact ha
    · cases h
  | move rt =>
    simp only [Op.apply, NodeReference.move] at h
    split at h
    · rename_i hm
      simp only [Option.some.injEq] at h
      subst h
      have hc := count_erase_add s.handles rt hm a
      simp only [State.live, List.count_cons, beq_iff_eq, reduceCtorEq, if_false, Nat.add_zero]
      rw [hc]
      exact ha
    · cases h
  | assign this rt =>
    simp only [Op.apply, NodeReference.assign] at h
    split at h
    · rename_i hm
      split at h
      · simp only [Option.some.injEq] at h
        subst h
        exact hacc a
      · rename_i hne
        simp only [Option.some.injEq] at h
        subst h
        have hc := count_erase_add s.handles this hm.1 a
        cases this with
        | none =>
          cases rt with
          | none => exact absurd rfl hne
          | some q =>
            simp only [incIfSet, decIfSet, incRefCount, State.live, List.count_cons, beq_iff_eq,
              Option.some.injEq]
            simp only [reduceCtorEq, if_false, Nat.add_zero] at hc
            by_cases e : a = q
            · subst e
              simp only [if_true]
              push_cast
              omega
            · have e1 : ¬ q = a := fun h1 => e h1.symm
              simp only [e, e1, if_false, Nat.add_zero]
              omega
        | some p =>
          cases rt with
          | none =>
            simp only [incIfSet, decIfSet, decRefCount, State.live, List.count_cons, beq_iff_eq,
              reduceCtorEq, if_false, Nat.add_zero]
            simp only [Option.some.injEq] at hc
            by_cases e : a = p
            · subst e
              simp only [if_true] at hc ⊢
              push_cast
              omega
            · have e1 : ¬ p = a := fun h1 => e h1.symm
              simp only [e, e1, if_false, Nat.add_zero] at hc ⊢
              omega
          | some q =>
            have hpq : ¬ q = p := fun h1 => hne (by rw [h1])
            simp only [incIfSet, decIfSet, incRefCount, decRefCount, State.live, List.count_cons,
              beq_iff_eq, Option.some.injEq]
            simp only [Option.some.injEq] at hc
            by_cases e : a = q
            · subst e
              have e2 : ¬ a = p := hpq
              have e3 : ¬ p = a := fun h1 => hpq h1.symm
              simp only [if_true, e2, e3, if_false, Nat.add_zero] at hc ⊢
              push_cast
              omega
            · have e1 : ¬ q = a := fun h1 => e h1.symm
              by_cases e2 : a = p
              · subst e2
                simp only [e, e1, if_true, if_false, Nat.add_zero] at hc ⊢
                push_cast
                omega
              · have e3 : ¬ p = a := fun h1 => e2 h1.symm
                simp only [e, e1, e2, e3, if_false, Nat.add_zero] at hc ⊢
                omega
    · cases h
  | moveAssign this rt =>
    simp only [Op.apply, NodeReference.moveAssign] at h
    split at h
    · simp only [Option.some.injEq] at h
      subst h
      exact hacc a
    · cases h
  | destroy this =>
    simp only [Op.apply, NodeReference.destroy] at h
    split at h
    · rename_i hm
      simp only [Option.some.injEq] at h
      subst h
      have hc := count_erase_add s.handles this hm a
      cases this with
      | none =>
        simp only [decIfSet, State.live]
        simp only [reduceCtorEq, if_false, Nat.add_zero] at hc
        omega
      | some p =>
        simp only [decIfSet, decRefCount, State.live]
        simp only [Option.some.injEq] at hc
        by_cases e : a = p
        · subst e
          simp only [if_true] at hc ⊢
          push_cast
          omega
        · have e1 : ¬ p = a := fun h1 => e h1.symm
          simp only [e, e1, if_false, Nat.add_zero] at hc ⊢
          omega
    · cases h
  | detach this =>
    simp only [Op.apply, NodeReference.detach] at h
    split at h
    · rename_i hm
      simp only [Option.some.injEq] at h
      subst h
      have hc := count_erase_add s.handles this hm a
      cases this with
      | none =>
        simp only [bump, State.live, List.count_cons, beq_iff_eq, reduceCtorEq, if_false,
          Nat.add_zero]
        simp only [reduceCtorEq, if_false, Nat.add_zero] at hc
        omega
      | some p =>
        simp only [bump, State.live, List.count_cons, beq_iff_eq, reduceCtorEq, if_false,
          Nat.add_zero]
        simp only [Option.some.injEq] at hc
        by_cases e : a = p
        · subst e
          simp only [if_true] at hc ⊢
          omega
        · have e1 : ¬ p = a := fun h1 => e h1.symm
          simp only [e, e1, if_false, Nat.add_zero] at hc ⊢
          omega
    · cases h
  | attach node =>
    simp only [Op.apply, Option.some.injEq] at h
    subst h
    cases node with
    | none =>
      simp only [NodeReference.attach, bump, State.live, List.count_cons, beq_iff_eq,
        reduceCtorEq, if_false, Nat.add_zero]
      exact ha
    | some p =>
      simp only [NodeReference.attach, bump, State.live, List.count_cons, beq_iff_eq,
        Option.some.injEq]
      by_cases e : a = p
      · subst e
        simp only [if_true]
        push_cast
        omega
      · have e1 : ¬ p = a := fun h1 => e h1.symm
        simp only [e, e1, if_false, Nat.add_zero]
        exact ha

theorem run_accounted : ∀ (ops : List Op) (s s1 : State), run ops s = some s1 →
    s.Accounted → s1.Accounted := by
  intro ops
  induction ops with
  | nil =>
    intro s s1 h hacc
    simp only [run, Option.some.injEq] at h
    subst h
    exact hacc
  | cons op ops ih =>
    intro s s1 h hacc
    simp only [run] at h
    cases hop : op.apply s with
    | none => rw [hop] at h; cases h
    | some s2 =>
      rw [hop] at h
      exact ih s2 s1 h (Op.apply_accounted op s s2 hop hacc)

/-- Claim C37, as it holds on the code: after every sequence of
constructions, copies, moves, copy and move assignments, `detach`, `attach` and
destructions, the 8-bit count of every node is, modulo 256, the number of
handles alive that point at it plus the pointers handed out by `detach()` and
not taken back by `attach()`; so for a node with no such pointer outstanding
and fewer than 256 handles the count is the number of handles, and it is
positive whenever a handle is alive. -/
theorem refcount_accounting (ops : List Op) (s : State) (h : run ops State.init = some s)
    (a : Heap.Addr) :
    (s.refcount a : Int) = ((s.live a : Int) + s.balance a) % 256
    ∧ (s.balance a = 0 → s.live a < 256 → s.refcount a = s.live a ∧ (0 < s.live a → 0 < s.refcount a)) := by
  have hacc := run_accounted ops State.init s h accounted_init a
  refine ⟨hacc, fun hb hl => ?_⟩
  rw [hb] at hacc
  omega

theorem refcount_accounting_witness :
    run exampleOps State.init = some exampleState
    ∧ (exampleState.refcount 1 : Int) = ((exampleState.live 1 : Int) + exampleState.balance 1) % 256
    ∧ (exampleState.balance 1 = 0 → exampleState.live 1 < 256 →
        exampleState.refcount 1 = exampleState.live 1
        ∧ (0 < exampleState.live 1 → 0 < exampleState.refcount 1)) :=
  ⟨rfl, refcount_accounting exampleOps exampleState rfl 1⟩

set_option maxRecDepth 100000 in
/-- The claim C37 fails for 256 simultaneous handles: after 256 constructions
of a `NodeReference` to the node 1 the 8-bit count of the node is 0 while 256
handles are alive.  It fails for `detach` as well: after a construction and a
`detach()` the count is 1 and no handle points at the node. -/
theorem refcount_wraps :
    observe (run (List.replicate 256 (Op.new (some 1))) State.init) 1 = some (0, 256, 0)
    ∧ observe (run [Op.new (some 1), Op.detach (some 1)] State.init) 1 = some (1, 0, 1) := by
  constructor
  · decide
  · rfl

end NodeReference

/-- Claim C40 fails on the code: the tokens `xK` and `yA` both set the cell
value 241 (and so on up to `xY` and `yO`, which both set 255), because the
branch for `q` to `x` numbers 26 values per first letter, from `A` to `Z`, so
that the values of `x` end at 256, beyond the first value 241 of `y`. -/
theorem readRLEToken_collision :
    readRLEToken 'x' 'K' = some 241 ∧ readRLEToken 'y' 'A' = some 241
    ∧ readRLEToken 'x' 'Y' = some 255 ∧ readRLEToken 'y' 'O' = some 255
    ∧ readRLEToken 'r' 'A' = some 75 ∧ readRLEToken 'q' 'Z' = some 74
    ∧ readRLEToken 'x' 'Z' = some 256 := by
  decide

